import Mathlib

/-!
# Lowering of structured control flow to a CFG

A shallow embedding of `lib/Conversion/ControlFlowToCFG/ConvertControlFlowToCFG.cpp`.

The C++ code works on a pointer graph: operations, blocks and regions are heap
objects that refer to one another by address.  The embedding keeps that shape:
the function under rewrite is a set of index-stable arenas, a handle is an index
into its arena, and a freshly allocated object gets the next free index.
An `Operation *`, a `Block *` and a `Region *` are therefore natural numbers.
A `Value *` may be null, so it is an `Option Value`.
A call whose C++ behaviour is undefined (front of an empty region, a dangling
handle, an out-of-range operand index) yields `none`.
-/

namespace mlir

/-- An SSA value: the result of an operation or an argument of a block. -/
inductive Value where
  | opResult (op : Nat)
  | blockArgument (block : Nat) (index : Nat)
  deriving DecidableEq, Repr

/-- Predicates of the integer comparison `CmpIOp`. -/
inductive CmpIPredicate where
  | EQ | NE | SLT | SLE | SGT | SGE | ULT | ULE | UGT | UGE
  deriving DecidableEq, Repr

/-- The operations the lowering reads or creates; every other operation is `Other`. -/
inductive Operation where
  | ForOp (lowerBound upperBound step : Option Value) (region : Nat)
  | IfOp (condition : Option Value) (thenRegion elseRegion : Nat)
  | TerminatorOp
  | BranchOp (dest : Nat) (destOperands : List (Option Value))
  | CondBranchOp (condition : Option Value) (trueDest : Nat)
      (trueOperands : List (Option Value)) (falseDest : Nat)
      (falseOperands : List (Option Value))
  | CmpIOp (predicate : CmpIPredicate) (lhs rhs : Option Value)
  | AddIOp (lhs rhs : Option Value)
  | ConstantOp (value : Int)
  | ReturnOp
  | Other (name : Nat)
  deriving DecidableEq, Repr

/-- A block: its formal arguments (their number) and its operations in order. -/
structure Block where
  numArguments : Nat
  operations : List Nat
  deriving DecidableEq, Repr

/-- A function as the arenas of everything it owns.  Region 0 is the function body.
An erased operation stays in `operations` but is listed in no block. -/
structure FuncOp where
  operations : List Operation
  blocks : List Block
  regions : List (List Nat)
  deriving DecidableEq, Repr

/-- Result of a pattern: `matchSuccess()` or `matchFailure()`. -/
inductive PatternMatchResult where
  | matchSuccess
  | matchFailure
  deriving DecidableEq, Repr

/-- Result of a conversion: `success()` or `failure()`. -/
inductive LogicalResult where
  | success
  | failure
  deriving DecidableEq, Repr

/-- The rewriter: the function it mutates and its insertion point (a block and a
position in that block's operation list). -/
structure PatternRewriter where
  func : FuncOp
  insertionBlock : Nat
  insertionPoint : Nat
  deriving DecidableEq, Repr

/-- Insert `newBlock` right after the first occurrence of `block`. -/
def insertAfter (block newBlock : Nat) : List Nat → List Nat
  | [] => []
  | b :: bs => if b = block then b :: newBlock :: bs else b :: insertAfter block newBlock bs

/-- Splice `moved` right before the first occurrence of `before`. -/
def spliceBefore (before : Nat) (moved : List Nat) : List Nat → List Nat
  | [] => []
  | b :: bs => if b = before then moved ++ b :: bs else b :: spliceBefore before moved bs

/-- First block of a region (`Region::front()`); undefined on an empty region. -/
def FuncOp.front (func : FuncOp) (region : Nat) : Option Nat :=
  func.regions[region]? >>= List.head?

/-- Last block of a region (`Region::back()`); undefined on an empty region. -/
def FuncOp.back (func : FuncOp) (region : Nat) : Option Nat :=
  func.regions[region]? >>= List.getLast?

/-- Emptiness test of a region (`Region::empty()`). -/
def FuncOp.empty (func : FuncOp) (region : Nat) : Option Bool :=
  (func.regions[region]?).map List.isEmpty

/-- Argument `index` of a block (`Block::getArgument`); undefined when out of range. -/
def FuncOp.getArgument (func : FuncOp) (block : Nat) (index : Nat) : Option Value :=
  match func.blocks[block]? with
  | some b => if index < b.numArguments then some (Value.blockArgument block index) else none
  | none => none

/-- Modelled from the spec: the rewriter primitive `splitBlock`, which is not in the
sources at hand.  `split(block, position)` moves all operations from `position`
onward (including any terminator) into a new successor block and returns the new
block.  The new block has no arguments and follows `block` in its region. -/
def PatternRewriter.splitBlock (rewriter : PatternRewriter) (block : Nat) (position : Nat) :
    Option (Nat × PatternRewriter) :=
  match rewriter.func.blocks[block]? with
  | none => none
  | some b =>
    let newBlock := rewriter.func.blocks.length
    some (newBlock,
      { rewriter with
        func :=
          { rewriter.func with
            blocks :=
              rewriter.func.blocks.set block { b with operations := b.operations.take position }
                ++ [{ numArguments := 0, operations := b.operations.drop position }]
            regions := rewriter.func.regions.map (insertAfter block newBlock) } })

/-- Modelled from the spec: the rewriter primitive `inlineRegionBefore`, which is not
in the sources at hand.  `inlineBefore(region, targetBlock)` moves every block of
`region` (in order) out of its owner and splices them into the enclosing region
immediately before `targetBlock`; it leaves `region` empty. -/
def PatternRewriter.inlineRegionBefore (rewriter : PatternRewriter) (region : Nat)
    (before : Nat) : Option PatternRewriter :=
  match rewriter.func.regions[region]? with
  | none => none
  | some moved =>
    some
      { rewriter with
        func :=
          { rewriter.func with
            regions := (rewriter.func.regions.set region []).map (spliceBefore before moved) } }

/-- Modelled from the spec: the builder primitive `setInsertionPointToEnd`, which is
not in the sources at hand: later operations are created at the end of `block`. -/
def PatternRewriter.setInsertionPointToEnd (rewriter : PatternRewriter) (block : Nat) :
    Option PatternRewriter :=
  match rewriter.func.blocks[block]? with
  | none => none
  | some b =>
    some { rewriter with insertionBlock := block, insertionPoint := b.operations.length }

/-- Modelled from the spec: the builder primitive `create`, which is not in the
sources at hand: allocate the operation, insert it at the insertion point and leave
the insertion point right after it.  Returns the handle of the new operation. -/
def PatternRewriter.create (rewriter : PatternRewriter) (op : Operation) :
    Option (Nat × PatternRewriter) :=
  match rewriter.func.blocks[rewriter.insertionBlock]? with
  | none => none
  | some b =>
    let newOp := rewriter.func.operations.length
    some (newOp,
      { func :=
          { rewriter.func with
            operations := rewriter.func.operations ++ [op]
            blocks :=
              rewriter.func.blocks.set rewriter.insertionBlock
                { b with
                  operations :=
                    b.operations.take rewriter.insertionPoint ++
                      newOp :: b.operations.drop rewriter.insertionPoint } }
        insertionBlock := rewriter.insertionBlock
        insertionPoint := rewriter.insertionPoint + 1 })

/-- Modelled from the spec: the rewriter primitive `replaceOp(op, {})`, which is not
in the sources at hand: erase the operation with no replacement values.  The
operation leaves the block that lists it. -/
def PatternRewriter.replaceOp (rewriter : PatternRewriter) (op : Nat) : PatternRewriter :=
  { rewriter with
    func :=
      { rewriter.func with
        blocks :=
          rewriter.func.blocks.map
            (fun b => { b with operations := b.operations.erase op }) } }

/-- Result of the operation `op` (`getResult()`): never null for an existing operation. -/
def getResult (op : Nat) : Option Value :=
  some (Value.opResult op)

/-- `TerminatorLowering::matchAndRewrite`. -/
def TerminatorLowering.matchAndRewrite (op : Nat) (_operands : List (Option Value))
    (rewriter : PatternRewriter) : Option (PatternMatchResult × PatternRewriter) :=
  let rewriter := rewriter.replaceOp op
  some (PatternMatchResult.matchSuccess, rewriter)

/-- Body region of a loop (`ForOp::region()`); `none` when the operation is not a `ForOp`. -/
def Operation.forRegion : Operation → Option Nat
  | Operation.ForOp _ _ _ region => some region
  | _ => none

/-- Regions of a conditional (`IfOp::thenRegion()`, `IfOp::elseRegion()`); `none` when the
operation is not an `IfOp`. -/
def Operation.ifRegions : Operation → Option (Nat × Nat)
  | Operation.IfOp _ t e => some (t, e)
  | _ => none

/-- `ForLowering::matchAndRewrite`.  On entry the insertion point of the rewriter is at
`op`; `operands` are the operands of `op` as the driver resolved them, a null pointer
being `none`. -/
def ForLowering.matchAndRewrite (op : Nat) (operands : List (Option Value))
    (rewriter : PatternRewriter) : Option (PatternMatchResult × PatternRewriter) :=
  -- auto forOp = cast<ForOp>(op);
  match (rewriter.func.operations[op]?).bind Operation.forRegion with
  | none => none
  | some region =>
  let initBlock := rewriter.insertionBlock
  let initPosition := rewriter.insertionPoint
  match rewriter.splitBlock initBlock initPosition with
  | none => none
  | some (endBlock, rewriter) =>
  -- auto *conditionBlock = &forOp.region().front();
  match rewriter.func.front region with
  | none => none
  | some conditionBlock =>
  -- rewriter.splitBlock(conditionBlock, conditionBlock->begin());
  match rewriter.splitBlock conditionBlock 0 with
  | none => none
  | some (firstBodyBlock, rewriter) =>
  match rewriter.func.back region with
  | none => none
  | some lastBodyBlock =>
  match rewriter.inlineRegionBefore region endBlock with
  | none => none
  | some rewriter =>
  match rewriter.func.getArgument conditionBlock 0 with
  | none => none
  | some iv =>
  match rewriter.setInsertionPointToEnd lastBodyBlock with
  | none => none
  | some rewriter =>
  -- auto *step = newOperands.step();
  match operands[2]? with
  | none => none
  | some step =>
  match rewriter.create (Operation.AddIOp (some iv) step) with
  | none => none
  | some (addOp, rewriter) =>
  let stepped := getResult addOp
  -- if (!stepped) return matchFailure();
  if stepped.isNone then
    some (PatternMatchResult.matchFailure, rewriter)
  else
  match rewriter.create (Operation.BranchOp conditionBlock [stepped]) with
  | none => none
  | some (_, rewriter) =>
  match rewriter.setInsertionPointToEnd initBlock with
  | none => none
  | some rewriter =>
  match operands[0]? with
  | none => none
  | some lowerBound =>
  match operands[1]? with
  | none => none
  | some upperBound =>
  -- if (!lowerBound || !upperBound) return matchFailure();
  if lowerBound.isNone || upperBound.isNone then
    some (PatternMatchResult.matchFailure, rewriter)
  else
  match rewriter.create (Operation.BranchOp conditionBlock [lowerBound]) with
  | none => none
  | some (_, rewriter) =>
  match rewriter.setInsertionPointToEnd conditionBlock with
  | none => none
  | some rewriter =>
  match rewriter.create (Operation.CmpIOp CmpIPredicate.SLT (some iv) upperBound) with
  | none => none
  | some (cmpOp, rewriter) =>
  let comparison := getResult cmpOp
  match rewriter.create (Operation.CondBranchOp comparison firstBodyBlock [] endBlock []) with
  | none => none
  | some (_, rewriter) =>
  let rewriter := rewriter.replaceOp op
  some (PatternMatchResult.matchSuccess, rewriter)

/-- `IfLowering::matchAndRewrite`.  On entry the insertion point of the rewriter is at
`op`; `operands` are the operands of `op` as the driver resolved them, a null pointer
being `none`. -/
def IfLowering.matchAndRewrite (op : Nat) (operands : List (Option Value))
    (rewriter : PatternRewriter) : Option (PatternMatchResult × PatternRewriter) :=
  -- auto ifOp = cast<IfOp>(op);
  match (rewriter.func.operations[op]?).bind Operation.ifRegions with
  | none => none
  | some (thenRegion, elseRegion) =>
  let condBlock := rewriter.insertionBlock
  let opPosition := rewriter.insertionPoint
  match rewriter.splitBlock condBlock opPosition with
  | none => none
  | some (continueBlock, rewriter) =>
  match rewriter.func.front thenRegion with
  | none => none
  | some thenBlock =>
  match rewriter.func.back thenRegion with
  | none => none
  | some thenBack =>
  match rewriter.setInsertionPointToEnd thenBack with
  | none => none
  | some rewriter =>
  match rewriter.create (Operation.BranchOp continueBlock []) with
  | none => none
  | some (_, rewriter) =>
  match rewriter.inlineRegionBefore thenRegion continueBlock with
  | none => none
  | some rewriter =>
  -- auto *elseBlock = continueBlock; if (!elseRegion.empty()) ...
  let elsePart : Option (Nat × PatternRewriter) :=
    match rewriter.func.empty elseRegion with
    | none => none
    | some true => some (continueBlock, rewriter)
    | some false =>
      match rewriter.func.front elseRegion with
      | none => none
      | some elseFront =>
        match rewriter.func.back elseRegion with
        | none => none
        | some elseBack =>
        match rewriter.setInsertionPointToEnd elseBack with
        | none => none
        | some rewriter =>
        match rewriter.create (Operation.BranchOp continueBlock []) with
        | none => none
        | some (_, rewriter) =>
        match rewriter.inlineRegionBefore elseRegion continueBlock with
        | none => none
        | some rewriter => some (elseFront, rewriter)
  match elsePart with
  | none => none
  | some (elseBlock, rewriter) =>
  match rewriter.setInsertionPointToEnd condBlock with
  | none => none
  | some rewriter =>
  -- newOperands.condition()
  match operands[0]? with
  | none => none
  | some condition =>
  match rewriter.create (Operation.CondBranchOp condition thenBlock [] elseBlock []) with
  | none => none
  | some (_, rewriter) =>
  let rewriter := rewriter.replaceOp op
  some (PatternMatchResult.matchSuccess, rewriter)

/-- `isa<ForOp>(op)`. -/
def Operation.isForOp : Operation → Bool
  | Operation.ForOp _ _ _ _ => true
  | _ => false

/-- `isa<IfOp>(op)`. -/
def Operation.isIfOp : Operation → Bool
  | Operation.IfOp _ _ _ => true
  | _ => false

/-- `isa<TerminatorOp>(op)`. -/
def Operation.isTerminatorOp : Operation → Bool
  | Operation.TerminatorOp => true
  | _ => false

/-- `PartialConversionTarget::isDynamicallyLegal`. -/
def isDynamicallyLegal (op : Operation) : Bool :=
  !op.isForOp && !op.isIfOp && !op.isTerminatorOp

/-- Operands of an operation, in order (`Operation::getOperands`). -/
def Operation.getOperands : Operation → List (Option Value)
  | Operation.ForOp lowerBound upperBound step _ => [lowerBound, upperBound, step]
  | Operation.IfOp condition _ _ => [condition]
  | Operation.BranchOp _ destOperands => destOperands
  | Operation.CondBranchOp condition _ trueOperands _ falseOperands =>
    condition :: (trueOperands ++ falseOperands)
  | Operation.CmpIOp _ lhs rhs => [lhs, rhs]
  | Operation.AddIOp lhs rhs => [lhs, rhs]
  | _ => []

/-- Regions owned by an operation, in order (`Operation::getRegions`). -/
def Operation.getRegions : Operation → List Nat
  | Operation.ForOp _ _ _ region => [region]
  | Operation.IfOp _ thenRegion elseRegion => [thenRegion, elseRegion]
  | _ => []

/-- A conversion pattern: the kind of operation it is rooted at and its rewrite. -/
structure ConversionPattern where
  rootKind : Operation → Bool
  matchAndRewrite :
    Nat → List (Option Value) → PatternRewriter → Option (PatternMatchResult × PatternRewriter)

/-- The pattern `ForLowering`, rooted at `ForOp`. -/
def ForLowering : ConversionPattern :=
  { rootKind := Operation.isForOp, matchAndRewrite := ForLowering.matchAndRewrite }

/-- The pattern `IfLowering`, rooted at `IfOp`. -/
def IfLowering : ConversionPattern :=
  { rootKind := Operation.isIfOp, matchAndRewrite := IfLowering.matchAndRewrite }

/-- The pattern `TerminatorLowering`, rooted at `TerminatorOp`. -/
def TerminatorLowering : ConversionPattern :=
  { rootKind := Operation.isTerminatorOp, matchAndRewrite := TerminatorLowering.matchAndRewrite }

/-- The operation `op` of the function is illegal for the target `isLegal`. -/
def FuncOp.isIllegal (func : FuncOp) (isLegal : Operation → Bool) (op : Nat) : Bool :=
  match func.operations[op]? with
  | some o => !isLegal o
  | none => false

/-- Some block of the function lists an illegal operation. -/
def FuncOp.hasIllegal (func : FuncOp) (isLegal : Operation → Bool) : Bool :=
  func.blocks.any fun b => b.operations.any (func.isIllegal isLegal)

/-- Number of illegal operations listed in the blocks of the function, at all nesting
depths. -/
def FuncOp.numIllegal (func : FuncOp) (isLegal : Operation → Bool) : Nat :=
  (func.blocks.map fun b => b.operations.countP (func.isIllegal isLegal)).sum

/-- No block of `region` lists an illegal operation. -/
def FuncOp.regionIsLegal (func : FuncOp) (isLegal : Operation → Bool) (region : Nat) : Bool :=
  match func.regions[region]? with
  | none => true
  | some blocks =>
    blocks.all fun b =>
      match func.blocks[b]? with
      | none => true
      | some blk => blk.operations.all fun o => !func.isIllegal isLegal o

/-- An illegal operation none of whose regions holds an illegal operation. -/
def FuncOp.isInnermostIllegal (func : FuncOp) (isLegal : Operation → Bool) (op : Nat) : Bool :=
  match func.operations[op]? with
  | none => false
  | some o => !isLegal o && o.getRegions.all (func.regionIsLegal isLegal)

/-- Position (block, index in the block) of the first innermost illegal operation. -/
def FuncOp.findInnermostIllegal (func : FuncOp) (isLegal : Operation → Bool) :
    Option (Nat × Nat) :=
  match func.blocks.findIdx? fun b => b.operations.any (func.isInnermostIllegal isLegal) with
  | none => none
  | some block =>
    match func.blocks[block]? with
    | none => none
    | some b =>
      match b.operations.findIdx? (func.isInnermostIllegal isLegal) with
      | none => none
      | some position => some (block, position)

/-- Modelled from the spec: one step of the driver, which is not in the sources at
hand: "Driver finds an instance of a matching construct, invokes its lowering".  The
rewriter is positioned at the operation and the first pattern rooted at its kind is
applied to the operation and its operands. -/
def legalize (patterns : List ConversionPattern) (func : FuncOp) (block : Nat)
    (position : Nat) : Option (PatternMatchResult × PatternRewriter) :=
  match func.blocks[block]? with
  | none => none
  | some b =>
    match b.operations[position]? with
    | none => none
    | some op =>
      match func.operations[op]? with
      | none => none
      | some o =>
        match patterns.find? fun p => p.rootKind o with
        | none => some (PatternMatchResult.matchFailure, ⟨func, block, position⟩)
        | some p => p.matchAndRewrite op o.getOperands ⟨func, block, position⟩

/-- Modelled from the spec: the loop of the driver, which is not in the sources at
hand: "repeats (innermost constructs first) until the function contains none of the
three constructs"; "any single construct's lowering failure aborts the entire
function's conversion (fail-fast)".  `none` stands for the aborted conversion. -/
def convert (isLegal : Operation → Bool) (patterns : List ConversionPattern) :
    Nat → FuncOp → Option FuncOp
  | 0, func => if func.hasIllegal isLegal then none else some func
  | fuel + 1, func =>
    if func.hasIllegal isLegal then
      match func.findInnermostIllegal isLegal with
      | none => none
      | some (block, position) =>
        match legalize patterns func block position with
        | some (PatternMatchResult.matchSuccess, rewriter) =>
          convert isLegal patterns fuel rewriter.func
        | _ => none
    else some func

/-- Modelled from the spec: the driver `applyConversionPatterns`, which is not in the
sources at hand: "Whole-function result: success iff every instance is erased"; a
failed conversion leaves "no partial state", the function is as it was.  One rewrite
is allowed per illegal operation of the input. -/
def applyConversionPatterns (func : FuncOp) (isLegal : Operation → Bool)
    (patterns : List ConversionPattern) : LogicalResult × FuncOp :=
  match convert isLegal patterns (func.numIllegal isLegal) func with
  | some lowered => (LogicalResult.success, lowered)
  | none => (LogicalResult.failure, func)

/-- `mlir::lowerControlFlow`. -/
def lowerControlFlow (func : FuncOp) : LogicalResult × FuncOp :=
  let patterns := [ForLowering, IfLowering, TerminatorLowering]
  let target := isDynamicallyLegal
  applyConversionPatterns func target patterns

/-! ## The edges of the graph -/

/-- `isa<CmpIOp>(op)`. -/
def Operation.isCmpIOp : Operation → Bool
  | Operation.CmpIOp _ _ _ => true
  | _ => false

/-- `isa<AddIOp>(op)`. -/
def Operation.isAddIOp : Operation → Bool
  | Operation.AddIOp _ _ => true
  | _ => false

/-- Successor blocks of an operation (`Operation::getSuccessors`): the targets of a
branch or of a conditional branch. -/
def Operation.successors : Operation → List Nat
  | Operation.BranchOp dest _ => [dest]
  | Operation.CondBranchOp _ trueDest _ falseDest _ => [trueDest, falseDest]
  | _ => []

/-- The blocks that the operations listed in `block` branch to. -/
def FuncOp.successors (func : FuncOp) (block : Nat) : List Nat :=
  match func.blocks[block]? with
  | none => []
  | some b =>
    b.operations.flatMap fun o =>
      match func.operations[o]? with
      | none => []
      | some op => op.successors

/-! ## Execution of the emitted operations -/

/-- Values of the SSA values defined so far. -/
abbrev Env := Value → Option Int

/-- Define (or redefine) the value `v`. -/
def Env.set (env : Env) (v : Value) (x : Int) : Env :=
  fun w => if w = v then some x else env w

/-- Value of an operand; a null operand has none. -/
def Env.get (env : Env) : Option Value → Option Int
  | none => none
  | some v => env v

/-- Values of a list of operands. -/
def Env.getAll (env : Env) : List (Option Value) → Option (List Int)
  | [] => some []
  | v :: vs =>
    match env.get v, Env.getAll env vs with
    | some x, some xs => some (x :: xs)
    | _, _ => none

/-- Bind the arguments of `block` to the values passed along the incoming edge. -/
def Env.bindArguments (env : Env) (block : Nat) (args : List Int) : Env :=
  fun w =>
    match w with
    | Value.blockArgument b i =>
      if b = block then
        match args[i]? with
        | some x => some x
        | none => env w
      else env w
    | Value.opResult _ => env w

/-- Modelled from the spec: the comparison predicates on integers without overflow;
"comparison is signed less-than".  The unsigned predicates are not modelled. -/
def CmpIPredicate.eval : CmpIPredicate → Int → Int → Option Bool
  | CmpIPredicate.EQ, a, b => some (decide (a = b))
  | CmpIPredicate.NE, a, b => some (decide (a ≠ b))
  | CmpIPredicate.SLT, a, b => some (decide (a < b))
  | CmpIPredicate.SLE, a, b => some (decide (a ≤ b))
  | CmpIPredicate.SGT, a, b => some (decide (b < a))
  | CmpIPredicate.SGE, a, b => some (decide (b ≤ a))
  | _, _, _ => none

/-- What executing an operation does: go on with the next operation, leave the block
along an edge with the values of the arguments, or stop (a return, an operation that is
not CFG form, an undefined operand). -/
inductive Outcome where
  | next (env : Env)
  | jump (dest : Nat) (args : List Int) (env : Env)
  | stop

/-- Modelled from the spec: execution of one operation, which is not in the sources at
hand.  "increment is ordinary integer addition"; a branch passes its operands to its
target; a conditional branch takes the true edge when its condition is not zero.  An
operation that is not modelled (`Other`) and the terminator marker, which is erased with
no replacement, have no effect. -/
def Operation.exec (op : Operation) (self : Nat) (env : Env) : Outcome :=
  match op with
  | Operation.ConstantOp value => Outcome.next (env.set (Value.opResult self) value)
  | Operation.AddIOp lhs rhs =>
    match env.get lhs, env.get rhs with
    | some a, some b => Outcome.next (env.set (Value.opResult self) (a + b))
    | _, _ => Outcome.stop
  | Operation.CmpIOp predicate lhs rhs =>
    match env.get lhs, env.get rhs with
    | some a, some b =>
      match predicate.eval a b with
      | some r => Outcome.next (env.set (Value.opResult self) (if r then 1 else 0))
      | none => Outcome.stop
    | _, _ => Outcome.stop
  | Operation.BranchOp dest destOperands =>
    match env.getAll destOperands with
    | some args => Outcome.jump dest args env
    | none => Outcome.stop
  | Operation.CondBranchOp condition trueDest trueOperands falseDest falseOperands =>
    match env.get condition with
    | none => Outcome.stop
    | some c =>
      if c ≠ 0 then
        match env.getAll trueOperands with
        | some args => Outcome.jump trueDest args env
        | none => Outcome.stop
      else
        match env.getAll falseOperands with
        | some args => Outcome.jump falseDest args env
        | none => Outcome.stop
  | Operation.Other _ => Outcome.next env
  | Operation.TerminatorOp => Outcome.next env
  | _ => Outcome.stop

/-- Execute the operations of a block in order, up to the first branch. -/
def FuncOp.execOps (func : FuncOp) : List Nat → Env → Outcome
  | [], env => Outcome.next env
  | o :: os, env =>
    match func.operations[o]? with
    | none => Outcome.stop
    | some op =>
      match op.exec o env with
      | Outcome.next env' => FuncOp.execOps func os env'
      | outcome => outcome

/-- Drive the graph from `block`, entered with `args`, for at most `fuel` blocks or until
the block `last` is entered: the blocks entered, in order, each with the values it
received. -/
def FuncOp.run (func : FuncOp) (last : Nat) : Nat → Nat → List Int → Env → List (Nat × List Int)
  | 0, _, _, _ => []
  | fuel + 1, block, args, env =>
    (block, args) ::
      if block = last then []
      else
        match func.blocks[block]? with
        | none => []
        | some b =>
          match func.execOps b.operations (env.bindArguments block args) with
          | Outcome.jump dest args' env' => FuncOp.run func last fuel dest args' env'
          | _ => []

/-- Modelled from the spec: execution of a structured region, which is not in the sources
at hand.  Drive the graph from `block`, entered with `args`, as `FuncOp.run` does, until
the operations of a block run to their end without a branch, which is how control leaves
a region whose last operation is the terminator marker: the blocks entered, in order,
each with the values it received, the block that is left, and the values defined when it
is left.  There is no result when an operation stops, a block is missing, or the fuel
runs out. -/
def FuncOp.runRegion (func : FuncOp) :
    Nat → Nat → List Int → Env → Option (List (Nat × List Int) × Nat × Env)
  | 0, _, _, _ => none
  | fuel + 1, block, args, env =>
    match func.blocks[block]? with
    | none => none
    | some b =>
      match func.execOps b.operations (env.bindArguments block args) with
      | Outcome.next env' => some ([(block, args)], block, env')
      | Outcome.jump dest args' env' =>
        match FuncOp.runRegion func fuel dest args' env' with
        | some (trace, left, env'') => some ((block, args) :: trace, left, env'')
        | none => none
      | Outcome.stop => none

/-- The value is defined in one of `blocks`: it is an argument of one of them, or the
result of an operation that one of them lists. -/
def FuncOp.definedIn (func : FuncOp) (blocks : List Nat) : Value → Bool
  | Value.blockArgument block _ => blocks.contains block
  | Value.opResult op =>
    blocks.any fun b =>
      match func.blocks[b]? with
      | some blk => blk.operations.contains op
      | none => false

/-- The blocks a lowered loop enters from the induction value `iv`, when its body runs
once for each element of `bodies`: the condition block with each induction value,
followed by the first body block and by the other blocks that this run of the body
enters, and at last the condition block with the final value, followed by the end
block. -/
def loopTrace (cond firstBody endBlock : Nat) (step : Int) :
    List (List (Nat × List Int)) → Int → List (Nat × List Int)
  | [], iv => [(cond, [iv]), (endBlock, [])]
  | body :: bodies, iv =>
    (cond, [iv]) :: (firstBody, []) ::
      (body ++ loopTrace cond firstBody endBlock step bodies (iv + step))

/-! ## Well-formed rewrite sites -/

/-- Blocks of the function after the two block splits of `ForLowering`. -/
def ForLowering.splitBlocks (B : List Block) (init : Nat) (p : Nat) (cond : Nat)
    (initB condB : Block) : List Block :=
  (B.set init (Block.mk initB.numArguments (initB.operations.take p)) ++
        [Block.mk 0 (initB.operations.drop p)]).set cond (Block.mk condB.numArguments []) ++
    [Block.mk 0 condB.operations]

/-- The rewriter stands at a well-formed loop: `op` is a `ForOp` listed exactly once in
the function, at the insertion point, between the operations `before` and `after` of
the block `initB`; its body region is `cond :: rest`, blocks of the function none of
which is the block of the loop itself; the entry block `condB` of the body carries the
induction variable. -/
structure ForSite (rewriter : PatternRewriter) (op region cond : Nat)
    (rest before after : List Nat) (initB condB : Block) : Prop where
  isFor : ∃ lb ub st, rewriter.func.operations[op]? = some (Operation.ForOp lb ub st region)
  initBlock : rewriter.func.blocks[rewriter.insertionBlock]? = some initB
  initOps : initB.operations = before ++ op :: after
  point : rewriter.insertionPoint = before.length
  body : rewriter.func.regions[region]? = some (cond :: rest)
  condBlock : rewriter.func.blocks[cond]? = some condB
  hasIV : 0 < condB.numArguments
  restValid : ∀ x ∈ rest, x < rewriter.func.blocks.length
  initOutside : rewriter.insertionBlock ∉ cond :: rest
  condOnce : cond ∉ rest
  notBefore : op ∉ before
  notAfter : op ∉ after
  notElsewhere : ∀ b blk, rewriter.func.blocks[b]? = some blk → b ≠ rewriter.insertionBlock →
    op ∉ blk.operations

/-- The rewriter stands at a well-formed conditional: `op` is an `IfOp` listed exactly
once in the function, at the insertion point, between the operations `before` and
`after` of the block `condB`; its regions are distinct, `thenBlocks` is not empty, and
the blocks of both regions are blocks of the function other than the block of the
conditional itself; the two regions end in different blocks. -/
structure IfSite (rewriter : PatternRewriter) (op thenRegion elseRegion : Nat)
    (thenBlocks elseBlocks before after : List Nat) (condB : Block) : Prop where
  isIf : ∃ c, rewriter.func.operations[op]? = some (Operation.IfOp c thenRegion elseRegion)
  condBlock : rewriter.func.blocks[rewriter.insertionBlock]? = some condB
  condOps : condB.operations = before ++ op :: after
  point : rewriter.insertionPoint = before.length
  thenBody : rewriter.func.regions[thenRegion]? = some thenBlocks
  elseBody : rewriter.func.regions[elseRegion]? = some elseBlocks
  thenNonempty : thenBlocks ≠ []
  regionsDistinct : thenRegion ≠ elseRegion
  thenValid : ∀ x ∈ thenBlocks, x < rewriter.func.blocks.length
  elseValid : ∀ x ∈ elseBlocks, x < rewriter.func.blocks.length
  condOutsideThen : rewriter.insertionBlock ∉ thenBlocks
  condOutsideElse : rewriter.insertionBlock ∉ elseBlocks
  backsDistinct : ∀ x ∈ thenBlocks.getLast?, ∀ y ∈ elseBlocks.getLast?, x ≠ y
  notBefore : op ∉ before
  notAfter : op ∉ after
  notElsewhere : ∀ b blk, rewriter.func.blocks[b]? = some blk → b ≠ rewriter.insertionBlock →
    op ∉ blk.operations

/-! ## Scenario A of the specification: `for %i = 0 to 10 step 1` -/

/-- A function whose body is `%0 = 0; %1 = 10; %2 = 1; for (%0, %1, %2) { other; terminator };
return`: block 0 is the function body, block 1 the loop body. -/
def scenarioA : FuncOp :=
  { operations :=
      [Operation.ConstantOp 0, Operation.ConstantOp 10, Operation.ConstantOp 1,
       Operation.ForOp (some (Value.opResult 0)) (some (Value.opResult 1))
         (some (Value.opResult 2)) 1,
       Operation.ReturnOp, Operation.Other 7, Operation.TerminatorOp]
    blocks := [⟨0, [0, 1, 2, 3, 4]⟩, ⟨1, [5, 6]⟩]
    regions := [[0], [1]] }

/-- Values of the three constants of Scenario A: `%0 = 0`, `%1 = 10`, `%2 = 1`. -/
def scenarioAEnv : Env := fun v =>
  match v with
  | Value.opResult 0 => some 0
  | Value.opResult 1 => some 10
  | Value.opResult 2 => some 1
  | _ => none

/-- Scenario A with a body of two blocks that computes: `for (%0, %1, %2) { ^bb1(%iv):
%5 = 3; br ^bb2; ^bb2: %7 = addi %iv, %5; terminator }; return`.  Block 0 is the function
body, blocks 1 and 2 are the loop body. -/
def scenarioTwoBlocks : FuncOp :=
  { operations :=
      [Operation.ConstantOp 0, Operation.ConstantOp 10, Operation.ConstantOp 1,
       Operation.ForOp (some (Value.opResult 0)) (some (Value.opResult 1))
         (some (Value.opResult 2)) 1,
       Operation.ReturnOp, Operation.ConstantOp 3, Operation.BranchOp 2 [],
       Operation.AddIOp (some (Value.blockArgument 1 0)) (some (Value.opResult 5)),
       Operation.TerminatorOp]
    blocks := [⟨0, [0, 1, 2, 3, 4]⟩, ⟨1, [5, 6]⟩, ⟨0, [7, 8]⟩]
    regions := [[0], [1, 2]] }

/-! ## Scenario B of the specification: a conditional on a literal true -/

/-- A function whose body is `%0 = true; if %0 { other; terminator } else { other;
terminator }; return`: block 0 is the function body, block 1 the "then" block, block 2
the "else" block. -/
def scenarioB : FuncOp :=
  { operations :=
      [Operation.ConstantOp 1, Operation.IfOp (some (Value.opResult 0)) 1 2,
       Operation.ReturnOp, Operation.Other 11, Operation.TerminatorOp, Operation.Other 12,
       Operation.TerminatorOp]
    blocks := [⟨0, [0, 1, 2]⟩, ⟨0, [3, 4]⟩, ⟨0, [5, 6]⟩]
    regions := [[0], [1], [2]] }

/-- Scenario B without an "else" part: the "else" region (region 2) is empty. -/
def scenarioBNoElse : FuncOp :=
  { operations :=
      [Operation.ConstantOp 1, Operation.IfOp (some (Value.opResult 0)) 1 2,
       Operation.ReturnOp, Operation.Other 11, Operation.TerminatorOp]
    blocks := [⟨0, [0, 1, 2]⟩, ⟨0, [3, 4]⟩]
    regions := [[0], [1], []] }

/-! ## The pass over a module -/

/-- `ControlFlowToCFGPass::runOnModule` on the functions of the module, in order.  The
first component tells whether `signalPassFailure()` was called, the second is the list
of the functions as the pass leaves them. -/
def runOnModule : List FuncOp → Bool × List FuncOp
  | [] => (false, [])
  | func :: funcs =>
    match lowerControlFlow func with
    | (LogicalResult.failure, func') => (true, func' :: funcs)
    | (LogicalResult.success, func') =>
      match runOnModule funcs with
      | (signalled, funcs') => (signalled, func' :: funcs')

/-- Scenario A with an unresolved (null) lower bound of the loop. -/
def scenarioAUnresolved : FuncOp :=
  { scenarioA with
    operations :=
      scenarioA.operations.set 3
        (Operation.ForOp none (some (Value.opResult 1)) (some (Value.opResult 2)) 1) }

/-! ## Well-formed functions -/

/-- The operations listed in the blocks of the function, block by block. -/
def FuncOp.listed (func : FuncOp) : List Nat :=
  func.blocks.flatMap Block.operations

/-- The operation `op` has the entry block that its lowering reads: the body of a loop
starts with a block that carries the induction variable, the "then" region of a
conditional is not empty. -/
def FuncOp.hasEntry (func : FuncOp) (op : Nat) : Bool :=
  match func.operations[op]? with
  | some (Operation.ForOp _ _ _ region) =>
    match func.front region with
    | some conditionBlock => (func.getArgument conditionBlock 0).isSome
    | none => false
  | some (Operation.IfOp _ thenRegion _) => (func.front thenRegion).isSome
  | _ => true

/-- Some listed operation owns the region `region`. -/
def FuncOp.owned (func : FuncOp) (region : Nat) : Bool :=
  func.listed.any fun o =>
    match func.operations[o]? with
    | some x => x.getRegions.contains region
    | none => false

/-- The function is a well-formed region tree: every listed operation exists and is
listed once, every block of a region exists, every block is in exactly one region,
every region of an operation exists and has one owner, every region but the body of the
function (region 0) is empty or belongs to a listed operation, and every listed loop or
conditional has its entry block. -/
structure FuncOp.WellFormed (func : FuncOp) : Prop where
  opsValid : ∀ o ∈ func.listed, o < func.operations.length
  opsOnce : func.listed.Nodup
  blocksValid : ∀ r ∈ func.regions, ∀ x ∈ r, x < func.blocks.length
  blocksOnce : func.regions.flatten.Nodup
  blocksListed : ∀ j ∈ List.range func.blocks.length, j ∈ func.regions.flatten
  regionsValid : ∀ o ∈ func.operations, ∀ r ∈ o.getRegions, r < func.regions.length
  regionsOnce : (func.operations.flatMap Operation.getRegions).Nodup
  regionsOwned : ∀ r ∈ List.range func.regions.length,
    r = 0 ∨ func.regions[r]? = some [] ∨ func.owned r = true
  entries : ∀ o ∈ func.listed, func.hasEntry o = true

instance (func : FuncOp) : Decidable func.WellFormed :=
  decidable_of_iff
    ((∀ o ∈ func.listed, o < func.operations.length) ∧ func.listed.Nodup ∧
      (∀ r ∈ func.regions, ∀ x ∈ r, x < func.blocks.length) ∧ func.regions.flatten.Nodup ∧
      (∀ j ∈ List.range func.blocks.length, j ∈ func.regions.flatten) ∧
      (∀ o ∈ func.operations, ∀ r ∈ o.getRegions, r < func.regions.length) ∧
      (func.operations.flatMap Operation.getRegions).Nodup ∧
      (∀ r ∈ List.range func.regions.length,
        r = 0 ∨ func.regions[r]? = some [] ∨ func.owned r = true) ∧
      (∀ o ∈ func.listed, func.hasEntry o = true))
    ⟨fun ⟨a, b, c, d, e, f, g, h, i⟩ => ⟨a, b, c, d, e, f, g, h, i⟩,
      fun ⟨a, b, c, d, e, f, g, h, i⟩ => ⟨a, b, c, d, e, f, g, h, i⟩⟩

/-- The rewriter stands at an operation listed exactly once in the function: `op` is at
the insertion point, between the operations `before` and `after` of the block `blk`, and
in no other place. -/
structure OpSite (rewriter : PatternRewriter) (op : Nat) (before after : List Nat)
    (blk : Block) : Prop where
  block : rewriter.func.blocks[rewriter.insertionBlock]? = some blk
  ops : blk.operations = before ++ op :: after
  point : rewriter.insertionPoint = before.length
  notBefore : op ∉ before
  notAfter : op ∉ after
  notElsewhere : ∀ b blk', rewriter.func.blocks[b]? = some blk' →
    b ≠ rewriter.insertionBlock → op ∉ blk'.operations

/-- The function `lowered` is the function `func` after one rewrite that erases the
listed illegal operation `op` of the block `block`, creates the legal operations
`created` and `newBlocks` blocks, and leaves what followed `op` in the block `cont`
(the block `block` itself if it was not split): what the rewrite does to the operations,
to the lists of the blocks, to the regions, to the first and last blocks of the regions
and to the edges into the blocks that lose their place at the head of a region. -/
structure Lowered (func lowered : FuncOp) (op : Nat) (created : List Operation)
    (newBlocks : Nat) (block cont : Nat) : Prop where
  operations : lowered.operations = func.operations ++ created
  createdLegal : ∀ x ∈ created, isDynamicallyLegal x = true
  opIllegal : func.isIllegal isDynamicallyLegal op = true
  opListed : op ∈ func.listed
  opBlock : ∃ blk, func.blocks[block]? = some blk ∧ op ∈ blk.operations
  opOutside : ∀ o r l, func.operations[op]? = some o → r ∈ o.getRegions →
    func.regions[r]? = some l → block ∉ l
  contFresh : cont = block ∨ func.blocks.length ≤ cont
  blocksLength : lowered.blocks.length = func.blocks.length + newBlocks
  listedMeasure : ∀ h : List Nat → Nat, (∀ l₁ l₂, h (l₁ ++ l₂) = h l₁ + h l₂) →
    (lowered.blocks.map fun b => h b.operations).sum + h [op] =
      (func.blocks.map fun b => h b.operations).sum +
        h (List.range' func.operations.length created.length)
  regionsLength : lowered.regions.length = func.regions.length
  regionsCount : ∀ a, lowered.regions.flatten.count a =
    func.regions.flatten.count a + (List.range' func.blocks.length newBlocks).count a
  fronts : ∀ r, (∀ o, func.operations[op]? = some o → r ∉ o.getRegions) →
    lowered.front r = func.front r
  backs : ∀ r, (∀ o, func.operations[op]? = some o → r ∉ o.getRegions) →
    lowered.back r = (func.back r).map fun z => if z = block then cont else z
  erased : ∀ o, func.operations[op]? = some o → ∀ r ∈ o.getRegions,
    lowered.regions[r]? = some []
  arguments : ∀ c, c < func.blocks.length → ∀ i,
    lowered.getArgument c i = func.getArgument c i
  entered : ∀ o r c, func.operations[op]? = some o → r ∈ o.getRegions →
    func.front r = some c → ∃ i, c ∈ lowered.successors i
  created_entered : ∀ j, func.blocks.length ≤ j → j < func.blocks.length + newBlocks →
    ∃ i, j ∈ lowered.successors i

/-- The rewriter `rw'` holds the operations of `rw` followed by operations that are all
legal: between the two, no loop, conditional or terminator marker was created. -/
def CreatesLegal (rw rw' : PatternRewriter) : Prop :=
  ∃ created, rw'.func.operations = rw.func.operations ++ created ∧
    ∀ x ∈ created, isDynamicallyLegal x = true

/-- The predecessors of a block (`Block::getPredecessors`): the blocks of the function
that list a branch or a conditional branch to it. -/
def FuncOp.predecessors (func : FuncOp) (block : Nat) : List Nat :=
  (List.range func.blocks.length).filter fun i => (func.successors i).contains block

/-! ## The shape of the blocks -/

/-- A terminator of a block in CFG form: a branch, a conditional branch or a return. -/
def Operation.isTerminator : Operation → Bool
  | Operation.BranchOp _ _ => true
  | Operation.CondBranchOp _ _ _ _ _ => true
  | Operation.ReturnOp => true
  | _ => false

/-- The block is the last block of a region of a listed operation. -/
def FuncOp.closesRegion (func : FuncOp) (block : Nat) : Bool :=
  func.listed.any fun o =>
    match func.operations[o]? with
    | some x => x.getRegions.any fun r => func.back r == some block
    | none => false

/-- The operation `op` of the function is neither a terminator nor a terminator marker. -/
def FuncOp.isPlain (func : FuncOp) (op : Nat) : Bool :=
  match func.operations[op]? with
  | some x => !x.isTerminator && !x.isTerminatorOp
  | none => false

/-- The operations `ops` of a block are operations that are neither terminators nor
terminator markers, followed by the end of the block: for a block that closes a region of
a listed loop or conditional (`closes`), a terminator marker, or nothing once the marker
is erased; for any other block, one terminator. -/
def FuncOp.ShapedAt (func : FuncOp) (closes : Bool) (ops : List Nat) : Prop :=
  ∃ pre tail, ops = pre ++ tail ∧ (∀ o ∈ pre, func.isPlain o = true) ∧
    ((closes = true ∧
        (tail = [] ∨ ∃ t, tail = [t] ∧ func.operations[t]? = some Operation.TerminatorOp)) ∨
      (closes = false ∧
        ∃ t x, tail = [t] ∧ func.operations[t]? = some x ∧ x.isTerminator = true))

/-- Every block of the function has the shape `ShapedAt`. -/
def FuncOp.Shaped (func : FuncOp) : Prop :=
  ∀ (j : Nat) (blk : Block), func.blocks[j]? = some blk →
    func.ShapedAt (func.closesRegion j) blk.operations

/-! ## Functions that differ in the choice of fresh handles -/

/-- A value with its handles renamed: `σ` renames operations, `τ` renames blocks. -/
def Value.rename (σ τ : Nat → Nat) : Value → Value
  | Value.opResult op => Value.opResult (σ op)
  | Value.blockArgument block index => Value.blockArgument (τ block) index

/-- An operation with the handles of its operands and of its destinations renamed. -/
def Operation.rename (σ τ : Nat → Nat) : Operation → Operation
  | Operation.ForOp lb ub st region =>
    Operation.ForOp (lb.map (Value.rename σ τ)) (ub.map (Value.rename σ τ))
      (st.map (Value.rename σ τ)) region
  | Operation.IfOp c thenRegion elseRegion =>
    Operation.IfOp (c.map (Value.rename σ τ)) thenRegion elseRegion
  | Operation.TerminatorOp => Operation.TerminatorOp
  | Operation.BranchOp dest args =>
    Operation.BranchOp (τ dest) (args.map (Option.map (Value.rename σ τ)))
  | Operation.CondBranchOp c t targs f fargs =>
    Operation.CondBranchOp (c.map (Value.rename σ τ)) (τ t)
      (targs.map (Option.map (Value.rename σ τ))) (τ f)
      (fargs.map (Option.map (Value.rename σ τ)))
  | Operation.CmpIOp p lhs rhs =>
    Operation.CmpIOp p (lhs.map (Value.rename σ τ)) (rhs.map (Value.rename σ τ))
  | Operation.AddIOp lhs rhs =>
    Operation.AddIOp (lhs.map (Value.rename σ τ)) (rhs.map (Value.rename σ τ))
  | Operation.ConstantOp v => Operation.ConstantOp v
  | Operation.ReturnOp => Operation.ReturnOp
  | Operation.Other name => Operation.Other name

/-- The value names an operation below `m` or a block below `n`. -/
def Value.below (m n : Nat) : Value → Bool
  | Value.opResult op => decide (op < m)
  | Value.blockArgument block _ => decide (block < n)

/-- An optional value is null or names handles below the bounds. -/
def belowOpt (m n : Nat) : Option Value → Bool
  | none => true
  | some v => v.below m n

/-- Every operand of the operation names an operation below `m` or a block below `n`, and
every destination is a block below `n`. -/
def Operation.below (m n : Nat) : Operation → Bool
  | Operation.ForOp lb ub st _ => belowOpt m n lb && belowOpt m n ub && belowOpt m n st
  | Operation.IfOp c _ _ => belowOpt m n c
  | Operation.TerminatorOp => true
  | Operation.BranchOp dest args => decide (dest < n) && args.all (belowOpt m n)
  | Operation.CondBranchOp c t targs f fargs =>
    belowOpt m n c && decide (t < n) && targs.all (belowOpt m n) && decide (f < n) &&
      fargs.all (belowOpt m n)
  | Operation.CmpIOp _ lhs rhs => belowOpt m n lhs && belowOpt m n rhs
  | Operation.AddIOp lhs rhs => belowOpt m n lhs && belowOpt m n rhs
  | Operation.ConstantOp _ => true
  | Operation.ReturnOp => true
  | Operation.Other _ => true

/-- No operation of the function refers to an operation or to a block that the function
does not have. -/
def FuncOp.handlesValid (func : FuncOp) : Bool :=
  func.operations.all (Operation.below func.operations.length func.blocks.length)

/-- The permutation of handles between two orders of allocation: after `base` handles that
both orders share, one order allocates `first` handles and then `second` handles, the
other order allocates the `second` ones before the `first` ones. -/
def swapFresh (base first second : Nat) (x : Nat) : Nat :=
  if x < base then x
  else if x < base + first then x + second
  else if x < base + first + second then x - first
  else x

/-- The function `g` is the function `f` with its handles renamed, operations by `σ` and
blocks by `τ`: the regions list the same blocks in the same order, a block lists the same
operations in the same order, and an operation has the same operands and destinations.
Both renamings are injective and the arenas have the same sizes. -/
structure FuncOp.SameUpTo (σ τ : Nat → Nat) (f g : FuncOp) : Prop where
  opsInjective : Function.Injective σ
  blocksInjective : Function.Injective τ
  operationsLength : g.operations.length = f.operations.length
  operations : ∀ (i : Nat) (o : Operation), f.operations[i]? = some o →
    g.operations[σ i]? = some (o.rename σ τ)
  blocksLength : g.blocks.length = f.blocks.length
  blocks : ∀ (i : Nat) (blk : Block), f.blocks[i]? = some blk →
    g.blocks[τ i]? = some ⟨blk.numArguments, blk.operations.map σ⟩
  regions : g.regions = f.regions.map (List.map τ)

/-- The operations that `IfLowering` creates: a branch to the continuation block for each
non-empty region and the conditional branch. -/
def IfLowering.created (cv : Option Value) (t : Nat) (elseBlocks : List Nat) (cont : Nat) :
    List Operation :=
  match elseBlocks with
  | [] => [Operation.BranchOp cont [], Operation.CondBranchOp cv t [] cont []]
  | e :: _ =>
    [Operation.BranchOp cont [], Operation.BranchOp cont [],
      Operation.CondBranchOp cv t [] e []]

/-- The number of branches to the continuation block that `IfLowering` creates: one for
each non-empty region.  The conditional branch is created after them. -/
def IfLowering.numBranches (elseBlocks : List Nat) : Nat :=
  match elseBlocks with
  | [] => 1
  | _ :: _ => 2

/-- The operations that `ForLowering` creates, `first` being the handle of the first of
them: the add, the back-edge branch, the branch of the init block, the comparison and the
conditional branch. -/
def ForLowering.created (lb ub : Value) (st : Option Value) (cond first firstBody endBlock :
    Nat) : List Operation :=
  [Operation.AddIOp (some (Value.blockArgument cond 0)) st,
    Operation.BranchOp cond [some (Value.opResult first)],
    Operation.BranchOp cond [some lb],
    Operation.CmpIOp CmpIPredicate.SLT (some (Value.blockArgument cond 0)) (some ub),
    Operation.CondBranchOp (some (Value.opResult (first + 3))) firstBody [] endBlock []]

/-- The operations appended to a block that is the last one of `blocks`. -/
def tailOps (blocks : List Nat) (block : Nat) (ops : List Nat) : List Nat :=
  if blocks.getLast? = some block then ops else []

/-- The effect of `ForLowering` at a well-formed loop of a well-formed function whose
block lies in the region `parent`, which is `pre ++ block :: post`: the rewrite succeeds,
and the operations, every block and every region of the result are given. -/
structure ForLowered (rewriter rw' : PatternRewriter) (op region cond : Nat)
    (rest before after : List Nat) (initB condB : Block) (lb ub : Value) (st : Option Value)
    (parent : Nat) (pre post : List Nat) : Prop where
  run : ForLowering.matchAndRewrite op [some lb, some ub, st] rewriter =
    some (PatternMatchResult.matchSuccess, rw')
  operations : rw'.func.operations = rewriter.func.operations ++
    ForLowering.created lb ub st cond rewriter.func.operations.length
      (rewriter.func.blocks.length + 1) rewriter.func.blocks.length
  blocksLength : rw'.func.blocks.length = rewriter.func.blocks.length + 2
  initBlock : rw'.func.blocks[rewriter.insertionBlock]? =
    some ⟨initB.numArguments, before ++ [rewriter.func.operations.length + 2]⟩
  condBlock : rw'.func.blocks[cond]? =
    some ⟨condB.numArguments,
      [rewriter.func.operations.length + 3, rewriter.func.operations.length + 4]⟩
  endBlock : rw'.func.blocks[rewriter.func.blocks.length]? = some ⟨0, after⟩
  firstBody : rw'.func.blocks[rewriter.func.blocks.length + 1]? =
    some ⟨0, condB.operations ++ tailOps (cond :: rest) cond
      [rewriter.func.operations.length, rewriter.func.operations.length + 1]⟩
  restBlocks : ∀ (i : Nat) (blk : Block), i ∈ rest → rewriter.func.blocks[i]? = some blk →
    rw'.func.blocks[i]? =
      some ⟨blk.numArguments, blk.operations ++ tailOps (cond :: rest) i
        [rewriter.func.operations.length, rewriter.func.operations.length + 1]⟩
  otherBlocks : ∀ i : Nat, i ≠ rewriter.insertionBlock → i ∉ cond :: rest →
    i < rewriter.func.blocks.length → rw'.func.blocks[i]? = rewriter.func.blocks[i]?
  regions : rw'.func.regions =
    (rewriter.func.regions.set parent
        (pre ++ rewriter.insertionBlock :: cond :: (rewriter.func.blocks.length + 1) :: rest ++
          rewriter.func.blocks.length :: post)).set region []
  parentNe : parent ≠ region
  wellFormed : rw'.func.WellFormed

/-- The effect of `IfLowering` at a well-formed conditional of a well-formed function
whose block lies in the region `parent`, which is `pre ++ block :: post`: the rewrite
succeeds, and the operations, every block and every region of the result are given. -/
structure IfLowered (rewriter rw' : PatternRewriter) (op thenRegion elseRegion : Nat)
    (thenBlocks elseBlocks before after : List Nat) (condB : Block) (cv : Option Value)
    (parent : Nat) (pre post : List Nat) : Prop where
  run : IfLowering.matchAndRewrite op [cv] rewriter =
    some (PatternMatchResult.matchSuccess, rw')
  operations : rw'.func.operations = rewriter.func.operations ++
    IfLowering.created cv (thenBlocks.headD 0) elseBlocks rewriter.func.blocks.length
  blocksLength : rw'.func.blocks.length = rewriter.func.blocks.length + 1
  condBlock : rw'.func.blocks[rewriter.insertionBlock]? =
    some ⟨condB.numArguments,
      before ++ [rewriter.func.operations.length + IfLowering.numBranches elseBlocks]⟩
  contBlock : rw'.func.blocks[rewriter.func.blocks.length]? = some ⟨0, after⟩
  thenPart : ∀ (i : Nat) (blk : Block), i ∈ thenBlocks →
    rewriter.func.blocks[i]? = some blk →
    rw'.func.blocks[i]? =
      some ⟨blk.numArguments, blk.operations ++ tailOps thenBlocks i
        [rewriter.func.operations.length]⟩
  elsePart : ∀ (i : Nat) (blk : Block), i ∈ elseBlocks →
    rewriter.func.blocks[i]? = some blk →
    rw'.func.blocks[i]? =
      some ⟨blk.numArguments, blk.operations ++ tailOps elseBlocks i
        [rewriter.func.operations.length + 1]⟩
  otherBlocks : ∀ i : Nat, i ≠ rewriter.insertionBlock → i ∉ thenBlocks → i ∉ elseBlocks →
    i < rewriter.func.blocks.length → rw'.func.blocks[i]? = rewriter.func.blocks[i]?
  regions : rw'.func.regions =
    ((rewriter.func.regions.set parent
          (pre ++ rewriter.insertionBlock :: thenBlocks ++ elseBlocks ++
            rewriter.func.blocks.length :: post)).set thenRegion []).set elseRegion []
  parentNeThen : parent ≠ thenRegion
  parentNeElse : parent ≠ elseRegion
  wellFormed : rw'.func.WellFormed

/-- The function `g` is the function `f` with a loop and a conditional of its body both
lowered.  The loop stands in the block `b`, between `bf` and `af`; its body is
`c :: rest`, which is `pre2 ++ j :: post2`; the conditional stands in the body block `j`,
between `bi` and `ai`; its regions hold the blocks `T` and `E`.  The fresh handles are the
end block `endBlock` and the first body block `firstBody` of the loop, the continuation
block `cont` of the conditional, and the operations created for the loop, from `mF` on,
and for the conditional, from `mI` on. -/
structure LoopConditionalLowered (f g : FuncOp) (b rF c : Nat) (rest bf af : List Nat)
    (initB condB : Block) (lb ub : Value) (st : Option Value) (j rT rE : Nat)
    (T E bi ai : List Nat) (blkJ : Block) (cv : Option Value) (P : Nat)
    (pre post pre2 post2 : List Nat) (endBlock firstBody cont mF mI : Nat) : Prop where
  operationsLength : g.operations.length =
    f.operations.length + 5 + (IfLowering.numBranches E + 1)
  opsOld : ∀ i : Nat, i < f.operations.length → g.operations[i]? = f.operations[i]?
  opsFor : ∀ i : Nat, i < 5 →
    g.operations[mF + i]? = (ForLowering.created lb ub st c mF firstBody endBlock)[i]?
  opsIf : ∀ i : Nat, i < IfLowering.numBranches E + 1 →
    g.operations[mI + i]? = (IfLowering.created cv (T.headD 0) E cont)[i]?
  blocksLength : g.blocks.length = f.blocks.length + 3
  atInit : g.blocks[b]? = some ⟨initB.numArguments, bf ++ [mF + 2]⟩
  atCond : g.blocks[c]? = some ⟨condB.numArguments, [mF + 3, mF + 4]⟩
  atEnd : g.blocks[endBlock]? = some ⟨0, af⟩
  atFirstBody : g.blocks[firstBody]? =
    some ⟨0, if j = c then bi ++ [mI + IfLowering.numBranches E] else condB.operations⟩
  atIf : j ≠ c →
    g.blocks[j]? = some ⟨blkJ.numArguments, bi ++ [mI + IfLowering.numBranches E]⟩
  atCont : g.blocks[cont]? = some ⟨0, ai ++ tailOps (c :: rest) j [mF, mF + 1]⟩
  atThen : ∀ (i : Nat) (blk : Block), i ∈ T → f.blocks[i]? = some blk →
    g.blocks[i]? = some ⟨blk.numArguments, blk.operations ++ tailOps T i [mI]⟩
  atElse : ∀ (i : Nat) (blk : Block), i ∈ E → f.blocks[i]? = some blk →
    g.blocks[i]? = some ⟨blk.numArguments, blk.operations ++ tailOps E i [mI + 1]⟩
  atRest : ∀ (i : Nat) (blk : Block), i ∈ rest → i ≠ j → f.blocks[i]? = some blk →
    g.blocks[i]? =
      some ⟨blk.numArguments, blk.operations ++ tailOps (c :: rest) i [mF, mF + 1]⟩
  atOther : ∀ i : Nat, i < f.blocks.length → i ≠ b → i ∉ c :: rest → i ∉ T → i ∉ E →
    g.blocks[i]? = f.blocks[i]?
  regionsLength : g.regions.length = f.regions.length
  parentRegion : g.regions[P]? =
    some (pre ++ b :: c :: firstBody :: (pre2 ++ j :: T ++ E ++ cont :: post2).tail ++
      endBlock :: post)
  loopRegion : g.regions[rF]? = some []
  thenRegion : g.regions[rT]? = some []
  elseRegion : g.regions[rE]? = some []
  otherRegions : ∀ r : Nat, r ≠ P → r ≠ rF → r ≠ rT → r ≠ rE →
    g.regions[r]? = f.regions[r]?

/-- The function `g` is the function `f` with a conditional and a loop of its "then"
region both lowered.  The conditional stands in the block `b`, between `bi` and `ai`; its
regions hold the blocks `T`, which is `pre2 ++ j :: post2`, and `E`; the loop stands in
the block `j`, between `bf` and `af`; its body is `c :: rest`.  The fresh handles are the
continuation block `cont` of the conditional, the end block `endBlock` and the first body
block `firstBody` of the loop, and the operations created for the loop, from `mF` on, and
for the conditional, from `mI` on. -/
structure ConditionalLoopLowered (f g : FuncOp) (b rT rE : Nat) (T E bi ai : List Nat)
    (blkB : Block) (cv : Option Value) (j rF c : Nat) (rest bf af : List Nat)
    (blkJ condB : Block) (lb ub : Value) (st : Option Value) (P : Nat)
    (pre post pre2 post2 : List Nat) (endBlock firstBody cont mF mI : Nat) : Prop where
  operationsLength : g.operations.length =
    f.operations.length + 5 + (IfLowering.numBranches E + 1)
  opsOld : ∀ i : Nat, i < f.operations.length → g.operations[i]? = f.operations[i]?
  opsFor : ∀ i : Nat, i < 5 →
    g.operations[mF + i]? = (ForLowering.created lb ub st c mF firstBody endBlock)[i]?
  opsIf : ∀ i : Nat, i < IfLowering.numBranches E + 1 →
    g.operations[mI + i]? = (IfLowering.created cv (T.headD 0) E cont)[i]?
  blocksLength : g.blocks.length = f.blocks.length + 3
  atIf : g.blocks[b]? = some ⟨blkB.numArguments, bi ++ [mI + IfLowering.numBranches E]⟩
  atCont : g.blocks[cont]? = some ⟨0, ai⟩
  atInit : g.blocks[j]? = some ⟨blkJ.numArguments, bf ++ [mF + 2]⟩
  atCond : g.blocks[c]? = some ⟨condB.numArguments, [mF + 3, mF + 4]⟩
  atEnd : g.blocks[endBlock]? = some ⟨0, af ++ tailOps T j [mI]⟩
  atFirstBody : g.blocks[firstBody]? =
    some ⟨0, condB.operations ++ tailOps (c :: rest) c [mF, mF + 1]⟩
  atRest : ∀ (i : Nat) (blk : Block), i ∈ rest → f.blocks[i]? = some blk →
    g.blocks[i]? =
      some ⟨blk.numArguments, blk.operations ++ tailOps (c :: rest) i [mF, mF + 1]⟩
  atThen : ∀ (i : Nat) (blk : Block), i ∈ T → i ≠ j → f.blocks[i]? = some blk →
    g.blocks[i]? = some ⟨blk.numArguments, blk.operations ++ tailOps T i [mI]⟩
  atElse : ∀ (i : Nat) (blk : Block), i ∈ E → f.blocks[i]? = some blk →
    g.blocks[i]? = some ⟨blk.numArguments, blk.operations ++ tailOps E i [mI + 1]⟩
  atOther : ∀ i : Nat, i < f.blocks.length → i ≠ b → i ∉ T → i ∉ E → i ∉ c :: rest →
    g.blocks[i]? = f.blocks[i]?
  regionsLength : g.regions.length = f.regions.length
  parentRegion : g.regions[P]? =
    some (pre ++ b :: (pre2 ++ j :: c :: firstBody :: rest ++ endBlock :: post2) ++ E ++
      cont :: post)
  loopRegion : g.regions[rF]? = some []
  thenRegion : g.regions[rT]? = some []
  elseRegion : g.regions[rE]? = some []
  otherRegions : ∀ r : Nat, r ≠ P → r ≠ rF → r ≠ rT → r ≠ rE →
    g.regions[r]? = f.regions[r]?

/-! ## Nested constructs: a conditional in a loop, a loop in a conditional -/

/-- A function whose body is `%0 = 0; %1 = 10; %2 = 1; for (%0, %1, %2) { %5 = cmpi slt
%iv, %1; if %5 { other; terminator } else { other; terminator }; terminator }; return`:
block 0 is the function body, block 1 the loop body, blocks 2 and 3 the two parts of the
conditional. -/
def scenarioLoopIf : FuncOp :=
  { operations :=
      [Operation.ConstantOp 0, Operation.ConstantOp 10, Operation.ConstantOp 1,
       Operation.ForOp (some (Value.opResult 0)) (some (Value.opResult 1))
         (some (Value.opResult 2)) 1,
       Operation.ReturnOp,
       Operation.CmpIOp CmpIPredicate.SLT (some (Value.blockArgument 1 0))
         (some (Value.opResult 1)),
       Operation.IfOp (some (Value.opResult 5)) 2 3, Operation.TerminatorOp,
       Operation.Other 11, Operation.TerminatorOp, Operation.Other 12,
       Operation.TerminatorOp]
    blocks := [⟨0, [0, 1, 2, 3, 4]⟩, ⟨1, [5, 6, 7]⟩, ⟨0, [8, 9]⟩, ⟨0, [10, 11]⟩]
    regions := [[0], [1], [2], [3]] }

/-- A function whose body is `%0 = 1; if %0 { %3 = 0; %4 = 10; %5 = 1; for (%3, %4, %5)
{ other; terminator }; terminator } else { other; terminator }; return`: block 0 is the
function body, blocks 1 and 2 the two parts of the conditional, block 3 the loop body. -/
def scenarioIfLoop : FuncOp :=
  { operations :=
      [Operation.ConstantOp 1, Operation.IfOp (some (Value.opResult 0)) 1 2,
       Operation.ReturnOp, Operation.ConstantOp 0, Operation.ConstantOp 10,
       Operation.ConstantOp 1,
       Operation.ForOp (some (Value.opResult 3)) (some (Value.opResult 4))
         (some (Value.opResult 5)) 3,
       Operation.TerminatorOp, Operation.Other 12, Operation.TerminatorOp,
       Operation.Other 7, Operation.TerminatorOp]
    blocks := [⟨0, [0, 1, 2]⟩, ⟨0, [3, 4, 5, 6, 7]⟩, ⟨0, [8, 9]⟩, ⟨1, [10, 11]⟩]
    regions := [[0], [1], [2], [3]] }

/-! ## The legality predicate and the driver -/

theorem isDynamicallyLegal_eq_false_iff (o : Operation) :
    isDynamicallyLegal o = false ↔
      (∃ lb ub st r, o = Operation.ForOp lb ub st r) ∨
        (∃ c t e, o = Operation.IfOp c t e) ∨ o = Operation.TerminatorOp := by
  cases o <;> simp [isDynamicallyLegal, Operation.isForOp, Operation.isIfOp,
    Operation.isTerminatorOp]

theorem hasIllegal_eq_false_iff (func : FuncOp) (isLegal : Operation → Bool) :
    func.hasIllegal isLegal = false ↔
      ∀ b ∈ func.blocks, ∀ op ∈ b.operations, ∀ o, func.operations[op]? = some o →
        isLegal o = true := by
  unfold FuncOp.hasIllegal FuncOp.isIllegal
  rw [Bool.eq_false_iff]
  simp only [ne_eq, List.any_eq_true, not_exists, not_and]
  constructor
  · intro h b hb op hop o ho
    have := h b hb op hop
    simpa [ho] using this
  · intro h b hb op hop
    cases ho : func.operations[op]? with
    | none => simp
    | some o => simpa using h b hb op hop o ho

theorem convert_of_legal (isLegal : Operation → Bool) (patterns : List ConversionPattern)
    (fuel : Nat) (func : FuncOp) (h : func.hasIllegal isLegal = false) :
    convert isLegal patterns fuel func = some func := by
  cases fuel <;> simp [convert, h]

theorem legal_of_convert (isLegal : Operation → Bool) (patterns : List ConversionPattern) :
    ∀ (fuel : Nat) (func lowered : FuncOp),
      convert isLegal patterns fuel func = some lowered → lowered.hasIllegal isLegal = false := by
  intro fuel
  induction fuel with
  | zero =>
    intro func lowered h
    unfold convert at h
    split at h
    · cases h
    · rename_i hc
      cases h
      exact Bool.eq_false_iff.mpr hc
  | succ n ih =>
    intro func lowered h
    unfold convert at h
    split at h
    · split at h
      · cases h
      · split at h
        · exact ih _ _ h
        · cases h
    · rename_i hc
      cases h
      exact Bool.eq_false_iff.mpr hc

/-! ## The rewriter primitives on explicit states -/

theorem splitBlock_eq (O : List Operation) (B : List Block) (R : List (List Nat))
    (ib : Nat) (ip : Nat) (b : Nat) (blk : Block) (p : Nat) (h : B[b]? = some blk) :
    PatternRewriter.splitBlock ⟨⟨O, B, R⟩, ib, ip⟩ b p =
      some (B.length,
        ⟨⟨O, B.set b ⟨blk.numArguments, blk.operations.take p⟩ ++
              [⟨0, blk.operations.drop p⟩],
            R.map (insertAfter b B.length)⟩, ib, ip⟩) := by
  simp [PatternRewriter.splitBlock, h]

theorem inlineRegionBefore_eq (O : List Operation) (B : List Block) (R : List (List Nat))
    (ib : Nat) (ip : Nat) (r : Nat) (moved : List Nat) (before : Nat)
    (h : R[r]? = some moved) :
    PatternRewriter.inlineRegionBefore ⟨⟨O, B, R⟩, ib, ip⟩ r before =
      some ⟨⟨O, B, (R.set r []).map (spliceBefore before moved)⟩, ib, ip⟩ := by
  simp [PatternRewriter.inlineRegionBefore, h]

theorem setInsertionPointToEnd_eq (O : List Operation) (B : List Block)
    (R : List (List Nat)) (ib : Nat) (ip : Nat) (b : Nat) (blk : Block)
    (h : B[b]? = some blk) :
    PatternRewriter.setInsertionPointToEnd ⟨⟨O, B, R⟩, ib, ip⟩ b =
      some ⟨⟨O, B, R⟩, b, blk.operations.length⟩ := by
  simp [PatternRewriter.setInsertionPointToEnd, h]

theorem create_eq (O : List Operation) (B : List Block) (R : List (List Nat))
    (ib : Nat) (ip : Nat) (blk : Block) (o : Operation) (h : B[ib]? = some blk)
    (hp : ip = blk.operations.length) :
    PatternRewriter.create ⟨⟨O, B, R⟩, ib, ip⟩ o =
      some (O.length,
        ⟨⟨O ++ [o], B.set ib ⟨blk.numArguments, blk.operations ++ [O.length]⟩, R⟩, ib,
          blk.operations.length + 1⟩) := by
  subst hp
  simp [PatternRewriter.create, h]

theorem insertAfter_of_not_mem (b n : Nat) (l : List Nat) (h : b ∉ l) :
    insertAfter b n l = l := by
  induction l with
  | nil => rfl
  | cons x xs ih =>
    simp only [List.mem_cons, not_or] at h
    simp [insertAfter, Ne.symm h.1, ih h.2]

theorem spliceBefore_of_not_mem (b : Nat) (m l : List Nat) (h : b ∉ l) :
    spliceBefore b m l = l := by
  induction l with
  | nil => rfl
  | cons x xs ih =>
    simp only [List.mem_cons, not_or] at h
    simp [spliceBefore, Ne.symm h.1, ih h.2]

theorem insertAfter_append (b n : Nat) (pre post : List Nat) (h : b ∉ pre) :
    insertAfter b n (pre ++ b :: post) = pre ++ b :: n :: post := by
  induction pre with
  | nil => simp [insertAfter]
  | cons x xs ih =>
    simp only [List.mem_cons, not_or] at h
    simp [insertAfter, Ne.symm h.1, ih h.2]

theorem spliceBefore_append (b : Nat) (m pre post : List Nat) (h : b ∉ pre) :
    spliceBefore b m (pre ++ b :: post) = pre ++ m ++ b :: post := by
  induction pre with
  | nil => simp [spliceBefore]
  | cons x xs ih =>
    simp only [List.mem_cons, not_or] at h
    simp [spliceBefore, Ne.symm h.1, ih h.2]

theorem erase_append_fresh (l extra : List Nat) (op : Nat) (h : op ∉ extra) :
    (l ++ extra).erase op = l.erase op ++ extra := by
  rw [List.erase_append]
  split
  · rfl
  · rw [List.erase_of_not_mem h, List.erase_of_not_mem ‹_›]

/-! ## The closed form of a successful loop lowering -/

theorem ForLowering_run (O : List Operation) (B : List Block) (R : List (List Nat))
    (init : Nat) (p : Nat) (op : Nat) (a b c : Option Value) (region : Nat)
    (cond : Nat) (rest : List Nat) (initB condB : Block) (lb ub : Value)
    (st : Option Value)
    (hop : O[op]? = some (Operation.ForOp a b c region))
    (hinit : B[init]? = some initB)
    (hreg : R[region]? = some (cond :: rest))
    (hcond : B[cond]? = some condB)
    (harg : 0 < condB.numArguments)
    (hrest : ∀ x ∈ rest, x < B.length)
    (hne : init ≠ cond) (hni : init ∉ rest) (hcr : cond ∉ rest) :
    ∃ lastB : Block,
      (ForLowering.splitBlocks B init p cond initB condB)[((B.length + 1) :: rest).getLast
        (List.cons_ne_nil _ _)]? = some lastB ∧
      ForLowering.matchAndRewrite op [some lb, some ub, st] ⟨⟨O, B, R⟩, init, p⟩ =
        some (PatternMatchResult.matchSuccess,
          ⟨⟨O ++ [Operation.AddIOp (some (Value.blockArgument cond 0)) st,
                Operation.BranchOp cond [some (Value.opResult O.length)],
                Operation.BranchOp cond [some lb],
                Operation.CmpIOp CmpIPredicate.SLT (some (Value.blockArgument cond 0)) (some ub),
                Operation.CondBranchOp (some (Value.opResult (O.length + 3))) (B.length + 1) []
                  B.length []],
              ((((ForLowering.splitBlocks B init p cond initB condB).set
                      (((B.length + 1) :: rest).getLast (List.cons_ne_nil _ _))
                      ⟨lastB.numArguments, lastB.operations ++ [O.length, O.length + 1]⟩).set
                    init ⟨initB.numArguments, initB.operations.take p ++ [O.length + 2]⟩).set
                  cond ⟨condB.numArguments, [O.length + 3, O.length + 4]⟩).map
                fun blk => { blk with operations := blk.operations.erase op },
              (((R.map (insertAfter init B.length)).map (insertAfter cond (B.length + 1))).set
                  region []).map (spliceBefore B.length (cond :: (B.length + 1) :: rest))⟩,
            cond, 2⟩) := by
  have hinitlt : init < B.length := (List.getElem?_eq_some.mp hinit).1
  have hcondlt : cond < B.length := (List.getElem?_eq_some.mp hcond).1
  have hlastmem : ((B.length + 1) :: rest).getLast (List.cons_ne_nil _ _) ∈
      (B.length + 1) :: rest := List.getLast_mem _
  generalize hlast : ((B.length + 1) :: rest).getLast (List.cons_ne_nil _ _) = last at *
  have hlastlt : last < B.length + 2 := by
    rcases List.mem_cons.mp hlastmem with h | h
    · omega
    · have := hrest _ h; omega
  have hlastinit : last ≠ init := by
    rcases List.mem_cons.mp hlastmem with h | h
    · omega
    · intro e; exact hni (e ▸ h)
  have hlastcond : last ≠ cond := by
    rcases List.mem_cons.mp hlastmem with h | h
    · omega
    · intro e; exact hcr (e ▸ h)
  have hlen : (ForLowering.splitBlocks B init p cond initB condB).length = B.length + 2 := by
    simp [ForLowering.splitBlocks]
  obtain ⟨lastB, hlastB⟩ : ∃ lastB,
      (ForLowering.splitBlocks B init p cond initB condB)[last]? = some lastB :=
    ⟨_, List.getElem?_eq_getElem (by omega)⟩
  refine ⟨lastB, hlastB, ?_⟩
  unfold ForLowering.matchAndRewrite
  simp only [hop, Option.bind, Operation.forRegion]
  rw [splitBlock_eq _ _ _ _ _ _ _ _ hinit]
  simp only []
  have hfront : FuncOp.front ⟨O, B.set init ⟨initB.numArguments, initB.operations.take p⟩ ++
      [⟨0, initB.operations.drop p⟩], R.map (insertAfter init B.length)⟩ region = some cond := by
    simp [FuncOp.front, hreg, insertAfter, Ne.symm hne]
  rw [hfront]
  simp only []
  have hc1 : (B.set init ⟨initB.numArguments, initB.operations.take p⟩ ++
      [⟨0, initB.operations.drop p⟩])[cond]? = some condB := by
    rw [List.getElem?_append_left (by simpa using hcondlt), List.getElem?_set_ne hne, hcond]
  rw [splitBlock_eq _ _ _ _ _ _ _ _ hc1]
  simp only [List.take_zero, List.drop_zero, List.length_append, List.length_set,
    List.length_singleton]
  have hB2 : (B.set init (Block.mk initB.numArguments (initB.operations.take p)) ++
        [Block.mk 0 (initB.operations.drop p)]).set cond (Block.mk condB.numArguments []) ++
      [Block.mk 0 condB.operations] = ForLowering.splitBlocks B init p cond initB condB := rfl
  rw [hB2]
  have hB2init : (ForLowering.splitBlocks B init p cond initB condB)[init]? =
      some ⟨initB.numArguments, initB.operations.take p⟩ := by
    unfold ForLowering.splitBlocks
    rw [List.getElem?_append_left (by simpa using by omega), List.getElem?_set_ne (Ne.symm hne),
      List.getElem?_append_left (by simpa using hinitlt), List.getElem?_set_self hinitlt]
  have hB2cond : (ForLowering.splitBlocks B init p cond initB condB)[cond]? =
      some ⟨condB.numArguments, []⟩ := by
    unfold ForLowering.splitBlocks
    rw [List.getElem?_append_left (by simpa using by omega),
      List.getElem?_set_self (by simpa using by omega)]
  clear hB2
  generalize ForLowering.splitBlocks B init p cond initB condB = B2 at *
  have hreg2 : (List.map (insertAfter cond (B.length + 1))
      (List.map (insertAfter init B.length) R))[region]? = some (cond :: (B.length + 1) :: rest) := by
    simp [hreg, insertAfter, Ne.symm hne, insertAfter_of_not_mem _ _ _ hni]
  have hback : FuncOp.back ⟨O, B2, List.map (insertAfter cond (B.length + 1))
      (List.map (insertAfter init B.length) R)⟩ region = some last := by
    simp only [FuncOp.back, hreg2]
    show (cond :: (B.length + 1) :: rest).getLast? = some last
    rw [List.getLast?_cons_cons, List.getLast?_eq_getLast _ (List.cons_ne_nil _ _), hlast]
  rw [hback]
  simp only []
  rw [inlineRegionBefore_eq _ _ _ _ _ _ _ _ hreg2]
  simp only []
  have hargv : FuncOp.getArgument ⟨O, B2, List.map
      (spliceBefore B.length (cond :: (B.length + 1) :: rest))
      ((List.map (insertAfter cond (B.length + 1))
        (List.map (insertAfter init B.length) R)).set region [])⟩ cond 0 =
      some (Value.blockArgument cond 0) := by
    simp [FuncOp.getArgument, hB2cond, harg]
  rw [hargv]
  simp only []
  rw [setInsertionPointToEnd_eq _ _ _ _ _ _ _ hlastB]
  simp only [List.getElem?_cons_succ, List.getElem?_cons_zero]
  rw [create_eq _ _ _ _ _ _ _ hlastB rfl]
  simp only [getResult, Option.isNone_some, Bool.false_eq_true, if_false]
  rw [create_eq _ _ _ _ _ ⟨lastB.numArguments, lastB.operations ++ [O.length]⟩ _
    (List.getElem?_set_self (by omega)) (by simp)]
  simp only [List.set_set]
  rw [setInsertionPointToEnd_eq _ _ _ _ _ _ ⟨initB.numArguments, initB.operations.take p⟩
    (by rw [List.getElem?_set_ne hlastinit, hB2init])]
  simp only [Option.isNone_some, Bool.or_self, Bool.false_eq_true, if_false]
  rw [create_eq _ _ _ _ _ ⟨initB.numArguments, initB.operations.take p⟩ _
    (by rw [List.getElem?_set_ne hlastinit, hB2init]) rfl]
  simp only []
  rw [setInsertionPointToEnd_eq _ _ _ _ _ _ ⟨condB.numArguments, []⟩
    (by rw [List.getElem?_set_ne hne, List.getElem?_set_ne hlastcond, hB2cond])]
  simp only []
  rw [create_eq _ _ _ _ _ ⟨condB.numArguments, []⟩ _
    (by rw [List.getElem?_set_ne hne, List.getElem?_set_ne hlastcond, hB2cond]) rfl]
  simp only []
  rw [create_eq _ _ _ _ _ ⟨condB.numArguments, [] ++ [(O ++
      [Operation.AddIOp (some (Value.blockArgument cond 0)) st] ++
      [Operation.BranchOp cond [some (Value.opResult O.length)]] ++
      [Operation.BranchOp cond [some lb]]).length]⟩ _
    (List.getElem?_set_self (by simp; omega)) (by simp)]
  simp [PatternRewriter.replaceOp, List.set_set]

theorem ForLowering_run_unresolved (O : List Operation) (B : List Block)
    (R : List (List Nat)) (init : Nat) (p : Nat) (op : Nat) (a b c : Option Value)
    (region : Nat) (cond : Nat) (rest : List Nat) (initB condB : Block)
    (lb ub st : Option Value)
    (hop : O[op]? = some (Operation.ForOp a b c region))
    (hinit : B[init]? = some initB)
    (hreg : R[region]? = some (cond :: rest))
    (hcond : B[cond]? = some condB)
    (harg : 0 < condB.numArguments)
    (hrest : ∀ x ∈ rest, x < B.length)
    (hne : init ≠ cond) (hni : init ∉ rest) (hcr : cond ∉ rest)
    (hb : (lb.isNone || ub.isNone) = true) :
    ∃ lastB : Block,
      (ForLowering.splitBlocks B init p cond initB condB)[((B.length + 1) :: rest).getLast
        (List.cons_ne_nil _ _)]? = some lastB ∧
      ForLowering.matchAndRewrite op [lb, ub, st] ⟨⟨O, B, R⟩, init, p⟩ =
        some (PatternMatchResult.matchFailure,
          ⟨⟨O ++ [Operation.AddIOp (some (Value.blockArgument cond 0)) st,
                Operation.BranchOp cond [some (Value.opResult O.length)]],
              (ForLowering.splitBlocks B init p cond initB condB).set
                (((B.length + 1) :: rest).getLast (List.cons_ne_nil _ _))
                ⟨lastB.numArguments, lastB.operations ++ [O.length, O.length + 1]⟩,
              (((R.map (insertAfter init B.length)).map (insertAfter cond (B.length + 1))).set
                  region []).map (spliceBefore B.length (cond :: (B.length + 1) :: rest))⟩,
            init, (initB.operations.take p).length⟩) := by
  have hinitlt : init < B.length := (List.getElem?_eq_some.mp hinit).1
  have hcondlt : cond < B.length := (List.getElem?_eq_some.mp hcond).1
  have hlastmem : ((B.length + 1) :: rest).getLast (List.cons_ne_nil _ _) ∈
      (B.length + 1) :: rest := List.getLast_mem _
  generalize hlast : ((B.length + 1) :: rest).getLast (List.cons_ne_nil _ _) = last at *
  have hlastlt : last < B.length + 2 := by
    rcases List.mem_cons.mp hlastmem with h | h
    · omega
    · have := hrest _ h; omega
  have hlastinit : last ≠ init := by
    rcases List.mem_cons.mp hlastmem with h | h
    · omega
    · intro e; exact hni (e ▸ h)
  have hlastcond : last ≠ cond := by
    rcases List.mem_cons.mp hlastmem with h | h
    · omega
    · intro e; exact hcr (e ▸ h)
  have hlen : (ForLowering.splitBlocks B init p cond initB condB).length = B.length + 2 := by
    simp [ForLowering.splitBlocks]
  obtain ⟨lastB, hlastB⟩ : ∃ lastB,
      (ForLowering.splitBlocks B init p cond initB condB)[last]? = some lastB :=
    ⟨_, List.getElem?_eq_getElem (by omega)⟩
  refine ⟨lastB, hlastB, ?_⟩
  unfold ForLowering.matchAndRewrite
  simp only [hop, Option.bind, Operation.forRegion]
  rw [splitBlock_eq _ _ _ _ _ _ _ _ hinit]
  simp only []
  have hfront : FuncOp.front ⟨O, B.set init ⟨initB.numArguments, initB.operations.take p⟩ ++
      [⟨0, initB.operations.drop p⟩], R.map (insertAfter init B.length)⟩ region = some cond := by
    simp [FuncOp.front, hreg, insertAfter, Ne.symm hne]
  rw [hfront]
  simp only []
  have hc1 : (B.set init ⟨initB.numArguments, initB.operations.take p⟩ ++
      [⟨0, initB.operations.drop p⟩])[cond]? = some condB := by
    rw [List.getElem?_append_left (by simpa using hcondlt), List.getElem?_set_ne hne, hcond]
  rw [splitBlock_eq _ _ _ _ _ _ _ _ hc1]
  simp only [List.take_zero, List.drop_zero, List.length_append, List.length_set,
    List.length_singleton]
  have hB2 : (B.set init (Block.mk initB.numArguments (initB.operations.take p)) ++
        [Block.mk 0 (initB.operations.drop p)]).set cond (Block.mk condB.numArguments []) ++
      [Block.mk 0 condB.operations] = ForLowering.splitBlocks B init p cond initB condB := rfl
  rw [hB2]
  have hB2init : (ForLowering.splitBlocks B init p cond initB condB)[init]? =
      some ⟨initB.numArguments, initB.operations.take p⟩ := by
    unfold ForLowering.splitBlocks
    rw [List.getElem?_append_left (by simpa using by omega), List.getElem?_set_ne (Ne.symm hne),
      List.getElem?_append_left (by simpa using hinitlt), List.getElem?_set_self hinitlt]
  have hB2cond : (ForLowering.splitBlocks B init p cond initB condB)[cond]? =
      some ⟨condB.numArguments, []⟩ := by
    unfold ForLowering.splitBlocks
    rw [List.getElem?_append_left (by simpa using by omega),
      List.getElem?_set_self (by simpa using by omega)]
  clear hB2
  generalize ForLowering.splitBlocks B init p cond initB condB = B2 at *
  have hreg2 : (List.map (insertAfter cond (B.length + 1))
      (List.map (insertAfter init B.length) R))[region]? = some (cond :: (B.length + 1) :: rest) := by
    simp [hreg, insertAfter, Ne.symm hne, insertAfter_of_not_mem _ _ _ hni]
  have hback : FuncOp.back ⟨O, B2, List.map (insertAfter cond (B.length + 1))
      (List.map (insertAfter init B.length) R)⟩ region = some last := by
    simp only [FuncOp.back, hreg2]
    show (cond :: (B.length + 1) :: rest).getLast? = some last
    rw [List.getLast?_cons_cons, List.getLast?_eq_getLast _ (List.cons_ne_nil _ _), hlast]
  rw [hback]
  simp only []
  rw [inlineRegionBefore_eq _ _ _ _ _ _ _ _ hreg2]
  simp only []
  have hargv : FuncOp.getArgument ⟨O, B2, List.map
      (spliceBefore B.length (cond :: (B.length + 1) :: rest))
      ((List.map (insertAfter cond (B.length + 1))
        (List.map (insertAfter init B.length) R)).set region [])⟩ cond 0 =
      some (Value.blockArgument cond 0) := by
    simp [FuncOp.getArgument, hB2cond, harg]
  rw [hargv]
  simp only []
  rw [setInsertionPointToEnd_eq _ _ _ _ _ _ _ hlastB]
  simp only [List.getElem?_cons_succ, List.getElem?_cons_zero]
  rw [create_eq _ _ _ _ _ _ _ hlastB rfl]
  simp only [getResult, Option.isNone_some, Bool.false_eq_true, if_false]
  rw [create_eq _ _ _ _ _ ⟨lastB.numArguments, lastB.operations ++ [O.length]⟩ _
    (List.getElem?_set_self (by omega)) (by simp)]
  simp only [List.set_set]
  rw [setInsertionPointToEnd_eq _ _ _ _ _ _ ⟨initB.numArguments, initB.operations.take p⟩
    (by rw [List.getElem?_set_ne hlastinit, hB2init])]
  simp only [List.getElem?_cons_zero, hb, if_true]
  simp

/-- The closed form of a successful `ForLowering` at a well-formed loop: the operations
created, the contents of every block and the block lists of the regions. -/
theorem ForLowering_spec (rewriter : PatternRewriter) (op region cond : Nat)
    (rest before after : List Nat) (initB condB : Block) (lb ub : Value) (st : Option Value)
    (site : ForSite rewriter op region cond rest before after initB condB) :
    ∃ rw' : PatternRewriter,
      ForLowering.matchAndRewrite op [some lb, some ub, st] rewriter =
        some (PatternMatchResult.matchSuccess, rw') ∧
      rw'.func.operations = rewriter.func.operations ++
        [Operation.AddIOp (some (Value.blockArgument cond 0)) st,
          Operation.BranchOp cond [some (Value.opResult rewriter.func.operations.length)],
          Operation.BranchOp cond [some lb],
          Operation.CmpIOp CmpIPredicate.SLT (some (Value.blockArgument cond 0)) (some ub),
          Operation.CondBranchOp (some (Value.opResult (rewriter.func.operations.length + 3)))
            (rewriter.func.blocks.length + 1) [] rewriter.func.blocks.length []] ∧
      rw'.func.regions =
        (((rewriter.func.regions.map
                  (insertAfter rewriter.insertionBlock rewriter.func.blocks.length)).map
                (insertAfter cond (rewriter.func.blocks.length + 1))).set region []).map
          (spliceBefore rewriter.func.blocks.length
            (cond :: (rewriter.func.blocks.length + 1) :: rest)) ∧
      rw'.func.blocks.length = rewriter.func.blocks.length + 2 ∧
      rw'.func.blocks[rewriter.insertionBlock]? =
        some ⟨initB.numArguments, before ++ [rewriter.func.operations.length + 2]⟩ ∧
      rw'.func.blocks[cond]? =
        some ⟨condB.numArguments,
          [rewriter.func.operations.length + 3, rewriter.func.operations.length + 4]⟩ ∧
      rw'.func.blocks[rewriter.func.blocks.length]? = some ⟨0, after⟩ ∧
      (rest = [] →
        rw'.func.blocks[rewriter.func.blocks.length + 1]? =
          some ⟨0, condB.operations ++
            [rewriter.func.operations.length, rewriter.func.operations.length + 1]⟩) ∧
      (∀ (hr : rest ≠ []) (lastB : Block),
        rewriter.func.blocks[rest.getLast hr]? = some lastB →
        rw'.func.blocks[rewriter.func.blocks.length + 1]? = some ⟨0, condB.operations⟩ ∧
        rw'.func.blocks[rest.getLast hr]? =
          some ⟨lastB.numArguments, lastB.operations ++
            [rewriter.func.operations.length, rewriter.func.operations.length + 1]⟩) ∧
      (∀ j blk, rewriter.func.blocks[j]? = some blk → j ≠ rewriter.insertionBlock → j ≠ cond →
        j ≠ ((rewriter.func.blocks.length + 1) :: rest).getLast (List.cons_ne_nil _ _) →
        rw'.func.blocks[j]? = some blk) := by
  obtain ⟨⟨O, B, R⟩, init, p⟩ := rewriter
  obtain ⟨⟨a, b, c, hop⟩, hinit, hops, hp, hreg, hcond, harg, hrest, hio, hcr, hnb, hna, hne⟩ := site
  simp only at hop hinit hp hreg hcond hrest hio hne ⊢
  have hne' : init ≠ cond := fun e => hio (e ▸ List.mem_cons_self _ _)
  have hni : init ∉ rest := fun h => hio (List.mem_cons_of_mem _ h)
  obtain ⟨lastB, hlastB, hrun⟩ := ForLowering_run O B R init p op a b c region cond rest initB
    condB lb ub st hop hinit hreg hcond harg hrest hne' hni hcr
  refine ⟨_, hrun, rfl, rfl, ?_⟩
  have hinitlt : init < B.length := (List.getElem?_eq_some.mp hinit).1
  have hcondlt : cond < B.length := (List.getElem?_eq_some.mp hcond).1
  have hoplt : op < O.length := (List.getElem?_eq_some.mp hop).1
  have hlastmem : ((B.length + 1) :: rest).getLast (List.cons_ne_nil _ _) ∈
      (B.length + 1) :: rest := List.getLast_mem _
  have hlastrest : ∀ hr : rest ≠ [],
      ((B.length + 1) :: rest).getLast (List.cons_ne_nil _ _) = rest.getLast hr := by
    intro hr
    exact List.getLast_cons hr
  generalize ((B.length + 1) :: rest).getLast (List.cons_ne_nil _ _) = last at *
  have hlastinit : last ≠ init := by
    rcases List.mem_cons.mp hlastmem with h | h
    · omega
    · intro e; exact hni (e ▸ h)
  have hlastcond : last ≠ cond := by
    rcases List.mem_cons.mp hlastmem with h | h
    · omega
    · intro e; exact hcr (e ▸ h)
  have hlastn : last ≠ B.length := by
    rcases List.mem_cons.mp hlastmem with h | h
    · omega
    · have := hrest _ h; omega
  have htake : initB.operations.take p = before := by
    rw [hops, hp]; simp
  have hdrop : initB.operations.drop p = op :: after := by
    rw [hops, hp]; simp
  have hcondops : op ∉ condB.operations := hne cond condB hcond (Ne.symm hne')
  have hlen2 : (ForLowering.splitBlocks B init p cond initB condB).length = B.length + 2 := by
    simp [ForLowering.splitBlocks]
  have hB2end : (ForLowering.splitBlocks B init p cond initB condB)[B.length]? =
      some ⟨0, op :: after⟩ := by
    unfold ForLowering.splitBlocks
    rw [List.getElem?_append_left (by simp), List.getElem?_set_ne (by omega),
      List.getElem?_append_right (by simp)]
    simp [hdrop]
  have hB2fb : (ForLowering.splitBlocks B init p cond initB condB)[B.length + 1]? =
      some ⟨0, condB.operations⟩ := by
    unfold ForLowering.splitBlocks
    rw [List.getElem?_append_right (by simp)]
    simp
  have hB2old : ∀ j, j < B.length → j ≠ init → j ≠ cond →
      (ForLowering.splitBlocks B init p cond initB condB)[j]? = B[j]? := by
    intro j hj h1 h2
    unfold ForLowering.splitBlocks
    rw [List.getElem?_append_left (by simpa using by omega), List.getElem?_set_ne (Ne.symm h2),
      List.getElem?_append_left (by simpa using hj), List.getElem?_set_ne (Ne.symm h1)]
  simp only [List.length_map, List.length_set, hlen2, List.getElem?_map, true_and]
  refine ⟨?_, ?_, ?_, ?_, ?_, ?_⟩
  · rw [List.getElem?_set_ne (Ne.symm hne'), List.getElem?_set_self (by simp [hlen2]; omega)]
    simp only [Option.map_some', htake]
    rw [List.erase_of_not_mem]
    simp only [List.mem_append, List.mem_singleton, not_or]
    exact ⟨hnb, by omega⟩
  · rw [List.getElem?_set_self (by simp [hlen2]; omega)]
    simp only [Option.map_some']
    rw [List.erase_of_not_mem]
    simp only [List.mem_cons, List.mem_singleton, not_or, List.not_mem_nil, or_false]
    omega
  · rw [List.getElem?_set_ne (by omega), List.getElem?_set_ne (by omega),
      List.getElem?_set_ne hlastn, hB2end]
    simp
  · intro hr
    subst hr
    have hl : last = B.length + 1 := by simpa using hlastmem
    subst hl
    rw [hB2fb] at hlastB
    cases hlastB
    rw [List.getElem?_set_ne (by omega), List.getElem?_set_ne (by omega),
      List.getElem?_set_self (by omega)]
    simp only [Option.map_some']
    rw [List.erase_of_not_mem]
    simp only [List.mem_append, List.mem_cons, List.mem_singleton, not_or, List.not_mem_nil,
      or_false]
    exact ⟨hcondops, by omega, by omega⟩
  · intro hr lastB' hlastB'
    have hl := hlastrest hr
    have hlastlt : last < B.length := hl ▸ hrest _ (List.getLast_mem hr)
    rw [← hl] at hlastB' ⊢
    rw [hB2old last hlastlt hlastinit hlastcond, hlastB'] at hlastB
    cases hlastB
    constructor
    · rw [List.getElem?_set_ne (by omega), List.getElem?_set_ne (by omega),
        List.getElem?_set_ne (by omega), hB2fb]
      simp only [Option.map_some']
      rw [List.erase_of_not_mem hcondops]
    · rw [List.getElem?_set_ne (Ne.symm hlastcond), List.getElem?_set_ne (Ne.symm hlastinit),
        List.getElem?_set_self (by omega)]
      simp only [Option.map_some']
      rw [List.erase_of_not_mem]
      simp only [List.mem_append, List.mem_cons, List.mem_singleton, not_or, List.not_mem_nil,
        or_false]
      exact ⟨hne last lastB hlastB' hlastinit, by omega, by omega⟩
  · intro j blk hj h1 h2 h3
    have hjlt : j < B.length := (List.getElem?_eq_some.mp hj).1
    rw [List.getElem?_set_ne (Ne.symm h2), List.getElem?_set_ne (Ne.symm h1),
      List.getElem?_set_ne (Ne.symm h3), hB2old j hjlt h1 h2, hj]
    simp only [Option.map_some']
    rw [List.erase_of_not_mem (hne j blk hj h1)]

/-- Every block of the function after `ForLowering` at a well-formed loop, by kind: the
init block, the condition block, the end block, the first body block, another body
block, or a block that has nothing to do with the loop. -/
theorem ForLowering_blocks (rewriter rw' : PatternRewriter) (op region cond : Nat)
    (rest before after : List Nat) (initB condB : Block) (lb ub : Value) (st : Option Value)
    (site : ForSite rewriter op region cond rest before after initB condB)
    (hrun : ForLowering.matchAndRewrite op [some lb, some ub, st] rewriter =
      some (PatternMatchResult.matchSuccess, rw'))
    (j : Nat) (blk' : Block) (hj : rw'.func.blocks[j]? = some blk') :
    (j = rewriter.insertionBlock ∧
        blk'.operations = before ++ [rewriter.func.operations.length + 2]) ∨
      (j = cond ∧ blk'.operations =
        [rewriter.func.operations.length + 3, rewriter.func.operations.length + 4]) ∨
      (j = rewriter.func.blocks.length ∧ blk'.operations = after) ∨
      (j = rewriter.func.blocks.length + 1 ∧
        (blk'.operations = condB.operations ∨
          blk'.operations = condB.operations ++
            [rewriter.func.operations.length, rewriter.func.operations.length + 1])) ∨
      (j ∈ rest ∧ ∃ blk, rewriter.func.blocks[j]? = some blk ∧
        (blk'.operations = blk.operations ∨
          blk'.operations = blk.operations ++
            [rewriter.func.operations.length, rewriter.func.operations.length + 1])) ∨
      (j ∉ rewriter.insertionBlock :: cond :: rest ∧ rewriter.func.blocks[j]? = some blk') := by
  obtain ⟨rw'', hrun', -, -, hlen, hinit, hcond, hend, hfb1, hfb2, hother⟩ :=
    ForLowering_spec rewriter op region cond rest before after initB condB lb ub st site
  obtain rfl : rw'' = rw' := by
    rw [hrun] at hrun'
    exact (Prod.mk.inj (Option.some.inj hrun')).2.symm
  have hjlt : j < rewriter.func.blocks.length + 2 := hlen ▸ (List.getElem?_eq_some.mp hj).1
  by_cases h1 : j = rewriter.insertionBlock
  · subst h1
    rw [hinit] at hj
    cases hj
    exact Or.inl ⟨rfl, rfl⟩
  by_cases h2 : j = cond
  · subst h2
    rw [hcond] at hj
    cases hj
    exact Or.inr (Or.inl ⟨rfl, rfl⟩)
  by_cases h3 : j = rewriter.func.blocks.length
  · subst h3
    rw [hend] at hj
    cases hj
    exact Or.inr (Or.inr (Or.inl ⟨rfl, rfl⟩))
  by_cases hr : rest = []
  · by_cases h4 : j = rewriter.func.blocks.length + 1
    · subst h4
      rw [hfb1 hr] at hj
      cases hj
      exact Or.inr (Or.inr (Or.inr (Or.inl ⟨rfl, Or.inr rfl⟩)))
    · have hjn : j < rewriter.func.blocks.length := by omega
      obtain ⟨blk, hblk⟩ : ∃ blk, rewriter.func.blocks[j]? = some blk :=
        ⟨_, List.getElem?_eq_getElem hjn⟩
      have := hother j blk hblk h1 h2 (by subst hr; simpa using h4)
      rw [this] at hj
      cases hj
      refine Or.inr (Or.inr (Or.inr (Or.inr (Or.inr ⟨?_, hblk⟩))))
      subst hr
      simp [h1, h2]
  · obtain ⟨lastB, hlastB⟩ : ∃ lastB, rewriter.func.blocks[rest.getLast hr]? = some lastB :=
      ⟨_, List.getElem?_eq_getElem (site.restValid _ (List.getLast_mem hr))⟩
    obtain ⟨hfb, hlast⟩ := hfb2 hr lastB hlastB
    by_cases h4 : j = rewriter.func.blocks.length + 1
    · subst h4
      rw [hfb] at hj
      cases hj
      exact Or.inr (Or.inr (Or.inr (Or.inl ⟨rfl, Or.inl rfl⟩)))
    by_cases h5 : j = rest.getLast hr
    · subst h5
      rw [hlast] at hj
      cases hj
      exact Or.inr (Or.inr (Or.inr (Or.inr (Or.inl
        ⟨List.getLast_mem hr, lastB, hlastB, Or.inr rfl⟩))))
    · have hjn : j < rewriter.func.blocks.length := by omega
      obtain ⟨blk, hblk⟩ : ∃ blk, rewriter.func.blocks[j]? = some blk :=
        ⟨_, List.getElem?_eq_getElem hjn⟩
      have := hother j blk hblk h1 h2 (by rw [List.getLast_cons hr]; exact h5)
      rw [this] at hj
      cases hj
      by_cases h6 : j ∈ rest
      · exact Or.inr (Or.inr (Or.inr (Or.inr (Or.inl ⟨h6, blk', hblk, Or.inl rfl⟩))))
      · refine Or.inr (Or.inr (Or.inr (Or.inr (Or.inr ⟨?_, hblk⟩))))
        simp [h1, h2, h6]

/-! ## The closed form of a successful conditional lowering -/

theorem IfLowering_run_noelse (O : List Operation) (B : List Block) (R : List (List Nat))
    (cb p op : Nat) (c : Option Value) (thenR elseR : Nat) (t : Nat) (trest : List Nat)
    (condB : Block) (cv : Option Value)
    (hop : O[op]? = some (Operation.IfOp c thenR elseR))
    (hcb : B[cb]? = some condB)
    (hthen : R[thenR]? = some (t :: trest))
    (helse : R[elseR]? = some [])
    (hlt : ∀ x ∈ t :: trest, x < B.length)
    (hni : cb ∉ t :: trest) :
    ∃ tbB : Block,
      B[(t :: trest).getLast (List.cons_ne_nil _ _)]? = some tbB ∧
      IfLowering.matchAndRewrite op [cv] ⟨⟨O, B, R⟩, cb, p⟩ =
        some (PatternMatchResult.matchSuccess,
          ⟨⟨O ++ [Operation.BranchOp B.length [],
                Operation.CondBranchOp cv t [] B.length []],
              (((B.set cb (Block.mk condB.numArguments (condB.operations.take p)) ++
                        [Block.mk 0 (condB.operations.drop p)]).set
                      ((t :: trest).getLast (List.cons_ne_nil _ _))
                      (Block.mk tbB.numArguments (tbB.operations ++ [O.length]))).set
                  cb (Block.mk condB.numArguments (condB.operations.take p ++ [O.length + 1]))).map
                fun blk => { blk with operations := blk.operations.erase op },
              ((R.map (insertAfter cb B.length)).set thenR []).map
                (spliceBefore B.length (t :: trest))⟩,
            cb, (condB.operations.take p).length + 1⟩) := by
  have hcblt : cb < B.length := (List.getElem?_eq_some.mp hcb).1
  have htbmem : (t :: trest).getLast (List.cons_ne_nil _ _) ∈ t :: trest := List.getLast_mem _
  generalize htb : (t :: trest).getLast (List.cons_ne_nil _ _) = tb at *
  have htblt : tb < B.length := hlt _ htbmem
  have htbcb : tb ≠ cb := fun e => hni (e ▸ htbmem)
  obtain ⟨tbB, htbB⟩ : ∃ tbB, B[tb]? = some tbB := ⟨_, List.getElem?_eq_getElem htblt⟩
  refine ⟨tbB, htbB, ?_⟩
  have hte : thenR ≠ elseR := by
    intro e; rw [e, helse] at hthen; cases hthen
  unfold IfLowering.matchAndRewrite
  simp only [hop, Option.bind, Operation.ifRegions]
  rw [splitBlock_eq _ _ _ _ _ _ _ _ hcb]
  simp only []
  have hreg1 : (List.map (insertAfter cb B.length) R)[thenR]? = some (t :: trest) := by
    simp [hthen, insertAfter_of_not_mem _ _ _ hni]
  have hfront : FuncOp.front ⟨O, B.set cb (Block.mk condB.numArguments (condB.operations.take p)) ++
      [(Block.mk 0 (condB.operations.drop p))], R.map (insertAfter cb B.length)⟩ thenR = some t := by
    simp only [FuncOp.front, hreg1]; rfl
  have hback : FuncOp.back ⟨O, B.set cb (Block.mk condB.numArguments (condB.operations.take p)) ++
      [(Block.mk 0 (condB.operations.drop p))], R.map (insertAfter cb B.length)⟩ thenR = some tb := by
    simp only [FuncOp.back, hreg1]
    show (t :: trest).getLast? = some tb
    rw [List.getLast?_eq_getLast _ (List.cons_ne_nil _ _), htb]
  rw [hfront]
  simp only []
  rw [hback]
  simp only []
  have htb1 : (B.set cb (Block.mk condB.numArguments (condB.operations.take p)) ++
      [(Block.mk 0 (condB.operations.drop p))])[tb]? = some tbB := by
    rw [List.getElem?_append_left (by simpa using htblt), List.getElem?_set_ne (Ne.symm htbcb),
      htbB]
  rw [setInsertionPointToEnd_eq _ _ _ _ _ _ _ htb1]
  simp only []
  rw [create_eq _ _ _ _ _ _ _ htb1 rfl]
  simp only []
  rw [inlineRegionBefore_eq _ _ _ _ _ _ _ _ hreg1]
  simp only []
  have hempty : FuncOp.empty ⟨O ++ [Operation.BranchOp B.length []],
      (B.set cb (Block.mk condB.numArguments (condB.operations.take p)) ++
        [(Block.mk 0 (condB.operations.drop p))]).set tb (Block.mk tbB.numArguments (tbB.operations ++ [O.length])),
      ((R.map (insertAfter cb B.length)).set thenR []).map
        (spliceBefore B.length (t :: trest))⟩ elseR = some true := by
    simp [FuncOp.empty, List.getElem?_set_ne hte, helse, insertAfter, spliceBefore]
  rw [hempty]
  simp only []
  have hcb2 : ((B.set cb (Block.mk condB.numArguments (condB.operations.take p)) ++
        [(Block.mk 0 (condB.operations.drop p))]).set tb
          (Block.mk tbB.numArguments (tbB.operations ++ [O.length])))[cb]? =
      some (Block.mk condB.numArguments (condB.operations.take p)) := by
    rw [List.getElem?_set_ne htbcb, List.getElem?_append_left (by simpa using hcblt),
      List.getElem?_set_self hcblt]
  rw [setInsertionPointToEnd_eq _ _ _ _ _ _ _ hcb2]
  simp only [List.getElem?_cons_zero]
  rw [create_eq _ _ _ _ _ _ _ hcb2 rfl]
  simp [PatternRewriter.replaceOp]

theorem IfLowering_run_else (O : List Operation) (B : List Block) (R : List (List Nat))
    (cb p op : Nat) (c : Option Value) (thenR elseR : Nat) (t : Nat) (trest : List Nat)
    (e : Nat) (erest : List Nat) (condB : Block) (cv : Option Value)
    (hop : O[op]? = some (Operation.IfOp c thenR elseR))
    (hcb : B[cb]? = some condB)
    (hthen : R[thenR]? = some (t :: trest))
    (helse : R[elseR]? = some (e :: erest))
    (hte : thenR ≠ elseR)
    (hlt : ∀ x ∈ t :: trest, x < B.length)
    (hlt' : ∀ x ∈ e :: erest, x < B.length)
    (hni : cb ∉ t :: trest)
    (hni' : cb ∉ e :: erest)
    (hbacks : (e :: erest).getLast (List.cons_ne_nil _ _) ≠
      (t :: trest).getLast (List.cons_ne_nil _ _)) :
    ∃ tbB ebB : Block,
      B[(t :: trest).getLast (List.cons_ne_nil _ _)]? = some tbB ∧
      B[(e :: erest).getLast (List.cons_ne_nil _ _)]? = some ebB ∧
      IfLowering.matchAndRewrite op [cv] ⟨⟨O, B, R⟩, cb, p⟩ =
        some (PatternMatchResult.matchSuccess,
          ⟨⟨O ++ [Operation.BranchOp B.length [], Operation.BranchOp B.length [],
                Operation.CondBranchOp cv t [] e []],
              ((((B.set cb (Block.mk condB.numArguments (condB.operations.take p)) ++
                          [Block.mk 0 (condB.operations.drop p)]).set
                        ((t :: trest).getLast (List.cons_ne_nil _ _))
                        (Block.mk tbB.numArguments (tbB.operations ++ [O.length]))).set
                      ((e :: erest).getLast (List.cons_ne_nil _ _))
                      (Block.mk ebB.numArguments (ebB.operations ++ [O.length + 1]))).set
                  cb (Block.mk condB.numArguments (condB.operations.take p ++ [O.length + 2]))).map
                fun blk => { blk with operations := blk.operations.erase op },
              ((((R.map (insertAfter cb B.length)).set thenR []).map
                    (spliceBefore B.length (t :: trest))).set elseR []).map
                (spliceBefore B.length (e :: erest))⟩,
            cb, (condB.operations.take p).length + 1⟩) := by
  have hcblt : cb < B.length := (List.getElem?_eq_some.mp hcb).1
  have htbmem : (t :: trest).getLast (List.cons_ne_nil _ _) ∈ t :: trest := List.getLast_mem _
  have hebmem : (e :: erest).getLast (List.cons_ne_nil _ _) ∈ e :: erest := List.getLast_mem _
  generalize htb : (t :: trest).getLast (List.cons_ne_nil _ _) = tb at *
  generalize heb : (e :: erest).getLast (List.cons_ne_nil _ _) = eb at *
  have htblt : tb < B.length := hlt _ htbmem
  have heblt : eb < B.length := hlt' _ hebmem
  have htbcb : tb ≠ cb := fun h => hni (h ▸ htbmem)
  have hebcb : eb ≠ cb := fun h => hni' (h ▸ hebmem)
  obtain ⟨tbB, htbB⟩ : ∃ tbB, B[tb]? = some tbB := ⟨_, List.getElem?_eq_getElem htblt⟩
  obtain ⟨ebB, hebB⟩ : ∃ ebB, B[eb]? = some ebB := ⟨_, List.getElem?_eq_getElem heblt⟩
  refine ⟨tbB, ebB, htbB, hebB, ?_⟩
  have hnth : B.length ∉ e :: erest := fun h => Nat.lt_irrefl _ (hlt' _ h)
  unfold IfLowering.matchAndRewrite
  simp only [hop, Option.bind, Operation.ifRegions]
  rw [splitBlock_eq _ _ _ _ _ _ _ _ hcb]
  simp only []
  have hreg1 : (List.map (insertAfter cb B.length) R)[thenR]? = some (t :: trest) := by
    simp [hthen, insertAfter_of_not_mem _ _ _ hni]
  have hfront : FuncOp.front ⟨O, B.set cb (Block.mk condB.numArguments (condB.operations.take p)) ++
      [Block.mk 0 (condB.operations.drop p)], R.map (insertAfter cb B.length)⟩ thenR = some t := by
    simp only [FuncOp.front, hreg1]; rfl
  have hback : FuncOp.back ⟨O, B.set cb (Block.mk condB.numArguments (condB.operations.take p)) ++
      [Block.mk 0 (condB.operations.drop p)], R.map (insertAfter cb B.length)⟩ thenR = some tb := by
    simp only [FuncOp.back, hreg1]
    show (t :: trest).getLast? = some tb
    rw [List.getLast?_eq_getLast _ (List.cons_ne_nil _ _), htb]
  rw [hfront]
  simp only []
  rw [hback]
  simp only []
  have htb1 : (B.set cb (Block.mk condB.numArguments (condB.operations.take p)) ++
      [Block.mk 0 (condB.operations.drop p)])[tb]? = some tbB := by
    rw [List.getElem?_append_left (by simpa using htblt), List.getElem?_set_ne (Ne.symm htbcb),
      htbB]
  rw [setInsertionPointToEnd_eq _ _ _ _ _ _ _ htb1]
  simp only []
  rw [create_eq _ _ _ _ _ _ _ htb1 rfl]
  simp only []
  rw [inlineRegionBefore_eq _ _ _ _ _ _ _ _ hreg1]
  simp only []
  have hreg2 : (((R.map (insertAfter cb B.length)).set thenR []).map
        (spliceBefore B.length (t :: trest)))[elseR]? = some (e :: erest) := by
    simp [List.getElem?_set_ne hte, helse, insertAfter_of_not_mem _ _ _ hni',
      spliceBefore_of_not_mem _ _ _ hnth]
  have hempty : FuncOp.empty ⟨O ++ [Operation.BranchOp B.length []],
      (B.set cb (Block.mk condB.numArguments (condB.operations.take p)) ++
        [Block.mk 0 (condB.operations.drop p)]).set tb
          (Block.mk tbB.numArguments (tbB.operations ++ [O.length])),
      ((R.map (insertAfter cb B.length)).set thenR []).map
        (spliceBefore B.length (t :: trest))⟩ elseR = some false := by
    simp only [FuncOp.empty, hreg2]; rfl
  have hfront2 : FuncOp.front ⟨O ++ [Operation.BranchOp B.length []],
      (B.set cb (Block.mk condB.numArguments (condB.operations.take p)) ++
        [Block.mk 0 (condB.operations.drop p)]).set tb
          (Block.mk tbB.numArguments (tbB.operations ++ [O.length])),
      ((R.map (insertAfter cb B.length)).set thenR []).map
        (spliceBefore B.length (t :: trest))⟩ elseR = some e := by
    simp only [FuncOp.front, hreg2]; rfl
  have hback2 : FuncOp.back ⟨O ++ [Operation.BranchOp B.length []],
      (B.set cb (Block.mk condB.numArguments (condB.operations.take p)) ++
        [Block.mk 0 (condB.operations.drop p)]).set tb
          (Block.mk tbB.numArguments (tbB.operations ++ [O.length])),
      ((R.map (insertAfter cb B.length)).set thenR []).map
        (spliceBefore B.length (t :: trest))⟩ elseR = some eb := by
    simp only [FuncOp.back, hreg2]
    show (e :: erest).getLast? = some eb
    rw [List.getLast?_eq_getLast _ (List.cons_ne_nil _ _), heb]
  rw [hempty]
  simp only [Bool.not_false, if_true]
  rw [hfront2]
  simp only []
  rw [hback2]
  simp only []
  have heb2 : ((B.set cb (Block.mk condB.numArguments (condB.operations.take p)) ++
        [Block.mk 0 (condB.operations.drop p)]).set tb
          (Block.mk tbB.numArguments (tbB.operations ++ [O.length])))[eb]? = some ebB := by
    rw [List.getElem?_set_ne (Ne.symm hbacks), List.getElem?_append_left (by simpa using heblt),
      List.getElem?_set_ne (Ne.symm hebcb), hebB]
  rw [setInsertionPointToEnd_eq _ _ _ _ _ _ _ heb2]
  simp only []
  rw [create_eq _ _ _ _ _ _ _ heb2 rfl]
  simp only []
  rw [inlineRegionBefore_eq _ _ _ _ _ _ _ _ hreg2]
  simp only []
  have hcb2 : (((B.set cb (Block.mk condB.numArguments (condB.operations.take p)) ++
        [Block.mk 0 (condB.operations.drop p)]).set tb
          (Block.mk tbB.numArguments (tbB.operations ++ [O.length]))).set eb
          (Block.mk ebB.numArguments (ebB.operations ++
            [(O ++ [Operation.BranchOp B.length []]).length])))[cb]? =
      some (Block.mk condB.numArguments (condB.operations.take p)) := by
    rw [List.getElem?_set_ne hebcb, List.getElem?_set_ne htbcb,
      List.getElem?_append_left (by simpa using hcblt), List.getElem?_set_self hcblt]
  rw [setInsertionPointToEnd_eq _ _ _ _ _ _ _ hcb2]
  simp only [List.getElem?_cons_zero]
  rw [create_eq _ _ _ _ _ _ _ hcb2 rfl]
  simp [PatternRewriter.replaceOp]

/-- The closed form of a successful `IfLowering` at a well-formed conditional whose
"else" region is empty. -/
theorem IfLowering_spec_noelse (rewriter : PatternRewriter) (op thenRegion elseRegion : Nat)
    (t : Nat) (trest before after : List Nat) (condB : Block) (cv : Option Value)
    (site : IfSite rewriter op thenRegion elseRegion (t :: trest) [] before after condB) :
    ∃ rw' : PatternRewriter,
      IfLowering.matchAndRewrite op [cv] rewriter =
        some (PatternMatchResult.matchSuccess, rw') ∧
      rw'.func.operations = rewriter.func.operations ++
        [Operation.BranchOp rewriter.func.blocks.length [],
          Operation.CondBranchOp cv t [] rewriter.func.blocks.length []] ∧
      rw'.func.regions =
        ((rewriter.func.regions.map
              (insertAfter rewriter.insertionBlock rewriter.func.blocks.length)).set
            thenRegion []).map (spliceBefore rewriter.func.blocks.length (t :: trest)) ∧
      rw'.func.blocks.length = rewriter.func.blocks.length + 1 ∧
      rw'.func.blocks[rewriter.insertionBlock]? =
        some ⟨condB.numArguments, before ++ [rewriter.func.operations.length + 1]⟩ ∧
      rw'.func.blocks[rewriter.func.blocks.length]? = some ⟨0, after⟩ ∧
      (∀ tbB : Block,
        rewriter.func.blocks[(t :: trest).getLast (List.cons_ne_nil _ _)]? = some tbB →
        rw'.func.blocks[(t :: trest).getLast (List.cons_ne_nil _ _)]? =
          some ⟨tbB.numArguments, tbB.operations ++ [rewriter.func.operations.length]⟩) ∧
      (∀ j blk, rewriter.func.blocks[j]? = some blk → j ≠ rewriter.insertionBlock →
        j ≠ (t :: trest).getLast (List.cons_ne_nil _ _) → rw'.func.blocks[j]? = some blk) := by
  obtain ⟨⟨O, B, R⟩, cb, p⟩ := rewriter
  obtain ⟨⟨c, hop⟩, hcb, hops, hp, hthen, helse, -, hte, hlt, -, hni, -, -, hnb, hna, hne⟩ := site
  simp only at hop hcb hp hthen helse hlt hni hne ⊢
  obtain ⟨tbB, htbB, hrun⟩ := IfLowering_run_noelse O B R cb p op c thenRegion elseRegion t trest
    condB cv hop hcb hthen helse hlt hni
  refine ⟨_, hrun, rfl, rfl, ?_⟩
  have hcblt : cb < B.length := (List.getElem?_eq_some.mp hcb).1
  have hoplt : op < O.length := (List.getElem?_eq_some.mp hop).1
  have htbmem : (t :: trest).getLast (List.cons_ne_nil _ _) ∈ t :: trest := List.getLast_mem _
  generalize (t :: trest).getLast (List.cons_ne_nil _ _) = tb at *
  have htblt : tb < B.length := hlt _ htbmem
  have htbcb : tb ≠ cb := fun h => hni (h ▸ htbmem)
  have htake : condB.operations.take p = before := by
    rw [hops, hp]; simp
  have hdrop : condB.operations.drop p = op :: after := by
    rw [hops, hp]; simp
  simp only [List.length_map, List.length_set, List.length_append, List.length_singleton,
    List.getElem?_map, true_and]
  refine ⟨?_, ?_, ?_, ?_⟩
  · rw [List.getElem?_set_self (by simp; omega)]
    simp only [Option.map_some', htake]
    rw [List.erase_of_not_mem]
    simp only [List.mem_append, List.mem_singleton, not_or]
    exact ⟨hnb, by omega⟩
  · rw [List.getElem?_set_ne (by omega), List.getElem?_set_ne (by omega),
      List.getElem?_append_right (by simp)]
    simp [hdrop]
  · intro tbB' htbB'
    have heq : tbB' = tbB := Option.some.inj (htbB'.symm.trans htbB)
    subst heq
    rw [List.getElem?_set_ne (Ne.symm htbcb), List.getElem?_set_self (by simp; omega)]
    simp only [Option.map_some']
    rw [List.erase_of_not_mem]
    simp only [List.mem_append, List.mem_singleton, not_or]
    exact ⟨hne tb tbB' htbB' htbcb, by omega⟩
  · intro j blk hj h1 h2
    have hjlt : j < B.length := (List.getElem?_eq_some.mp hj).1
    rw [List.getElem?_set_ne (Ne.symm h1), List.getElem?_set_ne (Ne.symm h2),
      List.getElem?_append_left (by simpa using hjlt), List.getElem?_set_ne (Ne.symm h1), hj]
    simp only [Option.map_some']
    rw [List.erase_of_not_mem (hne j blk hj h1)]

/-- The closed form of a successful `IfLowering` at a well-formed conditional whose
"else" region is not empty. -/
theorem IfLowering_spec_else (rewriter : PatternRewriter) (op thenRegion elseRegion : Nat)
    (t : Nat) (trest : List Nat) (e : Nat) (erest before after : List Nat) (condB : Block)
    (cv : Option Value)
    (site : IfSite rewriter op thenRegion elseRegion (t :: trest) (e :: erest) before after
      condB) :
    ∃ rw' : PatternRewriter,
      IfLowering.matchAndRewrite op [cv] rewriter =
        some (PatternMatchResult.matchSuccess, rw') ∧
      rw'.func.operations = rewriter.func.operations ++
        [Operation.BranchOp rewriter.func.blocks.length [],
          Operation.BranchOp rewriter.func.blocks.length [],
          Operation.CondBranchOp cv t [] e []] ∧
      rw'.func.regions =
        ((((rewriter.func.regions.map
                  (insertAfter rewriter.insertionBlock rewriter.func.blocks.length)).set
                thenRegion []).map (spliceBefore rewriter.func.blocks.length (t :: trest))).set
            elseRegion []).map (spliceBefore rewriter.func.blocks.length (e :: erest)) ∧
      rw'.func.blocks.length = rewriter.func.blocks.length + 1 ∧
      rw'.func.blocks[rewriter.insertionBlock]? =
        some ⟨condB.numArguments, before ++ [rewriter.func.operations.length + 2]⟩ ∧
      rw'.func.blocks[rewriter.func.blocks.length]? = some ⟨0, after⟩ ∧
      (∀ tbB : Block,
        rewriter.func.blocks[(t :: trest).getLast (List.cons_ne_nil _ _)]? = some tbB →
        rw'.func.blocks[(t :: trest).getLast (List.cons_ne_nil _ _)]? =
          some ⟨tbB.numArguments, tbB.operations ++ [rewriter.func.operations.length]⟩) ∧
      (∀ ebB : Block,
        rewriter.func.blocks[(e :: erest).getLast (List.cons_ne_nil _ _)]? = some ebB →
        rw'.func.blocks[(e :: erest).getLast (List.cons_ne_nil _ _)]? =
          some ⟨ebB.numArguments, ebB.operations ++ [rewriter.func.operations.length + 1]⟩) ∧
      (∀ j blk, rewriter.func.blocks[j]? = some blk → j ≠ rewriter.insertionBlock →
        j ≠ (t :: trest).getLast (List.cons_ne_nil _ _) →
        j ≠ (e :: erest).getLast (List.cons_ne_nil _ _) → rw'.func.blocks[j]? = some blk) := by
  obtain ⟨⟨O, B, R⟩, cb, p⟩ := rewriter
  obtain ⟨⟨c, hop⟩, hcb, hops, hp, hthen, helse, -, hte, hlt, hlt', hni, hni', hbk, hnb, hna,
    hne⟩ := site
  simp only at hop hcb hp hthen helse hlt hlt' hni hni' hne ⊢
  have hbacks : (e :: erest).getLast (List.cons_ne_nil _ _) ≠
      (t :: trest).getLast (List.cons_ne_nil _ _) := by
    intro h
    exact hbk _ (List.getLast?_eq_getLast _ (List.cons_ne_nil _ _)) _
      (List.getLast?_eq_getLast _ (List.cons_ne_nil _ _)) h.symm
  obtain ⟨tbB, ebB, htbB, hebB, hrun⟩ := IfLowering_run_else O B R cb p op c thenRegion
    elseRegion t trest e erest condB cv hop hcb hthen helse hte hlt hlt' hni hni' hbacks
  refine ⟨_, hrun, rfl, rfl, ?_⟩
  have hcblt : cb < B.length := (List.getElem?_eq_some.mp hcb).1
  have hoplt : op < O.length := (List.getElem?_eq_some.mp hop).1
  have htbmem : (t :: trest).getLast (List.cons_ne_nil _ _) ∈ t :: trest := List.getLast_mem _
  have hebmem : (e :: erest).getLast (List.cons_ne_nil _ _) ∈ e :: erest := List.getLast_mem _
  generalize (t :: trest).getLast (List.cons_ne_nil _ _) = tb at *
  generalize (e :: erest).getLast (List.cons_ne_nil _ _) = eb at *
  have htblt : tb < B.length := hlt _ htbmem
  have heblt : eb < B.length := hlt' _ hebmem
  have htbcb : tb ≠ cb := fun h => hni (h ▸ htbmem)
  have hebcb : eb ≠ cb := fun h => hni' (h ▸ hebmem)
  have htake : condB.operations.take p = before := by
    rw [hops, hp]; simp
  have hdrop : condB.operations.drop p = op :: after := by
    rw [hops, hp]; simp
  simp only [List.length_map, List.length_set, List.length_append, List.length_singleton,
    List.getElem?_map, true_and]
  refine ⟨?_, ?_, ?_, ?_, ?_⟩
  · rw [List.getElem?_set_self (by simp; omega)]
    simp only [Option.map_some', htake]
    rw [List.erase_of_not_mem]
    simp only [List.mem_append, List.mem_singleton, not_or]
    exact ⟨hnb, by omega⟩
  · rw [List.getElem?_set_ne (by omega), List.getElem?_set_ne (by omega),
      List.getElem?_set_ne (by omega), List.getElem?_append_right (by simp)]
    simp [hdrop]
  · intro tbB' htbB'
    have heq : tbB' = tbB := Option.some.inj (htbB'.symm.trans htbB)
    subst heq
    rw [List.getElem?_set_ne (Ne.symm htbcb), List.getElem?_set_ne hbacks,
      List.getElem?_set_self (by simp; omega)]
    simp only [Option.map_some']
    rw [List.erase_of_not_mem]
    simp only [List.mem_append, List.mem_singleton, not_or]
    exact ⟨hne tb tbB' htbB' htbcb, by omega⟩
  · intro ebB' hebB'
    have heq : ebB' = ebB := Option.some.inj (hebB'.symm.trans hebB)
    subst heq
    rw [List.getElem?_set_ne (Ne.symm hebcb), List.getElem?_set_self (by simp; omega)]
    simp only [Option.map_some']
    rw [List.erase_of_not_mem]
    simp only [List.mem_append, List.mem_singleton, not_or]
    exact ⟨hne eb ebB' hebB' hebcb, by omega⟩
  · intro j blk hj h1 h2 h3
    have hjlt : j < B.length := (List.getElem?_eq_some.mp hj).1
    rw [List.getElem?_set_ne (Ne.symm h1), List.getElem?_set_ne (Ne.symm h3),
      List.getElem?_set_ne (Ne.symm h2),
      List.getElem?_append_left (by simpa using hjlt), List.getElem?_set_ne (Ne.symm h1), hj]
    simp only [Option.map_some']
    rw [List.erase_of_not_mem (hne j blk hj h1)]

/-! ## The edges after a loop lowering -/

theorem mem_successors_iff (func : FuncOp) (j t : Nat) :
    t ∈ func.successors j ↔
      ∃ blk o x, func.blocks[j]? = some blk ∧ o ∈ blk.operations ∧
        func.operations[o]? = some x ∧ t ∈ x.successors := by
  unfold FuncOp.successors
  cases hb : func.blocks[j]? with
  | none => simp
  | some blk =>
    simp only [List.mem_flatMap, Option.some.injEq, exists_and_left, exists_eq_left']
    constructor
    · rintro ⟨o, ho, ht⟩
      cases hx : func.operations[o]? with
      | none => simp [hx] at ht
      | some x => exact ⟨o, ho, x, hx, by simpa [hx] using ht⟩
    · rintro ⟨o, ho, x, hx, ht⟩
      exact ⟨o, ho, by simpa [hx] using ht⟩

/-- Every edge of the function after `ForLowering` at a well-formed loop, by kind.  The
input is assumed to list valid operations only, to have no branch before the loop in its
block, and to have no edge that crosses the boundary of the body region. -/
theorem ForLowering_edges (rewriter rw' : PatternRewriter) (op region cond : Nat)
    (rest before after : List Nat) (initB condB : Block) (lb ub : Value) (st : Option Value)
    (site : ForSite rewriter op region cond rest before after initB condB)
    (hlisted : ∀ (j : Nat) (blk : Block), rewriter.func.blocks[j]? = some blk →
      ∀ o ∈ blk.operations, o < rewriter.func.operations.length)
    (hbefore : ∀ o ∈ before, ∀ x, rewriter.func.operations[o]? = some x → x.successors = [])
    (hedges : ∀ j t, t ∈ rewriter.func.successors j →
      t < rewriter.func.blocks.length ∧ (j ∈ cond :: rest ↔ t ∈ cond :: rest))
    (hrun : ForLowering.matchAndRewrite op [some lb, some ub, st] rewriter =
      some (PatternMatchResult.matchSuccess, rw'))
    (j t : Nat) (ht : t ∈ rw'.func.successors j) :
    (j = rewriter.insertionBlock ∧ t = cond) ∨
      (j = cond ∧ (t = rewriter.func.blocks.length + 1 ∨ t = rewriter.func.blocks.length)) ∨
      (j = rewriter.func.blocks.length ∧ t < rewriter.func.blocks.length ∧ t ∉ cond :: rest) ∨
      (j ∈ (rewriter.func.blocks.length + 1) :: rest ∧ t ∈ cond :: rest) ∨
      (j ∉ rewriter.insertionBlock :: rewriter.func.blocks.length :: cond ::
          (rewriter.func.blocks.length + 1) :: rest ∧
        t < rewriter.func.blocks.length ∧ t ∉ cond :: rest) := by
  obtain ⟨rw'', hrun', hops, -, -, -, -, -, -, -, -⟩ :=
    ForLowering_spec rewriter op region cond rest before after initB condB lb ub st site
  have heq : rw' = rw'' := by
    rw [hrun] at hrun'
    exact (Prod.mk.inj (Option.some.inj hrun')).2
  subst heq
  obtain ⟨blk', o, x, hj, ho, hx, htx⟩ := (mem_successors_iff _ _ _).mp ht
  have hinitlt : rewriter.insertionBlock < rewriter.func.blocks.length :=
    (List.getElem?_eq_some.mp site.initBlock).1
  have hcondlt : cond < rewriter.func.blocks.length :=
    (List.getElem?_eq_some.mp site.condBlock).1
  have hold : ∀ (jold : Nat) (blk : Block), rewriter.func.blocks[jold]? = some blk →
      o ∈ blk.operations → t ∈ rewriter.func.successors jold := by
    intro jold blk hb hob
    have holt := hlisted jold blk hb o hob
    rw [hops, List.getElem?_append_left holt] at hx
    exact (mem_successors_iff _ _ _).mpr ⟨blk, o, x, hb, hob, hx, htx⟩
  have hnew : o ∈ [rewriter.func.operations.length, rewriter.func.operations.length + 1] →
      t = cond := by
    intro hon
    simp only [List.mem_cons, List.mem_singleton, List.not_mem_nil, or_false] at hon
    rcases hon with rfl | rfl
    · rw [hops, List.getElem?_append_right (by omega)] at hx
      simp at hx
      subst hx
      simp [Operation.successors] at htx
    · rw [hops, List.getElem?_append_right (by omega)] at hx
      simp at hx
      subst hx
      simpa [Operation.successors] using htx
  have hinitnot : rewriter.insertionBlock ∉ cond :: rest := site.initOutside
  rcases ForLowering_blocks rewriter rw' op region cond rest before after initB condB lb ub st
    site hrun j blk' hj with ⟨rfl, hb⟩ | ⟨rfl, hb⟩ | ⟨rfl, hb⟩ | ⟨rfl, hb⟩ | ⟨hjr, blk, hblk, hb⟩ |
    ⟨hjn, hblk⟩
  · left
    refine ⟨rfl, ?_⟩
    rw [hb] at ho
    rcases List.mem_append.mp ho with ho | ho
    · exfalso
      have holt : o < rewriter.func.operations.length :=
        hlisted _ _ site.initBlock o (by rw [site.initOps]; simp [ho])
      rw [hops, List.getElem?_append_left holt] at hx
      rw [hbefore o ho x hx] at htx
      simp at htx
    · simp only [List.mem_singleton] at ho
      subst ho
      rw [hops, List.getElem?_append_right (by omega)] at hx
      simp at hx
      subst hx
      simpa [Operation.successors] using htx
  · right; left
    refine ⟨rfl, ?_⟩
    rw [hb] at ho
    simp only [List.mem_cons, List.mem_singleton, List.not_mem_nil, or_false] at ho
    rcases ho with rfl | rfl
    · rw [hops, List.getElem?_append_right (by omega)] at hx
      simp at hx
      subst hx
      simp [Operation.successors] at htx
    · rw [hops, List.getElem?_append_right (by omega)] at hx
      simp at hx
      subst hx
      simpa [Operation.successors] using htx
  · right; right; left
    rw [hb] at ho
    have hmem := hold _ _ site.initBlock (by rw [site.initOps]; simp [ho])
    obtain ⟨hlt, hiff⟩ := hedges _ _ hmem
    exact ⟨rfl, hlt, fun h => hinitnot (hiff.mpr h)⟩
  · right; right; right; left
    refine ⟨List.mem_cons_self _ _, ?_⟩
    have hcase : o ∈ condB.operations ∨
        o ∈ [rewriter.func.operations.length, rewriter.func.operations.length + 1] := by
      rcases hb with hb | hb
      · rw [hb] at ho; exact Or.inl ho
      · rw [hb] at ho; exact List.mem_append.mp ho
    rcases hcase with ho | ho
    · have hmem := hold _ _ site.condBlock ho
      exact (hedges _ _ hmem).2.mp (List.mem_cons_self _ _)
    · rw [hnew ho]
      exact List.mem_cons_self _ _
  · right; right; right; left
    refine ⟨List.mem_cons_of_mem _ hjr, ?_⟩
    have hcase : o ∈ blk.operations ∨
        o ∈ [rewriter.func.operations.length, rewriter.func.operations.length + 1] := by
      rcases hb with hb | hb
      · rw [hb] at ho; exact Or.inl ho
      · rw [hb] at ho; exact List.mem_append.mp ho
    rcases hcase with ho | ho
    · have hmem := hold _ _ hblk ho
      exact (hedges _ _ hmem).2.mp (List.mem_cons_of_mem _ hjr)
    · rw [hnew ho]
      exact List.mem_cons_self _ _
  · right; right; right; right
    have hmem := hold _ _ hblk ho
    obtain ⟨hlt, hiff⟩ := hedges _ _ hmem
    have hjlt : j < rewriter.func.blocks.length := (List.getElem?_eq_some.mp hblk).1
    simp only [List.mem_cons, not_or] at hjn
    refine ⟨?_, hlt, fun h => ?_⟩
    · simp only [List.mem_cons, not_or]
      exact ⟨hjn.1, by omega, hjn.2.1, by omega, hjn.2.2⟩
    · have := hiff.mpr h
      simp only [List.mem_cons] at this
      exact this.elim hjn.2.1 hjn.2.2

/-! ## Execution: environments -/

theorem Env.set_self (env : Env) (v : Value) (x : Int) : (env.set v x) v = some x := by
  simp [Env.set]

theorem Env.set_ne (env : Env) (v w : Value) (x : Int) (h : w ≠ v) : (env.set v x) w = env w := by
  simp [Env.set, h]

theorem Env.bindArguments_nil (env : Env) (block : Nat) (w : Value) :
    (env.bindArguments block []) w = env w := by
  cases w with
  | opResult o => rfl
  | blockArgument b i =>
    simp only [Env.bindArguments]
    split <;> simp

theorem Env.bindArguments_single_self (env : Env) (block : Nat) (x : Int) :
    (env.bindArguments block [x]) (Value.blockArgument block 0) = some x := by
  simp [Env.bindArguments]

theorem Env.bindArguments_single_ne (env : Env) (block : Nat) (x : Int) (w : Value)
    (h : w ≠ Value.blockArgument block 0) : (env.bindArguments block [x]) w = env w := by
  cases w with
  | opResult o => rfl
  | blockArgument b i =>
    simp only [Env.bindArguments]
    split
    · rename_i hb
      subst hb
      cases i with
      | zero => exact absurd rfl h
      | succ j => simp
    · rfl

/-! ## The scenarios are well-formed -/

theorem scenarioA_site :
    ForSite ⟨scenarioA, 0, 3⟩ 3 1 1 [] [0, 1, 2] [4] ⟨0, [0, 1, 2, 3, 4]⟩ ⟨1, [5, 6]⟩ where
  isFor := ⟨_, _, _, rfl⟩
  initBlock := rfl
  initOps := rfl
  point := rfl
  body := rfl
  condBlock := rfl
  hasIV := by decide
  restValid := by simp
  initOutside := by decide
  condOnce := by simp
  notBefore := by decide
  notAfter := by decide
  notElsewhere := by
    intro b blk h hb
    match b, h, hb with
    | 0, _, hb => exact absurd rfl hb
    | 1, h, _ => cases h; decide
    | b + 2, h, _ => simp [scenarioA] at h

theorem scenarioA_successors (j : Nat) : scenarioA.successors j = [] := by
  match j with
  | 0 => decide
  | 1 => decide
  | j + 2 => simp [FuncOp.successors, scenarioA]

theorem scenarioA_listed (j : Nat) (blk : Block) (h : scenarioA.blocks[j]? = some blk) :
    ∀ o ∈ blk.operations, o < scenarioA.operations.length := by
  match j, h with
  | 0, h => cases h; decide
  | 1, h => cases h; decide
  | j + 2, h => simp [scenarioA] at h

theorem scenarioB_site :
    IfSite ⟨scenarioB, 0, 1⟩ 1 1 2 [1] [2] [0] [2] ⟨0, [0, 1, 2]⟩ where
  isIf := ⟨_, rfl⟩
  condBlock := rfl
  condOps := rfl
  point := rfl
  thenBody := rfl
  elseBody := rfl
  thenNonempty := by simp
  regionsDistinct := by decide
  thenValid := by simp [scenarioB]
  elseValid := by simp [scenarioB]
  condOutsideThen := by decide
  condOutsideElse := by decide
  backsDistinct := by simp
  notBefore := by decide
  notAfter := by decide
  notElsewhere := by
    intro b blk h hb
    match b, h, hb with
    | 0, _, hb => exact absurd rfl hb
    | 1, h, _ => cases h; decide
    | 2, h, _ => cases h; decide
    | b + 3, h, _ => simp [scenarioB] at h

theorem scenarioBNoElse_site :
    IfSite ⟨scenarioBNoElse, 0, 1⟩ 1 1 2 [1] [] [0] [2] ⟨0, [0, 1, 2]⟩ where
  isIf := ⟨_, rfl⟩
  condBlock := rfl
  condOps := rfl
  point := rfl
  thenBody := rfl
  elseBody := rfl
  thenNonempty := by simp
  regionsDistinct := by decide
  thenValid := by simp [scenarioBNoElse]
  elseValid := by simp
  condOutsideThen := by decide
  condOutsideElse := by simp
  backsDistinct := by simp
  notBefore := by decide
  notAfter := by decide
  notElsewhere := by
    intro b blk h hb
    match b, h, hb with
    | 0, _, hb => exact absurd rfl hb
    | 1, h, _ => cases h; decide
    | b + 2, h, _ => simp [scenarioBNoElse] at h

/-! ## The properties of the lowering, C1 to C10 -/

/-- C1: for a loop with resolved lowerBound, upperBound and step, after `ForLowering` the
condition block (the former entry block of the body, whose argument 0 is the induction
variable) holds exactly a signed less-than comparison of the induction variable with
upperBound followed by a conditional branch on that comparison; the true target is
firstBodyBlock (the new block that received the operations of the former entry block),
the false target is endBlock (the new block that received the operations after the
loop), and neither edge carries arguments. -/
theorem C1_condition_block (rewriter : PatternRewriter) (op region cond : Nat)
    (rest before after : List Nat) (initB condB : Block) (lb ub st : Value)
    (site : ForSite rewriter op region cond rest before after initB condB) :
    ∃ (rw' : PatternRewriter) (cmp condBr firstBodyBlock endBlock : Nat) (tail : List Nat),
      ForLowering.matchAndRewrite op [some lb, some ub, some st] rewriter =
        some (PatternMatchResult.matchSuccess, rw') ∧
      rw'.func.blocks[cond]? = some ⟨condB.numArguments, [cmp, condBr]⟩ ∧
      rw'.func.operations[cmp]? =
        some (Operation.CmpIOp CmpIPredicate.SLT (some (Value.blockArgument cond 0)) (some ub)) ∧
      rw'.func.operations[condBr]? =
        some (Operation.CondBranchOp (some (Value.opResult cmp)) firstBodyBlock [] endBlock []) ∧
      rewriter.func.blocks[firstBodyBlock]? = none ∧
      rw'.func.blocks[firstBodyBlock]? = some ⟨0, condB.operations ++ tail⟩ ∧
      rewriter.func.blocks[endBlock]? = none ∧
      rw'.func.blocks[endBlock]? = some ⟨0, after⟩ := by
  obtain ⟨rw', hrun, hops, -, -, -, hcond, hend, hfb1, hfb2, -⟩ :=
    ForLowering_spec rewriter op region cond rest before after initB condB lb ub (some st) site
  have hfb : ∃ tail, rw'.func.blocks[rewriter.func.blocks.length + 1]? =
      some ⟨0, condB.operations ++ tail⟩ := by
    by_cases hr : rest = []
    · exact ⟨_, hfb1 hr⟩
    · obtain ⟨lastB, hl⟩ : ∃ lastB, rewriter.func.blocks[rest.getLast hr]? = some lastB :=
        ⟨_, List.getElem?_eq_getElem (site.restValid _ (List.getLast_mem hr))⟩
      exact ⟨[], by simpa using (hfb2 hr lastB hl).1⟩
  obtain ⟨tail, hfb⟩ := hfb
  refine ⟨rw', rewriter.func.operations.length + 3, rewriter.func.operations.length + 4,
    rewriter.func.blocks.length + 1, rewriter.func.blocks.length, tail, hrun, hcond, ?_, ?_,
    ?_, hfb, ?_, hend⟩
  · rw [hops, List.getElem?_append_right (by omega)]
    simp
  · rw [hops, List.getElem?_append_right (by omega)]
    simp
  · exact List.getElem?_eq_none (by omega)
  · exact List.getElem?_eq_none (by omega)

/-- C1 holds at the loop of Scenario A. -/
theorem C1_condition_block_witness :
    ForSite ⟨scenarioA, 0, 3⟩ 3 1 1 [] [0, 1, 2] [4] ⟨0, [0, 1, 2, 3, 4]⟩ ⟨1, [5, 6]⟩ ∧
    ∃ (rw' : PatternRewriter) (cmp condBr firstBodyBlock endBlock : Nat) (tail : List Nat),
      ForLowering.matchAndRewrite 3
          [some (Value.opResult 0), some (Value.opResult 1), some (Value.opResult 2)]
          ⟨scenarioA, 0, 3⟩ =
        some (PatternMatchResult.matchSuccess, rw') ∧
      rw'.func.blocks[1]? = some ⟨1, [cmp, condBr]⟩ ∧
      rw'.func.operations[cmp]? =
        some (Operation.CmpIOp CmpIPredicate.SLT (some (Value.blockArgument 1 0))
          (some (Value.opResult 1))) ∧
      rw'.func.operations[condBr]? =
        some (Operation.CondBranchOp (some (Value.opResult cmp)) firstBodyBlock [] endBlock []) ∧
      scenarioA.blocks[firstBodyBlock]? = none ∧
      rw'.func.blocks[firstBodyBlock]? = some ⟨0, [5, 6] ++ tail⟩ ∧
      scenarioA.blocks[endBlock]? = none ∧
      rw'.func.blocks[endBlock]? = some ⟨0, [4]⟩ :=
  ⟨scenarioA_site,
    C1_condition_block ⟨scenarioA, 0, 3⟩ 3 1 1 [] [0, 1, 2] [4] ⟨0, [0, 1, 2, 3, 4]⟩ ⟨1, [5, 6]⟩
      (Value.opResult 0) (Value.opResult 1) (Value.opResult 2) scenarioA_site⟩

/-- C2: for a loop with resolved operands, after `ForLowering` the init block ends with an
unconditional branch to the condition block passing lowerBound as the single argument,
and the last body block ends with `nextIV = inductionVariable + step` followed by an
unconditional branch to the condition block passing `nextIV` as the single argument.
The last body block is the new first body block when the body had one block, the last
block of the body region otherwise. -/
theorem C2_init_and_back_edge (rewriter : PatternRewriter) (op region cond : Nat)
    (rest before after : List Nat) (initB condB : Block) (lb ub st : Value)
    (site : ForSite rewriter op region cond rest before after initB condB) :
    ∃ (rw' : PatternRewriter) (initBr add backBr : Nat),
      ForLowering.matchAndRewrite op [some lb, some ub, some st] rewriter =
        some (PatternMatchResult.matchSuccess, rw') ∧
      rw'.func.blocks[rewriter.insertionBlock]? =
        some ⟨initB.numArguments, before ++ [initBr]⟩ ∧
      rw'.func.operations[initBr]? = some (Operation.BranchOp cond [some lb]) ∧
      rw'.func.operations[add]? =
        some (Operation.AddIOp (some (Value.blockArgument cond 0)) (some st)) ∧
      rw'.func.operations[backBr]? =
        some (Operation.BranchOp cond [some (Value.opResult add)]) ∧
      (rest = [] →
        rw'.func.blocks[rewriter.func.blocks.length + 1]? =
          some ⟨0, condB.operations ++ [add, backBr]⟩) ∧
      (∀ (hr : rest ≠ []) (lastB : Block),
        rewriter.func.blocks[rest.getLast hr]? = some lastB →
        rw'.func.blocks[rest.getLast hr]? =
          some ⟨lastB.numArguments, lastB.operations ++ [add, backBr]⟩) := by
  obtain ⟨rw', hrun, hops, -, -, hinit, -, -, hfb1, hfb2, -⟩ :=
    ForLowering_spec rewriter op region cond rest before after initB condB lb ub (some st) site
  refine ⟨rw', rewriter.func.operations.length + 2, rewriter.func.operations.length,
    rewriter.func.operations.length + 1, hrun, hinit, ?_, ?_, ?_, hfb1,
    fun hr lastB hl => (hfb2 hr lastB hl).2⟩
  · rw [hops, List.getElem?_append_right (by omega)]
    simp
  · rw [hops, List.getElem?_append_right (by omega)]
    simp
  · rw [hops, List.getElem?_append_right (by omega)]
    simp

/-- C2 holds at the loop of Scenario A. -/
theorem C2_init_and_back_edge_witness :
    ForSite ⟨scenarioA, 0, 3⟩ 3 1 1 [] [0, 1, 2] [4] ⟨0, [0, 1, 2, 3, 4]⟩ ⟨1, [5, 6]⟩ ∧
    ∃ (rw' : PatternRewriter) (initBr add backBr : Nat),
      ForLowering.matchAndRewrite 3
          [some (Value.opResult 0), some (Value.opResult 1), some (Value.opResult 2)]
          ⟨scenarioA, 0, 3⟩ =
        some (PatternMatchResult.matchSuccess, rw') ∧
      rw'.func.blocks[0]? = some ⟨0, [0, 1, 2] ++ [initBr]⟩ ∧
      rw'.func.operations[initBr]? = some (Operation.BranchOp 1 [some (Value.opResult 0)]) ∧
      rw'.func.operations[add]? =
        some (Operation.AddIOp (some (Value.blockArgument 1 0)) (some (Value.opResult 2))) ∧
      rw'.func.operations[backBr]? =
        some (Operation.BranchOp 1 [some (Value.opResult add)]) ∧
      (([] : List Nat) = [] →
        rw'.func.blocks[2 + 1]? = some ⟨0, [5, 6] ++ [add, backBr]⟩) ∧
      (∀ (hr : ([] : List Nat) ≠ []) (lastB : Block),
        scenarioA.blocks[([] : List Nat).getLast hr]? = some lastB →
        rw'.func.blocks[([] : List Nat).getLast hr]? =
          some ⟨lastB.numArguments, lastB.operations ++ [add, backBr]⟩) :=
  ⟨scenarioA_site,
    C2_init_and_back_edge ⟨scenarioA, 0, 3⟩ 3 1 1 [] [0, 1, 2] [4] ⟨0, [0, 1, 2, 3, 4]⟩
      ⟨1, [5, 6]⟩ (Value.opResult 0) (Value.opResult 1) (Value.opResult 2) scenarioA_site⟩

/-- C5: for a conditional, whatever its condition operand `cv` (no constant is folded),
after `IfLowering` the block that contained the construct ends with a conditional branch
on `cv` whose true target is the entry block of the "then" region and whose false target
is elseBlock (the entry block of the "else" region, or the continuation block when that
region is empty), with no arguments on either edge; the last block of the "then" region,
and of the "else" region when it is not empty, ends with an unconditional branch to the
continuation block, the new block that received the operations after the construct. -/
theorem C5_conditional_branch (rewriter : PatternRewriter) (op thenRegion elseRegion : Nat)
    (t : Nat) (trest elseBlocks before after : List Nat) (condB : Block) (cv : Option Value)
    (site : IfSite rewriter op thenRegion elseRegion (t :: trest) elseBlocks before after
      condB) :
    ∃ (rw' : PatternRewriter) (condBr continueBlock : Nat),
      IfLowering.matchAndRewrite op [cv] rewriter =
        some (PatternMatchResult.matchSuccess, rw') ∧
      rewriter.func.blocks[continueBlock]? = none ∧
      rw'.func.blocks[continueBlock]? = some ⟨0, after⟩ ∧
      rw'.func.blocks[rewriter.insertionBlock]? =
        some ⟨condB.numArguments, before ++ [condBr]⟩ ∧
      rw'.func.operations[condBr]? =
        some (Operation.CondBranchOp cv t [] (elseBlocks.headD continueBlock) []) ∧
      (∀ tbB : Block,
        rewriter.func.blocks[(t :: trest).getLast (List.cons_ne_nil _ _)]? = some tbB →
        ∃ br, rw'.func.blocks[(t :: trest).getLast (List.cons_ne_nil _ _)]? =
            some ⟨tbB.numArguments, tbB.operations ++ [br]⟩ ∧
          rw'.func.operations[br]? = some (Operation.BranchOp continueBlock [])) ∧
      (∀ (he : elseBlocks ≠ []) (ebB : Block),
        rewriter.func.blocks[elseBlocks.getLast he]? = some ebB →
        ∃ br, rw'.func.blocks[elseBlocks.getLast he]? =
            some ⟨ebB.numArguments, ebB.operations ++ [br]⟩ ∧
          rw'.func.operations[br]? = some (Operation.BranchOp continueBlock [])) := by
  cases elseBlocks with
  | nil =>
    obtain ⟨rw', hrun, hops, -, -, hcb, hcont, hthen, -⟩ :=
      IfLowering_spec_noelse rewriter op thenRegion elseRegion t trest before after condB cv site
    refine ⟨rw', rewriter.func.operations.length + 1, rewriter.func.blocks.length, hrun,
      List.getElem?_eq_none (Nat.le_refl _), hcont, hcb, ?_, ?_, fun he => absurd rfl he⟩
    · rw [hops, List.getElem?_append_right (by omega)]
      simp
    · intro tbB htb
      refine ⟨rewriter.func.operations.length, hthen tbB htb, ?_⟩
      rw [hops, List.getElem?_append_right (by omega)]
      simp
  | cons e erest =>
    obtain ⟨rw', hrun, hops, -, -, hcb, hcont, hthen, helse, -⟩ :=
      IfLowering_spec_else rewriter op thenRegion elseRegion t trest e erest before after condB
        cv site
    refine ⟨rw', rewriter.func.operations.length + 2, rewriter.func.blocks.length, hrun,
      List.getElem?_eq_none (Nat.le_refl _), hcont, hcb, ?_, ?_, ?_⟩
    · rw [hops, List.getElem?_append_right (by omega)]
      simp
    · intro tbB htb
      refine ⟨rewriter.func.operations.length, hthen tbB htb, ?_⟩
      rw [hops, List.getElem?_append_right (by omega)]
      simp
    · intro he ebB heb
      refine ⟨rewriter.func.operations.length + 1, helse ebB heb, ?_⟩
      rw [hops, List.getElem?_append_right (by omega)]
      simp

/-- C5 holds at the conditional of Scenario B, whose condition is a literal true. -/
theorem C5_conditional_branch_witness :
    IfSite ⟨scenarioB, 0, 1⟩ 1 1 2 [1] [2] [0] [2] ⟨0, [0, 1, 2]⟩ ∧
    ∃ (rw' : PatternRewriter) (condBr continueBlock : Nat),
      IfLowering.matchAndRewrite 1 [some (Value.opResult 0)] ⟨scenarioB, 0, 1⟩ =
        some (PatternMatchResult.matchSuccess, rw') ∧
      scenarioB.blocks[continueBlock]? = none ∧
      rw'.func.blocks[continueBlock]? = some ⟨0, [2]⟩ ∧
      rw'.func.blocks[0]? = some ⟨0, [0] ++ [condBr]⟩ ∧
      rw'.func.operations[condBr]? =
        some (Operation.CondBranchOp (some (Value.opResult 0)) 1 []
          ([2].headD continueBlock) []) ∧
      (∀ tbB : Block,
        scenarioB.blocks[[1].getLast (List.cons_ne_nil _ _)]? = some tbB →
        ∃ br, rw'.func.blocks[[1].getLast (List.cons_ne_nil _ _)]? =
            some ⟨tbB.numArguments, tbB.operations ++ [br]⟩ ∧
          rw'.func.operations[br]? = some (Operation.BranchOp continueBlock [])) ∧
      (∀ (he : [2] ≠ []) (ebB : Block),
        scenarioB.blocks[[2].getLast he]? = some ebB →
        ∃ br, rw'.func.blocks[[2].getLast he]? =
            some ⟨ebB.numArguments, ebB.operations ++ [br]⟩ ∧
          rw'.func.operations[br]? = some (Operation.BranchOp continueBlock [])) :=
  ⟨scenarioB_site,
    C5_conditional_branch ⟨scenarioB, 0, 1⟩ 1 1 2 1 [] [2] [0] [2] ⟨0, [0, 1, 2]⟩
      (some (Value.opResult 0)) scenarioB_site⟩

/-- C6: for a conditional whose "else" region is empty, `IfLowering` emits a conditional
branch whose false target is the continuation block itself, and nothing is created or
inlined for the else side: exactly one block is created (the continuation block), and
the enclosing region `pre ++ condBlock :: post` becomes
`pre ++ condBlock :: thenBlocks ++ continueBlock :: post`, so it gains only the blocks of
the "then" region and the continuation block; both regions of the construct are empty
afterwards. -/
theorem C6_empty_else (rewriter : PatternRewriter) (op thenRegion elseRegion : Nat)
    (t : Nat) (trest before after : List Nat) (condB : Block) (cv : Option Value)
    (parent : Nat) (pre post : List Nat)
    (site : IfSite rewriter op thenRegion elseRegion (t :: trest) [] before after condB)
    (hparent : rewriter.func.regions[parent]? = some (pre ++ rewriter.insertionBlock :: post))
    (hpre : rewriter.insertionBlock ∉ pre)
    (hvalid : ∀ x ∈ pre, x < rewriter.func.blocks.length) :
    ∃ (rw' : PatternRewriter) (condBr continueBlock : Nat),
      IfLowering.matchAndRewrite op [cv] rewriter =
        some (PatternMatchResult.matchSuccess, rw') ∧
      rw'.func.blocks[rewriter.insertionBlock]? =
        some ⟨condB.numArguments, before ++ [condBr]⟩ ∧
      rw'.func.operations[condBr]? =
        some (Operation.CondBranchOp cv t [] continueBlock []) ∧
      rw'.func.blocks[continueBlock]? = some ⟨0, after⟩ ∧
      continueBlock = rewriter.func.blocks.length ∧
      rw'.func.blocks.length = rewriter.func.blocks.length + 1 ∧
      rw'.func.regions.length = rewriter.func.regions.length ∧
      rw'.func.regions[parent]? =
        some (pre ++ rewriter.insertionBlock :: (t :: trest) ++ continueBlock :: post) ∧
      rw'.func.regions[thenRegion]? = some [] ∧
      rw'.func.regions[elseRegion]? = some [] := by
  obtain ⟨rw', hrun, hops, hregs, hlen, hcb, hcont, -, -⟩ :=
    IfLowering_spec_noelse rewriter op thenRegion elseRegion t trest before after condB cv site
  have hthenlt : thenRegion < rewriter.func.regions.length :=
    (List.getElem?_eq_some.mp site.thenBody).1
  have hpt : parent ≠ thenRegion := by
    intro e
    rw [e, site.thenBody] at hparent
    have hmem : rewriter.insertionBlock ∈ pre ++ rewriter.insertionBlock :: post := by simp
    rw [← Option.some.inj hparent] at hmem
    exact site.condOutsideThen hmem
  have hnpre : rewriter.func.blocks.length ∉ pre := fun h => Nat.lt_irrefl _ (hvalid _ h)
  have hcblt : rewriter.insertionBlock < rewriter.func.blocks.length :=
    (List.getElem?_eq_some.mp site.condBlock).1
  have hnpre' : rewriter.func.blocks.length ∉ pre ++ [rewriter.insertionBlock] := by
    simp only [List.mem_append, List.mem_singleton, not_or]
    exact ⟨hnpre, by omega⟩
  refine ⟨rw', rewriter.func.operations.length + 1, rewriter.func.blocks.length, hrun, hcb, ?_,
    hcont, rfl, hlen, ?_, ?_, ?_, ?_⟩
  · rw [hops, List.getElem?_append_right (by omega)]
    simp
  · simp [hregs]
  · rw [hregs, List.getElem?_map, List.getElem?_set_ne (Ne.symm hpt), List.getElem?_map,
      hparent]
    simp only [Option.map_some', insertAfter_append _ _ _ _ hpre]
    have := spliceBefore_append rewriter.func.blocks.length (t :: trest)
      (pre ++ [rewriter.insertionBlock]) post hnpre'
    simp only [List.append_assoc, List.singleton_append] at this
    rw [this]
    simp
  · rw [hregs, List.getElem?_map, List.getElem?_set_self (by simpa using hthenlt)]
    rfl
  · rw [hregs, List.getElem?_map, List.getElem?_set_ne site.regionsDistinct, List.getElem?_map,
      site.elseBody]
    rfl

/-- C6 holds at the conditional of Scenario B without an "else" part. -/
theorem C6_empty_else_witness :
    IfSite ⟨scenarioBNoElse, 0, 1⟩ 1 1 2 [1] [] [0] [2] ⟨0, [0, 1, 2]⟩ ∧
    ∃ (rw' : PatternRewriter) (condBr continueBlock : Nat),
      IfLowering.matchAndRewrite 1 [some (Value.opResult 0)] ⟨scenarioBNoElse, 0, 1⟩ =
        some (PatternMatchResult.matchSuccess, rw') ∧
      rw'.func.blocks[0]? = some ⟨0, [0] ++ [condBr]⟩ ∧
      rw'.func.operations[condBr]? =
        some (Operation.CondBranchOp (some (Value.opResult 0)) 1 [] continueBlock []) ∧
      rw'.func.blocks[continueBlock]? = some ⟨0, [2]⟩ ∧
      continueBlock = 2 ∧
      rw'.func.blocks.length = 2 + 1 ∧
      rw'.func.regions.length = 3 ∧
      rw'.func.regions[0]? = some ([] ++ 0 :: [1] ++ continueBlock :: []) ∧
      rw'.func.regions[1]? = some [] ∧
      rw'.func.regions[2]? = some [] :=
  ⟨scenarioBNoElse_site,
    C6_empty_else ⟨scenarioBNoElse, 0, 1⟩ 1 1 2 1 [] [0] [2] ⟨0, [0, 1, 2]⟩
      (some (Value.opResult 0)) 0 [] [] scenarioBNoElse_site rfl (by simp) (by simp)⟩

/-- C7 refuted: on Scenario B with an unresolved (null) condition operand, `IfLowering`
reports success, not failure, and the function is not left as it was. -/
theorem C7_counterexample :
    (IfLowering.matchAndRewrite 1 [none] ⟨scenarioB, 0, 1⟩).map (fun r => r.1) =
        some PatternMatchResult.matchSuccess ∧
      (IfLowering.matchAndRewrite 1 [none] ⟨scenarioB, 0, 1⟩).map (fun r => r.2.func) ≠
        some scenarioB := by
  decide

/-- C7 as amended: `IfLowering` has no failure path.  Whatever the operands, whenever it
returns it reports success; the condition operand is not inspected, and at a well-formed
conditional with an unresolved (null) condition the whole rewrite is performed: the block
is split (one block more) and the conditional branch is emitted on the null operand. -/
theorem C7_if_never_fails (rewriter : PatternRewriter) (op thenRegion elseRegion : Nat)
    (t : Nat) (trest elseBlocks before after : List Nat) (condB : Block)
    (site : IfSite rewriter op thenRegion elseRegion (t :: trest) elseBlocks before after
      condB) :
    (∀ operands r, IfLowering.matchAndRewrite op operands rewriter = some r →
      r.1 = PatternMatchResult.matchSuccess) ∧
    ∃ (rw' : PatternRewriter) (condBr : Nat),
      IfLowering.matchAndRewrite op [none] rewriter =
        some (PatternMatchResult.matchSuccess, rw') ∧
      rw'.func.blocks.length = rewriter.func.blocks.length + 1 ∧
      rw'.func.blocks[rewriter.insertionBlock]? =
        some ⟨condB.numArguments, before ++ [condBr]⟩ ∧
      rw'.func.operations[condBr]? =
        some (Operation.CondBranchOp none t []
          (elseBlocks.headD rewriter.func.blocks.length) []) := by
  constructor
  · intro operands r h
    unfold IfLowering.matchAndRewrite at h
    repeat' first
      | contradiction
      | (cases h; rfl)
      | split at h
      | dsimp only at h
  · cases elseBlocks with
    | nil =>
      obtain ⟨rw', hrun, hops, -, hlen, hcb, -⟩ :=
        IfLowering_spec_noelse rewriter op thenRegion elseRegion t trest before after condB none
          site
      refine ⟨rw', rewriter.func.operations.length + 1, hrun, hlen, hcb, ?_⟩
      rw [hops, List.getElem?_append_right (by omega)]
      simp
    | cons e erest =>
      obtain ⟨rw', hrun, hops, -, hlen, hcb, -⟩ :=
        IfLowering_spec_else rewriter op thenRegion elseRegion t trest e erest before after
          condB none site
      refine ⟨rw', rewriter.func.operations.length + 2, hrun, hlen, hcb, ?_⟩
      rw [hops, List.getElem?_append_right (by omega)]
      simp

/-- C7 as amended holds at the conditional of Scenario B. -/
theorem C7_if_never_fails_witness :
    IfSite ⟨scenarioB, 0, 1⟩ 1 1 2 [1] [2] [0] [2] ⟨0, [0, 1, 2]⟩ ∧
    ((∀ operands r, IfLowering.matchAndRewrite 1 operands ⟨scenarioB, 0, 1⟩ = some r →
      r.1 = PatternMatchResult.matchSuccess) ∧
    ∃ (rw' : PatternRewriter) (condBr : Nat),
      IfLowering.matchAndRewrite 1 [none] ⟨scenarioB, 0, 1⟩ =
        some (PatternMatchResult.matchSuccess, rw') ∧
      rw'.func.blocks.length = 3 + 1 ∧
      rw'.func.blocks[0]? = some ⟨0, [0] ++ [condBr]⟩ ∧
      rw'.func.operations[condBr]? =
        some (Operation.CondBranchOp none 1 [] ([2].headD 3) [])) :=
  ⟨scenarioB_site,
    C7_if_never_fails ⟨scenarioB, 0, 1⟩ 1 1 2 1 [] [2] [0] [2] ⟨0, [0, 1, 2]⟩ scenarioB_site⟩

/-- C8: for a well-formed loop in a function that lists valid operations only, has no
branch before the loop in its block and no edge across the boundary of the body region,
`ForLowering` creates five operations of which exactly one is a comparison and exactly
one an integer add, and leaves the loop listed in no block.  With the interior of the
subgraph being the condition block, the first body block and the other body blocks:
the init block branches to the condition block only and is the only block outside
the interior with an edge into it, no block outside the subgraph has an edge to the
interior or to the end block, the only target of the interior outside of it is the end
block, and the end block is entered from the condition block only. -/
theorem C8_loop_subgraph (rewriter : PatternRewriter) (op region cond : Nat)
    (rest before after : List Nat) (initB condB : Block) (lb ub st : Value)
    (site : ForSite rewriter op region cond rest before after initB condB)
    (hlisted : ∀ (j : Nat) (blk : Block), rewriter.func.blocks[j]? = some blk →
      ∀ o ∈ blk.operations, o < rewriter.func.operations.length)
    (hbefore : ∀ o ∈ before, ∀ x, rewriter.func.operations[o]? = some x → x.successors = [])
    (hedges : ∀ j t, t ∈ rewriter.func.successors j →
      t < rewriter.func.blocks.length ∧ (j ∈ cond :: rest ↔ t ∈ cond :: rest)) :
    ∃ (rw' : PatternRewriter) (created : List Operation) (firstBodyBlock endBlock : Nat),
      ForLowering.matchAndRewrite op [some lb, some ub, some st] rewriter =
        some (PatternMatchResult.matchSuccess, rw') ∧
      rw'.func.operations = rewriter.func.operations ++ created ∧
      created.length = 5 ∧
      created.countP Operation.isCmpIOp = 1 ∧
      created.countP Operation.isAddIOp = 1 ∧
      (∀ (j : Nat) (blk : Block), rw'.func.blocks[j]? = some blk → op ∉ blk.operations) ∧
      rewriter.func.blocks[firstBodyBlock]? = none ∧
      rewriter.func.blocks[endBlock]? = none ∧
      rw'.func.blocks[endBlock]? = some ⟨0, after⟩ ∧
      rw'.func.successors rewriter.insertionBlock = [cond] ∧
      rw'.func.successors cond = [firstBodyBlock, endBlock] ∧
      (∀ j t, t ∈ rw'.func.successors j → t ∈ cond :: firstBodyBlock :: rest →
        j ∉ cond :: firstBodyBlock :: rest → j = rewriter.insertionBlock) ∧
      (∀ j t, t ∈ rw'.func.successors j →
        j ∉ rewriter.insertionBlock :: endBlock :: cond :: firstBodyBlock :: rest →
        t ∉ endBlock :: cond :: firstBodyBlock :: rest) ∧
      (∀ j t, t ∈ rw'.func.successors j → j ∈ cond :: firstBodyBlock :: rest →
        t ∉ cond :: firstBodyBlock :: rest → t = endBlock) ∧
      (∀ j t, t ∈ rw'.func.successors j → t = endBlock → j = cond) := by
  obtain ⟨rw', hrun, hops, -, -, hinit, hcond, hend, -, -, -⟩ :=
    ForLowering_spec rewriter op region cond rest before after initB condB lb ub (some st) site
  have hblocks := ForLowering_blocks rewriter rw' op region cond rest before after initB condB
    lb ub (some st) site hrun
  have hedge := ForLowering_edges rewriter rw' op region cond rest before after initB condB
    lb ub (some st) site hlisted hbefore hedges hrun
  have hoplt : op < rewriter.func.operations.length := by
    obtain ⟨a, b, c, h⟩ := site.isFor
    exact (List.getElem?_eq_some.mp h).1
  have hinitlt : rewriter.insertionBlock < rewriter.func.blocks.length :=
    (List.getElem?_eq_some.mp site.initBlock).1
  have hcondlt : cond < rewriter.func.blocks.length :=
    (List.getElem?_eq_some.mp site.condBlock).1
  have hinitnot : rewriter.insertionBlock ∉ cond :: rest := site.initOutside
  have hrestlt : ∀ x ∈ cond :: rest, x < rewriter.func.blocks.length := by
    intro x hx
    rcases List.mem_cons.mp hx with rfl | hx
    · exact hcondlt
    · exact site.restValid x hx
  refine ⟨rw', _, rewriter.func.blocks.length + 1, rewriter.func.blocks.length, hrun, hops, rfl,
    rfl, rfl, ?_, List.getElem?_eq_none (by omega), List.getElem?_eq_none (by omega), hend,
    ?_, ?_, ?_, ?_, ?_, ?_⟩
  · intro j blk hj hmem
    have hnewop : op ∉ [rewriter.func.operations.length,
        rewriter.func.operations.length + 1] := by
      simp only [List.mem_cons, List.mem_singleton, List.not_mem_nil, or_false, not_or]
      omega
    rcases hblocks j blk hj with ⟨rfl, hb⟩ | ⟨rfl, hb⟩ | ⟨rfl, hb⟩ | ⟨rfl, hb⟩ |
      ⟨hjr, blk0, hblk, hb⟩ | ⟨hjn, hblk⟩
    · rw [hb] at hmem
      rcases List.mem_append.mp hmem with h | h
      · exact site.notBefore h
      · simp only [List.mem_singleton] at h; omega
    · rw [hb] at hmem
      simp only [List.mem_cons, List.mem_singleton, List.not_mem_nil, or_false] at hmem
      omega
    · rw [hb] at hmem
      exact site.notAfter hmem
    · have hc := site.notElsewhere cond condB site.condBlock
        (fun e => hinitnot (e ▸ List.mem_cons_self _ _))
      rcases hb with hb | hb
      · rw [hb] at hmem; exact hc hmem
      · rw [hb] at hmem
        rcases List.mem_append.mp hmem with h | h
        · exact hc h
        · exact hnewop h
    · have hc := site.notElsewhere j blk0 hblk
        (fun e => hinitnot (e ▸ List.mem_cons_of_mem _ hjr))
      rcases hb with hb | hb
      · rw [hb] at hmem; exact hc hmem
      · rw [hb] at hmem
        rcases List.mem_append.mp hmem with h | h
        · exact hc h
        · exact hnewop h
    · simp only [List.mem_cons, not_or] at hjn
      exact site.notElsewhere j blk hblk hjn.1 hmem
  · have hnil : (before.flatMap fun o =>
        match rw'.func.operations[o]? with
        | none => []
        | some op => op.successors) = [] := by
      rw [List.flatMap_eq_nil_iff]
      intro o ho
      have holt : o < rewriter.func.operations.length :=
        hlisted _ _ site.initBlock o (by rw [site.initOps]; simp [ho])
      rw [hops, List.getElem?_append_left holt]
      cases hx : rewriter.func.operations[o]? with
      | none => rfl
      | some x => exact hbefore o ho x hx
    have hbr : rw'.func.operations[rewriter.func.operations.length + 2]? =
        some (Operation.BranchOp cond [some lb]) := by
      rw [hops, List.getElem?_append_right (by omega)]; simp
    simp only [FuncOp.successors, hinit, List.flatMap_append, hnil, List.nil_append,
      List.flatMap_cons, List.flatMap_nil, hbr, List.append_nil]
    rfl
  · have hcmp : rw'.func.operations[rewriter.func.operations.length + 3]? =
        some (Operation.CmpIOp CmpIPredicate.SLT (some (Value.blockArgument cond 0))
          (some ub)) := by
      rw [hops, List.getElem?_append_right (by omega)]; simp
    have hcbr : rw'.func.operations[rewriter.func.operations.length + 4]? =
        some (Operation.CondBranchOp (some (Value.opResult (rewriter.func.operations.length + 3)))
          (rewriter.func.blocks.length + 1) [] rewriter.func.blocks.length []) := by
      rw [hops, List.getElem?_append_right (by omega)]; simp
    simp only [FuncOp.successors, hcond, List.flatMap_cons, List.flatMap_nil, hcmp, hcbr,
      Operation.successors, List.nil_append, List.append_nil]
  · intro j t ht hti hji
    rcases hedge j t ht with ⟨rfl, -⟩ | ⟨rfl, -⟩ | ⟨rfl, hlt, hn⟩ | ⟨hj, -⟩ | ⟨-, hlt, hn⟩
    · rfl
    · exact absurd (List.mem_cons_self _ _) hji
    · exfalso
      simp only [List.mem_cons] at hti hn
      rcases hti with h | h | h
      · exact hn (Or.inl h)
      · omega
      · exact hn (Or.inr h)
    · exfalso
      apply hji
      simp only [List.mem_cons] at hj ⊢
      rcases hj with h | h
      · exact Or.inr (Or.inl h)
      · exact Or.inr (Or.inr h)
    · exfalso
      simp only [List.mem_cons] at hti hn
      rcases hti with h | h | h
      · exact hn (Or.inl h)
      · omega
      · exact hn (Or.inr h)
  · intro j t ht hj hti
    simp only [List.mem_cons, not_or] at hj
    rcases hedge j t ht with ⟨rfl, -⟩ | ⟨rfl, -⟩ | ⟨rfl, -, -⟩ | ⟨hj', -⟩ | ⟨-, hlt, hn⟩
    · exact hj.1 rfl
    · exact hj.2.2.1 rfl
    · exact hj.2.1 rfl
    · simp only [List.mem_cons] at hj'
      rcases hj' with h | h
      · exact hj.2.2.2.1 h
      · exact hj.2.2.2.2 h
    · simp only [List.mem_cons] at hti hn
      rcases hti with h | h | h | h
      · omega
      · exact hn (Or.inl h)
      · omega
      · exact hn (Or.inr h)
  · intro j t ht hj hti
    rcases hedge j t ht with ⟨rfl, -⟩ | ⟨rfl, h⟩ | ⟨rfl, -, -⟩ | ⟨-, htr⟩ | ⟨hjn, -, -⟩
    · exfalso
      simp only [List.mem_cons] at hj
      rcases hj with h | h | h
      · exact hinitnot (h ▸ List.mem_cons_self _ _)
      · omega
      · exact hinitnot (List.mem_cons_of_mem _ h)
    · rcases h with h | h
      · exact absurd (by rw [h]; simp) hti
      · exact h
    · exfalso
      simp only [List.mem_cons] at hj
      rcases hj with h | h | h
      · omega
      · omega
      · have := site.restValid _ h; omega
    · exfalso
      apply hti
      simp only [List.mem_cons] at htr ⊢
      rcases htr with h | h
      · exact Or.inl h
      · exact Or.inr (Or.inr h)
    · exfalso
      apply hjn
      simp only [List.mem_cons] at hj ⊢
      rcases hj with h | h | h
      · exact Or.inr (Or.inr (Or.inl h))
      · exact Or.inr (Or.inr (Or.inr (Or.inl h)))
      · exact Or.inr (Or.inr (Or.inr (Or.inr h)))
  · intro j t ht hte
    rcases hedge j t ht with ⟨rfl, h⟩ | ⟨rfl, -⟩ | ⟨rfl, hlt, -⟩ | ⟨-, htr⟩ | ⟨-, hlt, -⟩
    · omega
    · rfl
    · omega
    · have := hrestlt t htr; omega
    · omega

/-- C8 holds at the loop of Scenario A. -/
theorem C8_loop_subgraph_witness :
    ForSite ⟨scenarioA, 0, 3⟩ 3 1 1 [] [0, 1, 2] [4] ⟨0, [0, 1, 2, 3, 4]⟩ ⟨1, [5, 6]⟩ ∧
    ∃ (rw' : PatternRewriter) (created : List Operation) (firstBodyBlock endBlock : Nat),
      ForLowering.matchAndRewrite 3
          [some (Value.opResult 0), some (Value.opResult 1), some (Value.opResult 2)]
          ⟨scenarioA, 0, 3⟩ =
        some (PatternMatchResult.matchSuccess, rw') ∧
      rw'.func.operations = scenarioA.operations ++ created ∧
      created.length = 5 ∧
      created.countP Operation.isCmpIOp = 1 ∧
      created.countP Operation.isAddIOp = 1 ∧
      (∀ (j : Nat) (blk : Block), rw'.func.blocks[j]? = some blk → 3 ∉ blk.operations) ∧
      scenarioA.blocks[firstBodyBlock]? = none ∧
      scenarioA.blocks[endBlock]? = none ∧
      rw'.func.blocks[endBlock]? = some ⟨0, [4]⟩ ∧
      rw'.func.successors 0 = [1] ∧
      rw'.func.successors 1 = [firstBodyBlock, endBlock] ∧
      (∀ j t, t ∈ rw'.func.successors j → t ∈ 1 :: firstBodyBlock :: [] →
        j ∉ 1 :: firstBodyBlock :: [] → j = 0) ∧
      (∀ j t, t ∈ rw'.func.successors j →
        j ∉ 0 :: endBlock :: 1 :: firstBodyBlock :: [] →
        t ∉ endBlock :: 1 :: firstBodyBlock :: []) ∧
      (∀ j t, t ∈ rw'.func.successors j → j ∈ 1 :: firstBodyBlock :: [] →
        t ∉ 1 :: firstBodyBlock :: [] → t = endBlock) ∧
      (∀ j t, t ∈ rw'.func.successors j → t = endBlock → j = 1) :=
  ⟨scenarioA_site,
    C8_loop_subgraph ⟨scenarioA, 0, 3⟩ 3 1 1 [] [0, 1, 2] [4] ⟨0, [0, 1, 2, 3, 4]⟩ ⟨1, [5, 6]⟩
      (Value.opResult 0) (Value.opResult 1) (Value.opResult 2) scenarioA_site
      scenarioA_listed
      (by
        intro o ho x hx
        simp only [List.mem_cons, List.mem_singleton, List.not_mem_nil, or_false] at ho
        rcases ho with rfl | rfl | rfl <;> (cases hx; rfl))
      (by
        intro j t ht
        rw [show (⟨scenarioA, 0, 3⟩ : PatternRewriter).func.successors j = [] from
          scenarioA_successors j] at ht
        cases ht)⟩

/-- C9: `TerminatorLowering` succeeds on every operation it is applied to, and its only
effect is to erase that operation with no replacement: no operation is created, the
regions and the number of blocks are unchanged, every block keeps its arguments and its
other operations in order, a block that does not list the operation is unchanged, and
the block that lists it as `pre ++ op :: post` becomes `pre ++ post`. -/
theorem C9_terminator_elision (op : Nat) (operands : List (Option Value))
    (rewriter : PatternRewriter) :
    ∃ rw' : PatternRewriter,
      TerminatorLowering.matchAndRewrite op operands rewriter =
        some (PatternMatchResult.matchSuccess, rw') ∧
      rw'.func.operations = rewriter.func.operations ∧
      rw'.func.regions = rewriter.func.regions ∧
      rw'.func.blocks.length = rewriter.func.blocks.length ∧
      (∀ (b : Nat) (blk : Block), rewriter.func.blocks[b]? = some blk →
        rw'.func.blocks[b]? = some ⟨blk.numArguments, blk.operations.erase op⟩) ∧
      (∀ (b : Nat) (blk : Block), rewriter.func.blocks[b]? = some blk → op ∉ blk.operations →
        rw'.func.blocks[b]? = some blk) ∧
      (∀ (b : Nat) (blk : Block) (pre post : List Nat), rewriter.func.blocks[b]? = some blk →
        blk.operations = pre ++ op :: post → op ∉ pre →
        rw'.func.blocks[b]? = some ⟨blk.numArguments, pre ++ post⟩) := by
  refine ⟨rewriter.replaceOp op, rfl, rfl, rfl, ?_, ?_, ?_, ?_⟩
  · simp [PatternRewriter.replaceOp]
  · intro b blk h
    simp [PatternRewriter.replaceOp, h]
  · intro b blk h hn
    simp [PatternRewriter.replaceOp, h, List.erase_of_not_mem hn]
  · intro b blk pre post h hops hn
    simp [PatternRewriter.replaceOp, h, hops, List.erase_append_right _ hn]

/-- C10: an operation is legal exactly when it is not a loop construct, not a conditional
construct and not a terminator marker; `lowerControlFlow` on a function none of whose
blocks lists one of the three constructs returns success and leaves the function
unchanged; and lowering the result of a successful lowering again returns that same
result, so lowering twice equals lowering once. -/
theorem C10_driver_idempotent (func : FuncOp) :
    (∀ o : Operation, isDynamicallyLegal o = true ↔
      ¬((∃ lb ub st r, o = Operation.ForOp lb ub st r) ∨
        (∃ c t e, o = Operation.IfOp c t e) ∨ o = Operation.TerminatorOp)) ∧
    ((∀ b ∈ func.blocks, ∀ op ∈ b.operations, ∀ o, func.operations[op]? = some o →
        ¬((∃ lb ub st r, o = Operation.ForOp lb ub st r) ∨
          (∃ c t e, o = Operation.IfOp c t e) ∨ o = Operation.TerminatorOp)) →
      lowerControlFlow func = (LogicalResult.success, func)) ∧
    (∀ lowered, lowerControlFlow func = (LogicalResult.success, lowered) →
      lowerControlFlow lowered = (LogicalResult.success, lowered)) := by
  have hlegal : ∀ o : Operation, isDynamicallyLegal o = true ↔
      ¬((∃ lb ub st r, o = Operation.ForOp lb ub st r) ∨
        (∃ c t e, o = Operation.IfOp c t e) ∨ o = Operation.TerminatorOp) := by
    intro o
    rw [← isDynamicallyLegal_eq_false_iff, Bool.not_eq_false]
  have hnoop : ∀ f : FuncOp, f.hasIllegal isDynamicallyLegal = false →
      lowerControlFlow f = (LogicalResult.success, f) := by
    intro f h
    simp [lowerControlFlow, applyConversionPatterns, convert_of_legal _ _ _ _ h]
  refine ⟨hlegal, ?_, ?_⟩
  · intro h
    apply hnoop
    rw [hasIllegal_eq_false_iff]
    intro b hb op hop o ho
    exact (hlegal o).mpr (h b hb op hop o ho)
  · intro lowered h
    apply hnoop
    unfold lowerControlFlow applyConversionPatterns at h
    simp only at h
    split at h
    · rename_i l hl
      cases h
      exact legal_of_convert _ _ _ _ _ hl
    · cases h

/-- C10 at Scenario A: the function is lowered with success, and lowering the result
again returns the result unchanged. -/
theorem C10_driver_idempotent_witness :
    lowerControlFlow scenarioA =
        (LogicalResult.success,
          { operations := scenarioA.operations ++
              [Operation.AddIOp (some (Value.blockArgument 1 0)) (some (Value.opResult 2)),
                Operation.BranchOp 1 [some (Value.opResult 7)],
                Operation.BranchOp 1 [some (Value.opResult 0)],
                Operation.CmpIOp CmpIPredicate.SLT (some (Value.blockArgument 1 0))
                  (some (Value.opResult 1)),
                Operation.CondBranchOp (some (Value.opResult 10)) 3 [] 2 []]
            blocks := [⟨0, [0, 1, 2, 9]⟩, ⟨1, [10, 11]⟩, ⟨0, [4]⟩, ⟨0, [5, 7, 8]⟩]
            regions := [[0, 1, 3, 2], []] }) ∧
      lowerControlFlow
          { operations := scenarioA.operations ++
              [Operation.AddIOp (some (Value.blockArgument 1 0)) (some (Value.opResult 2)),
                Operation.BranchOp 1 [some (Value.opResult 7)],
                Operation.BranchOp 1 [some (Value.opResult 0)],
                Operation.CmpIOp CmpIPredicate.SLT (some (Value.blockArgument 1 0))
                  (some (Value.opResult 1)),
                Operation.CondBranchOp (some (Value.opResult 10)) 3 [] 2 []]
            blocks := [⟨0, [0, 1, 2, 9]⟩, ⟨1, [10, 11]⟩, ⟨0, [4]⟩, ⟨0, [5, 7, 8]⟩]
            regions := [[0, 1, 3, 2], []] } =
        (LogicalResult.success,
          { operations := scenarioA.operations ++
              [Operation.AddIOp (some (Value.blockArgument 1 0)) (some (Value.opResult 2)),
                Operation.BranchOp 1 [some (Value.opResult 7)],
                Operation.BranchOp 1 [some (Value.opResult 0)],
                Operation.CmpIOp CmpIPredicate.SLT (some (Value.blockArgument 1 0))
                  (some (Value.opResult 1)),
                Operation.CondBranchOp (some (Value.opResult 10)) 3 [] 2 []]
            blocks := [⟨0, [0, 1, 2, 9]⟩, ⟨1, [10, 11]⟩, ⟨0, [4]⟩, ⟨0, [5, 7, 8]⟩]
            regions := [[0, 1, 3, 2], []] }) :=
  ⟨by decide, (C10_driver_idempotent scenarioA).2.2 _ (by decide)⟩

/-! ## The driver and the pass, C11 and C15 -/

theorem runOnModule_all_success (funcs : List FuncOp)
    (h : ∀ g ∈ funcs, (lowerControlFlow g).1 = LogicalResult.success) :
    runOnModule funcs = (false, funcs.map (fun g => (lowerControlFlow g).2)) := by
  induction funcs with
  | nil => rfl
  | cons g gs ih =>
    have hg := h g (List.mem_cons_self _ _)
    have ih' := ih (fun x hx => h x (List.mem_cons_of_mem _ hx))
    unfold runOnModule
    rcases hl : lowerControlFlow g with ⟨r, g'⟩
    rw [hl] at hg
    simp only at hg
    subst hg
    simp [ih', hl]

theorem runOnModule_first_failure (pre post : List FuncOp) (f : FuncOp)
    (h : ∀ g ∈ pre, (lowerControlFlow g).1 = LogicalResult.success)
    (hf : (lowerControlFlow f).1 = LogicalResult.failure) :
    runOnModule (pre ++ f :: post) =
      (true, pre.map (fun g => (lowerControlFlow g).2) ++ (lowerControlFlow f).2 :: post) := by
  induction pre with
  | nil =>
    simp only [List.nil_append, List.map_nil]
    unfold runOnModule
    rcases hl : lowerControlFlow f with ⟨r, f'⟩
    rw [hl] at hf
    simp only at hf
    subst hf
    rfl
  | cons g gs ih =>
    have hg := h g (List.mem_cons_self _ _)
    have ih' := ih (fun x hx => h x (List.mem_cons_of_mem _ hx))
    simp only [List.cons_append, List.map_cons]
    unfold runOnModule
    rcases hl : lowerControlFlow g with ⟨r, g'⟩
    rw [hl] at hg
    simp only at hg
    subst hg
    simp [ih', hl]

theorem lowerControlFlow_failure (func : FuncOp)
    (h : (lowerControlFlow func).1 = LogicalResult.failure) :
    lowerControlFlow func = (LogicalResult.failure, func) ∧
      func.hasIllegal isDynamicallyLegal = true := by
  unfold lowerControlFlow applyConversionPatterns at h ⊢
  simp only at h ⊢
  split at h
  · cases h
  · rename_i hn
    refine ⟨rfl, ?_⟩
    by_contra hc
    rw [convert_of_legal _ _ _ _ (Bool.eq_false_iff.mpr hc)] at hn
    cases hn

/-- C11: `lowerControlFlow` returns success exactly when the function it leaves lists
none of the three constructs: on success no block of the function, at any nesting depth,
lists a loop construct, a conditional construct or a terminator marker; and the
conversion fails as soon as the lowering of one construct fails, at the first rewrite or
at any later one, in which case failure is reported. -/
theorem C11_success_iff_all_erased (func : FuncOp) :
    ((lowerControlFlow func).1 = LogicalResult.success ↔
      (lowerControlFlow func).2.hasIllegal isDynamicallyLegal = false) ∧
    (∀ lowered, lowerControlFlow func = (LogicalResult.success, lowered) →
      ∀ b ∈ lowered.blocks, ∀ op ∈ b.operations, ∀ o, lowered.operations[op]? = some o →
        ¬((∃ lb ub st r, o = Operation.ForOp lb ub st r) ∨
          (∃ c t e, o = Operation.IfOp c t e) ∨ o = Operation.TerminatorOp)) ∧
    (∀ (fuel : Nat) (f : FuncOp) (block position : Nat),
      f.hasIllegal isDynamicallyLegal = true →
      f.findInnermostIllegal isDynamicallyLegal = some (block, position) →
      (∀ rw, legalize [ForLowering, IfLowering, TerminatorLowering] f block position ≠
        some (PatternMatchResult.matchSuccess, rw)) →
      convert isDynamicallyLegal [ForLowering, IfLowering, TerminatorLowering] fuel f = none) ∧
    (∀ (fuel : Nat) (f : FuncOp) (block position : Nat) (rw : PatternRewriter),
      f.hasIllegal isDynamicallyLegal = true →
      f.findInnermostIllegal isDynamicallyLegal = some (block, position) →
      legalize [ForLowering, IfLowering, TerminatorLowering] f block position =
        some (PatternMatchResult.matchSuccess, rw) →
      convert isDynamicallyLegal [ForLowering, IfLowering, TerminatorLowering] fuel rw.func =
        none →
      convert isDynamicallyLegal [ForLowering, IfLowering, TerminatorLowering] (fuel + 1) f =
        none) ∧
    (convert isDynamicallyLegal [ForLowering, IfLowering, TerminatorLowering]
        (func.numIllegal isDynamicallyLegal) func = none →
      lowerControlFlow func = (LogicalResult.failure, func)) := by
  refine ⟨?_, ?_, ?_, ?_, ?_⟩
  · constructor
    · intro h
      unfold lowerControlFlow applyConversionPatterns at h ⊢
      simp only at h ⊢
      split at h
      · rename_i l hl
        exact legal_of_convert _ _ _ _ _ hl
      · cases h
    · intro h
      cases hr : (lowerControlFlow func).1 with
      | success => rfl
      | failure =>
        obtain ⟨he, hill⟩ := lowerControlFlow_failure func hr
        rw [he] at h
        simp only at h
        rw [h] at hill
        cases hill
  · intro lowered h b hb op hop o ho
    have hleg : lowered.hasIllegal isDynamicallyLegal = false := by
      unfold lowerControlFlow applyConversionPatterns at h
      simp only at h
      split at h
      · rename_i l hl
        cases h
        exact legal_of_convert _ _ _ _ _ hl
      · cases h
    have := (hasIllegal_eq_false_iff _ _).mp hleg b hb op hop o ho
    rw [← isDynamicallyLegal_eq_false_iff, Bool.not_eq_false]
    exact this
  · intro fuel f block position hill hfind hfail
    cases fuel with
    | zero => simp [convert, hill]
    | succ n =>
      unfold convert
      simp only [hill, if_true, hfind]
  · intro fuel f block position rw hill hfind hleg hnone
    rw [convert]
    simp only [hill, if_true, hfind, hleg]
    exact hnone
  · intro h
    simp [lowerControlFlow, applyConversionPatterns, h]

/-- C11 at Scenario A with an unresolved lower bound: the terminator marker of the body is
erased with success, then the lowering of the loop fails, so the conversion of the
function is reported failed. -/
theorem C11_success_iff_all_erased_witness :
    lowerControlFlow scenarioAUnresolved = (LogicalResult.failure, scenarioAUnresolved) ∧
    ((lowerControlFlow scenarioAUnresolved).1 = LogicalResult.success ↔
      (lowerControlFlow scenarioAUnresolved).2.hasIllegal isDynamicallyLegal = false) ∧
    lowerControlFlow scenarioA = (LogicalResult.success, (lowerControlFlow scenarioA).2) ∧
    (lowerControlFlow scenarioA).2.hasIllegal isDynamicallyLegal = false :=
  ⟨(C11_success_iff_all_erased scenarioAUnresolved).2.2.2.2 (by decide),
    (C11_success_iff_all_erased scenarioAUnresolved).1, by decide,
    (C11_success_iff_all_erased scenarioA).1.mp (by decide)⟩

/-- C15: `runOnModule` lowers the functions of the module in order and stops at the first
one whose lowering fails: pass failure is signalled, the functions before it are lowered
and the functions after it are left as they were; if no lowering fails, every function is
lowered and no failure is signalled. -/
theorem C15_pass_aborts_on_first_failure (pre post : List FuncOp) (f : FuncOp) :
    ((∀ g ∈ pre, (lowerControlFlow g).1 = LogicalResult.success) →
      (lowerControlFlow f).1 = LogicalResult.failure →
      runOnModule (pre ++ f :: post) =
        (true, pre.map (fun g => (lowerControlFlow g).2) ++ (lowerControlFlow f).2 :: post)) ∧
    ((∀ g ∈ pre, (lowerControlFlow g).1 = LogicalResult.success) →
      runOnModule pre = (false, pre.map (fun g => (lowerControlFlow g).2))) :=
  ⟨runOnModule_first_failure pre post f, runOnModule_all_success pre⟩

/-- C15 on the module `[Scenario A, Scenario A with an unresolved bound, Scenario B]`:
the first function is lowered, the second fails and the third is left as it was; on the
module `[Scenario A]` nothing fails. -/
theorem C15_pass_aborts_on_first_failure_witness :
    runOnModule ([scenarioA] ++ scenarioAUnresolved :: [scenarioB]) =
        (true, [scenarioA].map (fun g => (lowerControlFlow g).2) ++
          (lowerControlFlow scenarioAUnresolved).2 :: [scenarioB]) ∧
      runOnModule [scenarioA] = (false, [scenarioA].map (fun g => (lowerControlFlow g).2)) :=
  ⟨(C15_pass_aborts_on_first_failure [scenarioA] [scenarioB] scenarioAUnresolved).1
      (by intro g hg; simp only [List.mem_singleton] at hg; subst hg; decide) (by decide),
    (C15_pass_aborts_on_first_failure [scenarioA] [scenarioB] scenarioAUnresolved).2
      (by intro g hg; simp only [List.mem_singleton] at hg; subst hg; decide)⟩

/-! ## The blocks after a rewrite, as updates of the blocks before it -/

theorem sum_map_set {α : Type} (g : α → Nat) :
    ∀ (l : List α) (i : Nat) (x y : α), l[i]? = some x →
      ((l.set i y).map g).sum + g x = (l.map g).sum + g y := by
  intro l
  induction l with
  | nil => intro i x y h; simp at h
  | cons a as ih =>
    intro i x y h
    cases i with
    | zero =>
      simp only [List.getElem?_cons_zero, Option.some.injEq] at h
      subst h
      simp only [List.set_cons_zero, List.map_cons, List.sum_cons]
      omega
    | succ k =>
      simp only [List.getElem?_cons_succ] at h
      have := ih k x y h
      simp only [List.set_cons_succ, List.map_cons, List.sum_cons]
      omega

theorem ForLowering_blocks_eq (rewriter rw' : PatternRewriter) (op region cond : Nat)
    (rest before after : List Nat) (initB condB : Block) (lb ub : Value) (st : Option Value)
    (site : ForSite rewriter op region cond rest before after initB condB)
    (hrun : ForLowering.matchAndRewrite op [some lb, some ub, st] rewriter =
      some (PatternMatchResult.matchSuccess, rw')) :
    ∃ lastB : Block,
      (rewriter.func.blocks ++ [Block.mk 0 after, Block.mk 0 condB.operations])[
          ((rewriter.func.blocks.length + 1) :: rest).getLast (List.cons_ne_nil _ _)]? =
        some lastB ∧
      ((rewriter.func.blocks.length + 1) :: rest).getLast (List.cons_ne_nil _ _) ≠
        rewriter.insertionBlock ∧
      ((rewriter.func.blocks.length + 1) :: rest).getLast (List.cons_ne_nil _ _) ≠ cond ∧
      rw'.func.blocks =
        (((rewriter.func.blocks ++ [Block.mk 0 after, Block.mk 0 condB.operations]).set
              rewriter.insertionBlock
              (Block.mk initB.numArguments
                (before ++ [rewriter.func.operations.length + 2]))).set cond
            (Block.mk condB.numArguments
              [rewriter.func.operations.length + 3, rewriter.func.operations.length + 4])).set
          (((rewriter.func.blocks.length + 1) :: rest).getLast (List.cons_ne_nil _ _))
          (Block.mk lastB.numArguments (lastB.operations ++
            [rewriter.func.operations.length, rewriter.func.operations.length + 1])) := by
  obtain ⟨rw'', hrun', -, -, hlen, hinit, hcond, hend, hfb1, hfb2, hother⟩ :=
    ForLowering_spec rewriter op region cond rest before after initB condB lb ub st site
  have heq : rw' = rw'' := by
    have := hrun.symm.trans hrun'
    simpa using this
  subst heq
  have hinitlt := (List.getElem?_eq_some.mp site.initBlock).1
  have hcondlt := (List.getElem?_eq_some.mp site.condBlock).1
  have hne' : rewriter.insertionBlock ≠ cond :=
    fun e => site.initOutside (e ▸ List.mem_cons_self _ _)
  have hni : rewriter.insertionBlock ∉ rest :=
    fun h => site.initOutside (List.mem_cons_of_mem _ h)
  have hlastmem : ((rewriter.func.blocks.length + 1) :: rest).getLast (List.cons_ne_nil _ _) ∈
      (rewriter.func.blocks.length + 1) :: rest := List.getLast_mem _
  have hlastrest : ∀ hr : rest ≠ [],
      ((rewriter.func.blocks.length + 1) :: rest).getLast (List.cons_ne_nil _ _) =
        rest.getLast hr := fun hr => List.getLast_cons hr
  generalize ((rewriter.func.blocks.length + 1) :: rest).getLast (List.cons_ne_nil _ _) = last
    at *
  have hlastinit : last ≠ rewriter.insertionBlock := by
    rcases List.mem_cons.mp hlastmem with h | h
    · omega
    · intro e; exact hni (e ▸ h)
  have hlastcond : last ≠ cond := by
    rcases List.mem_cons.mp hlastmem with h | h
    · omega
    · intro e; exact site.condOnce (e ▸ h)
  have hlastlt : last < rewriter.func.blocks.length + 2 := by
    rcases List.mem_cons.mp hlastmem with h | h
    · omega
    · have := site.restValid _ h; omega
  have hlastn : last ≠ rewriter.func.blocks.length := by
    rcases List.mem_cons.mp hlastmem with h | h
    · omega
    · have := site.restValid _ h; omega
  obtain ⟨lastB, hlastB⟩ : ∃ lastB,
      (rewriter.func.blocks ++ [Block.mk 0 after, Block.mk 0 condB.operations])[last]? =
        some lastB :=
    ⟨_, List.getElem?_eq_getElem (by simpa using hlastlt)⟩
  refine ⟨lastB, hlastB, hlastinit, hlastcond, ?_⟩
  apply List.ext_getElem?
  intro j
  by_cases h1 : j = last
  · subst h1
    rw [List.getElem?_set_self (by simpa using hlastlt)]
    by_cases hr : rest = []
    · subst hr
      have hl : j = rewriter.func.blocks.length + 1 := by simpa using hlastmem
      subst hl
      rw [hfb1 rfl]
      rw [List.getElem?_append_right (by omega)] at hlastB
      simp at hlastB
      subst hlastB
      rfl
    · have hjlt : j < rewriter.func.blocks.length := by
        rw [hlastrest hr]; exact site.restValid _ (List.getLast_mem hr)
      rw [List.getElem?_append_left hjlt] at hlastB
      have := (hfb2 hr lastB (by rw [← hlastrest hr]; exact hlastB)).2
      rw [← hlastrest hr] at this
      exact this
  · rw [List.getElem?_set_ne (Ne.symm h1)]
    by_cases h2 : j = cond
    · subst h2
      rw [List.getElem?_set_self (by simp; omega)]
      exact hcond
    · rw [List.getElem?_set_ne (Ne.symm h2)]
      by_cases h3 : j = rewriter.insertionBlock
      · subst h3
        rw [List.getElem?_set_self (by simp; omega)]
        exact hinit
      · rw [List.getElem?_set_ne (Ne.symm h3)]
        by_cases h4 : j < rewriter.func.blocks.length
        · rw [List.getElem?_append_left h4]
          obtain ⟨blk, hblk⟩ : ∃ blk, rewriter.func.blocks[j]? = some blk :=
            ⟨_, List.getElem?_eq_getElem h4⟩
          rw [hblk]
          exact hother j blk hblk h3 h2 h1
        · by_cases h5 : j = rewriter.func.blocks.length
          · subst h5
            rw [hend, List.getElem?_append_right (le_refl _)]
            simp
          · by_cases h6 : j = rewriter.func.blocks.length + 1
            · subst h6
              have hr : rest ≠ [] := by
                intro hr
                subst hr
                simp at hlastmem
                exact h1 hlastmem.symm
              have hllt := site.restValid _ (List.getLast_mem hr)
              obtain ⟨lastB', hlastB'⟩ : ∃ blk,
                  rewriter.func.blocks[rest.getLast hr]? = some blk :=
                ⟨_, List.getElem?_eq_getElem hllt⟩
              rw [(hfb2 hr lastB' hlastB').1, List.getElem?_append_right (by omega)]
              simp
            · rw [List.getElem?_eq_none (by omega), List.getElem?_eq_none (by simp; omega)]

/-- The sum over the blocks of an additive measure of their operation lists, after
`ForLowering` at a well-formed loop: the loop is gone and the five created operations
are there. -/
theorem ForLowering_measure (h : List Nat → Nat)
    (hadd : ∀ l₁ l₂, h (l₁ ++ l₂) = h l₁ + h l₂)
    (rewriter rw' : PatternRewriter) (op region cond : Nat)
    (rest before after : List Nat) (initB condB : Block) (lb ub : Value) (st : Option Value)
    (site : ForSite rewriter op region cond rest before after initB condB)
    (hrun : ForLowering.matchAndRewrite op [some lb, some ub, st] rewriter =
      some (PatternMatchResult.matchSuccess, rw')) :
    (rw'.func.blocks.map fun b => h b.operations).sum + h [op] =
      (rewriter.func.blocks.map fun b => h b.operations).sum +
        h [rewriter.func.operations.length, rewriter.func.operations.length + 1,
          rewriter.func.operations.length + 2, rewriter.func.operations.length + 3,
          rewriter.func.operations.length + 4] := by
  obtain ⟨lastB, hlastB, hli, hlc, hB⟩ := ForLowering_blocks_eq rewriter rw' op region cond rest
    before after initB condB lb ub st site hrun
  have hinitlt := (List.getElem?_eq_some.mp site.initBlock).1
  have hcondlt := (List.getElem?_eq_some.mp site.condBlock).1
  have hne' : rewriter.insertionBlock ≠ cond :=
    fun e => site.initOutside (e ▸ List.mem_cons_self _ _)
  rw [hB]
  generalize ((rewriter.func.blocks.length + 1) :: rest).getLast (List.cons_ne_nil _ _) = last
    at *
  have e1 := sum_map_set (fun b : Block => h b.operations)
    (rewriter.func.blocks ++ [Block.mk 0 after, Block.mk 0 condB.operations])
    rewriter.insertionBlock initB
    (Block.mk initB.numArguments (before ++ [rewriter.func.operations.length + 2]))
    (by rw [List.getElem?_append_left hinitlt]; exact site.initBlock)
  have e2 := sum_map_set (fun b : Block => h b.operations)
    ((rewriter.func.blocks ++ [Block.mk 0 after, Block.mk 0 condB.operations]).set
      rewriter.insertionBlock
      (Block.mk initB.numArguments (before ++ [rewriter.func.operations.length + 2])))
    cond condB
    (Block.mk condB.numArguments
      [rewriter.func.operations.length + 3, rewriter.func.operations.length + 4])
    (by rw [List.getElem?_set_ne hne', List.getElem?_append_left hcondlt]
        exact site.condBlock)
  have e3 := sum_map_set (fun b : Block => h b.operations)
    (((rewriter.func.blocks ++ [Block.mk 0 after, Block.mk 0 condB.operations]).set
      rewriter.insertionBlock
      (Block.mk initB.numArguments (before ++ [rewriter.func.operations.length + 2]))).set
      cond (Block.mk condB.numArguments
        [rewriter.func.operations.length + 3, rewriter.func.operations.length + 4]))
    last lastB
    (Block.mk lastB.numArguments (lastB.operations ++
      [rewriter.func.operations.length, rewriter.func.operations.length + 1]))
    (by rw [List.getElem?_set_ne (Ne.symm hlc), List.getElem?_set_ne (Ne.symm hli)]
        exact hlastB)
  have e0 : ((rewriter.func.blocks ++ [Block.mk 0 after, Block.mk 0 condB.operations]).map
      (fun b : Block => h b.operations)).sum =
      (rewriter.func.blocks.map (fun b : Block => h b.operations)).sum + h after +
        h condB.operations := by
    simp only [List.map_append, List.sum_append, List.map_cons, List.map_nil, List.sum_cons,
      List.sum_nil]
    omega
  have a1 : h initB.operations = h before + h [op] + h after := by
    rw [site.initOps, hadd, show op :: after = [op] ++ after from rfl, hadd]
    omega
  have a2 := hadd before [rewriter.func.operations.length + 2]
  have a3 := hadd lastB.operations
    [rewriter.func.operations.length, rewriter.func.operations.length + 1]
  have a4 := hadd [rewriter.func.operations.length, rewriter.func.operations.length + 1]
    [rewriter.func.operations.length + 2, rewriter.func.operations.length + 3,
      rewriter.func.operations.length + 4]
  have a5 := hadd [rewriter.func.operations.length + 2]
    [rewriter.func.operations.length + 3, rewriter.func.operations.length + 4]
  simp only [List.cons_append, List.nil_append] at a4 a5
  simp only at e1 e2 e3
  omega

theorem IfLowering_blocks_eq_noelse (rewriter rw' : PatternRewriter)
    (op thenRegion elseRegion : Nat) (t : Nat) (trest before after : List Nat) (condB : Block)
    (cv : Option Value)
    (site : IfSite rewriter op thenRegion elseRegion (t :: trest) [] before after condB)
    (hrun : IfLowering.matchAndRewrite op [cv] rewriter =
      some (PatternMatchResult.matchSuccess, rw')) :
    ∃ tbB : Block,
      rewriter.func.blocks[(t :: trest).getLast (List.cons_ne_nil _ _)]? = some tbB ∧
      (t :: trest).getLast (List.cons_ne_nil _ _) ≠ rewriter.insertionBlock ∧
      rw'.func.blocks =
        ((rewriter.func.blocks ++ [Block.mk 0 after]).set rewriter.insertionBlock
            (Block.mk condB.numArguments
              (before ++ [rewriter.func.operations.length + 1]))).set
          ((t :: trest).getLast (List.cons_ne_nil _ _))
          (Block.mk tbB.numArguments (tbB.operations ++ [rewriter.func.operations.length])) := by
  obtain ⟨rw'', hrun', -, -, hlen, hcb, hcont, hthen, hother⟩ :=
    IfLowering_spec_noelse rewriter op thenRegion elseRegion t trest before after condB cv site
  have heq : rw' = rw'' := by
    have := hrun.symm.trans hrun'
    simpa using this
  subst heq
  have hcblt := (List.getElem?_eq_some.mp site.condBlock).1
  have htbmem : (t :: trest).getLast (List.cons_ne_nil _ _) ∈ t :: trest := List.getLast_mem _
  generalize (t :: trest).getLast (List.cons_ne_nil _ _) = tb at *
  have htblt : tb < rewriter.func.blocks.length := site.thenValid _ htbmem
  have htbcb : tb ≠ rewriter.insertionBlock := fun h => site.condOutsideThen (h ▸ htbmem)
  obtain ⟨tbB, htbB⟩ : ∃ tbB, rewriter.func.blocks[tb]? = some tbB :=
    ⟨_, List.getElem?_eq_getElem htblt⟩
  refine ⟨tbB, htbB, htbcb, ?_⟩
  apply List.ext_getElem?
  intro j
  by_cases h1 : j = tb
  · subst h1
    rw [List.getElem?_set_self (by simp; omega)]
    exact hthen tbB htbB
  · rw [List.getElem?_set_ne (Ne.symm h1)]
    by_cases h2 : j = rewriter.insertionBlock
    · subst h2
      rw [List.getElem?_set_self (by simp; omega)]
      exact hcb
    · rw [List.getElem?_set_ne (Ne.symm h2)]
      by_cases h4 : j < rewriter.func.blocks.length
      · rw [List.getElem?_append_left h4]
        obtain ⟨blk, hblk⟩ : ∃ blk, rewriter.func.blocks[j]? = some blk :=
          ⟨_, List.getElem?_eq_getElem h4⟩
        rw [hblk]
        exact hother j blk hblk h2 h1
      · by_cases h5 : j = rewriter.func.blocks.length
        · subst h5
          rw [hcont, List.getElem?_append_right (le_refl _)]
          simp
        · rw [List.getElem?_eq_none (by omega), List.getElem?_eq_none (by simp; omega)]

theorem IfLowering_blocks_eq_else (rewriter rw' : PatternRewriter)
    (op thenRegion elseRegion : Nat) (t : Nat) (trest : List Nat) (e : Nat)
    (erest before after : List Nat) (condB : Block) (cv : Option Value)
    (site : IfSite rewriter op thenRegion elseRegion (t :: trest) (e :: erest) before after
      condB)
    (hrun : IfLowering.matchAndRewrite op [cv] rewriter =
      some (PatternMatchResult.matchSuccess, rw')) :
    ∃ tbB ebB : Block,
      rewriter.func.blocks[(t :: trest).getLast (List.cons_ne_nil _ _)]? = some tbB ∧
      rewriter.func.blocks[(e :: erest).getLast (List.cons_ne_nil _ _)]? = some ebB ∧
      (t :: trest).getLast (List.cons_ne_nil _ _) ≠ rewriter.insertionBlock ∧
      (e :: erest).getLast (List.cons_ne_nil _ _) ≠ rewriter.insertionBlock ∧
      (e :: erest).getLast (List.cons_ne_nil _ _) ≠
        (t :: trest).getLast (List.cons_ne_nil _ _) ∧
      rw'.func.blocks =
        (((rewriter.func.blocks ++ [Block.mk 0 after]).set rewriter.insertionBlock
              (Block.mk condB.numArguments
                (before ++ [rewriter.func.operations.length + 2]))).set
            ((t :: trest).getLast (List.cons_ne_nil _ _))
            (Block.mk tbB.numArguments
              (tbB.operations ++ [rewriter.func.operations.length]))).set
          ((e :: erest).getLast (List.cons_ne_nil _ _))
          (Block.mk ebB.numArguments
            (ebB.operations ++ [rewriter.func.operations.length + 1])) := by
  obtain ⟨rw'', hrun', -, -, hlen, hcb, hcont, hthen, helse, hother⟩ :=
    IfLowering_spec_else rewriter op thenRegion elseRegion t trest e erest before after condB cv
      site
  have heq : rw' = rw'' := by
    have := hrun.symm.trans hrun'
    simpa using this
  subst heq
  have hbacks : (e :: erest).getLast (List.cons_ne_nil _ _) ≠
      (t :: trest).getLast (List.cons_ne_nil _ _) := by
    intro h
    exact site.backsDistinct _ (List.getLast?_eq_getLast _ (List.cons_ne_nil _ _)) _
      (List.getLast?_eq_getLast _ (List.cons_ne_nil _ _)) h.symm
  have hcblt := (List.getElem?_eq_some.mp site.condBlock).1
  have htbmem : (t :: trest).getLast (List.cons_ne_nil _ _) ∈ t :: trest := List.getLast_mem _
  have hebmem : (e :: erest).getLast (List.cons_ne_nil _ _) ∈ e :: erest := List.getLast_mem _
  generalize (t :: trest).getLast (List.cons_ne_nil _ _) = tb at *
  generalize (e :: erest).getLast (List.cons_ne_nil _ _) = eb at *
  have htblt : tb < rewriter.func.blocks.length := site.thenValid _ htbmem
  have heblt : eb < rewriter.func.blocks.length := site.elseValid _ hebmem
  have htbcb : tb ≠ rewriter.insertionBlock := fun h => site.condOutsideThen (h ▸ htbmem)
  have hebcb : eb ≠ rewriter.insertionBlock := fun h => site.condOutsideElse (h ▸ hebmem)
  obtain ⟨tbB, htbB⟩ : ∃ tbB, rewriter.func.blocks[tb]? = some tbB :=
    ⟨_, List.getElem?_eq_getElem htblt⟩
  obtain ⟨ebB, hebB⟩ : ∃ ebB, rewriter.func.blocks[eb]? = some ebB :=
    ⟨_, List.getElem?_eq_getElem heblt⟩
  refine ⟨tbB, ebB, htbB, hebB, htbcb, hebcb, hbacks, ?_⟩
  apply List.ext_getElem?
  intro j
  by_cases h0 : j = eb
  · subst h0
    rw [List.getElem?_set_self (by simp; omega)]
    exact helse ebB hebB
  · rw [List.getElem?_set_ne (Ne.symm h0)]
    by_cases h1 : j = tb
    · subst h1
      rw [List.getElem?_set_self (by simp; omega)]
      exact hthen tbB htbB
    · rw [List.getElem?_set_ne (Ne.symm h1)]
      by_cases h2 : j = rewriter.insertionBlock
      · subst h2
        rw [List.getElem?_set_self (by simp; omega)]
        exact hcb
      · rw [List.getElem?_set_ne (Ne.symm h2)]
        by_cases h4 : j < rewriter.func.blocks.length
        · rw [List.getElem?_append_left h4]
          obtain ⟨blk, hblk⟩ : ∃ blk, rewriter.func.blocks[j]? = some blk :=
            ⟨_, List.getElem?_eq_getElem h4⟩
          rw [hblk]
          exact hother j blk hblk h2 h1 h0
        · by_cases h5 : j = rewriter.func.blocks.length
          · subst h5
            rw [hcont, List.getElem?_append_right (le_refl _)]
            simp
          · rw [List.getElem?_eq_none (by omega), List.getElem?_eq_none (by simp; omega)]

/-- Eliding a terminator marker: nothing is created, no region changes, and the block of
the marker loses the marker and nothing else. -/
theorem TerminatorLowering_blocks_eq (rewriter rw' : PatternRewriter) (op : Nat)
    (operands : List (Option Value)) (before after : List Nat) (blk : Block)
    (hblk : rewriter.func.blocks[rewriter.insertionBlock]? = some blk)
    (hops : blk.operations = before ++ op :: after)
    (hnb : op ∉ before)
    (hne : ∀ b blk', rewriter.func.blocks[b]? = some blk' → b ≠ rewriter.insertionBlock →
      op ∉ blk'.operations)
    (hrun : TerminatorLowering.matchAndRewrite op operands rewriter =
      some (PatternMatchResult.matchSuccess, rw')) :
    rw'.func.operations = rewriter.func.operations ∧
    rw'.func.regions = rewriter.func.regions ∧
    rw'.func.blocks =
      rewriter.func.blocks.set rewriter.insertionBlock
        (Block.mk blk.numArguments (before ++ after)) := by
  have heq : rw' = rewriter.replaceOp op := by
    have : some (PatternMatchResult.matchSuccess, rewriter.replaceOp op) =
        some (PatternMatchResult.matchSuccess, rw') := hrun
    simpa using this.symm
  subst heq
  refine ⟨rfl, rfl, ?_⟩
  have hlt := (List.getElem?_eq_some.mp hblk).1
  apply List.ext_getElem?
  intro j
  simp only [PatternRewriter.replaceOp, List.getElem?_map]
  by_cases h1 : j = rewriter.insertionBlock
  · subst h1
    rw [List.getElem?_set_self hlt, hblk]
    simp [hops, List.erase_append_right _ hnb]
  · rw [List.getElem?_set_ne (Ne.symm h1)]
    cases hj : rewriter.func.blocks[j]? with
    | none => rfl
    | some b =>
      simp only [Option.map_some']
      rw [List.erase_of_not_mem (hne j b hj h1)]

theorem IfLowering_measure_noelse (h : List Nat → Nat)
    (hadd : ∀ l₁ l₂, h (l₁ ++ l₂) = h l₁ + h l₂)
    (rewriter rw' : PatternRewriter)
    (op thenRegion elseRegion : Nat) (t : Nat) (trest before after : List Nat) (condB : Block)
    (cv : Option Value)
    (site : IfSite rewriter op thenRegion elseRegion (t :: trest) [] before after condB)
    (hrun : IfLowering.matchAndRewrite op [cv] rewriter =
      some (PatternMatchResult.matchSuccess, rw')) :
    (rw'.func.blocks.map fun b => h b.operations).sum + h [op] =
      (rewriter.func.blocks.map fun b => h b.operations).sum +
        h [rewriter.func.operations.length, rewriter.func.operations.length + 1] := by
  obtain ⟨tbB, htbB, htc, hB⟩ := IfLowering_blocks_eq_noelse rewriter rw' op thenRegion
    elseRegion t trest before after condB cv site hrun
  have hcblt := (List.getElem?_eq_some.mp site.condBlock).1
  have htblt := (List.getElem?_eq_some.mp htbB).1
  rw [hB]
  generalize (t :: trest).getLast (List.cons_ne_nil _ _) = tb at *
  have e1 := sum_map_set (fun b : Block => h b.operations)
    (rewriter.func.blocks ++ [Block.mk 0 after]) rewriter.insertionBlock condB
    (Block.mk condB.numArguments (before ++ [rewriter.func.operations.length + 1]))
    (by rw [List.getElem?_append_left hcblt]; exact site.condBlock)
  have e2 := sum_map_set (fun b : Block => h b.operations)
    ((rewriter.func.blocks ++ [Block.mk 0 after]).set rewriter.insertionBlock
      (Block.mk condB.numArguments (before ++ [rewriter.func.operations.length + 1])))
    tb tbB (Block.mk tbB.numArguments (tbB.operations ++ [rewriter.func.operations.length]))
    (by rw [List.getElem?_set_ne (Ne.symm htc), List.getElem?_append_left htblt]
        exact htbB)
  have e0 : ((rewriter.func.blocks ++ [Block.mk 0 after]).map
      (fun b : Block => h b.operations)).sum =
      (rewriter.func.blocks.map (fun b : Block => h b.operations)).sum + h after := by
    simp only [List.map_append, List.sum_append, List.map_cons, List.map_nil, List.sum_cons,
      List.sum_nil]
    omega
  have a1 : h condB.operations = h before + h [op] + h after := by
    rw [site.condOps, hadd, show op :: after = [op] ++ after from rfl, hadd]
    omega
  have a2 := hadd before [rewriter.func.operations.length + 1]
  have a3 := hadd tbB.operations [rewriter.func.operations.length]
  have a4 := hadd [rewriter.func.operations.length] [rewriter.func.operations.length + 1]
  simp only [List.cons_append, List.nil_append] at a4
  simp only at e1 e2
  omega

theorem IfLowering_measure_else (h : List Nat → Nat)
    (hadd : ∀ l₁ l₂, h (l₁ ++ l₂) = h l₁ + h l₂)
    (rewriter rw' : PatternRewriter)
    (op thenRegion elseRegion : Nat) (t : Nat) (trest : List Nat) (e : Nat)
    (erest before after : List Nat) (condB : Block) (cv : Option Value)
    (site : IfSite rewriter op thenRegion elseRegion (t :: trest) (e :: erest) before after
      condB)
    (hrun : IfLowering.matchAndRewrite op [cv] rewriter =
      some (PatternMatchResult.matchSuccess, rw')) :
    (rw'.func.blocks.map fun b => h b.operations).sum + h [op] =
      (rewriter.func.blocks.map fun b => h b.operations).sum +
        h [rewriter.func.operations.length, rewriter.func.operations.length + 1,
          rewriter.func.operations.length + 2] := by
  obtain ⟨tbB, ebB, htbB, hebB, htc, hec, het, hB⟩ := IfLowering_blocks_eq_else rewriter rw' op
    thenRegion elseRegion t trest e erest before after condB cv site hrun
  have hcblt := (List.getElem?_eq_some.mp site.condBlock).1
  have htblt := (List.getElem?_eq_some.mp htbB).1
  have heblt := (List.getElem?_eq_some.mp hebB).1
  rw [hB]
  generalize (t :: trest).getLast (List.cons_ne_nil _ _) = tb at *
  generalize (e :: erest).getLast (List.cons_ne_nil _ _) = eb at *
  have e1 := sum_map_set (fun b : Block => h b.operations)
    (rewriter.func.blocks ++ [Block.mk 0 after]) rewriter.insertionBlock condB
    (Block.mk condB.numArguments (before ++ [rewriter.func.operations.length + 2]))
    (by rw [List.getElem?_append_left hcblt]; exact site.condBlock)
  have e2 := sum_map_set (fun b : Block => h b.operations)
    ((rewriter.func.blocks ++ [Block.mk 0 after]).set rewriter.insertionBlock
      (Block.mk condB.numArguments (before ++ [rewriter.func.operations.length + 2])))
    tb tbB (Block.mk tbB.numArguments (tbB.operations ++ [rewriter.func.operations.length]))
    (by rw [List.getElem?_set_ne (Ne.symm htc), List.getElem?_append_left htblt]
        exact htbB)
  have e3 := sum_map_set (fun b : Block => h b.operations)
    (((rewriter.func.blocks ++ [Block.mk 0 after]).set rewriter.insertionBlock
      (Block.mk condB.numArguments (before ++ [rewriter.func.operations.length + 2]))).set
      tb (Block.mk tbB.numArguments (tbB.operations ++ [rewriter.func.operations.length])))
    eb ebB
    (Block.mk ebB.numArguments (ebB.operations ++ [rewriter.func.operations.length + 1]))
    (by rw [List.getElem?_set_ne (Ne.symm het), List.getElem?_set_ne (Ne.symm hec),
          List.getElem?_append_left heblt]
        exact hebB)
  have e0 : ((rewriter.func.blocks ++ [Block.mk 0 after]).map
      (fun b : Block => h b.operations)).sum =
      (rewriter.func.blocks.map (fun b : Block => h b.operations)).sum + h after := by
    simp only [List.map_append, List.sum_append, List.map_cons, List.map_nil, List.sum_cons,
      List.sum_nil]
    omega
  have a1 : h condB.operations = h before + h [op] + h after := by
    rw [site.condOps, hadd, show op :: after = [op] ++ after from rfl, hadd]
    omega
  have a2 := hadd before [rewriter.func.operations.length + 2]
  have a3 := hadd tbB.operations [rewriter.func.operations.length]
  have a3' := hadd ebB.operations [rewriter.func.operations.length + 1]
  have a4 := hadd [rewriter.func.operations.length]
    [rewriter.func.operations.length + 1, rewriter.func.operations.length + 2]
  have a5 := hadd [rewriter.func.operations.length + 1] [rewriter.func.operations.length + 2]
  simp only [List.cons_append, List.nil_append] at a4 a5
  simp only at e1 e2 e3
  omega

theorem TerminatorLowering_measure (h : List Nat → Nat)
    (hadd : ∀ l₁ l₂, h (l₁ ++ l₂) = h l₁ + h l₂)
    (rewriter rw' : PatternRewriter) (op : Nat)
    (operands : List (Option Value)) (before after : List Nat) (blk : Block)
    (hblk : rewriter.func.blocks[rewriter.insertionBlock]? = some blk)
    (hops : blk.operations = before ++ op :: after)
    (hnb : op ∉ before)
    (hne : ∀ b blk', rewriter.func.blocks[b]? = some blk' → b ≠ rewriter.insertionBlock →
      op ∉ blk'.operations)
    (hrun : TerminatorLowering.matchAndRewrite op operands rewriter =
      some (PatternMatchResult.matchSuccess, rw')) :
    (rw'.func.blocks.map fun b => h b.operations).sum + h [op] =
      (rewriter.func.blocks.map fun b => h b.operations).sum := by
  obtain ⟨-, -, hB⟩ := TerminatorLowering_blocks_eq rewriter rw' op operands before after blk
    hblk hops hnb hne hrun
  rw [hB]
  have e1 := sum_map_set (fun b : Block => h b.operations) rewriter.func.blocks
    rewriter.insertionBlock blk (Block.mk blk.numArguments (before ++ after)) hblk
  have a1 : h blk.operations = h before + h [op] + h after := by
    rw [hops, hadd, show op :: after = [op] ++ after from rfl, hadd]
    omega
  have a2 := hadd before after
  simp only at e1
  omega

/-! ## The rewrite site of a driver step in a well-formed function -/

theorem findInnermostIllegal_spec (func : FuncOp) (isLegal : Operation → Bool) (b k : Nat)
    (h : func.findInnermostIllegal isLegal = some (b, k)) :
    ∃ blk op, func.blocks[b]? = some blk ∧ blk.operations[k]? = some op ∧
      func.isInnermostIllegal isLegal op = true := by
  unfold FuncOp.findInnermostIllegal at h
  split at h
  · cases h
  · rename_i block hblock
    split at h
    · cases h
    · rename_i blk hblk
      split at h
      · cases h
      · rename_i position hpos
        cases h
        have := List.findIdx?_of_eq_some hpos
        cases hop : blk.operations[k]? with
        | none => simp [hop] at this
        | some op => exact ⟨blk, op, hblk, hop, by simpa [hop] using this⟩

theorem nodup_flatMap_disjoint {α β : Type} (f : α → List β) :
    ∀ (l : List α), (l.flatMap f).Nodup → ∀ (i j : Nat) (x y : α), l[i]? = some x →
      l[j]? = some y → i ≠ j → ∀ a ∈ f x, a ∉ f y := by
  intro l
  induction l with
  | nil => intro _ i j x y hi; simp at hi
  | cons c cs ih =>
    intro hnd i j x y hi hj hij a hax hay
    rw [List.flatMap_cons, List.nodup_append] at hnd
    obtain ⟨-, hcs, hdis⟩ := hnd
    cases i with
    | zero =>
      cases j with
      | zero => exact hij rfl
      | succ j =>
        simp only [List.getElem?_cons_zero, Option.some.injEq] at hi
        simp only [List.getElem?_cons_succ] at hj
        subst hi
        exact hdis hax (List.mem_flatMap.mpr ⟨y, List.getElem?_mem hj, hay⟩)
    | succ i =>
      cases j with
      | zero =>
        simp only [List.getElem?_cons_zero, Option.some.injEq] at hj
        simp only [List.getElem?_cons_succ] at hi
        subst hj
        exact hdis hay (List.mem_flatMap.mpr ⟨x, List.getElem?_mem hi, hax⟩)
      | succ j =>
        simp only [List.getElem?_cons_succ] at hi hj
        exact ih hcs i j x y hi hj (by omega) a hax hay

theorem nodup_flatMap_nodup {α β : Type} (f : α → List β) (l : List α)
    (h : (l.flatMap f).Nodup) (i : Nat) (x : α) (hi : l[i]? = some x) : (f x).Nodup :=
  (List.nodup_flatMap.mp h).1 x (List.getElem?_mem hi)

theorem regions_disjoint (func : FuncOp) (hwf : func.WellFormed) (i j : Nat) (x y : List Nat)
    (hi : func.regions[i]? = some x) (hj : func.regions[j]? = some y) (hij : i ≠ j) :
    ∀ a ∈ x, a ∉ y := by
  have h := hwf.blocksOnce
  rw [List.flatten_eq_flatMap] at h
  exact nodup_flatMap_disjoint id _ h i j x y hi hj hij

theorem region_nodup (func : FuncOp) (hwf : func.WellFormed) (i : Nat) (x : List Nat)
    (hi : func.regions[i]? = some x) : x.Nodup := by
  have h := hwf.blocksOnce
  rw [List.flatten_eq_flatMap] at h
  exact nodup_flatMap_nodup id _ h i x hi

theorem opSite_of_wellFormed (func : FuncOp) (hwf : func.WellFormed) (b k : Nat) (blk : Block)
    (op : Nat) (hblk : func.blocks[b]? = some blk) (hop : blk.operations[k]? = some op) :
    OpSite ⟨func, b, k⟩ op (blk.operations.take k) (blk.operations.drop (k + 1)) blk := by
  have hk : k < blk.operations.length := (List.getElem?_eq_some.mp hop).1
  have hopk : blk.operations[k] = op := (List.getElem?_eq_some.mp hop).2
  have hsplit : blk.operations =
      blk.operations.take k ++ op :: blk.operations.drop (k + 1) := by
    conv_lhs => rw [← List.take_append_drop k blk.operations]
    rw [List.drop_eq_getElem_cons hk, hopk]
  have hnd : blk.operations.Nodup :=
    nodup_flatMap_nodup Block.operations _ hwf.opsOnce b blk hblk
  rw [hsplit] at hnd
  have hnd' := List.nodup_append.mp hnd
  refine ⟨hblk, hsplit, ?_, ?_, ?_, ?_⟩
  · simp [List.length_take, Nat.min_eq_left (Nat.le_of_lt hk)]
  · intro h
    exact hnd'.2.2 h (List.mem_cons_self _ _)
  · exact (List.nodup_cons.mp hnd'.2.1).1
  · intro j blk' hj hjb hmem
    have hin : op ∈ blk.operations := by
      rw [hsplit]; simp
    exact nodup_flatMap_disjoint Block.operations _ hwf.opsOnce b j blk blk' hblk hj
      (Ne.symm hjb) op hin hmem

theorem isInnermostIllegal_spec (func : FuncOp) (isLegal : Operation → Bool) (op : Nat)
    (h : func.isInnermostIllegal isLegal op = true) :
    ∃ o, func.operations[op]? = some o ∧ isLegal o = false ∧
      ∀ r ∈ o.getRegions, func.regionIsLegal isLegal r = true := by
  unfold FuncOp.isInnermostIllegal at h
  split at h
  · cases h
  · rename_i o ho
    simp only [Bool.and_eq_true, Bool.not_eq_true', List.all_eq_true] at h
    exact ⟨o, ho, h.1, h.2⟩

theorem regionIsLegal_spec (func : FuncOp) (isLegal : Operation → Bool) (r : Nat)
    (l : List Nat) (hr : func.regionIsLegal isLegal r = true) (hl : func.regions[r]? = some l)
    (x : Nat) (hx : x ∈ l) (blk : Block) (hb : func.blocks[x]? = some blk) (op : Nat)
    (hop : op ∈ blk.operations) : func.isIllegal isLegal op = false := by
  unfold FuncOp.regionIsLegal at hr
  rw [hl] at hr
  simp only [List.all_eq_true] at hr
  have := hr x hx
  rw [hb] at this
  simp only [List.all_eq_true, Bool.not_eq_true'] at this
  exact this op hop

theorem forSite_of_wellFormed (func : FuncOp) (hwf : func.WellFormed) (b k : Nat) (blk : Block)
    (op : Nat) (lb ub st : Option Value) (region : Nat)
    (hblk : func.blocks[b]? = some blk) (hop : blk.operations[k]? = some op)
    (ho : func.operations[op]? = some (Operation.ForOp lb ub st region))
    (hleg : func.regionIsLegal isDynamicallyLegal region = true) :
    ∃ cond rest condB,
      ForSite ⟨func, b, k⟩ op region cond rest (blk.operations.take k)
        (blk.operations.drop (k + 1)) blk condB := by
  have hs := opSite_of_wellFormed func hwf b k blk op hblk hop
  have hopmem : op ∈ blk.operations := List.getElem?_mem hop
  have hlisted : op ∈ func.listed :=
    List.mem_flatMap.mpr ⟨blk, List.getElem?_mem hblk, hopmem⟩
  have hentry := hwf.entries op hlisted
  unfold FuncOp.hasEntry at hentry
  rw [ho] at hentry
  simp only at hentry
  split at hentry
  swap
  · cases hentry
  rename_i cond hfront
  unfold FuncOp.front at hfront
  cases hreg : func.regions[region]? with
  | none => simp [hreg] at hfront
  | some l =>
    rw [hreg] at hfront
    simp only [Option.bind_eq_bind, Option.some_bind] at hfront
    cases l with
    | nil => simp at hfront
    | cons c rest =>
      simp only [List.head?_cons, Option.some.injEq] at hfront
      subst hfront
      unfold FuncOp.getArgument at hentry
      cases hcB : func.blocks[c]? with
      | none => simp [hcB] at hentry
      | some condB =>
        rw [hcB] at hentry
        simp only at hentry
        have harg : 0 < condB.numArguments := by
          by_contra hc
          simp [hc] at hentry
        have hill : func.isIllegal isDynamicallyLegal op = true := by
          simp [FuncOp.isIllegal, ho, isDynamicallyLegal, Operation.isForOp]
        refine ⟨c, rest, condB, ⟨lb, ub, st, ho⟩, hblk, hs.ops, hs.point, hreg, hcB, harg, ?_, ?_,
          ?_, hs.notBefore, hs.notAfter, hs.notElsewhere⟩
        · intro x hx
          exact hwf.blocksValid _ (List.getElem?_mem hreg) x (List.mem_cons_of_mem _ hx)
        · intro hmem
          have := regionIsLegal_spec func isDynamicallyLegal region _ hleg hreg b hmem blk hblk op
            hopmem
          rw [hill] at this
          cases this
        · exact (List.nodup_cons.mp (region_nodup func hwf region _ hreg)).1

theorem ifSite_of_wellFormed (func : FuncOp) (hwf : func.WellFormed) (b k : Nat) (blk : Block)
    (op : Nat) (c : Option Value) (thenRegion elseRegion : Nat)
    (hblk : func.blocks[b]? = some blk) (hop : blk.operations[k]? = some op)
    (ho : func.operations[op]? = some (Operation.IfOp c thenRegion elseRegion))
    (hlegt : func.regionIsLegal isDynamicallyLegal thenRegion = true)
    (hlege : func.regionIsLegal isDynamicallyLegal elseRegion = true) :
    ∃ t trest elseBlocks,
      IfSite ⟨func, b, k⟩ op thenRegion elseRegion (t :: trest) elseBlocks
        (blk.operations.take k) (blk.operations.drop (k + 1)) blk := by
  have hs := opSite_of_wellFormed func hwf b k blk op hblk hop
  have hopmem : op ∈ blk.operations := List.getElem?_mem hop
  have hlisted : op ∈ func.listed :=
    List.mem_flatMap.mpr ⟨blk, List.getElem?_mem hblk, hopmem⟩
  have hentry := hwf.entries op hlisted
  unfold FuncOp.hasEntry at hentry
  rw [ho] at hentry
  simp only at hentry
  have helt : elseRegion < func.regions.length :=
    hwf.regionsValid _ (List.getElem?_mem ho) elseRegion (by simp [Operation.getRegions])
  obtain ⟨elseBlocks, helse⟩ : ∃ l, func.regions[elseRegion]? = some l :=
    ⟨_, List.getElem?_eq_getElem helt⟩
  have hte : thenRegion ≠ elseRegion := by
    have := nodup_flatMap_nodup Operation.getRegions _ hwf.regionsOnce op _ ho
    simp only [Operation.getRegions, List.nodup_cons, List.mem_singleton, List.not_mem_nil,
      not_false_eq_true, List.nodup_nil, and_true] at this
    exact this
  unfold FuncOp.front at hentry
  cases hreg : func.regions[thenRegion]? with
  | none => simp [hreg] at hentry
  | some l =>
    rw [hreg] at hentry
    simp only [Option.bind_eq_bind, Option.some_bind] at hentry
    cases l with
    | nil => simp at hentry
    | cons t trest =>
      have hill : func.isIllegal isDynamicallyLegal op = true := by
        simp [FuncOp.isIllegal, ho, isDynamicallyLegal, Operation.isForOp, Operation.isIfOp]
      refine ⟨t, trest, elseBlocks, ⟨c, ho⟩, hblk, hs.ops, hs.point, hreg, helse,
        List.cons_ne_nil _ _, hte, ?_, ?_, ?_, ?_, ?_, hs.notBefore, hs.notAfter,
        hs.notElsewhere⟩
      · intro x hx
        exact hwf.blocksValid _ (List.getElem?_mem hreg) x hx
      · intro x hx
        exact hwf.blocksValid _ (List.getElem?_mem helse) x hx
      · intro hmem
        have := regionIsLegal_spec func isDynamicallyLegal thenRegion _ hlegt hreg b hmem blk
          hblk op hopmem
        rw [hill] at this
        cases this
      · intro hmem
        have := regionIsLegal_spec func isDynamicallyLegal elseRegion _ hlege helse b hmem blk
          hblk op hopmem
        rw [hill] at this
        cases this
      · intro x hx y hy hxy
        have hx' : x ∈ t :: trest := List.mem_of_getLast?_eq_some hx
        have hy' : y ∈ elseBlocks := List.mem_of_getLast?_eq_some hy
        exact regions_disjoint func hwf thenRegion elseRegion _ _ hreg helse hte x hx'
          (hxy ▸ hy')

theorem ForLowering_success_resolved (rewriter rw' : PatternRewriter) (op region cond : Nat)
    (rest before after : List Nat) (initB condB : Block) (olb oub st : Option Value)
    (site : ForSite rewriter op region cond rest before after initB condB)
    (hrun : ForLowering.matchAndRewrite op [olb, oub, st] rewriter =
      some (PatternMatchResult.matchSuccess, rw')) :
    ∃ lb ub, olb = some lb ∧ oub = some ub := by
  by_cases hb : (olb.isNone || oub.isNone) = true
  · exfalso
    obtain ⟨⟨O, B, R⟩, init, p⟩ := rewriter
    obtain ⟨⟨a, b, c, hop⟩, hinit, hops, hp, hreg, hcond, harg, hrest, hio, hcr, -, -, -⟩ := site
    simp only at hop hinit hp hreg hcond hrest hio
    have hne' : init ≠ cond := fun e => hio (e ▸ List.mem_cons_self _ _)
    have hni : init ∉ rest := fun h => hio (List.mem_cons_of_mem _ h)
    obtain ⟨lastB, -, hfail⟩ := ForLowering_run_unresolved O B R init p op a b c region cond rest
      initB condB olb oub st hop hinit hreg hcond harg hrest hne' hni hcr hb
    rw [hfail] at hrun
    simp at hrun
  · cases olb with
    | none => simp at hb
    | some lb =>
      cases oub with
      | none => simp at hb
      | some ub => exact ⟨lb, ub, rfl, rfl⟩

/-- One successful step of the driver in a well-formed function is a rewrite at a
well-formed site: a loop with resolved bounds whose body lists no illegal operation, a
conditional whose regions list no illegal operation, or a terminator marker. -/
theorem driver_step (func : FuncOp) (hwf : func.WellFormed) (b k : Nat)
    (rw : PatternRewriter)
    (hfind : func.findInnermostIllegal isDynamicallyLegal = some (b, k))
    (hleg : legalize [ForLowering, IfLowering, TerminatorLowering] func b k =
      some (PatternMatchResult.matchSuccess, rw)) :
    ∃ op before after blk, OpSite ⟨func, b, k⟩ op before after blk ∧
      ((∃ region cond rest condB lb ub st,
          ForSite ⟨func, b, k⟩ op region cond rest before after blk condB ∧
          func.regionIsLegal isDynamicallyLegal region = true ∧
          ForLowering.matchAndRewrite op [some lb, some ub, st] ⟨func, b, k⟩ =
            some (PatternMatchResult.matchSuccess, rw)) ∨
        (∃ thenRegion elseRegion t trest elseBlocks cv,
          IfSite ⟨func, b, k⟩ op thenRegion elseRegion (t :: trest) elseBlocks before after
            blk ∧
          func.regionIsLegal isDynamicallyLegal thenRegion = true ∧
          func.regionIsLegal isDynamicallyLegal elseRegion = true ∧
          IfLowering.matchAndRewrite op [cv] ⟨func, b, k⟩ =
            some (PatternMatchResult.matchSuccess, rw)) ∨
        (func.operations[op]? = some Operation.TerminatorOp ∧
          TerminatorLowering.matchAndRewrite op [] ⟨func, b, k⟩ =
            some (PatternMatchResult.matchSuccess, rw))) := by
  obtain ⟨blk, op, hblk, hop, hinner⟩ := findInnermostIllegal_spec func _ b k hfind
  obtain ⟨o, ho, hill, hregs⟩ := isInnermostIllegal_spec func _ op hinner
  have hs := opSite_of_wellFormed func hwf b k blk op hblk hop
  refine ⟨op, _, _, blk, hs, ?_⟩
  unfold legalize at hleg
  rw [hblk] at hleg
  simp only [hop, ho] at hleg
  rcases (isDynamicallyLegal_eq_false_iff o).mp hill with
    ⟨lb, ub, st, r, rfl⟩ | ⟨c, t, e, rfl⟩ | rfl
  · left
    have hrl := hregs r (by simp [Operation.getRegions])
    obtain ⟨cond, rest, condB, site⟩ :=
      forSite_of_wellFormed func hwf b k blk op lb ub st r hblk hop ho hrl
    have hrun : ForLowering.matchAndRewrite op [lb, ub, st] ⟨func, b, k⟩ =
        some (PatternMatchResult.matchSuccess, rw) := by
      simpa [ForLowering, IfLowering, TerminatorLowering, Operation.isForOp,
        Operation.getOperands] using hleg
    obtain ⟨lb', ub', rfl, rfl⟩ := ForLowering_success_resolved _ rw op r cond rest _ _ blk condB
      lb ub st site hrun
    exact ⟨r, cond, rest, condB, lb', ub', st, site, hrl, hrun⟩
  · right; left
    have hrt := hregs t (by simp [Operation.getRegions])
    have hre := hregs e (by simp [Operation.getRegions])
    obtain ⟨t', trest, elseBlocks, site⟩ :=
      ifSite_of_wellFormed func hwf b k blk op c t e hblk hop ho hrt hre
    have hrun : IfLowering.matchAndRewrite op [c] ⟨func, b, k⟩ =
        some (PatternMatchResult.matchSuccess, rw) := by
      simpa [ForLowering, IfLowering, TerminatorLowering, Operation.isForOp, Operation.isIfOp,
        Operation.getOperands] using hleg
    exact ⟨t, e, t', trest, elseBlocks, c, site, hrt, hre, hrun⟩
  · right; right
    refine ⟨ho, ?_⟩
    simpa [ForLowering, IfLowering, TerminatorLowering, Operation.isForOp, Operation.isIfOp,
      Operation.isTerminatorOp, Operation.getOperands] using hleg

/-! ## Counting handles -/

theorem count_listed (func : FuncOp) (a : Nat) :
    func.listed.count a = (func.blocks.map fun b => b.operations.count a).sum := by
  unfold FuncOp.listed
  rw [List.flatMap_def, List.count_flatten, List.map_map]
  rfl

theorem mem_listed_iff (func : FuncOp) (o : Nat) :
    o ∈ func.listed ↔
      ∃ (j : Nat) (blk : Block), func.blocks[j]? = some blk ∧ o ∈ blk.operations := by
  unfold FuncOp.listed
  rw [List.mem_flatMap]
  constructor
  · rintro ⟨blk, hb, ho⟩
    obtain ⟨j, hj⟩ := List.getElem?_of_mem hb
    exact ⟨j, blk, hj, ho⟩
  · rintro ⟨j, blk, hj, ho⟩
    exact ⟨blk, List.getElem?_mem hj, ho⟩

/-- A list of handles after a rewrite, known by its counts: the handles `erased` are
gone, the fresh handles `new` are there. -/
theorem fresh_extension (L L' new erased : List Nat) (m m' : Nat)
    (hcount : ∀ a, L'.count a + erased.count a = L.count a + new.count a)
    (hL : L.Nodup) (hLv : ∀ x ∈ L, x < m) (hnew : new.Nodup)
    (hnv : ∀ x ∈ new, m ≤ x ∧ x < m') (hmm : m ≤ m') :
    L'.Nodup ∧ (∀ x ∈ L', x < m') ∧ (∀ x ∈ L', x ∈ L ∨ x ∈ new) ∧
      (∀ x ∈ L, x ∉ erased → x ∈ L') ∧ (∀ x ∈ new, x ∉ erased → x ∈ L') := by
  have hmem : ∀ x ∈ L', x ∈ L ∨ x ∈ new := by
    intro x hx
    have h1 := hcount x
    have h2 : 0 < L'.count x := List.count_pos_iff.mpr hx
    by_contra hc
    simp only [not_or] at hc
    rw [List.count_eq_zero_of_not_mem hc.1, List.count_eq_zero_of_not_mem hc.2] at h1
    omega
  refine ⟨?_, ?_, hmem, ?_, ?_⟩
  · rw [List.nodup_iff_count_le_one]
    intro a
    have h1 := hcount a
    have h2 := List.nodup_iff_count_le_one.mp hL a
    have h3 := List.nodup_iff_count_le_one.mp hnew a
    by_cases ha : a ∈ new
    · have : a ∉ L := fun h => by
        have := hLv a h
        have := (hnv a ha).1
        omega
      rw [List.count_eq_zero_of_not_mem this] at h1
      omega
    · rw [List.count_eq_zero_of_not_mem ha] at h1
      omega
  · intro x hx
    rcases hmem x hx with h | h
    · have := hLv x h; omega
    · exact (hnv x h).2
  · intro x hx hne
    have h1 := hcount x
    have h2 : 0 < L.count x := List.count_pos_iff.mpr hx
    rw [List.count_eq_zero_of_not_mem hne] at h1
    exact List.count_pos_iff.mp (by omega)
  · intro x hx hne
    have h1 := hcount x
    have h2 : 0 < new.count x := List.count_pos_iff.mpr hx
    rw [List.count_eq_zero_of_not_mem hne] at h1
    exact List.count_pos_iff.mp (by omega)

theorem parent_exists (func : FuncOp) (hwf : func.WellFormed) (b : Nat)
    (hb : b < func.blocks.length) :
    ∃ (P : Nat) (pre post : List Nat),
      func.regions[P]? = some (pre ++ b :: post) ∧ b ∉ pre ∧ b ∉ post := by
  have hmem := hwf.blocksListed b (List.mem_range.mpr hb)
  rw [List.mem_flatten] at hmem
  obtain ⟨l, hl, hbl⟩ := hmem
  obtain ⟨P, hP⟩ := List.getElem?_of_mem hl
  obtain ⟨pre, post, rfl⟩ := List.append_of_mem hbl
  have hnd := region_nodup func hwf P _ hP
  rw [List.nodup_append] at hnd
  refine ⟨P, pre, post, hP, ?_, ?_⟩
  · intro h
    exact hnd.2.2 h (List.mem_cons_self _ _)
  · exact (List.nodup_cons.mp hnd.2.1).1

theorem head?_append_cons (pre : List Nat) (b : Nat) (x y : List Nat) :
    (pre ++ b :: x).head? = (pre ++ b :: y).head? := by
  cases pre <;> rfl

/-! ## The regions after a rewrite -/

theorem ForLowering_region_parent (b cond n : Nat) (rest pre post : List Nat)
    (hb : b ∉ pre) (hc1 : cond ∉ pre) (hc2 : cond ∉ post) (hcb : cond ≠ b) (hcn : cond ≠ n)
    (hn : n ∉ pre) (hnb : n ≠ b) :
    spliceBefore n (cond :: (n + 1) :: rest)
        (insertAfter cond (n + 1) (insertAfter b n (pre ++ b :: post))) =
      pre ++ b :: cond :: (n + 1) :: rest ++ n :: post := by
  rw [insertAfter_append _ _ _ _ hb, insertAfter_of_not_mem]
  · have h : n ∉ pre ++ [b] := by
      simp only [List.mem_append, List.mem_singleton, not_or]
      exact ⟨hn, hnb⟩
    have := spliceBefore_append n (cond :: (n + 1) :: rest) (pre ++ [b]) post h
    simp only [List.append_assoc, List.singleton_append] at this
    rw [this]
    simp
  · simp only [List.mem_append, List.mem_cons, not_or]
    exact ⟨hc1, hcb, hcn, hc2⟩

theorem ForLowering_region_other (b cond n : Nat) (M l : List Nat) (hb : b ∉ l)
    (hc : cond ∉ l) (hn : n ∉ l) :
    spliceBefore n M (insertAfter cond (n + 1) (insertAfter b n l)) = l := by
  rw [insertAfter_of_not_mem _ _ _ hb, insertAfter_of_not_mem _ _ _ hc,
    spliceBefore_of_not_mem _ _ _ hn]

theorem IfLowering_region_parent (b n : Nat) (M pre post : List Nat)
    (hb : b ∉ pre) (hn : n ∉ pre) (hnb : n ≠ b) :
    spliceBefore n M (insertAfter b n (pre ++ b :: post)) = pre ++ b :: M ++ n :: post := by
  rw [insertAfter_append _ _ _ _ hb]
  have h : n ∉ pre ++ [b] := by
    simp only [List.mem_append, List.mem_singleton, not_or]
    exact ⟨hn, hnb⟩
  have := spliceBefore_append n M (pre ++ [b]) post h
  simp only [List.append_assoc, List.singleton_append] at this
  rw [this]
  simp

theorem IfLowering_region_parent_else (b n : Nat) (M M' pre post : List Nat)
    (hb : b ∉ pre) (hn : n ∉ pre) (hnb : n ≠ b) (hM : n ∉ M) :
    spliceBefore n M' (spliceBefore n M (insertAfter b n (pre ++ b :: post))) =
      pre ++ b :: M ++ M' ++ n :: post := by
  rw [IfLowering_region_parent b n M pre post hb hn hnb]
  have h : n ∉ pre ++ b :: M := by
    simp only [List.mem_append, List.mem_cons, not_or]
    exact ⟨hn, hnb, hM⟩
  have := spliceBefore_append n M' (pre ++ b :: M) post h
  simp only [List.append_assoc, List.cons_append] at this ⊢
  rw [this]

/-- The regions of the function after `ForLowering` at a well-formed loop of a
well-formed function, the block of the loop being in the region `P`. -/
theorem ForLowering_regions_eq (rewriter rw' : PatternRewriter) (op region cond : Nat)
    (rest before after : List Nat) (initB condB : Block) (lb ub : Value) (st : Option Value)
    (hwf : rewriter.func.WellFormed)
    (site : ForSite rewriter op region cond rest before after initB condB)
    (hrun : ForLowering.matchAndRewrite op [some lb, some ub, st] rewriter =
      some (PatternMatchResult.matchSuccess, rw'))
    (P : Nat) (pre post : List Nat)
    (hP : rewriter.func.regions[P]? = some (pre ++ rewriter.insertionBlock :: post)) :
    P ≠ region ∧
    rw'.func.regions =
      (rewriter.func.regions.set P
          (pre ++ rewriter.insertionBlock :: cond :: (rewriter.func.blocks.length + 1) :: rest ++
            rewriter.func.blocks.length :: post)).set region [] := by
  obtain ⟨rw'', hrun', -, hregs, -⟩ :=
    ForLowering_spec rewriter op region cond rest before after initB condB lb ub st site
  have heq : rw' = rw'' := by
    have := hrun.symm.trans hrun'
    simpa using this
  subst heq
  have hbP : rewriter.insertionBlock ∈ pre ++ rewriter.insertionBlock :: post := by simp
  have hPr : P ≠ region := by
    intro e
    rw [e, site.body] at hP
    exact site.initOutside (Option.some.inj hP ▸ hbP)
  have hnd := region_nodup _ hwf P _ hP
  rw [List.nodup_append] at hnd
  have hbpre : rewriter.insertionBlock ∉ pre := fun h => hnd.2.2 h (List.mem_cons_self _ _)
  have hvalid : ∀ (i : Nat) (l : List Nat), rewriter.func.regions[i]? = some l →
      rewriter.func.blocks.length ∉ l := by
    intro i l hl h
    exact Nat.lt_irrefl _ (hwf.blocksValid l (List.getElem?_mem hl) _ h)
  have hcondP : cond ∉ pre ++ rewriter.insertionBlock :: post :=
    regions_disjoint _ hwf region P _ _ site.body hP (Ne.symm hPr) cond
      (List.mem_cons_self _ _)
  have hregionlt := (List.getElem?_eq_some.mp site.body).1
  have hPlt := (List.getElem?_eq_some.mp hP).1
  have hcondlt := (List.getElem?_eq_some.mp site.condBlock).1
  have hinitlt := (List.getElem?_eq_some.mp site.initBlock).1
  refine ⟨hPr, ?_⟩
  rw [hregs]
  apply List.ext_getElem?
  intro i
  rw [List.getElem?_map]
  by_cases h1 : i = region
  · subst h1
    rw [List.getElem?_set_self (by simpa using hregionlt),
      List.getElem?_set_self (by simpa using hregionlt)]
    rfl
  · rw [List.getElem?_set_ne (Ne.symm h1), List.getElem?_set_ne (Ne.symm h1), List.getElem?_map,
      List.getElem?_map]
    by_cases h2 : i = P
    · subst h2
      rw [hP, List.getElem?_set_self hPlt]
      simp only [Option.map_some']
      have hnP := hvalid i _ hP
      simp only [List.mem_append, List.mem_cons, not_or] at hcondP hnP
      rw [ForLowering_region_parent _ _ _ _ _ _ hbpre hcondP.1 hcondP.2.2 hcondP.2.1 (by omega)
        hnP.1 (by omega)]
    · rw [List.getElem?_set_ne (Ne.symm h2)]
      cases hl : rewriter.func.regions[i]? with
      | none => rfl
      | some l =>
        simp only [Option.map_some']
        have hbl : rewriter.insertionBlock ∉ l := fun h =>
          regions_disjoint _ hwf i P _ _ hl hP h2 _ h hbP
        have hcl : cond ∉ l := fun h =>
          regions_disjoint _ hwf i region _ _ hl site.body h1 _ h (List.mem_cons_self _ _)
        rw [ForLowering_region_other _ _ _ _ _ hbl hcl (hvalid i l hl)]

theorem IfLowering_region_other (b n : Nat) (M l : List Nat) (hb : b ∉ l) (hn : n ∉ l) :
    spliceBefore n M (insertAfter b n l) = l := by
  rw [insertAfter_of_not_mem _ _ _ hb, spliceBefore_of_not_mem _ _ _ hn]

/-- The regions of the function after `IfLowering` at a well-formed conditional without
an "else" part, the block of the conditional being in the region `P`. -/
theorem IfLowering_regions_eq_noelse (rewriter rw' : PatternRewriter)
    (op thenRegion elseRegion : Nat) (t : Nat) (trest before after : List Nat) (condB : Block)
    (cv : Option Value) (hwf : rewriter.func.WellFormed)
    (site : IfSite rewriter op thenRegion elseRegion (t :: trest) [] before after condB)
    (hrun : IfLowering.matchAndRewrite op [cv] rewriter =
      some (PatternMatchResult.matchSuccess, rw'))
    (P : Nat) (pre post : List Nat)
    (hP : rewriter.func.regions[P]? = some (pre ++ rewriter.insertionBlock :: post)) :
    P ≠ thenRegion ∧ P ≠ elseRegion ∧
    rw'.func.regions =
      (rewriter.func.regions.set P
          (pre ++ rewriter.insertionBlock :: (t :: trest) ++
            rewriter.func.blocks.length :: post)).set thenRegion [] := by
  obtain ⟨rw'', hrun', -, hregs, -⟩ :=
    IfLowering_spec_noelse rewriter op thenRegion elseRegion t trest before after condB cv site
  have heq : rw' = rw'' := by
    have := hrun.symm.trans hrun'
    simpa using this
  subst heq
  have hbP : rewriter.insertionBlock ∈ pre ++ rewriter.insertionBlock :: post := by simp
  have hPt : P ≠ thenRegion := by
    intro e
    rw [e, site.thenBody] at hP
    exact site.condOutsideThen (Option.some.inj hP ▸ hbP)
  have hPe : P ≠ elseRegion := by
    intro e
    rw [e, site.elseBody] at hP
    exact site.condOutsideElse (Option.some.inj hP ▸ hbP)
  have hnd := region_nodup _ hwf P _ hP
  rw [List.nodup_append] at hnd
  have hbpre : rewriter.insertionBlock ∉ pre := fun h => hnd.2.2 h (List.mem_cons_self _ _)
  have hvalid : ∀ (i : Nat) (l : List Nat), rewriter.func.regions[i]? = some l →
      rewriter.func.blocks.length ∉ l := by
    intro i l hl h
    exact Nat.lt_irrefl _ (hwf.blocksValid l (List.getElem?_mem hl) _ h)
  have hthenlt := (List.getElem?_eq_some.mp site.thenBody).1
  have hPlt := (List.getElem?_eq_some.mp hP).1
  have hcblt := (List.getElem?_eq_some.mp site.condBlock).1
  refine ⟨hPt, hPe, ?_⟩
  rw [hregs]
  apply List.ext_getElem?
  intro i
  rw [List.getElem?_map]
  by_cases h1 : i = thenRegion
  · subst h1
    rw [List.getElem?_set_self (by simpa using hthenlt),
      List.getElem?_set_self (by simpa using hthenlt)]
    rfl
  · rw [List.getElem?_set_ne (Ne.symm h1), List.getElem?_set_ne (Ne.symm h1), List.getElem?_map]
    by_cases h2 : i = P
    · subst h2
      rw [hP, List.getElem?_set_self hPlt]
      simp only [Option.map_some']
      have hnP := hvalid i _ hP
      simp only [List.mem_append, List.mem_cons, not_or] at hnP
      rw [IfLowering_region_parent _ _ _ _ _ hbpre hnP.1 (by omega)]
    · rw [List.getElem?_set_ne (Ne.symm h2)]
      cases hl : rewriter.func.regions[i]? with
      | none => rfl
      | some l =>
        simp only [Option.map_some']
        have hbl : rewriter.insertionBlock ∉ l := fun h =>
          regions_disjoint _ hwf i P _ _ hl hP h2 _ h hbP
        rw [IfLowering_region_other _ _ _ _ hbl (hvalid i l hl)]

/-- The regions of the function after `IfLowering` at a well-formed conditional with an
"else" part, the block of the conditional being in the region `P`. -/
theorem IfLowering_regions_eq_else (rewriter rw' : PatternRewriter)
    (op thenRegion elseRegion : Nat) (t : Nat) (trest : List Nat) (e : Nat)
    (erest before after : List Nat) (condB : Block) (cv : Option Value)
    (hwf : rewriter.func.WellFormed)
    (site : IfSite rewriter op thenRegion elseRegion (t :: trest) (e :: erest) before after
      condB)
    (hrun : IfLowering.matchAndRewrite op [cv] rewriter =
      some (PatternMatchResult.matchSuccess, rw'))
    (P : Nat) (pre post : List Nat)
    (hP : rewriter.func.regions[P]? = some (pre ++ rewriter.insertionBlock :: post)) :
    P ≠ thenRegion ∧ P ≠ elseRegion ∧
    rw'.func.regions =
      ((rewriter.func.regions.set P
            (pre ++ rewriter.insertionBlock :: (t :: trest) ++ (e :: erest) ++
              rewriter.func.blocks.length :: post)).set thenRegion []).set elseRegion [] := by
  obtain ⟨rw'', hrun', -, hregs, -⟩ :=
    IfLowering_spec_else rewriter op thenRegion elseRegion t trest e erest before after condB cv
      site
  have heq : rw' = rw'' := by
    have := hrun.symm.trans hrun'
    simpa using this
  subst heq
  have hbP : rewriter.insertionBlock ∈ pre ++ rewriter.insertionBlock :: post := by simp
  have hPt : P ≠ thenRegion := by
    intro e
    rw [e, site.thenBody] at hP
    exact site.condOutsideThen (Option.some.inj hP ▸ hbP)
  have hPe : P ≠ elseRegion := by
    intro e
    rw [e, site.elseBody] at hP
    exact site.condOutsideElse (Option.some.inj hP ▸ hbP)
  have hnd := region_nodup _ hwf P _ hP
  rw [List.nodup_append] at hnd
  have hbpre : rewriter.insertionBlock ∉ pre := fun h => hnd.2.2 h (List.mem_cons_self _ _)
  have hvalid : ∀ (i : Nat) (l : List Nat), rewriter.func.regions[i]? = some l →
      rewriter.func.blocks.length ∉ l := by
    intro i l hl h
    exact Nat.lt_irrefl _ (hwf.blocksValid l (List.getElem?_mem hl) _ h)
  have hthenlt := (List.getElem?_eq_some.mp site.thenBody).1
  have helselt := (List.getElem?_eq_some.mp site.elseBody).1
  have hPlt := (List.getElem?_eq_some.mp hP).1
  have hcblt := (List.getElem?_eq_some.mp site.condBlock).1
  have hte := site.regionsDistinct
  refine ⟨hPt, hPe, ?_⟩
  rw [hregs]
  apply List.ext_getElem?
  intro i
  rw [List.getElem?_map]
  by_cases h0 : i = elseRegion
  · subst h0
    rw [List.getElem?_set_self (by simpa using helselt),
      List.getElem?_set_self (by simpa using helselt)]
    rfl
  · rw [List.getElem?_set_ne (Ne.symm h0), List.getElem?_set_ne (Ne.symm h0), List.getElem?_map]
    by_cases h1 : i = thenRegion
    · subst h1
      rw [List.getElem?_set_self (by simpa using hthenlt),
        List.getElem?_set_self (by simpa using hthenlt)]
      rfl
    · rw [List.getElem?_set_ne (Ne.symm h1), List.getElem?_set_ne (Ne.symm h1),
        List.getElem?_map]
      by_cases h2 : i = P
      · subst h2
        rw [hP, List.getElem?_set_self hPlt]
        simp only [Option.map_some']
        have hnP := hvalid i _ hP
        simp only [List.mem_append, List.mem_cons, not_or] at hnP
        rw [IfLowering_region_parent_else _ _ _ _ _ _ hbpre hnP.1 (by omega)
          (hvalid thenRegion _ site.thenBody)]
      · rw [List.getElem?_set_ne (Ne.symm h2)]
        cases hl : rewriter.func.regions[i]? with
        | none => rfl
        | some l =>
          simp only [Option.map_some']
          have hbl : rewriter.insertionBlock ∉ l := fun h =>
            regions_disjoint _ hwf i P _ _ hl hP h2 _ h hbP
          rw [IfLowering_region_other _ _ _ _ hbl (hvalid i l hl),
            spliceBefore_of_not_mem _ _ _ (hvalid i l hl)]

/-! ## One rewrite keeps the function well-formed -/

theorem getRegions_of_legal (x : Operation) (h : isDynamicallyLegal x = true) :
    x.getRegions = [] := by
  cases x <;> simp_all [isDynamicallyLegal, Operation.isForOp, Operation.isIfOp,
    Operation.getRegions]

theorem owned_iff (func : FuncOp) (r : Nat) :
    func.owned r = true ↔
      ∃ o ∈ func.listed, ∃ x, func.operations[o]? = some x ∧ r ∈ x.getRegions := by
  unfold FuncOp.owned
  rw [List.any_eq_true]
  constructor
  · rintro ⟨o, ho, h⟩
    cases hx : func.operations[o]? with
    | none => simp [hx] at h
    | some x =>
      rw [hx] at h
      exact ⟨o, ho, x, hx, by simpa using h⟩
  · rintro ⟨o, ho, x, hx, hr⟩
    exact ⟨o, ho, by simpa [hx] using hr⟩

theorem Lowered.listed_facts {func lowered : FuncOp} {op : Nat} {created : List Operation}
    {newBlocks block cont : Nat} (hwf : func.WellFormed)
    (h : Lowered func lowered op created newBlocks block cont) :
    lowered.listed.Nodup ∧ (∀ x ∈ lowered.listed, x < lowered.operations.length) ∧
      (∀ x ∈ lowered.listed,
        (x ∈ func.listed ∧ x ≠ op) ∨
          (func.operations.length ≤ x ∧ x < func.operations.length + created.length)) ∧
      (∀ x ∈ func.listed, x ≠ op → x ∈ lowered.listed) ∧
      (∀ x, func.operations.length ≤ x → x < func.operations.length + created.length →
        x ∈ lowered.listed) := by
  have hcount : ∀ a, lowered.listed.count a + [op].count a =
      func.listed.count a + (List.range' func.operations.length created.length).count a := by
    intro a
    rw [count_listed, count_listed]
    exact h.listedMeasure (List.count a) (fun l₁ l₂ => List.count_append a l₁ l₂)
  have hoplt : op < func.operations.length := hwf.opsValid op h.opListed
  obtain ⟨h1, h2, h3, h4, h5⟩ := fresh_extension func.listed lowered.listed
    (List.range' func.operations.length created.length) [op] func.operations.length
    (func.operations.length + created.length) hcount hwf.opsOnce hwf.opsValid
    (List.nodup_range' _ _)
    (by intro x hx; rw [List.mem_range'_1] at hx; exact hx) (Nat.le_add_right _ _)
  have hopnot : op ∉ lowered.listed := by
    intro hmem
    have hc := hcount op
    have h6 : 0 < lowered.listed.count op := List.count_pos_iff.mpr hmem
    have h7 := List.nodup_iff_count_le_one.mp hwf.opsOnce op
    have h8 : (List.range' func.operations.length created.length).count op = 0 := by
      apply List.count_eq_zero_of_not_mem
      rw [List.mem_range'_1]
      omega
    simp only [List.count_cons_self, List.count_nil] at hc
    omega
  refine ⟨h1, ?_, ?_, ?_, ?_⟩
  · intro x hx
    rw [h.operations, List.length_append]
    exact h2 x hx
  · intro x hx
    rcases h3 x hx with h' | h'
    · exact Or.inl ⟨h', fun e => hopnot (e ▸ hx)⟩
    · right
      rw [List.mem_range'_1] at h'
      exact h'
  · intro x hx hne
    exact h4 x hx (by simpa using hne)
  · intro x hx1 hx2
    apply h5 x
    · rw [List.mem_range'_1]; exact ⟨hx1, hx2⟩
    · simp only [List.mem_singleton]
      omega

theorem Lowered.regions_facts {func lowered : FuncOp} {op : Nat} {created : List Operation}
    {newBlocks block cont : Nat} (hwf : func.WellFormed)
    (h : Lowered func lowered op created newBlocks block cont) :
    lowered.regions.flatten.Nodup ∧ (∀ x ∈ lowered.regions.flatten, x < lowered.blocks.length) ∧
      (∀ x ∈ func.regions.flatten, x ∈ lowered.regions.flatten) ∧
      (∀ x, func.blocks.length ≤ x → x < func.blocks.length + newBlocks →
        x ∈ lowered.regions.flatten) := by
  have hcount : ∀ a, lowered.regions.flatten.count a + ([] : List Nat).count a =
      func.regions.flatten.count a + (List.range' func.blocks.length newBlocks).count a := by
    intro a
    simpa using h.regionsCount a
  have hv : ∀ x ∈ func.regions.flatten, x < func.blocks.length := by
    intro x hx
    obtain ⟨l, hl, hxl⟩ := List.mem_flatten.mp hx
    exact hwf.blocksValid l hl x hxl
  obtain ⟨h1, h2, -, h4, h5⟩ := fresh_extension func.regions.flatten lowered.regions.flatten
    (List.range' func.blocks.length newBlocks) [] func.blocks.length
    (func.blocks.length + newBlocks) hcount hwf.blocksOnce hv (List.nodup_range' _ _)
    (by intro x hx; rw [List.mem_range'_1] at hx; exact hx) (Nat.le_add_right _ _)
  refine ⟨h1, ?_, ?_, ?_⟩
  · intro x hx
    rw [h.blocksLength]
    exact h2 x hx
  · intro x hx
    exact h4 x hx (List.not_mem_nil _)
  · intro x hx1 hx2
    apply h5 x _ (List.not_mem_nil _)
    rw [List.mem_range'_1]; exact ⟨hx1, hx2⟩

theorem Lowered.wellFormed {func lowered : FuncOp} {op : Nat} {created : List Operation}
    {newBlocks block cont : Nat} (hwf : func.WellFormed)
    (h : Lowered func lowered op created newBlocks block cont) :
    lowered.WellFormed := by
  obtain ⟨l1, l2, l3, l4, -⟩ := h.listed_facts hwf
  obtain ⟨r1, r2, r3, r4⟩ := h.regions_facts hwf
  refine ⟨l2, l1, ?_, r1, ?_, ?_, ?_, ?_, ?_⟩
  · intro r hr x hx
    exact r2 x (List.mem_flatten.mpr ⟨r, hr, hx⟩)
  · intro j hj
    rw [List.mem_range, h.blocksLength] at hj
    by_cases hlt : j < func.blocks.length
    · exact r3 j (hwf.blocksListed j (List.mem_range.mpr hlt))
    · exact r4 j (by omega) hj
  · intro o ho r hr
    rw [h.operations, List.mem_append] at ho
    rw [h.regionsLength]
    rcases ho with ho | ho
    · exact hwf.regionsValid o ho r hr
    · rw [getRegions_of_legal o (h.createdLegal o ho)] at hr
      cases hr
  · rw [h.operations, List.flatMap_append]
    have : created.flatMap Operation.getRegions = [] := by
      rw [List.flatMap_eq_nil_iff]
      intro x hx
      exact getRegions_of_legal x (h.createdLegal x hx)
    rw [this, List.append_nil]
    exact hwf.regionsOnce
  · intro r hr
    rw [List.mem_range, h.regionsLength] at hr
    have herased : ∀ o, func.operations[op]? = some o → r ∈ o.getRegions →
        r = 0 ∨ lowered.regions[r]? = some [] ∨ lowered.owned r = true :=
      fun o ho hro => Or.inr (Or.inl (h.erased o ho r hro))
    rcases hwf.regionsOwned r (List.mem_range.mpr hr) with h0 | hempty | hown
    · exact Or.inl h0
    · by_cases her : ∃ o, func.operations[op]? = some o ∧ r ∈ o.getRegions
      · obtain ⟨o, ho, hro⟩ := her
        exact herased o ho hro
      · right; left
        have hf := h.fronts r (fun o ho hro => her ⟨o, ho, hro⟩)
        unfold FuncOp.front at hf
        rw [hempty] at hf
        obtain ⟨l, hl⟩ : ∃ l, lowered.regions[r]? = some l :=
          ⟨_, List.getElem?_eq_getElem (by rw [h.regionsLength]; exact hr)⟩
        rw [hl] at hf ⊢
        cases l with
        | nil => rfl
        | cons a as => simp at hf
    · obtain ⟨o, hol, x, hx, hrx⟩ := (owned_iff func r).mp hown
      by_cases hoop : o = op
      · subst hoop
        exact herased x hx hrx
      · right; right
        rw [owned_iff]
        refine ⟨o, l4 o hol hoop, x, ?_, hrx⟩
        rw [h.operations, List.getElem?_append_left (hwf.opsValid o hol)]
        exact hx
  · intro o ho
    rcases l3 o ho with ⟨hol, hne⟩ | ⟨h1, h2⟩
    · have holt := hwf.opsValid o hol
      have hoplt := hwf.opsValid op h.opListed
      have hent := hwf.entries o hol
      have hops : lowered.operations[o]? = func.operations[o]? := by
        rw [h.operations, List.getElem?_append_left holt]
      obtain ⟨x, hx⟩ : ∃ x, func.operations[o]? = some x :=
        ⟨_, List.getElem?_eq_getElem holt⟩
      have hdis : ∀ r ∈ x.getRegions, ∀ oo, func.operations[op]? = some oo →
          r ∉ oo.getRegions := by
        intro r hr oo hoo
        exact nodup_flatMap_disjoint Operation.getRegions _ hwf.regionsOnce o op x oo hx hoo hne
          r hr
      unfold FuncOp.hasEntry at hent ⊢
      rw [hops, hx]
      rw [hx] at hent
      cases x <;> try rfl
      · rename_i lb ub st region
        simp only at hent ⊢
        have hf := h.fronts region (hdis region (by simp [Operation.getRegions]))
        rw [hf]
        cases hc : func.front region with
        | none => simp [hc] at hent
        | some c =>
          rw [hc] at hent
          simp only at hent ⊢
          have hclt : c < func.blocks.length := by
            unfold FuncOp.getArgument at hent
            cases hb : func.blocks[c]? with
            | none => simp [hb] at hent
            | some cB => exact (List.getElem?_eq_some.mp hb).1
          rw [h.arguments c hclt 0]
          exact hent
      · rename_i c t e
        simp only at hent ⊢
        have hf := h.fronts t (hdis t (by simp [Operation.getRegions]))
        rw [hf]
        exact hent
    · have hx : lowered.operations[o]? = created[o - func.operations.length]? := by
        rw [h.operations, List.getElem?_append_right h1]
      obtain ⟨x, hxc⟩ : ∃ x, created[o - func.operations.length]? = some x :=
        ⟨_, List.getElem?_eq_getElem (by omega)⟩
      have hleg := h.createdLegal x (List.getElem?_mem hxc)
      unfold FuncOp.hasEntry
      rw [hx, hxc]
      cases x <;> first
        | rfl
        | simp [isDynamicallyLegal, Operation.isForOp, Operation.isIfOp] at hleg

/-! ## The three rewrites as steps of the lowering -/

theorem count_flatten_set (R : List (List Nat)) (i : Nat) (l l' : List Nat) (a : Nat)
    (h : R[i]? = some l) :
    (R.set i l').flatten.count a + l.count a = R.flatten.count a + l'.count a := by
  rw [List.count_flatten, List.count_flatten]
  exact sum_map_set (List.count a) R i l l' h

theorem isIllegal_of_site (func : FuncOp) (j : Nat) (blk : Block) (op : Nat) (o : Operation)
    (before after : List Nat)
    (hblk : func.blocks[j]? = some blk) (hops : blk.operations = before ++ op :: after)
    (ho : func.operations[op]? = some o) (hill : isDynamicallyLegal o = false) :
    func.isIllegal isDynamicallyLegal op = true ∧ op ∈ func.listed := by
  constructor
  · simp [FuncOp.isIllegal, ho, hill]
  · rw [mem_listed_iff]
    exact ⟨j, blk, hblk, by rw [hops]; simp⟩

theorem getArgument_congr (f f' : FuncOp) (c i : Nat)
    (h : ∀ blk, f.blocks[c]? = some blk →
      ∃ blk', f'.blocks[c]? = some blk' ∧ blk'.numArguments = blk.numArguments)
    (hc : c < f.blocks.length) :
    f'.getArgument c i = f.getArgument c i := by
  obtain ⟨blk, hblk⟩ : ∃ blk, f.blocks[c]? = some blk := ⟨_, List.getElem?_eq_getElem hc⟩
  obtain ⟨blk', hblk', harg⟩ := h blk hblk
  simp [FuncOp.getArgument, hblk, hblk', harg]

theorem getLast?_relink_of_not_mem (b n : Nat) (l : List Nat) (h : b ∉ l) :
    l.getLast? = (l.getLast?).map fun z => if z = b then n else z := by
  cases hl : l.getLast? with
  | none => rfl
  | some z =>
    have hz : z ∈ l := List.mem_of_getLast?_eq_some hl
    have : z ≠ b := fun e => h (e ▸ hz)
    simp [this]

theorem getLast?_relink (b n : Nat) (M pre post : List Nat) (h : b ∉ post) :
    (pre ++ b :: M ++ n :: post).getLast? =
      ((pre ++ b :: post).getLast?).map fun z => if z = b then n else z := by
  cases post with
  | nil =>
    rw [List.getLast?_concat, List.getLast?_append_of_ne_nil _ (List.cons_ne_nil _ _)]
    simp
  | cons p ps =>
    have e1 : (pre ++ b :: M ++ n :: p :: ps).getLast? = (p :: ps).getLast? := by
      rw [List.getLast?_append_of_ne_nil _ (List.cons_ne_nil _ _), List.getLast?_cons_cons]
    have e2 : (pre ++ b :: p :: ps).getLast? = (p :: ps).getLast? := by
      rw [List.getLast?_append_of_ne_nil _ (List.cons_ne_nil _ _), List.getLast?_cons_cons]
    rw [e1, e2]
    exact getLast?_relink_of_not_mem b n _ h

theorem back_relink (f f' : FuncOp) (r b n : Nat)
    (h : f'.regions[r]? = f.regions[r]?)
    (hb : ∀ l, f.regions[r]? = some l → b ∉ l) :
    f'.back r = (f.back r).map fun z => if z = b then n else z := by
  unfold FuncOp.back
  rw [h]
  cases hl : f.regions[r]? with
  | none => rfl
  | some l =>
    simp only [Option.bind_eq_bind, Option.some_bind]
    exact getLast?_relink_of_not_mem b n l (hb l hl)

theorem ForLowering_lowered (rewriter rw' : PatternRewriter) (op region cond : Nat)
    (rest before after : List Nat) (initB condB : Block) (lb ub : Value) (st : Option Value)
    (hwf : rewriter.func.WellFormed)
    (site : ForSite rewriter op region cond rest before after initB condB)
    (hrun : ForLowering.matchAndRewrite op [some lb, some ub, st] rewriter =
      some (PatternMatchResult.matchSuccess, rw')) :
    Lowered rewriter.func rw'.func op
      [Operation.AddIOp (some (Value.blockArgument cond 0)) st,
        Operation.BranchOp cond [some (Value.opResult rewriter.func.operations.length)],
        Operation.BranchOp cond [some lb],
        Operation.CmpIOp CmpIPredicate.SLT (some (Value.blockArgument cond 0)) (some ub),
        Operation.CondBranchOp (some (Value.opResult (rewriter.func.operations.length + 3)))
          (rewriter.func.blocks.length + 1) [] rewriter.func.blocks.length []] 2
      rewriter.insertionBlock rewriter.func.blocks.length := by
  obtain ⟨rw'', hrun', hops, hregs, hlen, hinit, hcond, hend, hfb1, hfb2, hother⟩ :=
    ForLowering_spec rewriter op region cond rest before after initB condB lb ub st site
  have heq : rw' = rw'' := by
    have := hrun.symm.trans hrun'
    simpa using this
  subst heq
  obtain ⟨lb', ub', st', hop⟩ := site.isFor
  have hinitlt := (List.getElem?_eq_some.mp site.initBlock).1
  have hcondlt := (List.getElem?_eq_some.mp site.condBlock).1
  have hregionlt := (List.getElem?_eq_some.mp site.body).1
  obtain ⟨P, pre, post, hP, hbpre, hbpost⟩ := parent_exists _ hwf _ hinitlt
  obtain ⟨hPr, hR⟩ := ForLowering_regions_eq rewriter rw' op region cond rest before after
    initB condB lb ub st hwf site hrun P pre post hP
  have hPlt := (List.getElem?_eq_some.mp hP).1
  obtain ⟨hill, hlisted⟩ := isIllegal_of_site _ _ _ op _ before after site.initBlock
    site.initOps hop (by simp [isDynamicallyLegal, Operation.isForOp])
  have hgetRegions : ∀ o, rewriter.func.operations[op]? = some o → o.getRegions = [region] := by
    intro o ho
    rw [hop] at ho
    cases ho
    rfl
  have hbP : rewriter.insertionBlock ∈ pre ++ rewriter.insertionBlock :: post := by simp
  refine ⟨hops, ?_, hill, hlisted, ⟨initB, site.initBlock, by rw [site.initOps]; simp⟩, ?_,
    Or.inr (le_refl _), hlen, ?_, ?_, ?_, ?_, ?_, ?_, ?_, ?_, ?_⟩
  swap
  · intro o r l ho hr hl
    rw [hgetRegions o ho, List.mem_singleton] at hr
    subst hr
    rw [site.body] at hl
    cases hl
    exact site.initOutside
  · intro x hx
    simp only [List.mem_cons, List.mem_singleton, List.not_mem_nil, or_false] at hx
    rcases hx with rfl | rfl | rfl | rfl | rfl <;> rfl
  · intro h hadd
    exact ForLowering_measure h hadd rewriter rw' op region cond rest before after initB condB
      lb ub st site hrun
  · rw [hR]
    simp
  · intro a
    rw [hR]
    have e1 := count_flatten_set rewriter.func.regions P _
      (pre ++ rewriter.insertionBlock :: cond :: (rewriter.func.blocks.length + 1) :: rest ++
        rewriter.func.blocks.length :: post) a hP
    have e2 := count_flatten_set (rewriter.func.regions.set P
      (pre ++ rewriter.insertionBlock :: cond :: (rewriter.func.blocks.length + 1) :: rest ++
        rewriter.func.blocks.length :: post)) region (cond :: rest) [] a
      (by rw [List.getElem?_set_ne hPr]; exact site.body)
    simp only [List.count_append, List.count_cons, List.count_nil, List.range',
      beq_iff_eq] at e1 e2 ⊢
    omega
  · intro r hr
    have hrne : r ≠ region := by
      intro e
      exact hr _ hop (by simp [Operation.getRegions, e])
    unfold FuncOp.front
    rw [hR, List.getElem?_set_ne (Ne.symm hrne)]
    by_cases h2 : r = P
    · subst h2
      rw [List.getElem?_set_self hPlt, hP]
      simp only [Option.bind_eq_bind, Option.some_bind]
      cases pre <;> rfl
    · rw [List.getElem?_set_ne (Ne.symm h2)]
  · intro r hr
    have hrne : r ≠ region := by
      intro e
      exact hr _ hop (by simp [Operation.getRegions, e])
    by_cases h2 : r = P
    · subst h2
      unfold FuncOp.back
      rw [hR, List.getElem?_set_ne (Ne.symm hrne), List.getElem?_set_self hPlt, hP]
      simp only [Option.bind_eq_bind, Option.some_bind]
      exact getLast?_relink _ _ (cond :: (rewriter.func.blocks.length + 1) :: rest) pre post
        hbpost
    · apply back_relink
      · rw [hR, List.getElem?_set_ne (Ne.symm hrne), List.getElem?_set_ne (Ne.symm h2)]
      · intro l hl hmem
        exact regions_disjoint _ hwf r P _ _ hl hP h2 _ hmem hbP
  · intro o ho r hr
    rw [hgetRegions o ho, List.mem_singleton] at hr
    subst hr
    rw [hR, List.getElem?_set_self (by simpa using hregionlt)]
  · intro c hc i
    apply getArgument_congr _ _ c i _ hc
    intro blk hblk
    by_cases h1 : c = rewriter.insertionBlock
    · subst h1
      rw [site.initBlock] at hblk
      cases hblk
      exact ⟨_, hinit, rfl⟩
    · by_cases h2 : c = cond
      · subst h2
        rw [site.condBlock] at hblk
        cases hblk
        exact ⟨_, hcond, rfl⟩
      · by_cases h3 : c = ((rewriter.func.blocks.length + 1) :: rest).getLast
            (List.cons_ne_nil _ _)
        · have hr : rest ≠ [] := by
            intro hr
            subst hr
            simp at h3
            omega
          rw [List.getLast_cons hr] at h3
          subst h3
          exact ⟨_, (hfb2 hr blk hblk).2, rfl⟩
        · exact ⟨blk, hother c blk hblk h1 h2 h3, rfl⟩
  · intro o r c ho hr hfront
    rw [hgetRegions o ho, List.mem_singleton] at hr
    subst hr
    have hc : c = cond := by
      unfold FuncOp.front at hfront
      rw [site.body] at hfront
      simpa using hfront.symm
    subst hc
    refine ⟨rewriter.insertionBlock, ?_⟩
    rw [mem_successors_iff]
    refine ⟨_, rewriter.func.operations.length + 2, Operation.BranchOp c [some lb], hinit,
      by simp, ?_, by simp [Operation.successors]⟩
    rw [hops, List.getElem?_append_right (by omega)]
    simp
  · intro j hj1 hj2
    refine ⟨cond, ?_⟩
    rw [mem_successors_iff]
    refine ⟨_, rewriter.func.operations.length + 4,
      Operation.CondBranchOp (some (Value.opResult (rewriter.func.operations.length + 3)))
        (rewriter.func.blocks.length + 1) [] rewriter.func.blocks.length [],
      hcond, by simp, ?_, ?_⟩
    · rw [hops, List.getElem?_append_right (by omega)]
      simp
    · simp only [Operation.successors, List.mem_cons, List.mem_singleton, List.not_mem_nil,
        or_false]
      omega

theorem IfLowering_lowered_noelse (rewriter rw' : PatternRewriter)
    (op thenRegion elseRegion : Nat) (t : Nat) (trest before after : List Nat) (condB : Block)
    (cv : Option Value) (hwf : rewriter.func.WellFormed)
    (site : IfSite rewriter op thenRegion elseRegion (t :: trest) [] before after condB)
    (hrun : IfLowering.matchAndRewrite op [cv] rewriter =
      some (PatternMatchResult.matchSuccess, rw')) :
    Lowered rewriter.func rw'.func op
      [Operation.BranchOp rewriter.func.blocks.length [],
        Operation.CondBranchOp cv t [] rewriter.func.blocks.length []] 1
      rewriter.insertionBlock rewriter.func.blocks.length := by
  obtain ⟨rw'', hrun', hops, hregs, hlen, hcb, hcont, hthen, hother⟩ :=
    IfLowering_spec_noelse rewriter op thenRegion elseRegion t trest before after condB cv site
  have heq : rw' = rw'' := by
    have := hrun.symm.trans hrun'
    simpa using this
  subst heq
  obtain ⟨c, hop⟩ := site.isIf
  have hcblt := (List.getElem?_eq_some.mp site.condBlock).1
  have hthenlt := (List.getElem?_eq_some.mp site.thenBody).1
  have helselt := (List.getElem?_eq_some.mp site.elseBody).1
  obtain ⟨P, pre, post, hP, hbpre, hbpost⟩ := parent_exists _ hwf _ hcblt
  obtain ⟨hPt, hPe, hR⟩ := IfLowering_regions_eq_noelse rewriter rw' op thenRegion elseRegion t
    trest before after condB cv hwf site hrun P pre post hP
  have hPlt := (List.getElem?_eq_some.mp hP).1
  obtain ⟨hill, hlisted⟩ := isIllegal_of_site _ _ _ op _ before after site.condBlock
    site.condOps hop (by simp [isDynamicallyLegal, Operation.isForOp, Operation.isIfOp])
  have hgetRegions : ∀ o, rewriter.func.operations[op]? = some o →
      o.getRegions = [thenRegion, elseRegion] := by
    intro o ho
    rw [hop] at ho
    cases ho
    rfl
  have hbP : rewriter.insertionBlock ∈ pre ++ rewriter.insertionBlock :: post := by simp
  refine ⟨hops, ?_, hill, hlisted, ⟨condB, site.condBlock, by rw [site.condOps]; simp⟩, ?_,
    Or.inr (le_refl _), hlen, ?_, ?_, ?_, ?_, ?_, ?_, ?_, ?_, ?_⟩
  swap
  · intro o r l ho hr hl
    rw [hgetRegions o ho] at hr
    simp only [List.mem_cons, List.mem_singleton, List.not_mem_nil, or_false] at hr
    rcases hr with rfl | rfl
    · rw [site.thenBody] at hl
      cases hl
      exact site.condOutsideThen
    · rw [site.elseBody] at hl
      cases hl
      exact site.condOutsideElse
  · intro x hx
    simp only [List.mem_cons, List.mem_singleton, List.not_mem_nil, or_false] at hx
    rcases hx with rfl | rfl <;> rfl
  · intro h hadd
    exact IfLowering_measure_noelse h hadd rewriter rw' op thenRegion elseRegion t trest before
      after condB cv site hrun
  · rw [hR]
    simp
  · intro a
    rw [hR]
    have e1 := count_flatten_set rewriter.func.regions P _
      (pre ++ rewriter.insertionBlock :: (t :: trest) ++ rewriter.func.blocks.length :: post) a
      hP
    have e2 := count_flatten_set (rewriter.func.regions.set P
      (pre ++ rewriter.insertionBlock :: (t :: trest) ++ rewriter.func.blocks.length :: post))
      thenRegion (t :: trest) [] a
      (by rw [List.getElem?_set_ne hPt]; exact site.thenBody)
    simp only [List.count_append, List.count_cons, List.count_nil, List.range',
      beq_iff_eq] at e1 e2 ⊢
    omega
  · intro r hr
    have hrne : r ≠ thenRegion := by
      intro e
      exact hr _ hop (by simp [Operation.getRegions, e])
    unfold FuncOp.front
    rw [hR, List.getElem?_set_ne (Ne.symm hrne)]
    by_cases h2 : r = P
    · subst h2
      rw [List.getElem?_set_self hPlt, hP]
      simp only [Option.bind_eq_bind, Option.some_bind]
      cases pre <;> rfl
    · rw [List.getElem?_set_ne (Ne.symm h2)]
  · intro r hr
    have hrne : r ≠ thenRegion := by
      intro e
      exact hr _ hop (by simp [Operation.getRegions, e])
    by_cases h2 : r = P
    · subst h2
      unfold FuncOp.back
      rw [hR, List.getElem?_set_ne (Ne.symm hrne), List.getElem?_set_self hPlt, hP]
      simp only [Option.bind_eq_bind, Option.some_bind]
      exact getLast?_relink _ _ (t :: trest) pre post hbpost
    · apply back_relink
      · rw [hR, List.getElem?_set_ne (Ne.symm hrne), List.getElem?_set_ne (Ne.symm h2)]
      · intro l hl hmem
        exact regions_disjoint _ hwf r P _ _ hl hP h2 _ hmem hbP
  · intro o ho r hr
    rw [hgetRegions o ho] at hr
    simp only [List.mem_cons, List.mem_singleton, List.not_mem_nil, or_false] at hr
    rcases hr with rfl | rfl
    · rw [hR, List.getElem?_set_self (by simpa using hthenlt)]
    · rw [hR, List.getElem?_set_ne site.regionsDistinct, List.getElem?_set_ne hPe]
      exact site.elseBody
  · intro c hc i
    apply getArgument_congr _ _ c i _ hc
    intro blk hblk
    by_cases h1 : c = rewriter.insertionBlock
    · subst h1
      rw [site.condBlock] at hblk
      cases hblk
      exact ⟨_, hcb, rfl⟩
    · by_cases h3 : c = (t :: trest).getLast (List.cons_ne_nil _ _)
      · subst h3
        exact ⟨_, hthen blk hblk, rfl⟩
      · exact ⟨blk, hother c blk hblk h1 h3, rfl⟩
  · intro o r c ho hr hfront
    rw [hgetRegions o ho] at hr
    simp only [List.mem_cons, List.mem_singleton, List.not_mem_nil, or_false] at hr
    rcases hr with rfl | rfl
    · have hc : c = t := by
        unfold FuncOp.front at hfront
        rw [site.thenBody] at hfront
        simpa using hfront.symm
      subst hc
      refine ⟨rewriter.insertionBlock, ?_⟩
      rw [mem_successors_iff]
      refine ⟨_, rewriter.func.operations.length + 1,
        Operation.CondBranchOp cv c [] rewriter.func.blocks.length [], hcb, by simp, ?_,
        by simp [Operation.successors]⟩
      rw [hops, List.getElem?_append_right (by omega)]
      simp
    · unfold FuncOp.front at hfront
      rw [site.elseBody] at hfront
      simp at hfront
  · intro j hj1 hj2
    refine ⟨rewriter.insertionBlock, ?_⟩
    rw [mem_successors_iff]
    refine ⟨_, rewriter.func.operations.length + 1,
      Operation.CondBranchOp cv t [] rewriter.func.blocks.length [], hcb, by simp, ?_, ?_⟩
    · rw [hops, List.getElem?_append_right (by omega)]
      simp
    · simp only [Operation.successors, List.mem_cons, List.mem_singleton, List.not_mem_nil,
        or_false]
      omega

theorem IfLowering_lowered_else (rewriter rw' : PatternRewriter)
    (op thenRegion elseRegion : Nat) (t : Nat) (trest : List Nat) (e : Nat)
    (erest before after : List Nat) (condB : Block) (cv : Option Value)
    (hwf : rewriter.func.WellFormed)
    (site : IfSite rewriter op thenRegion elseRegion (t :: trest) (e :: erest) before after
      condB)
    (hrun : IfLowering.matchAndRewrite op [cv] rewriter =
      some (PatternMatchResult.matchSuccess, rw')) :
    Lowered rewriter.func rw'.func op
      [Operation.BranchOp rewriter.func.blocks.length [],
        Operation.BranchOp rewriter.func.blocks.length [],
        Operation.CondBranchOp cv t [] e []] 1
      rewriter.insertionBlock rewriter.func.blocks.length := by
  obtain ⟨rw'', hrun', hops, hregs, hlen, hcb, hcont, hthen, helse, hother⟩ :=
    IfLowering_spec_else rewriter op thenRegion elseRegion t trest e erest before after condB cv
      site
  have heq : rw' = rw'' := by
    have := hrun.symm.trans hrun'
    simpa using this
  subst heq
  obtain ⟨c, hop⟩ := site.isIf
  have hcblt := (List.getElem?_eq_some.mp site.condBlock).1
  have hthenlt := (List.getElem?_eq_some.mp site.thenBody).1
  have helselt := (List.getElem?_eq_some.mp site.elseBody).1
  obtain ⟨P, pre, post, hP, hbpre, hbpost⟩ := parent_exists _ hwf _ hcblt
  obtain ⟨hPt, hPe, hR⟩ := IfLowering_regions_eq_else rewriter rw' op thenRegion elseRegion t
    trest e erest before after condB cv hwf site hrun P pre post hP
  have hPlt := (List.getElem?_eq_some.mp hP).1
  obtain ⟨hill, hlisted⟩ := isIllegal_of_site _ _ _ op _ before after site.condBlock
    site.condOps hop (by simp [isDynamicallyLegal, Operation.isForOp, Operation.isIfOp])
  have hgetRegions : ∀ o, rewriter.func.operations[op]? = some o →
      o.getRegions = [thenRegion, elseRegion] := by
    intro o ho
    rw [hop] at ho
    cases ho
    rfl
  have htbmem : (t :: trest).getLast (List.cons_ne_nil _ _) ∈ t :: trest := List.getLast_mem _
  have htblt := site.thenValid _ htbmem
  have hbP : rewriter.insertionBlock ∈ pre ++ rewriter.insertionBlock :: post := by simp
  refine ⟨hops, ?_, hill, hlisted, ⟨condB, site.condBlock, by rw [site.condOps]; simp⟩, ?_,
    Or.inr (le_refl _), hlen, ?_, ?_, ?_, ?_, ?_, ?_, ?_, ?_, ?_⟩
  swap
  · intro o r l ho hr hl
    rw [hgetRegions o ho] at hr
    simp only [List.mem_cons, List.mem_singleton, List.not_mem_nil, or_false] at hr
    rcases hr with rfl | rfl
    · rw [site.thenBody] at hl
      cases hl
      exact site.condOutsideThen
    · rw [site.elseBody] at hl
      cases hl
      exact site.condOutsideElse
  · intro x hx
    simp only [List.mem_cons, List.mem_singleton, List.not_mem_nil, or_false] at hx
    rcases hx with rfl | rfl | rfl <;> rfl
  · intro h hadd
    exact IfLowering_measure_else h hadd rewriter rw' op thenRegion elseRegion t trest e erest
      before after condB cv site hrun
  · rw [hR]
    simp
  · intro a
    rw [hR]
    have e1 := count_flatten_set rewriter.func.regions P _
      (pre ++ rewriter.insertionBlock :: (t :: trest) ++ (e :: erest) ++
        rewriter.func.blocks.length :: post) a hP
    have e2 := count_flatten_set (rewriter.func.regions.set P
      (pre ++ rewriter.insertionBlock :: (t :: trest) ++ (e :: erest) ++
        rewriter.func.blocks.length :: post))
      thenRegion (t :: trest) [] a
      (by rw [List.getElem?_set_ne hPt]; exact site.thenBody)
    have e3 := count_flatten_set ((rewriter.func.regions.set P
      (pre ++ rewriter.insertionBlock :: (t :: trest) ++ (e :: erest) ++
        rewriter.func.blocks.length :: post)).set thenRegion [])
      elseRegion (e :: erest) [] a
      (by rw [List.getElem?_set_ne site.regionsDistinct, List.getElem?_set_ne hPe]
          exact site.elseBody)
    simp only [List.count_append, List.count_cons, List.count_nil, List.range',
      beq_iff_eq] at e1 e2 e3 ⊢
    omega
  · intro r hr
    have hrne : r ≠ thenRegion := by
      intro e
      exact hr _ hop (by simp [Operation.getRegions, e])
    have hrne' : r ≠ elseRegion := by
      intro e
      exact hr _ hop (by simp [Operation.getRegions, e])
    unfold FuncOp.front
    rw [hR, List.getElem?_set_ne (Ne.symm hrne'), List.getElem?_set_ne (Ne.symm hrne)]
    by_cases h2 : r = P
    · subst h2
      rw [List.getElem?_set_self hPlt, hP]
      simp only [Option.bind_eq_bind, Option.some_bind]
      cases pre <;> rfl
    · rw [List.getElem?_set_ne (Ne.symm h2)]
  · intro r hr
    have hrne : r ≠ thenRegion := by
      intro e
      exact hr _ hop (by simp [Operation.getRegions, e])
    have hrne' : r ≠ elseRegion := by
      intro e
      exact hr _ hop (by simp [Operation.getRegions, e])
    by_cases h2 : r = P
    · subst h2
      unfold FuncOp.back
      rw [hR, List.getElem?_set_ne (Ne.symm hrne'), List.getElem?_set_ne (Ne.symm hrne),
        List.getElem?_set_self hPlt, hP]
      simp only [Option.bind_eq_bind, Option.some_bind]
      have := getLast?_relink rewriter.insertionBlock rewriter.func.blocks.length
        ((t :: trest) ++ (e :: erest)) pre post hbpost
      simpa [List.append_assoc] using this
    · apply back_relink
      · rw [hR, List.getElem?_set_ne (Ne.symm hrne'), List.getElem?_set_ne (Ne.symm hrne),
          List.getElem?_set_ne (Ne.symm h2)]
      · intro l hl hmem
        exact regions_disjoint _ hwf r P _ _ hl hP h2 _ hmem hbP
  · intro o ho r hr
    rw [hgetRegions o ho] at hr
    simp only [List.mem_cons, List.mem_singleton, List.not_mem_nil, or_false] at hr
    rcases hr with rfl | rfl
    · rw [hR, List.getElem?_set_ne (Ne.symm site.regionsDistinct),
        List.getElem?_set_self (by simpa using hthenlt)]
    · rw [hR, List.getElem?_set_self (by simpa using helselt)]
  · intro c hc i
    apply getArgument_congr _ _ c i _ hc
    intro blk hblk
    by_cases h1 : c = rewriter.insertionBlock
    · subst h1
      rw [site.condBlock] at hblk
      cases hblk
      exact ⟨_, hcb, rfl⟩
    · by_cases h3 : c = (t :: trest).getLast (List.cons_ne_nil _ _)
      · subst h3
        exact ⟨_, hthen blk hblk, rfl⟩
      · by_cases h4 : c = (e :: erest).getLast (List.cons_ne_nil _ _)
        · subst h4
          exact ⟨_, helse blk hblk, rfl⟩
        · exact ⟨blk, hother c blk hblk h1 h3 h4, rfl⟩
  · intro o r c ho hr hfront
    rw [hgetRegions o ho] at hr
    simp only [List.mem_cons, List.mem_singleton, List.not_mem_nil, or_false] at hr
    have hsucc : ∀ x, x = t ∨ x = e → ∃ i, x ∈ rw'.func.successors i := by
      intro x hx
      refine ⟨rewriter.insertionBlock, ?_⟩
      rw [mem_successors_iff]
      refine ⟨_, rewriter.func.operations.length + 2, Operation.CondBranchOp cv t [] e [], hcb,
        by simp, ?_, by simpa [Operation.successors] using hx⟩
      rw [hops, List.getElem?_append_right (by omega)]
      simp
    rcases hr with rfl | rfl
    · have hc : c = t := by
        unfold FuncOp.front at hfront
        rw [site.thenBody] at hfront
        simpa using hfront.symm
      exact hsucc c (Or.inl hc)
    · have hc : c = e := by
        unfold FuncOp.front at hfront
        rw [site.elseBody] at hfront
        simpa using hfront.symm
      exact hsucc c (Or.inr hc)
  · intro j hj1 hj2
    obtain ⟨tbB, htbB⟩ : ∃ tbB,
        rewriter.func.blocks[(t :: trest).getLast (List.cons_ne_nil _ _)]? = some tbB :=
      ⟨_, List.getElem?_eq_getElem htblt⟩
    refine ⟨(t :: trest).getLast (List.cons_ne_nil _ _), ?_⟩
    rw [mem_successors_iff]
    refine ⟨_, rewriter.func.operations.length,
      Operation.BranchOp rewriter.func.blocks.length [], hthen tbB htbB, by simp, ?_, ?_⟩
    · rw [hops, List.getElem?_append_right (by omega)]
      simp
    · simp only [Operation.successors, List.mem_singleton]
      omega

theorem TerminatorLowering_lowered (rewriter rw' : PatternRewriter) (op : Nat)
    (operands : List (Option Value)) (before after : List Nat) (blk : Block)
    (site : OpSite rewriter op before after blk)
    (hop : rewriter.func.operations[op]? = some Operation.TerminatorOp)
    (hrun : TerminatorLowering.matchAndRewrite op operands rewriter =
      some (PatternMatchResult.matchSuccess, rw')) :
    Lowered rewriter.func rw'.func op [] 0 rewriter.insertionBlock rewriter.insertionBlock := by
  obtain ⟨hO, hR, hB⟩ := TerminatorLowering_blocks_eq rewriter rw' op operands before after blk
    site.block site.ops site.notBefore site.notElsewhere hrun
  obtain ⟨hill, hlisted⟩ := isIllegal_of_site _ _ _ op _ before after site.block site.ops hop
    (by simp [isDynamicallyLegal, Operation.isForOp, Operation.isIfOp,
      Operation.isTerminatorOp])
  have hlt := (List.getElem?_eq_some.mp site.block).1
  refine ⟨by simp [hO], ?_, hill, hlisted, ⟨blk, site.block, by rw [site.ops]; simp⟩, ?_,
    Or.inl rfl, by simp [hB], ?_, by rw [hR], ?_, ?_, ?_, ?_, ?_, ?_, ?_⟩
  swap
  · intro o r l ho hr
    rw [hop] at ho
    cases ho
    cases hr
  · intro x hx
    cases hx
  · intro h hadd
    have h0 : h [] = 0 := by
      have := hadd [] []
      simp only [List.append_nil] at this
      omega
    have := TerminatorLowering_measure h hadd rewriter rw' op operands before after blk
      site.block site.ops site.notBefore site.notElsewhere hrun
    simp only [List.length_nil, List.range'_zero, h0]
    omega
  · intro a
    simp [hR]
  · intro r _
    unfold FuncOp.front
    rw [hR]
  · intro r _
    unfold FuncOp.back
    rw [hR]
    cases rewriter.func.regions[r]? >>= List.getLast? with
    | none => rfl
    | some z =>
      by_cases hz : z = rewriter.insertionBlock
      · simp [hz]
      · simp [hz]
  · intro o ho r hr
    rw [hop] at ho
    cases ho
    cases hr
  · intro c hc i
    apply getArgument_congr _ _ c i _ hc
    intro blk' hblk'
    rw [hB]
    by_cases h1 : c = rewriter.insertionBlock
    · subst h1
      rw [site.block] at hblk'
      cases hblk'
      exact ⟨_, List.getElem?_set_self hlt, rfl⟩
    · exact ⟨blk', by rw [List.getElem?_set_ne (Ne.symm h1)]; exact hblk', rfl⟩
  · intro o r c ho hr
    rw [hop] at ho
    cases ho
    cases hr
  · intro j hj1 hj2
    omega

/-! ## The number of illegal operations along the loop of the driver -/

theorem Lowered.isIllegal_eq {func lowered : FuncOp} {op : Nat} {created : List Operation}
    {newBlocks block cont : Nat}
    (h : Lowered func lowered op created newBlocks block cont) (o : Nat) :
    lowered.isIllegal isDynamicallyLegal o = func.isIllegal isDynamicallyLegal o := by
  unfold FuncOp.isIllegal
  rw [h.operations]
  by_cases ho : o < func.operations.length
  · rw [List.getElem?_append_left ho]
  · rw [List.getElem?_append_right (by omega), List.getElem?_eq_none (l := func.operations)
      (by omega)]
    cases hx : created[o - func.operations.length]? with
    | none => rfl
    | some x =>
      simp only
      rw [h.createdLegal x (List.getElem?_mem hx)]
      rfl

theorem Lowered.numIllegal {func lowered : FuncOp} {op : Nat} {created : List Operation}
    {newBlocks block cont : Nat}
    (h : Lowered func lowered op created newBlocks block cont) :
    lowered.numIllegal isDynamicallyLegal + 1 = func.numIllegal isDynamicallyLegal := by
  unfold FuncOp.numIllegal
  have hfun : lowered.isIllegal isDynamicallyLegal = func.isIllegal isDynamicallyLegal :=
    funext h.isIllegal_eq
  rw [hfun]
  have hm := h.listedMeasure (List.countP (func.isIllegal isDynamicallyLegal))
    (fun l₁ l₂ => List.countP_append _ l₁ l₂)
  have h1 : List.countP (func.isIllegal isDynamicallyLegal) [op] = 1 := by
    simp [List.countP_cons, h.opIllegal]
  have h2 : List.countP (func.isIllegal isDynamicallyLegal)
      (List.range' func.operations.length created.length) = 0 := by
    rw [List.countP_eq_zero]
    intro a ha
    rw [List.mem_range'_1] at ha
    simp [FuncOp.isIllegal, List.getElem?_eq_none ha.1]
  omega

theorem hasIllegal_iff_numIllegal (func : FuncOp) (isLegal : Operation → Bool) :
    func.hasIllegal isLegal = true ↔ 0 < func.numIllegal isLegal := by
  unfold FuncOp.hasIllegal FuncOp.numIllegal
  rw [List.any_eq_true]
  constructor
  · rintro ⟨b, hb, hany⟩
    rw [List.any_eq_true] at hany
    obtain ⟨o, ho, hill⟩ := hany
    have h1 : 0 < b.operations.countP (func.isIllegal isLegal) :=
      List.countP_pos_iff.mpr ⟨o, ho, hill⟩
    have h2 : b.operations.countP (func.isIllegal isLegal) ≤
        (func.blocks.map fun b => b.operations.countP (func.isIllegal isLegal)).sum :=
      List.single_le_sum (fun _ _ => Nat.zero_le _) _
        (List.mem_map.mpr ⟨b, hb, rfl⟩)
    omega
  · intro h
    by_contra hc
    simp only [not_exists, not_and] at hc
    have : (func.blocks.map fun b => b.operations.countP (func.isIllegal isLegal)).sum = 0 := by
      apply List.sum_eq_zero
      intro x hx
      obtain ⟨b, hb, rfl⟩ := List.mem_map.mp hx
      rw [List.countP_eq_zero]
      intro o ho hill
      exact hc b hb (List.any_eq_true.mpr ⟨o, ho, hill⟩)
    omega

/-- One successful step of the driver in a well-formed function erases one listed
illegal operation and creates legal operations only. -/
theorem step_lowered (func : FuncOp) (hwf : func.WellFormed) (b k : Nat)
    (rw : PatternRewriter)
    (hfind : func.findInnermostIllegal isDynamicallyLegal = some (b, k))
    (hleg : legalize [ForLowering, IfLowering, TerminatorLowering] func b k =
      some (PatternMatchResult.matchSuccess, rw)) :
    ∃ op created newBlocks cont, Lowered func rw.func op created newBlocks b cont := by
  obtain ⟨op, before, after, blk, hs, hcase⟩ := driver_step func hwf b k rw hfind hleg
  rcases hcase with ⟨region, cond, rest, condB, lb, ub, st, site, -, hrun⟩ |
    ⟨thenRegion, elseRegion, t, trest, elseBlocks, cv, site, -, -, hrun⟩ | ⟨hop, hrun⟩
  · exact ⟨op, _, _, _, ForLowering_lowered ⟨func, b, k⟩ rw op region cond rest before after blk
      condB lb ub st hwf site hrun⟩
  · cases elseBlocks with
    | nil =>
      exact ⟨op, _, _, _, IfLowering_lowered_noelse ⟨func, b, k⟩ rw op thenRegion elseRegion t
        trest before after blk cv hwf site hrun⟩
    | cons e erest =>
      exact ⟨op, _, _, _, IfLowering_lowered_else ⟨func, b, k⟩ rw op thenRegion elseRegion t
        trest e erest before after blk cv hwf site hrun⟩
  · exact ⟨op, _, _, _, TerminatorLowering_lowered ⟨func, b, k⟩ rw op [] before after blk hs hop
      hrun⟩

/-- An invariant of the steps of the driver holds for the function it returns. -/
theorem convert_induction (Inv : FuncOp → Prop)
    (hstep : ∀ (f : FuncOp) (b k : Nat) (rw : PatternRewriter), Inv f →
      f.findInnermostIllegal isDynamicallyLegal = some (b, k) →
      legalize [ForLowering, IfLowering, TerminatorLowering] f b k =
        some (PatternMatchResult.matchSuccess, rw) → Inv rw.func) :
    ∀ (fuel : Nat) (f lowered : FuncOp), Inv f →
      convert isDynamicallyLegal [ForLowering, IfLowering, TerminatorLowering] fuel f =
        some lowered → Inv lowered := by
  intro fuel
  induction fuel with
  | zero =>
    intro f lowered hinv h
    unfold convert at h
    split at h
    · cases h
    · cases h
      exact hinv
  | succ n ih =>
    intro f lowered hinv h
    unfold convert at h
    split at h
    · split at h
      · cases h
      · rename_i b k hfind
        split at h
        · rename_i rw hleg
          exact ih _ _ (hstep f b k rw hinv hfind hleg) h
        · cases h
    · cases h
      exact hinv

theorem convert_enough_fuel :
    ∀ (n : Nat) (f : FuncOp), f.WellFormed → f.numIllegal isDynamicallyLegal = n →
      ∀ fuel, n ≤ fuel →
        convert isDynamicallyLegal [ForLowering, IfLowering, TerminatorLowering] fuel f =
          convert isDynamicallyLegal [ForLowering, IfLowering, TerminatorLowering] n f := by
  intro n
  induction n with
  | zero =>
    intro f _ hn fuel _
    have hleg : f.hasIllegal isDynamicallyLegal = false := by
      rw [Bool.eq_false_iff, ne_eq, hasIllegal_iff_numIllegal]
      omega
    rw [convert_of_legal _ _ _ _ hleg, convert_of_legal _ _ _ _ hleg]
  | succ n ih =>
    intro f hwf hn fuel hfuel
    obtain ⟨fuel', rfl⟩ : ∃ fuel', fuel = fuel' + 1 := ⟨fuel - 1, by omega⟩
    have hill : f.hasIllegal isDynamicallyLegal = true := by
      rw [hasIllegal_iff_numIllegal]
      omega
    rw [convert, convert]
    simp only [hill, if_true]
    cases hfind : f.findInnermostIllegal isDynamicallyLegal with
    | none => rfl
    | some p =>
      obtain ⟨b, k⟩ := p
      simp only
      cases hleg : legalize [ForLowering, IfLowering, TerminatorLowering] f b k with
      | none => rfl
      | some r =>
        obtain ⟨res, rw⟩ := r
        cases res with
        | matchFailure => rfl
        | matchSuccess =>
          simp only
          obtain ⟨op, created, newBlocks, cont, hl⟩ := step_lowered f hwf b k rw hfind hleg
          have := hl.numIllegal
          exact ih rw.func (hl.wellFormed hwf) (by omega) fuel' (by omega)

theorem convert_short_fuel :
    ∀ (fuel : Nat) (f : FuncOp), f.WellFormed → fuel < f.numIllegal isDynamicallyLegal →
      convert isDynamicallyLegal [ForLowering, IfLowering, TerminatorLowering] fuel f = none := by
  intro fuel
  induction fuel with
  | zero =>
    intro f _ hn
    have hill : f.hasIllegal isDynamicallyLegal = true := by
      rw [hasIllegal_iff_numIllegal]
      omega
    simp [convert, hill]
  | succ n ih =>
    intro f hwf hn
    have hill : f.hasIllegal isDynamicallyLegal = true := by
      rw [hasIllegal_iff_numIllegal]
      omega
    rw [convert]
    simp only [hill, if_true]
    cases hfind : f.findInnermostIllegal isDynamicallyLegal with
    | none => rfl
    | some p =>
      obtain ⟨b, k⟩ := p
      simp only
      cases hleg : legalize [ForLowering, IfLowering, TerminatorLowering] f b k with
      | none => rfl
      | some r =>
        obtain ⟨res, rw⟩ := r
        cases res with
        | matchFailure => rfl
        | matchSuccess =>
          simp only
          obtain ⟨op, created, newBlocks, cont, hl⟩ := step_lowered f hwf b k rw hfind hleg
          have := hl.numIllegal
          exact ih rw.func (hl.wellFormed hwf) (by omega)

/-! ## No rewrite creates an illegal operation -/

theorem CreatesLegal.refl (rw : PatternRewriter) : CreatesLegal rw rw :=
  ⟨[], by simp, by simp⟩

theorem CreatesLegal.trans {a b c : PatternRewriter} (h₁ : CreatesLegal a b)
    (h₂ : CreatesLegal b c) : CreatesLegal a c := by
  obtain ⟨l₁, e₁, hl₁⟩ := h₁
  obtain ⟨l₂, e₂, hl₂⟩ := h₂
  refine ⟨l₁ ++ l₂, by rw [e₂, e₁, List.append_assoc], ?_⟩
  intro x hx
  rcases List.mem_append.mp hx with h | h
  · exact hl₁ x h
  · exact hl₂ x h

theorem splitBlock_createsLegal {rw rw' : PatternRewriter} {b p n : Nat}
    (h : rw.splitBlock b p = some (n, rw')) : CreatesLegal rw rw' := by
  unfold PatternRewriter.splitBlock at h
  split at h
  · cases h
  · cases h
    exact CreatesLegal.refl _

theorem inlineRegionBefore_createsLegal {rw rw' : PatternRewriter} {r b : Nat}
    (h : rw.inlineRegionBefore r b = some rw') : CreatesLegal rw rw' := by
  unfold PatternRewriter.inlineRegionBefore at h
  split at h
  · cases h
  · cases h
    exact CreatesLegal.refl _

theorem setInsertionPointToEnd_createsLegal {rw rw' : PatternRewriter} {b : Nat}
    (h : rw.setInsertionPointToEnd b = some rw') : CreatesLegal rw rw' := by
  unfold PatternRewriter.setInsertionPointToEnd at h
  split at h
  · cases h
  · cases h
    exact CreatesLegal.refl _

theorem create_createsLegal {rw rw' : PatternRewriter} {o : Operation} {n : Nat}
    (h : rw.create o = some (n, rw')) (hl : isDynamicallyLegal o = true) :
    CreatesLegal rw rw' := by
  unfold PatternRewriter.create at h
  split at h
  · cases h
  · cases h
    exact ⟨[o], rfl, by simpa using hl⟩

theorem replaceOp_createsLegal (rw : PatternRewriter) (op : Nat) :
    CreatesLegal rw (rw.replaceOp op) :=
  ⟨[], by simp [PatternRewriter.replaceOp], by simp⟩

theorem ForLowering_createsLegal (op : Nat) (operands : List (Option Value))
    (rewriter : PatternRewriter) (r : PatternMatchResult × PatternRewriter)
    (h : ForLowering.matchAndRewrite op operands rewriter = some r) :
    CreatesLegal rewriter r.2 := by
  unfold ForLowering.matchAndRewrite at h
  repeat' first
    | contradiction
    | split at h
    | dsimp only at h
  all_goals
    cases h
    repeat first
      | exact CreatesLegal.refl _
      | refine CreatesLegal.trans ?_ (replaceOp_createsLegal _ _)
      | refine CreatesLegal.trans ?_ (create_createsLegal (by assumption) (by rfl))
      | refine CreatesLegal.trans ?_ (splitBlock_createsLegal (by assumption))
      | refine CreatesLegal.trans ?_ (inlineRegionBefore_createsLegal (by assumption))
      | refine CreatesLegal.trans ?_ (setInsertionPointToEnd_createsLegal (by assumption))

theorem IfLowering_else_createsLegal (rw rw' : PatternRewriter) (elseRegion cont x : Nat)
    (h : (match rw.func.empty elseRegion with
      | none => none
      | some true => some (cont, rw)
      | some false =>
        match rw.func.front elseRegion with
        | none => none
        | some elseFront =>
          match rw.func.back elseRegion with
          | none => none
          | some elseBack =>
          match rw.setInsertionPointToEnd elseBack with
          | none => none
          | some rewriter =>
          match rewriter.create (Operation.BranchOp cont []) with
          | none => none
          | some (_, rewriter) =>
          match rewriter.inlineRegionBefore elseRegion cont with
          | none => none
          | some rewriter => some (elseFront, rewriter)) = some (x, rw')) :
    CreatesLegal rw rw' := by
  repeat' first
    | contradiction
    | split at h
    | dsimp only at h
  all_goals
    cases h
    repeat first
      | exact CreatesLegal.refl _
      | refine CreatesLegal.trans ?_ (create_createsLegal (by assumption) (by rfl))
      | refine CreatesLegal.trans ?_ (inlineRegionBefore_createsLegal (by assumption))
      | refine CreatesLegal.trans ?_ (setInsertionPointToEnd_createsLegal (by assumption))

theorem IfLowering_createsLegal (op : Nat) (operands : List (Option Value))
    (rewriter : PatternRewriter) (r : PatternMatchResult × PatternRewriter)
    (h : IfLowering.matchAndRewrite op operands rewriter = some r) :
    CreatesLegal rewriter r.2 := by
  unfold IfLowering.matchAndRewrite at h
  repeat' first
    | contradiction
    | split at h
    | dsimp only at h
  all_goals
    cases h
    repeat first
      | exact CreatesLegal.refl _
      | refine CreatesLegal.trans ?_ (replaceOp_createsLegal _ _)
      | refine CreatesLegal.trans ?_ (IfLowering_else_createsLegal _ _ _ _ _ (by assumption))
      | refine CreatesLegal.trans ?_ (create_createsLegal (by assumption) (by rfl))
      | refine CreatesLegal.trans ?_ (splitBlock_createsLegal (by assumption))
      | refine CreatesLegal.trans ?_ (inlineRegionBefore_createsLegal (by assumption))
      | refine CreatesLegal.trans ?_ (setInsertionPointToEnd_createsLegal (by assumption))

theorem TerminatorLowering_createsLegal (op : Nat) (operands : List (Option Value))
    (rewriter : PatternRewriter) (r : PatternMatchResult × PatternRewriter)
    (h : TerminatorLowering.matchAndRewrite op operands rewriter = some r) :
    CreatesLegal rewriter r.2 := by
  unfold TerminatorLowering.matchAndRewrite at h
  cases h
  exact replaceOp_createsLegal _ _

/-! ## Predecessors along the loop of the driver -/

theorem mem_predecessors_iff (func : FuncOp) (i j : Nat) :
    i ∈ func.predecessors j ↔ j ∈ func.successors i := by
  unfold FuncOp.predecessors
  rw [List.mem_filter, List.mem_range]
  have hc : (func.successors i).contains j = true ↔ j ∈ func.successors i := by
    simp
  rw [hc]
  constructor
  · exact fun h => h.2
  · intro h
    refine ⟨?_, h⟩
    by_contra hlt
    unfold FuncOp.successors at h
    rw [List.getElem?_eq_none (by omega)] at h
    cases h

theorem predecessors_ne_nil_iff (func : FuncOp) (j : Nat) :
    func.predecessors j ≠ [] ↔ ∃ i, j ∈ func.successors i := by
  rw [← List.length_pos, List.length_pos_iff_exists_mem]
  constructor
  · rintro ⟨i, hi⟩
    exact ⟨i, (mem_predecessors_iff func i j).mp hi⟩
  · rintro ⟨i, hi⟩
    exact ⟨i, (mem_predecessors_iff func i j).mpr hi⟩

theorem successors_of_illegal (x : Operation) (h : isDynamicallyLegal x = false) :
    x.successors = [] := by
  cases x <;> simp_all [isDynamicallyLegal, Operation.isForOp, Operation.isIfOp,
    Operation.isTerminatorOp, Operation.successors]

/-- One rewrite keeps every edge target entered, and gives an edge to every block that
loses its place at the head of a region and to every new block. -/
theorem Lowered.entered_blocks {func lowered : FuncOp} {op : Nat} {created : List Operation}
    {newBlocks block cont : Nat} (hwf : func.WellFormed)
    (h : Lowered func lowered op created newBlocks block cont)
    (hin : ∀ j, j < func.blocks.length →
      (∃ i, j ∈ func.successors i) ∨ ∃ r, func.front r = some j) :
    ∀ j, j < lowered.blocks.length →
      (∃ i, j ∈ lowered.successors i) ∨ ∃ r, lowered.front r = some j := by
  obtain ⟨-, -, -, l4, -⟩ := h.listed_facts hwf
  intro j hj
  rw [h.blocksLength] at hj
  by_cases hlt : j < func.blocks.length
  · rcases hin j hlt with ⟨i, hi⟩ | ⟨r, hr⟩
    · left
      rw [mem_successors_iff] at hi
      obtain ⟨blk, o, x, hblk, ho, hx, hjx⟩ := hi
      have hol : o ∈ func.listed := (mem_listed_iff func o).mpr ⟨i, blk, hblk, ho⟩
      have hne : o ≠ op := by
        intro e
        subst e
        have hill := h.opIllegal
        unfold FuncOp.isIllegal at hill
        rw [hx] at hill
        simp only [Bool.not_eq_true'] at hill
        rw [successors_of_illegal x hill] at hjx
        cases hjx
      obtain ⟨i', blk', hblk', ho'⟩ := (mem_listed_iff lowered o).mp (l4 o hol hne)
      refine ⟨i', ?_⟩
      rw [mem_successors_iff]
      refine ⟨blk', o, x, hblk', ho', ?_, hjx⟩
      rw [h.operations, List.getElem?_append_left (hwf.opsValid o hol)]
      exact hx
    · by_cases her : ∃ o, func.operations[op]? = some o ∧ r ∈ o.getRegions
      · obtain ⟨o, ho, hro⟩ := her
        exact Or.inl (h.entered o r j ho hro hr)
      · right
        refine ⟨r, ?_⟩
        rw [h.fronts r (fun o ho hro => her ⟨o, ho, hro⟩)]
        exact hr
  · exact Or.inl (h.created_entered j (by omega) hj)

theorem front_of_legal (func : FuncOp) (hwf : func.WellFormed)
    (hleg : func.hasIllegal isDynamicallyLegal = false) (r j : Nat)
    (h : func.front r = some j) : r = 0 := by
  have hrlt : r < func.regions.length := by
    by_contra hc
    unfold FuncOp.front at h
    rw [List.getElem?_eq_none (by omega)] at h
    cases h
  rcases hwf.regionsOwned r (List.mem_range.mpr hrlt) with h0 | hempty | hown
  · exact h0
  · unfold FuncOp.front at h
    rw [hempty] at h
    cases h
  · exfalso
    obtain ⟨o, hol, x, hx, hrx⟩ := (owned_iff func r).mp hown
    obtain ⟨i, blk, hblk, ho⟩ := (mem_listed_iff func o).mp hol
    have := (hasIllegal_eq_false_iff func _).mp hleg blk (List.getElem?_mem hblk) o ho x hx
    rw [getRegions_of_legal x this] at hrx
    cases hrx

theorem lowerControlFlow_invariant (Inv : FuncOp → Prop)
    (hstep : ∀ (f : FuncOp) (b k : Nat) (rw : PatternRewriter), Inv f →
      f.findInnermostIllegal isDynamicallyLegal = some (b, k) →
      legalize [ForLowering, IfLowering, TerminatorLowering] f b k =
        some (PatternMatchResult.matchSuccess, rw) → Inv rw.func)
    (func lowered : FuncOp) (hinv : Inv func)
    (hrun : lowerControlFlow func = (LogicalResult.success, lowered)) :
    Inv lowered ∧ lowered.hasIllegal isDynamicallyLegal = false := by
  unfold lowerControlFlow applyConversionPatterns at hrun
  simp only at hrun
  split at hrun
  · rename_i l hl
    cases hrun
    exact ⟨convert_induction Inv hstep _ _ _ hinv hl, legal_of_convert _ _ _ _ _ hl⟩
  · cases hrun

/-! ## The properties of the whole lowering, C12 and C14 -/

/-- C12: none of the three transforms creates a loop construct, a conditional construct
or a terminator marker, whatever the operation, the operands and the outcome; each
successful rewrite of the driver in a well-formed function decreases the number of
illegal operations listed in the function, at all nesting depths, by exactly one, and
leaves the function well-formed; so the loop of the driver on a well-formed function
stops after as many rewrites as the function lists illegal operations: with fewer
rewrites allowed the conversion does not finish, and allowing more changes nothing. -/
theorem C12_rewrites_decrease_and_terminate (func : FuncOp) (hwf : func.WellFormed) :
    (∀ (op : Nat) (operands : List (Option Value)) (rewriter : PatternRewriter)
        (r : PatternMatchResult × PatternRewriter),
      ForLowering.matchAndRewrite op operands rewriter = some r ∨
        IfLowering.matchAndRewrite op operands rewriter = some r ∨
        TerminatorLowering.matchAndRewrite op operands rewriter = some r →
      ∃ created, r.2.func.operations = rewriter.func.operations ++ created ∧
        ∀ x ∈ created, ¬((∃ lb ub st r, x = Operation.ForOp lb ub st r) ∨
          (∃ c t e, x = Operation.IfOp c t e) ∨ x = Operation.TerminatorOp)) ∧
    (∀ (f : FuncOp) (b k : Nat) (rw : PatternRewriter), f.WellFormed →
      f.findInnermostIllegal isDynamicallyLegal = some (b, k) →
      legalize [ForLowering, IfLowering, TerminatorLowering] f b k =
        some (PatternMatchResult.matchSuccess, rw) →
      rw.func.numIllegal isDynamicallyLegal + 1 = f.numIllegal isDynamicallyLegal ∧
        rw.func.WellFormed) ∧
    (∀ fuel, func.numIllegal isDynamicallyLegal ≤ fuel →
      convert isDynamicallyLegal [ForLowering, IfLowering, TerminatorLowering] fuel func =
        convert isDynamicallyLegal [ForLowering, IfLowering, TerminatorLowering]
          (func.numIllegal isDynamicallyLegal) func) ∧
    (∀ fuel, fuel < func.numIllegal isDynamicallyLegal →
      convert isDynamicallyLegal [ForLowering, IfLowering, TerminatorLowering] fuel func =
        none) := by
  refine ⟨?_, ?_, ?_, ?_⟩
  · intro op operands rewriter r h
    have hc : CreatesLegal rewriter r.2 := by
      rcases h with h | h | h
      · exact ForLowering_createsLegal op operands rewriter r h
      · exact IfLowering_createsLegal op operands rewriter r h
      · exact TerminatorLowering_createsLegal op operands rewriter r h
    obtain ⟨created, hops, hleg⟩ := hc
    refine ⟨created, hops, ?_⟩
    intro x hx
    rw [← isDynamicallyLegal_eq_false_iff, Bool.not_eq_false]
    exact hleg x hx
  · intro f b k rw hf hfind hleg
    obtain ⟨op, created, newBlocks, cont, hl⟩ := step_lowered f hf b k rw hfind hleg
    exact ⟨hl.numIllegal, hl.wellFormed hf⟩
  · intro fuel hfuel
    exact convert_enough_fuel _ func hwf rfl fuel hfuel
  · intro fuel hfuel
    exact convert_short_fuel fuel func hwf hfuel

/-- C12 at Scenario A, which lists two illegal operations (the loop and the terminator
marker of its body): one rewrite is not enough, two are, and five change nothing. -/
theorem C12_rewrites_decrease_and_terminate_witness :
    scenarioA.WellFormed ∧ scenarioA.numIllegal isDynamicallyLegal = 2 ∧
      convert isDynamicallyLegal [ForLowering, IfLowering, TerminatorLowering] 1 scenarioA =
        none ∧
      convert isDynamicallyLegal [ForLowering, IfLowering, TerminatorLowering] 5 scenarioA =
        convert isDynamicallyLegal [ForLowering, IfLowering, TerminatorLowering]
          (scenarioA.numIllegal isDynamicallyLegal) scenarioA ∧
      (convert isDynamicallyLegal [ForLowering, IfLowering, TerminatorLowering] 2
        scenarioA).isSome = true :=
  ⟨by decide, by decide,
    (C12_rewrites_decrease_and_terminate scenarioA (by decide)).2.2.2 1 (by decide),
    (C12_rewrites_decrease_and_terminate scenarioA (by decide)).2.2.1 5 (by decide),
    by decide⟩

/-- C14: in the function that a successful lowering of a well-formed function returns,
the predecessors of a block are exactly the blocks that list a branch or a conditional
branch to it, and every block other than the entry block of the function has a
predecessor, provided that in the input every block that is not the first block of a
region has one. -/
theorem C14_no_orphan_blocks (func lowered : FuncOp) (hwf : func.WellFormed)
    (hinput : ∀ j, j < func.blocks.length →
      func.predecessors j ≠ [] ∨ ∃ r, r < func.regions.length ∧ func.front r = some j)
    (hrun : lowerControlFlow func = (LogicalResult.success, lowered)) :
    (∀ i j, i ∈ lowered.predecessors j ↔
      ∃ blk o x, lowered.blocks[i]? = some blk ∧ o ∈ blk.operations ∧
        lowered.operations[o]? = some x ∧
        ((∃ args, x = Operation.BranchOp j args) ∨
          (∃ c ta f fa, x = Operation.CondBranchOp c j ta f fa) ∨
          (∃ c t ta fa, x = Operation.CondBranchOp c t ta j fa))) ∧
    (∀ j, j < lowered.blocks.length → lowered.front 0 ≠ some j →
      lowered.predecessors j ≠ []) := by
  have hinv := lowerControlFlow_invariant
    (fun f => f.WellFormed ∧ ∀ j, j < f.blocks.length →
      (∃ i, j ∈ f.successors i) ∨ ∃ r, f.front r = some j)
    (by
      intro f b k rw hf hfind hleg
      obtain ⟨op, created, newBlocks, cont, hl⟩ := step_lowered f hf.1 b k rw hfind hleg
      exact ⟨hl.wellFormed hf.1, hl.entered_blocks hf.1 hf.2⟩)
    func lowered
    ⟨hwf, fun j hj => (hinput j hj).imp (predecessors_ne_nil_iff func j).mp
      (fun ⟨r, _, hr⟩ => ⟨r, hr⟩)⟩ hrun
  obtain ⟨⟨hwf', hpred⟩, hlegal⟩ := hinv
  constructor
  · intro i j
    rw [mem_predecessors_iff, mem_successors_iff]
    constructor
    · rintro ⟨blk, o, x, hblk, ho, hx, hj⟩
      refine ⟨blk, o, x, hblk, ho, hx, ?_⟩
      cases x <;> simp [Operation.successors] at hj
      · subst hj
        exact Or.inl ⟨_, rfl⟩
      · rcases hj with rfl | rfl
        · exact Or.inr (Or.inl ⟨_, _, _, _, rfl⟩)
        · exact Or.inr (Or.inr ⟨_, _, _, _, rfl⟩)
    · rintro ⟨blk, o, x, hblk, ho, hx, hj⟩
      refine ⟨blk, o, x, hblk, ho, hx, ?_⟩
      rcases hj with ⟨_, rfl⟩ | ⟨_, _, _, _, rfl⟩ | ⟨_, _, _, _, rfl⟩ <;>
        simp [Operation.successors]
  · intro j hj hentry
    rw [predecessors_ne_nil_iff]
    rcases hpred j hj with h | ⟨r, hr⟩
    · exact h
    · exfalso
      have := front_of_legal lowered hwf' hlegal r j hr
      subst this
      exact hentry hr

/-- C14 at Scenario A: after the lowering, the condition block 1 has the two
predecessors 0 (the init block) and 3 (the body), and the blocks 1, 2 and 3 all have a
predecessor. -/
theorem C14_no_orphan_blocks_witness :
    scenarioA.WellFormed ∧
      (lowerControlFlow scenarioA).2.predecessors 1 = [0, 3] ∧
      (∀ j, j < (lowerControlFlow scenarioA).2.blocks.length →
        (lowerControlFlow scenarioA).2.front 0 ≠ some j →
        (lowerControlFlow scenarioA).2.predecessors j ≠ []) :=
  ⟨by decide, by decide,
    (C14_no_orphan_blocks scenarioA (lowerControlFlow scenarioA).2 (by decide)
      (by decide) (by decide)).2⟩

/-! ## The blocks that close a region, after a rewrite -/

theorem closesRegion_iff (func : FuncOp) (j : Nat) :
    func.closesRegion j = true ↔
      ∃ o ∈ func.listed, ∃ x, func.operations[o]? = some x ∧
        ∃ r ∈ x.getRegions, func.back r = some j := by
  unfold FuncOp.closesRegion
  rw [List.any_eq_true]
  constructor
  · rintro ⟨o, ho, h⟩
    cases hx : func.operations[o]? with
    | none => simp [hx] at h
    | some x =>
      rw [hx] at h
      simp only [List.any_eq_true, beq_iff_eq] at h
      exact ⟨o, ho, x, hx, h⟩
  · rintro ⟨o, ho, x, hx, r, hr, hb⟩
    refine ⟨o, ho, ?_⟩
    rw [hx]
    simp only [List.any_eq_true, beq_iff_eq]
    exact ⟨r, hr, hb⟩

theorem Lowered.closesRegion_lowered {func lowered : FuncOp} {op : Nat}
    {created : List Operation} {newBlocks block cont : Nat} (hwf : func.WellFormed)
    (h : Lowered func lowered op created newBlocks block cont) (j : Nat) :
    lowered.closesRegion j = true ↔
      ∃ o ∈ func.listed, o ≠ op ∧ ∃ x, func.operations[o]? = some x ∧
        ∃ r ∈ x.getRegions, ∃ z, func.back r = some z ∧
          (if z = block then cont else z) = j := by
  obtain ⟨-, -, l3, l4, -⟩ := h.listed_facts hwf
  have hbacks : ∀ o, o ∈ func.listed → o ≠ op → ∀ x, func.operations[o]? = some x →
      ∀ r ∈ x.getRegions,
        lowered.back r = (func.back r).map fun z => if z = block then cont else z := by
    intro o _ hne x hx r hr
    apply h.backs r
    intro oo hoo
    exact nodup_flatMap_disjoint Operation.getRegions _ hwf.regionsOnce o op x oo hx hoo hne r
      hr
  rw [closesRegion_iff]
  constructor
  · rintro ⟨o, hol', x, hx, r, hr, hb⟩
    rcases l3 o hol' with ⟨hol, hne⟩ | ⟨h1, h2⟩
    · have hx' : func.operations[o]? = some x := by
        rw [h.operations, List.getElem?_append_left (hwf.opsValid o hol)] at hx
        exact hx
      rw [hbacks o hol hne x hx' r hr] at hb
      cases hz : func.back r with
      | none => simp [hz] at hb
      | some z =>
        rw [hz] at hb
        exact ⟨o, hol, hne, x, hx', r, hr, z, hz, by simpa using hb⟩
    · exfalso
      rw [h.operations, List.getElem?_append_right h1] at hx
      rw [getRegions_of_legal x (h.createdLegal x (List.getElem?_mem hx))] at hr
      cases hr
  · rintro ⟨o, hol, hne, x, hx, r, hr, z, hz, hj⟩
    refine ⟨o, l4 o hol hne, x, ?_, r, hr, ?_⟩
    · rw [h.operations, List.getElem?_append_left (hwf.opsValid o hol)]
      exact hx
    · rw [hbacks o hol hne x hx r hr, hz]
      simp [hj]

theorem back_mem (func : FuncOp) (r z : Nat) (h : func.back r = some z) :
    ∃ l, func.regions[r]? = some l ∧ z ∈ l := by
  unfold FuncOp.back at h
  cases hl : func.regions[r]? with
  | none => simp [hl] at h
  | some l =>
    rw [hl] at h
    exact ⟨l, rfl, List.mem_of_getLast?_eq_some h⟩

theorem back_lt (func : FuncOp) (hwf : func.WellFormed) (r z : Nat)
    (h : func.back r = some z) : z < func.blocks.length := by
  obtain ⟨l, hl, hz⟩ := back_mem func r z h
  exact hwf.blocksValid l (List.getElem?_mem hl) z hz

/-- The continuation block closes a region exactly when the block of the erased
operation did. -/
theorem Lowered.closesRegion_cont {func lowered : FuncOp} {op : Nat}
    {created : List Operation} {newBlocks block cont : Nat} (hwf : func.WellFormed)
    (h : Lowered func lowered op created newBlocks block cont) :
    lowered.closesRegion cont = func.closesRegion block := by
  rw [Bool.eq_iff_iff, h.closesRegion_lowered hwf, closesRegion_iff]
  constructor
  · rintro ⟨o, hol, -, x, hx, r, hr, z, hz, hj⟩
    refine ⟨o, hol, x, hx, r, hr, ?_⟩
    by_cases hzb : z = block
    · rw [hz, hzb]
    · rw [if_neg hzb] at hj
      rw [hz, hj]
      rcases h.contFresh with hc | hc
      · exact congrArg some hc
      · have := back_lt func hwf r z hz
        omega
  · rintro ⟨o, hol, x, hx, r, hr, hb⟩
    have hne : o ≠ op := by
      intro e
      subst e
      obtain ⟨l, hl, hmem⟩ := back_mem func r block hb
      exact h.opOutside x r l hx hr hl hmem
    exact ⟨o, hol, hne, x, hx, r, hr, block, hb, by simp⟩

/-- Once split, the block of the erased operation closes no region. -/
theorem Lowered.closesRegion_block {func lowered : FuncOp} {op : Nat}
    {created : List Operation} {newBlocks block cont : Nat} (hwf : func.WellFormed)
    (h : Lowered func lowered op created newBlocks block cont) (hne : cont ≠ block) :
    lowered.closesRegion block = false := by
  rw [Bool.eq_false_iff, ne_eq, h.closesRegion_lowered hwf]
  rintro ⟨o, hol, -, x, hx, r, hr, z, hz, hj⟩
  by_cases hzb : z = block
  · rw [if_pos hzb] at hj
    exact hne hj
  · rw [if_neg hzb] at hj
    exact hzb hj

/-- A new block other than the continuation block closes no region. -/
theorem Lowered.closesRegion_fresh {func lowered : FuncOp} {op : Nat}
    {created : List Operation} {newBlocks block cont : Nat} (hwf : func.WellFormed)
    (h : Lowered func lowered op created newBlocks block cont) (j : Nat)
    (hj1 : func.blocks.length ≤ j) (hj2 : j ≠ cont) :
    lowered.closesRegion j = false := by
  rw [Bool.eq_false_iff, ne_eq, h.closesRegion_lowered hwf]
  rintro ⟨o, hol, -, x, hx, r, hr, z, hz, hj⟩
  by_cases hzb : z = block
  · rw [if_pos hzb] at hj
    exact hj2 hj.symm
  · rw [if_neg hzb] at hj
    have := back_lt func hwf r z hz
    omega

/-- A block of a region of the erased operation closes no region afterwards. -/
theorem Lowered.closesRegion_inlined {func lowered : FuncOp} {op : Nat}
    {created : List Operation} {newBlocks block cont : Nat} (hwf : func.WellFormed)
    (h : Lowered func lowered op created newBlocks block cont) (j : Nat)
    (x : Operation) (r : Nat) (l : List Nat) (hx : func.operations[op]? = some x)
    (hr : r ∈ x.getRegions) (hl : func.regions[r]? = some l) (hj : j ∈ l) :
    lowered.closesRegion j = false := by
  rw [Bool.eq_false_iff, ne_eq, h.closesRegion_lowered hwf]
  rintro ⟨o, hol, hne, x', hx', r', hr', z, hz, hzj⟩
  have hjlt : j < func.blocks.length := hwf.blocksValid l (List.getElem?_mem hl) j hj
  have hjb : j ≠ block := fun e => h.opOutside x r l hx hr hl (e ▸ hj)
  have hzj' : z = j := by
    by_cases hzb : z = block
    · rw [if_pos hzb] at hzj
      rcases h.contFresh with hc | hc
      · exact absurd (hzj.symm.trans hc) hjb
      · omega
    · rw [if_neg hzb] at hzj
      exact hzj
  subst hzj'
  obtain ⟨l', hl', hmem⟩ := back_mem func r' z hz
  have hrr : r' = r := by
    by_contra hc
    exact regions_disjoint func hwf r' r l' l hl' hl hc z hmem hj
  subst hrr
  exact nodup_flatMap_disjoint Operation.getRegions _ hwf.regionsOnce o op x' x hx' hx hne r'
    hr' hr

/-- A block that the rewrite does not touch closes a region afterwards exactly when it
did before. -/
theorem Lowered.closesRegion_other {func lowered : FuncOp} {op : Nat}
    {created : List Operation} {newBlocks block cont : Nat} (hwf : func.WellFormed)
    (h : Lowered func lowered op created newBlocks block cont) (j : Nat)
    (hjlt : j < func.blocks.length) (hjb : j ≠ block ∨ cont = block)
    (hout : ∀ x r l, func.operations[op]? = some x → r ∈ x.getRegions →
      func.regions[r]? = some l → j ∉ l) :
    lowered.closesRegion j = func.closesRegion j := by
  rw [Bool.eq_iff_iff, h.closesRegion_lowered hwf, closesRegion_iff]
  constructor
  · rintro ⟨o, hol, -, x, hx, r, hr, z, hz, hzj⟩
    refine ⟨o, hol, x, hx, r, hr, ?_⟩
    by_cases hzb : z = block
    · rw [if_pos hzb] at hzj
      rcases h.contFresh with hc | hc
      · rw [hz, hzb, ← hc, hzj]
      · omega
    · rw [if_neg hzb] at hzj
      rw [hz, hzj]
  · rintro ⟨o, hol, x, hx, r, hr, hb⟩
    have hne : o ≠ op := by
      intro e
      subst e
      obtain ⟨l, hl, hmem⟩ := back_mem func r j hb
      exact hout x r l hx hr hl hmem
    refine ⟨o, hol, hne, x, hx, r, hr, j, hb, ?_⟩
    rcases hjb with hjb | hjb
    · rw [if_neg hjb]
    · rw [hjb]
      split
      · rename_i e
        exact e.symm
      · rfl

/-! ## The shape of a block, across a rewrite -/

theorem Lowered.isPlain_eq {func lowered : FuncOp} {op : Nat} {created : List Operation}
    {newBlocks block cont : Nat} (h : Lowered func lowered op created newBlocks block cont)
    (o : Nat) (ho : o < func.operations.length) :
    lowered.isPlain o = func.isPlain o := by
  unfold FuncOp.isPlain
  rw [h.operations, List.getElem?_append_left ho]

theorem Lowered.operations_eq {func lowered : FuncOp} {op : Nat} {created : List Operation}
    {newBlocks block cont : Nat} (h : Lowered func lowered op created newBlocks block cont)
    (o : Nat) (x : Operation) (ho : func.operations[o]? = some x) :
    lowered.operations[o]? = some x := by
  rw [h.operations, List.getElem?_append_left (List.getElem?_eq_some.mp ho).1]
  exact ho

/-- The shape of a list of operations of the function is its shape after the rewrite. -/
theorem Lowered.shapedAt {func lowered : FuncOp} {op : Nat} {created : List Operation}
    {newBlocks block cont : Nat} (h : Lowered func lowered op created newBlocks block cont)
    (c : Bool) (ops : List Nat) (hs : func.ShapedAt c ops) : lowered.ShapedAt c ops := by
  obtain ⟨pre, tail, hops, hpre, htail⟩ := hs
  refine ⟨pre, tail, hops, ?_, ?_⟩
  · intro o ho
    have hp := hpre o ho
    have holt : o < func.operations.length := by
      unfold FuncOp.isPlain at hp
      cases hx : func.operations[o]? with
      | none => simp [hx] at hp
      | some x => exact (List.getElem?_eq_some.mp hx).1
    rw [h.isPlain_eq o holt]
    exact hp
  · rcases htail with ⟨hc, ht⟩ | ⟨hc, t, x, ht, hx, hterm⟩
    · left
      refine ⟨hc, ?_⟩
      rcases ht with ht | ⟨t, ht, hx⟩
      · exact Or.inl ht
      · exact Or.inr ⟨t, ht, h.operations_eq t _ hx⟩
    · right
      exact ⟨hc, t, x, ht, h.operations_eq t x hx, hterm⟩

/-- A block that closes a region and lists no illegal operation holds plain operations
only. -/
theorem FuncOp.ShapedAt.plain_of_legal {func : FuncOp} {ops : List Nat}
    (hs : func.ShapedAt true ops)
    (hleg : ∀ o ∈ ops, func.isIllegal isDynamicallyLegal o = false) :
    ∀ o ∈ ops, func.isPlain o = true := by
  obtain ⟨pre, tail, hops, hpre, htail⟩ := hs
  rcases htail with ⟨-, ht⟩ | ⟨hc, -⟩
  · rcases ht with ht | ⟨t, ht, hx⟩
    · subst ht
      rw [List.append_nil] at hops
      subst hops
      exact hpre
    · exfalso
      have := hleg t (by rw [hops, ht]; simp)
      simp [FuncOp.isIllegal, hx, isDynamicallyLegal, Operation.isForOp, Operation.isIfOp,
        Operation.isTerminatorOp] at this
  · cases hc

theorem split_at_op (before after pre tail : List Nat) (op : Nat)
    (h : before ++ op :: after = pre ++ tail) (ht : op ∉ tail) :
    ∃ after', pre = before ++ op :: after' ∧ after = after' ++ tail := by
  rw [List.append_eq_append_iff] at h
  rcases h with ⟨a', h1, h2⟩ | ⟨c', h1, h2⟩
  · cases a' with
    | nil =>
      exfalso
      simp only [List.nil_append] at h2
      exact ht (h2 ▸ List.mem_cons_self _ _)
    | cons a as =>
      simp only [List.cons_append, List.cons.injEq] at h2
      obtain ⟨rfl, h3⟩ := h2
      exact ⟨as, h1, h3⟩
  · exfalso
    exact ht (h2 ▸ List.mem_append_right _ (List.mem_cons_self _ _))

/-- The block of a loop or of a conditional: what precedes the operation is plain, and
what follows it has the shape of the block. -/
theorem FuncOp.ShapedAt.split_plain {func : FuncOp} {c : Bool} {before after : List Nat} {op : Nat}
    (hs : func.ShapedAt c (before ++ op :: after)) (hop : func.isPlain op = true) :
    (∀ o ∈ before, func.isPlain o = true) ∧ func.ShapedAt c after := by
  obtain ⟨pre, tail, hops, hpre, htail⟩ := hs
  have hnt : op ∉ tail := by
    intro hmem
    unfold FuncOp.isPlain at hop
    rcases htail with ⟨-, ht⟩ | ⟨-, t, x, ht, hx, hterm⟩
    · rcases ht with ht | ⟨t, ht, hx⟩
      · rw [ht] at hmem
        cases hmem
      · rw [ht, List.mem_singleton] at hmem
        subst hmem
        simp [hx, Operation.isTerminatorOp] at hop
    · rw [ht, List.mem_singleton] at hmem
      subst hmem
      simp [hx, hterm] at hop
  obtain ⟨after', h1, h2⟩ := split_at_op before after pre tail op hops hnt
  constructor
  · intro o ho
    exact hpre o (by rw [h1]; exact List.mem_append_left _ ho)
  · refine ⟨after', tail, h2, ?_, htail⟩
    intro o ho
    exact hpre o (by rw [h1]; simp [ho])

/-- The block of a terminator marker closes a region and ends with the marker. -/
theorem FuncOp.ShapedAt.split_marker {func : FuncOp} {c : Bool} {before after : List Nat} {op : Nat}
    (hs : func.ShapedAt c (before ++ op :: after)) (ha : op ∉ after)
    (hop : func.operations[op]? = some Operation.TerminatorOp) :
    c = true ∧ after = [] ∧ ∀ o ∈ before, func.isPlain o = true := by
  obtain ⟨pre, tail, hops, hpre, htail⟩ := hs
  have hnp : op ∉ pre := by
    intro hmem
    have := hpre op hmem
    simp [FuncOp.isPlain, hop, Operation.isTerminatorOp] at this
  have hmem : op ∈ tail := by
    have : op ∈ pre ++ tail := by rw [← hops]; simp
    rcases List.mem_append.mp this with h | h
    · exact absurd h hnp
    · exact h
  have key : ∀ t, tail = [t] → after = [] ∧ pre = before := by
    intro t ht
    rw [ht, List.mem_singleton] at hmem
    subst hmem
    rw [ht] at hops
    cases hafter : after with
    | nil =>
      rw [hafter] at hops
      exact ⟨rfl, (List.append_cancel_right hops).symm⟩
    | cons a as =>
      exfalso
      have h1 : (before ++ op :: after).getLast? = (pre ++ [op]).getLast? := by rw [hops]
      rw [List.getLast?_concat, hafter,
        show before ++ op :: a :: as = (before ++ [op]) ++ a :: as by simp,
        List.getLast?_append_of_ne_nil _ (List.cons_ne_nil _ _)] at h1
      exact ha (hafter ▸ List.mem_of_getLast?_eq_some h1)
  rcases htail with ⟨hc, ht⟩ | ⟨-, t, x, ht, hx, hterm⟩
  · rcases ht with ht | ⟨t, ht, -⟩
    · rw [ht] at hmem
      cases hmem
    · obtain ⟨h1, h2⟩ := key t ht
      exact ⟨hc, h1, h2 ▸ hpre⟩
  · exfalso
    rw [ht, List.mem_singleton] at hmem
    subst hmem
    rw [hop] at hx
    cases hx
    cases hterm

theorem closesRegion_of_back (func : FuncOp) (op r j : Nat) (x : Operation)
    (hl : op ∈ func.listed) (hx : func.operations[op]? = some x) (hr : r ∈ x.getRegions)
    (hb : func.back r = some j) : func.closesRegion j = true :=
  (closesRegion_iff func j).mpr ⟨op, hl, x, hx, r, hr, hb⟩

theorem closesRegion_inner (func : FuncOp) (hwf : func.WellFormed) (r j : Nat) (l : List Nat)
    (hl : func.regions[r]? = some l) (hj : j ∈ l) (hlast : l.getLast? ≠ some j) :
    func.closesRegion j = false := by
  rw [Bool.eq_false_iff, ne_eq, closesRegion_iff]
  rintro ⟨o, -, x, -, r', -, hb⟩
  obtain ⟨l', hl', hmem⟩ := back_mem func r' j hb
  have hrr : r' = r := by
    by_contra hc
    exact regions_disjoint func hwf r' r l' l hl' hl hc j hmem hj
  subst hrr
  unfold FuncOp.back at hb
  rw [hl] at hb
  exact hlast hb

theorem isPlain_lt (func : FuncOp) (o : Nat) (h : func.isPlain o = true) :
    o < func.operations.length := by
  unfold FuncOp.isPlain at h
  cases hx : func.operations[o]? with
  | none => simp [hx] at h
  | some x => exact (List.getElem?_eq_some.mp hx).1

theorem Lowered.isPlain_of {func lowered : FuncOp} {op : Nat} {created : List Operation}
    {newBlocks block cont : Nat} (h : Lowered func lowered op created newBlocks block cont)
    (o : Nat) (ho : func.isPlain o = true) : lowered.isPlain o = true := by
  rw [h.isPlain_eq o (isPlain_lt func o ho)]
  exact ho

/-- `ForLowering` at a loop whose body lists no illegal operation keeps the shape of the
blocks. -/
theorem ForLowering_shaped (rewriter rw' : PatternRewriter) (op region cond : Nat)
    (rest before after : List Nat) (initB condB : Block) (lb ub : Value) (st : Option Value)
    (hwf : rewriter.func.WellFormed) (hshape : rewriter.func.Shaped)
    (site : ForSite rewriter op region cond rest before after initB condB)
    (hleg : rewriter.func.regionIsLegal isDynamicallyLegal region = true)
    (hrun : ForLowering.matchAndRewrite op [some lb, some ub, st] rewriter =
      some (PatternMatchResult.matchSuccess, rw')) :
    rw'.func.Shaped := by
  have hL := ForLowering_lowered rewriter rw' op region cond rest before after initB condB lb ub
    st hwf site hrun
  obtain ⟨rw'', hrun', hops, -, hlen, hinit, hcond, hend, hfb1, hfb2, hother⟩ :=
    ForLowering_spec rewriter op region cond rest before after initB condB lb ub st site
  have heq : rw' = rw'' := by
    have := hrun.symm.trans hrun'
    simpa using this
  subst heq
  obtain ⟨lb', ub', st', hop⟩ := site.isFor
  have hinitlt := (List.getElem?_eq_some.mp site.initBlock).1
  have hcondlt := (List.getElem?_eq_some.mp site.condBlock).1
  have hopplain : rewriter.func.isPlain op = true := by
    simp [FuncOp.isPlain, hop, Operation.isTerminator, Operation.isTerminatorOp]
  have hinitshape := hshape _ _ site.initBlock
  rw [site.initOps] at hinitshape
  obtain ⟨hbefore, hafter⟩ := hinitshape.split_plain hopplain
  have hcondshape := hshape _ _ site.condBlock
  have hlisted := hL.opListed
  have hregs : (Operation.ForOp lb' ub' st' region).getRegions = [region] := rfl
  have hmemreg : region ∈ (Operation.ForOp lb' ub' st' region).getRegions := by simp [hregs]
  have hlegal_in : ∀ x ∈ cond :: rest, ∀ blk, rewriter.func.blocks[x]? = some blk →
      ∀ o ∈ blk.operations, rewriter.func.isIllegal isDynamicallyLegal o = false :=
    fun x hx blk hblk o ho =>
      regionIsLegal_spec _ _ region _ hleg site.body x hx blk hblk o ho
  have hm0 : rw'.func.isPlain rewriter.func.operations.length = true := by
    unfold FuncOp.isPlain
    rw [hops, List.getElem?_append_right (le_refl _)]
    simp [Operation.isTerminator, Operation.isTerminatorOp]
  have hm1 : rw'.func.operations[rewriter.func.operations.length + 1]? =
      some (Operation.BranchOp cond [some (Value.opResult rewriter.func.operations.length)]) := by
    rw [hops, List.getElem?_append_right (by omega)]
    simp
  have hm2 : rw'.func.operations[rewriter.func.operations.length + 2]? =
      some (Operation.BranchOp cond [some lb]) := by
    rw [hops, List.getElem?_append_right (by omega)]
    simp
  have hm3 : rw'.func.isPlain (rewriter.func.operations.length + 3) = true := by
    unfold FuncOp.isPlain
    rw [hops, List.getElem?_append_right (by omega)]
    simp [Operation.isTerminator, Operation.isTerminatorOp]
  have hm4 : rw'.func.operations[rewriter.func.operations.length + 4]? =
      some (Operation.CondBranchOp (some (Value.opResult (rewriter.func.operations.length + 3)))
        (rewriter.func.blocks.length + 1) [] rewriter.func.blocks.length []) := by
    rw [hops, List.getElem?_append_right (by omega)]
    simp
  have happend : ∀ (c : Bool) (ops : List Nat), rewriter.func.ShapedAt true ops →
      (∀ o ∈ ops, rewriter.func.isIllegal isDynamicallyLegal o = false) → c = false →
      rw'.func.ShapedAt c
        (ops ++ [rewriter.func.operations.length, rewriter.func.operations.length + 1]) := by
    intro c ops hs hl hc
    have hplain := hs.plain_of_legal hl
    refine ⟨ops ++ [rewriter.func.operations.length], [rewriter.func.operations.length + 1],
      by simp, ?_, Or.inr ⟨hc, _, _, rfl, hm1, rfl⟩⟩
    intro o ho
    rcases List.mem_append.mp ho with h | h
    · exact hL.isPlain_of o (hplain o h)
    · rw [List.mem_singleton] at h
      subst h
      exact hm0
  intro j blk' hblk'
  by_cases h1 : j = rewriter.insertionBlock
  · subst h1
    rw [hinit] at hblk'
    cases hblk'
    rw [hL.closesRegion_block hwf (by omega)]
    refine ⟨before, [rewriter.func.operations.length + 2], rfl, ?_,
      Or.inr ⟨rfl, _, _, rfl, hm2, rfl⟩⟩
    intro o ho
    exact hL.isPlain_of o (hbefore o ho)
  by_cases h2 : j = rewriter.func.blocks.length
  · subst h2
    rw [hend] at hblk'
    cases hblk'
    rw [hL.closesRegion_cont hwf]
    exact hL.shapedAt _ _ hafter
  by_cases h3 : j = cond
  · subst h3
    rw [hcond] at hblk'
    cases hblk'
    rw [hL.closesRegion_inlined hwf j _ region _ hop hmemreg site.body
      (List.mem_cons_self _ _)]
    refine ⟨[rewriter.func.operations.length + 3], [rewriter.func.operations.length + 4], rfl,
      ?_, Or.inr ⟨rfl, _, _, rfl, hm4, rfl⟩⟩
    intro o ho
    rw [List.mem_singleton] at ho
    subst ho
    exact hm3
  by_cases h4 : j = rewriter.func.blocks.length + 1
  · subst h4
    rw [hL.closesRegion_fresh hwf _ (by omega) (by omega)]
    by_cases hr : rest = []
    · rw [hfb1 hr] at hblk'
      cases hblk'
      have hclose : rewriter.func.closesRegion cond = true := by
        apply closesRegion_of_back _ op region cond _ hlisted hop hmemreg
        unfold FuncOp.back
        rw [site.body, hr]
        rfl
      rw [hclose] at hcondshape
      exact happend false _ hcondshape
        (hlegal_in cond (List.mem_cons_self _ _) condB site.condBlock) rfl
    · obtain ⟨lastB, hlastB⟩ : ∃ blk, rewriter.func.blocks[rest.getLast hr]? = some blk :=
        ⟨_, List.getElem?_eq_getElem (site.restValid _ (List.getLast_mem hr))⟩
      rw [(hfb2 hr lastB hlastB).1] at hblk'
      cases hblk'
      have hclose : rewriter.func.closesRegion cond = false := by
        apply closesRegion_inner _ hwf region cond _ site.body (List.mem_cons_self _ _)
        rw [List.getLast?_eq_getLast _ (List.cons_ne_nil _ _), List.getLast_cons hr]
        intro e
        exact site.condOnce ((Option.some.inj e) ▸ List.getLast_mem hr)
      rw [hclose] at hcondshape
      exact hL.shapedAt _ _ hcondshape
  by_cases h5 : j = ((rewriter.func.blocks.length + 1) :: rest).getLast (List.cons_ne_nil _ _)
  · have hr : rest ≠ [] := by
      intro hr
      subst hr
      simp at h5
      exact h4 h5
    rw [List.getLast_cons hr] at h5
    subst h5
    have hmem : rest.getLast hr ∈ cond :: rest := List.mem_cons_of_mem _ (List.getLast_mem hr)
    obtain ⟨lastB, hlastB⟩ : ∃ blk, rewriter.func.blocks[rest.getLast hr]? = some blk :=
      ⟨_, List.getElem?_eq_getElem (site.restValid _ (List.getLast_mem hr))⟩
    rw [(hfb2 hr lastB hlastB).2] at hblk'
    cases hblk'
    rw [hL.closesRegion_inlined hwf _ _ region _ hop hmemreg site.body hmem]
    have hclose : rewriter.func.closesRegion (rest.getLast hr) = true := by
      apply closesRegion_of_back _ op region _ _ hlisted hop hmemreg
      unfold FuncOp.back
      rw [site.body]
      simp only [Option.bind_eq_bind, Option.some_bind]
      rw [List.getLast?_eq_getLast _ (List.cons_ne_nil _ _), List.getLast_cons hr]
    have hs := hshape _ _ hlastB
    rw [hclose] at hs
    exact happend false _ hs (hlegal_in _ hmem lastB hlastB) rfl
  · have hjlt : j < rewriter.func.blocks.length := by
      have := (List.getElem?_eq_some.mp hblk').1
      omega
    obtain ⟨blk, hblk⟩ : ∃ blk, rewriter.func.blocks[j]? = some blk :=
      ⟨_, List.getElem?_eq_getElem hjlt⟩
    rw [hother j blk hblk h1 h3 h5] at hblk'
    cases hblk'
    have hs := hshape _ _ hblk
    by_cases hjr : j ∈ rest
    · have hmem : j ∈ cond :: rest := List.mem_cons_of_mem _ hjr
      rw [hL.closesRegion_inlined hwf _ _ region _ hop hmemreg site.body hmem]
      have hclose : rewriter.func.closesRegion j = false := by
        apply closesRegion_inner _ hwf region j _ site.body hmem
        have hr : rest ≠ [] := List.ne_nil_of_mem hjr
        rw [List.getLast?_eq_getLast _ (List.cons_ne_nil _ _), List.getLast_cons hr]
        intro e
        apply h5
        rw [List.getLast_cons hr]
        exact (Option.some.inj e).symm
      rw [hclose] at hs
      exact hL.shapedAt _ _ hs
    · rw [hL.closesRegion_other hwf j hjlt (Or.inl h1)]
      · exact hL.shapedAt _ _ hs
      · intro x r l hx hr hl hmem
        rw [hop] at hx
        cases hx
        rw [hregs, List.mem_singleton] at hr
        subst hr
        rw [site.body] at hl
        cases hl
        rcases List.mem_cons.mp hmem with h | h
        · exact h3 h
        · exact hjr h

/-- `IfLowering` at a conditional without an "else" part whose "then" region lists no
illegal operation keeps the shape of the blocks. -/
theorem IfLowering_shaped_noelse (rewriter rw' : PatternRewriter)
    (op thenRegion elseRegion : Nat) (t : Nat) (trest before after : List Nat) (condB : Block)
    (cv : Option Value) (hwf : rewriter.func.WellFormed) (hshape : rewriter.func.Shaped)
    (site : IfSite rewriter op thenRegion elseRegion (t :: trest) [] before after condB)
    (hleg : rewriter.func.regionIsLegal isDynamicallyLegal thenRegion = true)
    (hrun : IfLowering.matchAndRewrite op [cv] rewriter =
      some (PatternMatchResult.matchSuccess, rw')) :
    rw'.func.Shaped := by
  have hL := IfLowering_lowered_noelse rewriter rw' op thenRegion elseRegion t trest before
    after condB cv hwf site hrun
  obtain ⟨rw'', hrun', hops, -, hlen, hcb, hcont, hthen, hother⟩ :=
    IfLowering_spec_noelse rewriter op thenRegion elseRegion t trest before after condB cv site
  have heq : rw' = rw'' := by
    have := hrun.symm.trans hrun'
    simpa using this
  subst heq
  obtain ⟨c, hop⟩ := site.isIf
  have hcblt := (List.getElem?_eq_some.mp site.condBlock).1
  have hopplain : rewriter.func.isPlain op = true := by
    simp [FuncOp.isPlain, hop, Operation.isTerminator, Operation.isTerminatorOp]
  have hcbshape := hshape _ _ site.condBlock
  rw [site.condOps] at hcbshape
  obtain ⟨hbefore, hafter⟩ := hcbshape.split_plain hopplain
  have hlisted := hL.opListed
  have hmemreg : thenRegion ∈ (Operation.IfOp c thenRegion elseRegion).getRegions := by
    simp [Operation.getRegions]
  have hm0 : rw'.func.operations[rewriter.func.operations.length]? =
      some (Operation.BranchOp rewriter.func.blocks.length []) := by
    rw [hops, List.getElem?_append_right (le_refl _)]
    simp
  have hm1 : rw'.func.operations[rewriter.func.operations.length + 1]? =
      some (Operation.CondBranchOp cv t [] rewriter.func.blocks.length []) := by
    rw [hops, List.getElem?_append_right (by omega)]
    simp
  have htbmem : (t :: trest).getLast (List.cons_ne_nil _ _) ∈ t :: trest := List.getLast_mem _
  intro j blk' hblk'
  by_cases h1 : j = rewriter.insertionBlock
  · subst h1
    rw [hcb] at hblk'
    cases hblk'
    rw [hL.closesRegion_block hwf (by omega)]
    refine ⟨before, [rewriter.func.operations.length + 1], rfl, ?_,
      Or.inr ⟨rfl, _, _, rfl, hm1, rfl⟩⟩
    intro o ho
    exact hL.isPlain_of o (hbefore o ho)
  by_cases h2 : j = rewriter.func.blocks.length
  · subst h2
    rw [hcont] at hblk'
    cases hblk'
    rw [hL.closesRegion_cont hwf]
    exact hL.shapedAt _ _ hafter
  have hjlt : j < rewriter.func.blocks.length := by
    have := (List.getElem?_eq_some.mp hblk').1
    omega
  obtain ⟨blk, hblk⟩ : ∃ blk, rewriter.func.blocks[j]? = some blk :=
    ⟨_, List.getElem?_eq_getElem hjlt⟩
  have hs := hshape _ _ hblk
  by_cases h3 : j = (t :: trest).getLast (List.cons_ne_nil _ _)
  · rw [h3] at hblk hs ⊢
    rw [h3, hthen blk hblk] at hblk'
    cases hblk'
    rw [hL.closesRegion_inlined hwf _ _ thenRegion _ hop hmemreg site.thenBody htbmem]
    have hclose : rewriter.func.closesRegion ((t :: trest).getLast (List.cons_ne_nil _ _)) =
        true := by
      apply closesRegion_of_back _ op thenRegion _ _ hlisted hop hmemreg
      unfold FuncOp.back
      rw [site.thenBody]
      simp only [Option.bind_eq_bind, Option.some_bind]
      exact List.getLast?_eq_getLast _ _
    rw [hclose] at hs
    have hplain := hs.plain_of_legal
      (fun o ho => regionIsLegal_spec _ _ thenRegion _ hleg site.thenBody _ htbmem blk hblk o ho)
    refine ⟨blk.operations, [rewriter.func.operations.length], rfl, ?_,
      Or.inr ⟨rfl, _, _, rfl, hm0, rfl⟩⟩
    intro o ho
    exact hL.isPlain_of o (hplain o ho)
  · rw [hother j blk hblk h1 h3] at hblk'
    cases hblk'
    by_cases hjr : j ∈ t :: trest
    · rw [hL.closesRegion_inlined hwf _ _ thenRegion _ hop hmemreg site.thenBody hjr]
      have hclose : rewriter.func.closesRegion j = false := by
        apply closesRegion_inner _ hwf thenRegion j _ site.thenBody hjr
        rw [List.getLast?_eq_getLast _ (List.cons_ne_nil _ _)]
        intro e
        exact h3 (Option.some.inj e).symm
      rw [hclose] at hs
      exact hL.shapedAt _ _ hs
    · rw [hL.closesRegion_other hwf j hjlt (Or.inl h1)]
      · exact hL.shapedAt _ _ hs
      · intro x r l hx hr hl hmem
        rw [hop] at hx
        cases hx
        simp only [Operation.getRegions, List.mem_cons, List.mem_singleton, List.not_mem_nil,
          or_false] at hr
        rcases hr with rfl | rfl
        · rw [site.thenBody] at hl
          cases hl
          exact hjr hmem
        · rw [site.elseBody] at hl
          cases hl
          cases hmem

/-- `IfLowering` at a conditional with an "else" part whose regions list no illegal
operation keeps the shape of the blocks. -/
theorem IfLowering_shaped_else (rewriter rw' : PatternRewriter)
    (op thenRegion elseRegion : Nat) (t : Nat) (trest : List Nat) (e : Nat)
    (erest before after : List Nat) (condB : Block) (cv : Option Value)
    (hwf : rewriter.func.WellFormed) (hshape : rewriter.func.Shaped)
    (site : IfSite rewriter op thenRegion elseRegion (t :: trest) (e :: erest) before after
      condB)
    (hlegt : rewriter.func.regionIsLegal isDynamicallyLegal thenRegion = true)
    (hlege : rewriter.func.regionIsLegal isDynamicallyLegal elseRegion = true)
    (hrun : IfLowering.matchAndRewrite op [cv] rewriter =
      some (PatternMatchResult.matchSuccess, rw')) :
    rw'.func.Shaped := by
  have hL := IfLowering_lowered_else rewriter rw' op thenRegion elseRegion t trest e erest
    before after condB cv hwf site hrun
  obtain ⟨rw'', hrun', hops, -, hlen, hcb, hcont, hthen, helse, hother⟩ :=
    IfLowering_spec_else rewriter op thenRegion elseRegion t trest e erest before after condB cv
      site
  have heq : rw' = rw'' := by
    have := hrun.symm.trans hrun'
    simpa using this
  subst heq
  obtain ⟨c, hop⟩ := site.isIf
  have hcblt := (List.getElem?_eq_some.mp site.condBlock).1
  have hopplain : rewriter.func.isPlain op = true := by
    simp [FuncOp.isPlain, hop, Operation.isTerminator, Operation.isTerminatorOp]
  have hcbshape := hshape _ _ site.condBlock
  rw [site.condOps] at hcbshape
  obtain ⟨hbefore, hafter⟩ := hcbshape.split_plain hopplain
  have hlisted := hL.opListed
  have hmemt : thenRegion ∈ (Operation.IfOp c thenRegion elseRegion).getRegions := by
    simp [Operation.getRegions]
  have hmeme : elseRegion ∈ (Operation.IfOp c thenRegion elseRegion).getRegions := by
    simp [Operation.getRegions]
  have hm0 : rw'.func.operations[rewriter.func.operations.length]? =
      some (Operation.BranchOp rewriter.func.blocks.length []) := by
    rw [hops, List.getElem?_append_right (le_refl _)]
    simp
  have hm1 : rw'.func.operations[rewriter.func.operations.length + 1]? =
      some (Operation.BranchOp rewriter.func.blocks.length []) := by
    rw [hops, List.getElem?_append_right (by omega)]
    simp
  have hm2 : rw'.func.operations[rewriter.func.operations.length + 2]? =
      some (Operation.CondBranchOp cv t [] e []) := by
    rw [hops, List.getElem?_append_right (by omega)]
    simp
  have htbmem : (t :: trest).getLast (List.cons_ne_nil _ _) ∈ t :: trest := List.getLast_mem _
  have hebmem : (e :: erest).getLast (List.cons_ne_nil _ _) ∈ e :: erest := List.getLast_mem _
  intro j blk' hblk'
  by_cases h1 : j = rewriter.insertionBlock
  · subst h1
    rw [hcb] at hblk'
    cases hblk'
    rw [hL.closesRegion_block hwf (by omega)]
    refine ⟨before, [rewriter.func.operations.length + 2], rfl, ?_,
      Or.inr ⟨rfl, _, _, rfl, hm2, rfl⟩⟩
    intro o ho
    exact hL.isPlain_of o (hbefore o ho)
  by_cases h2 : j = rewriter.func.blocks.length
  · subst h2
    rw [hcont] at hblk'
    cases hblk'
    rw [hL.closesRegion_cont hwf]
    exact hL.shapedAt _ _ hafter
  have hjlt : j < rewriter.func.blocks.length := by
    have := (List.getElem?_eq_some.mp hblk').1
    omega
  obtain ⟨blk, hblk⟩ : ∃ blk, rewriter.func.blocks[j]? = some blk :=
    ⟨_, List.getElem?_eq_getElem hjlt⟩
  have hs := hshape _ _ hblk
  by_cases h3 : j = (t :: trest).getLast (List.cons_ne_nil _ _)
  · rw [h3] at hblk hs ⊢
    rw [h3, hthen blk hblk] at hblk'
    cases hblk'
    rw [hL.closesRegion_inlined hwf _ _ thenRegion _ hop hmemt site.thenBody htbmem]
    have hclose : rewriter.func.closesRegion ((t :: trest).getLast (List.cons_ne_nil _ _)) =
        true := by
      apply closesRegion_of_back _ op thenRegion _ _ hlisted hop hmemt
      unfold FuncOp.back
      rw [site.thenBody]
      simp only [Option.bind_eq_bind, Option.some_bind]
      exact List.getLast?_eq_getLast _ _
    rw [hclose] at hs
    have hplain := hs.plain_of_legal
      (fun o ho =>
        regionIsLegal_spec _ _ thenRegion _ hlegt site.thenBody _ htbmem blk hblk o ho)
    refine ⟨blk.operations, [rewriter.func.operations.length], rfl, ?_,
      Or.inr ⟨rfl, _, _, rfl, hm0, rfl⟩⟩
    intro o ho
    exact hL.isPlain_of o (hplain o ho)
  by_cases h4 : j = (e :: erest).getLast (List.cons_ne_nil _ _)
  · rw [h4] at hblk hs ⊢
    rw [h4, helse blk hblk] at hblk'
    cases hblk'
    rw [hL.closesRegion_inlined hwf _ _ elseRegion _ hop hmeme site.elseBody hebmem]
    have hclose : rewriter.func.closesRegion ((e :: erest).getLast (List.cons_ne_nil _ _)) =
        true := by
      apply closesRegion_of_back _ op elseRegion _ _ hlisted hop hmeme
      unfold FuncOp.back
      rw [site.elseBody]
      simp only [Option.bind_eq_bind, Option.some_bind]
      exact List.getLast?_eq_getLast _ _
    rw [hclose] at hs
    have hplain := hs.plain_of_legal
      (fun o ho =>
        regionIsLegal_spec _ _ elseRegion _ hlege site.elseBody _ hebmem blk hblk o ho)
    refine ⟨blk.operations, [rewriter.func.operations.length + 1], rfl, ?_,
      Or.inr ⟨rfl, _, _, rfl, hm1, rfl⟩⟩
    intro o ho
    exact hL.isPlain_of o (hplain o ho)
  · rw [hother j blk hblk h1 h3 h4] at hblk'
    cases hblk'
    by_cases hjr : j ∈ t :: trest
    · rw [hL.closesRegion_inlined hwf _ _ thenRegion _ hop hmemt site.thenBody hjr]
      have hclose : rewriter.func.closesRegion j = false := by
        apply closesRegion_inner _ hwf thenRegion j _ site.thenBody hjr
        rw [List.getLast?_eq_getLast _ (List.cons_ne_nil _ _)]
        intro e
        exact h3 (Option.some.inj e).symm
      rw [hclose] at hs
      exact hL.shapedAt _ _ hs
    by_cases hje : j ∈ e :: erest
    · rw [hL.closesRegion_inlined hwf _ _ elseRegion _ hop hmeme site.elseBody hje]
      have hclose : rewriter.func.closesRegion j = false := by
        apply closesRegion_inner _ hwf elseRegion j _ site.elseBody hje
        rw [List.getLast?_eq_getLast _ (List.cons_ne_nil _ _)]
        intro e
        exact h4 (Option.some.inj e).symm
      rw [hclose] at hs
      exact hL.shapedAt _ _ hs
    · rw [hL.closesRegion_other hwf j hjlt (Or.inl h1)]
      · exact hL.shapedAt _ _ hs
      · intro x r l hx hr hl hmem
        rw [hop] at hx
        cases hx
        simp only [Operation.getRegions, List.mem_cons, List.mem_singleton, List.not_mem_nil,
          or_false] at hr
        rcases hr with rfl | rfl
        · rw [site.thenBody] at hl
          cases hl
          exact hjr hmem
        · rw [site.elseBody] at hl
          cases hl
          exact hje hmem

/-- `TerminatorLowering` at a terminator marker keeps the shape of the blocks. -/
theorem TerminatorLowering_shaped (rewriter rw' : PatternRewriter) (op : Nat)
    (operands : List (Option Value)) (before after : List Nat) (blk : Block)
    (hwf : rewriter.func.WellFormed) (hshape : rewriter.func.Shaped)
    (site : OpSite rewriter op before after blk)
    (hop : rewriter.func.operations[op]? = some Operation.TerminatorOp)
    (hrun : TerminatorLowering.matchAndRewrite op operands rewriter =
      some (PatternMatchResult.matchSuccess, rw')) :
    rw'.func.Shaped := by
  have hL := TerminatorLowering_lowered rewriter rw' op operands before after blk site hop hrun
  obtain ⟨-, -, hB⟩ := TerminatorLowering_blocks_eq rewriter rw' op operands before after blk
    site.block site.ops site.notBefore site.notElsewhere hrun
  have hlt := (List.getElem?_eq_some.mp site.block).1
  have hout : ∀ (j : Nat) (x : Operation) (r : Nat) (l : List Nat),
      rewriter.func.operations[op]? = some x → r ∈ x.getRegions →
      rewriter.func.regions[r]? = some l → j ∉ l := by
    intro j x r l hx hr
    rw [hop] at hx
    cases hx
    cases hr
  intro j blk' hblk'
  have hjlt : j < rewriter.func.blocks.length := by
    have := (List.getElem?_eq_some.mp hblk').1
    rw [hB] at this
    simpa using this
  rw [hL.closesRegion_other hwf j hjlt (Or.inr rfl) (hout j)]
  rw [hB] at hblk'
  by_cases h1 : j = rewriter.insertionBlock
  · subst h1
    rw [List.getElem?_set_self hlt] at hblk'
    cases hblk'
    have hs := hshape _ _ site.block
    rw [site.ops] at hs
    obtain ⟨hc, hafter, hbefore⟩ := hs.split_marker site.notAfter hop
    rw [hc, hafter]
    refine ⟨before, [], by simp, ?_, Or.inl ⟨rfl, Or.inl rfl⟩⟩
    intro o ho
    exact hL.isPlain_of o (hbefore o ho)
  · rw [List.getElem?_set_ne (Ne.symm h1)] at hblk'
    exact hL.shapedAt _ _ (hshape _ _ hblk')

/-- One successful step of the driver in a well-formed function keeps the shape of the
blocks. -/
theorem step_shaped (func : FuncOp) (hwf : func.WellFormed) (hshape : func.Shaped) (b k : Nat)
    (rw : PatternRewriter)
    (hfind : func.findInnermostIllegal isDynamicallyLegal = some (b, k))
    (hleg : legalize [ForLowering, IfLowering, TerminatorLowering] func b k =
      some (PatternMatchResult.matchSuccess, rw)) :
    rw.func.Shaped := by
  obtain ⟨op, before, after, blk, hs, hcase⟩ := driver_step func hwf b k rw hfind hleg
  rcases hcase with ⟨region, cond, rest, condB, lb, ub, st, site, hl, hrun⟩ |
    ⟨thenRegion, elseRegion, t, trest, elseBlocks, cv, site, hlt, hle, hrun⟩ | ⟨hop, hrun⟩
  · exact ForLowering_shaped ⟨func, b, k⟩ rw op region cond rest before after blk condB lb ub st
      hwf hshape site hl hrun
  · cases elseBlocks with
    | nil =>
      exact IfLowering_shaped_noelse ⟨func, b, k⟩ rw op thenRegion elseRegion t trest before
        after blk cv hwf hshape site hlt hrun
    | cons e erest =>
      exact IfLowering_shaped_else ⟨func, b, k⟩ rw op thenRegion elseRegion t trest e erest
        before after blk cv hwf hshape site hlt hle hrun
  · exact TerminatorLowering_shaped ⟨func, b, k⟩ rw op [] before after blk hwf hshape hs hop
      hrun

theorem closesRegion_of_legal (func : FuncOp)
    (hleg : func.hasIllegal isDynamicallyLegal = false) (j : Nat) :
    func.closesRegion j = false := by
  rw [Bool.eq_false_iff, ne_eq, closesRegion_iff]
  rintro ⟨o, hol, x, hx, r, hr, -⟩
  obtain ⟨i, blk, hblk, ho⟩ := (mem_listed_iff func o).mp hol
  have := (hasIllegal_eq_false_iff func _).mp hleg blk (List.getElem?_mem hblk) o ho x hx
  rw [getRegions_of_legal x this] at hr
  cases hr

theorem scenarioA_shaped : scenarioA.Shaped := by
  intro j blk h
  match j with
  | 0 =>
    cases h
    exact ⟨[0, 1, 2, 3], [4], rfl, by decide,
      Or.inr ⟨by decide, 4, Operation.ReturnOp, rfl, rfl, rfl⟩⟩
  | 1 =>
    cases h
    exact ⟨[5], [6], rfl, by decide, Or.inl ⟨by decide, Or.inr ⟨6, rfl, rfl⟩⟩⟩
  | j + 2 => cases h

/-- C13: in the function that a successful lowering returns, every block ends with
exactly one terminator (a branch, a conditional branch, or a return of the input) and
lists no terminator before its last position.  The input is a well-formed function in
which every block that closes a region of a loop or of a conditional ends in a
terminator marker (or in nothing, the marker being erased) and every other block ends in
one terminator.  The shape is kept by every step of the driver, so the operations that
`ForLowering` and `IfLowering` append to the last block of a region, whose marker the
driver has erased before, stay the last operations of that block. -/
theorem C13_blocks_end_in_one_terminator (func lowered : FuncOp) (hwf : func.WellFormed)
    (hshape : func.Shaped)
    (hrun : lowerControlFlow func = (LogicalResult.success, lowered)) :
    (∀ (j : Nat) (blk : Block), lowered.blocks[j]? = some blk →
      ∃ pre t x, blk.operations = pre ++ [t] ∧ lowered.operations[t]? = some x ∧
        x.isTerminator = true ∧
        ∀ o ∈ pre, ∃ y, lowered.operations[o]? = some y ∧ y.isTerminator = false) ∧
    (∀ (f : FuncOp) (b k : Nat) (rw : PatternRewriter), f.WellFormed → f.Shaped →
      f.findInnermostIllegal isDynamicallyLegal = some (b, k) →
      legalize [ForLowering, IfLowering, TerminatorLowering] f b k =
        some (PatternMatchResult.matchSuccess, rw) →
      rw.func.WellFormed ∧ rw.func.Shaped) := by
  have hstep : ∀ (f : FuncOp) (b k : Nat) (rw : PatternRewriter),
      f.WellFormed ∧ f.Shaped →
      f.findInnermostIllegal isDynamicallyLegal = some (b, k) →
      legalize [ForLowering, IfLowering, TerminatorLowering] f b k =
        some (PatternMatchResult.matchSuccess, rw) →
      rw.func.WellFormed ∧ rw.func.Shaped := by
    intro f b k rw hf hfind hleg
    obtain ⟨op, created, newBlocks, cont, hl⟩ := step_lowered f hf.1 b k rw hfind hleg
    exact ⟨hl.wellFormed hf.1, step_shaped f hf.1 hf.2 b k rw hfind hleg⟩
  obtain ⟨⟨-, hshape'⟩, hlegal⟩ := lowerControlFlow_invariant
    (fun f => f.WellFormed ∧ f.Shaped) hstep func lowered ⟨hwf, hshape⟩ hrun
  refine ⟨?_, fun f b k rw h1 h2 => hstep f b k rw ⟨h1, h2⟩⟩
  intro j blk hblk
  obtain ⟨pre, tail, hops, hpre, htail⟩ := hshape' j blk hblk
  rw [closesRegion_of_legal lowered hlegal j] at htail
  rcases htail with ⟨hc, -⟩ | ⟨-, t, x, ht, hx, hterm⟩
  · cases hc
  · refine ⟨pre, t, x, by rw [hops, ht], hx, hterm, ?_⟩
    intro o ho
    have hp := hpre o ho
    unfold FuncOp.isPlain at hp
    cases hy : lowered.operations[o]? with
    | none => simp [hy] at hp
    | some y =>
      rw [hy] at hp
      simp only [Bool.and_eq_true, Bool.not_eq_true'] at hp
      exact ⟨y, rfl, hp.1⟩

/-- C13 at Scenario A: the four blocks of the lowered function end with the branch to
the condition block, the conditional branch, the return and the back-edge branch; the
body block 3 is `[other, add, br]`. -/
theorem C13_blocks_end_in_one_terminator_witness :
    scenarioA.WellFormed ∧ scenarioA.Shaped ∧
      (lowerControlFlow scenarioA).2.blocks =
        [⟨0, [0, 1, 2, 9]⟩, ⟨1, [10, 11]⟩, ⟨0, [4]⟩, ⟨0, [5, 7, 8]⟩] ∧
      (∀ (j : Nat) (blk : Block), (lowerControlFlow scenarioA).2.blocks[j]? = some blk →
        ∃ pre t x, blk.operations = pre ++ [t] ∧
          (lowerControlFlow scenarioA).2.operations[t]? = some x ∧ x.isTerminator = true ∧
          ∀ o ∈ pre, ∃ y, (lowerControlFlow scenarioA).2.operations[o]? = some y ∧
            y.isTerminator = false) :=
  ⟨by decide, scenarioA_shaped, by decide,
    (C13_blocks_end_in_one_terminator scenarioA (lowerControlFlow scenarioA).2 (by decide)
      scenarioA_shaped (by decide)).1⟩

/-! ## The properties of one rewrite, C16 to C18 -/

/-- C16: after `ForLowering` at a well-formed loop of a well-formed function, the body
region of the loop is empty and the region `pre ++ block :: post` that holds the block
of the loop is `pre ++ initBlock :: conditionBlock :: firstBodyBlock :: rest ++
endBlock :: post`, where `initBlock` is the block of the loop, `conditionBlock` the
first block of the body, `firstBodyBlock` and `endBlock` are the two new blocks and
`rest` the other blocks of the body in their order: the region gains the blocks of the
body and two more; no other region changes.  The last body block, which gets the add
and the back-edge branch, is the last of `firstBodyBlock :: rest`, so it is
`firstBodyBlock` when the body has one block. -/
theorem C16_loop_block_sequence (rewriter : PatternRewriter) (op region cond : Nat)
    (rest before after : List Nat) (initB condB : Block) (lb ub : Value) (st : Option Value)
    (hwf : rewriter.func.WellFormed)
    (site : ForSite rewriter op region cond rest before after initB condB) :
    ∃ (rw' : PatternRewriter) (parent : Nat) (pre post : List Nat)
      (initBlock conditionBlock firstBodyBlock lastBodyBlock endBlock : Nat),
      rewriter.func.regions[parent]? = some (pre ++ rewriter.insertionBlock :: post) ∧
      ForLowering.matchAndRewrite op [some lb, some ub, st] rewriter =
        some (PatternMatchResult.matchSuccess, rw') ∧
      initBlock = rewriter.insertionBlock ∧ conditionBlock = cond ∧
      firstBodyBlock = rewriter.func.blocks.length + 1 ∧
      endBlock = rewriter.func.blocks.length ∧
      lastBodyBlock = (firstBodyBlock :: rest).getLast (List.cons_ne_nil _ _) ∧
      rw'.func.regions[region]? = some [] ∧
      rw'.func.regions[parent]? =
        some (pre ++ initBlock :: conditionBlock :: firstBodyBlock :: rest ++
          endBlock :: post) ∧
      (pre ++ initBlock :: conditionBlock :: firstBodyBlock :: rest ++ endBlock :: post).length =
        (pre ++ rewriter.insertionBlock :: post).length + ((cond :: rest).length + 2) ∧
      (∀ r, r ≠ parent → r ≠ region → rw'.func.regions[r]? = rewriter.func.regions[r]?) ∧
      rw'.func.regions.length = rewriter.func.regions.length ∧
      (∃ (blk : Block) (ops : List Nat), rw'.func.blocks[lastBodyBlock]? = some blk ∧
        blk.operations =
          ops ++ [rewriter.func.operations.length, rewriter.func.operations.length + 1]) ∧
      (rest = [] → lastBodyBlock = firstBodyBlock) := by
  obtain ⟨rw', hrun, -, -, -, -, -, -, hfb1, hfb2, -⟩ :=
    ForLowering_spec rewriter op region cond rest before after initB condB lb ub st site
  have hinitlt := (List.getElem?_eq_some.mp site.initBlock).1
  have hregionlt := (List.getElem?_eq_some.mp site.body).1
  obtain ⟨P, pre, post, hP, -, -⟩ := parent_exists _ hwf _ hinitlt
  have hPlt := (List.getElem?_eq_some.mp hP).1
  obtain ⟨hPr, hR⟩ := ForLowering_regions_eq rewriter rw' op region cond rest before after
    initB condB lb ub st hwf site hrun P pre post hP
  refine ⟨rw', P, pre, post, _, _, _, _, _, hP, hrun, rfl, rfl, rfl, rfl, rfl, ?_, ?_, ?_, ?_,
    ?_, ?_, ?_⟩
  · rw [hR, List.getElem?_set_self (by simpa using hregionlt)]
  · rw [hR, List.getElem?_set_ne hPr.symm, List.getElem?_set_self hPlt]
  · simp only [List.length_append, List.length_cons]
    omega
  · intro r h1 h2
    rw [hR, List.getElem?_set_ne (Ne.symm h2), List.getElem?_set_ne (Ne.symm h1)]
  · rw [hR]
    simp
  · by_cases hr : rest = []
    · subst hr
      exact ⟨_, _, hfb1 rfl, rfl⟩
    · obtain ⟨lastB, hlastB⟩ : ∃ blk, rewriter.func.blocks[rest.getLast hr]? = some blk :=
        ⟨_, List.getElem?_eq_getElem (site.restValid _ (List.getLast_mem hr))⟩
      refine ⟨⟨lastB.numArguments, lastB.operations ++
        [rewriter.func.operations.length, rewriter.func.operations.length + 1]⟩,
        lastB.operations, ?_, rfl⟩
      rw [List.getLast_cons hr]
      exact (hfb2 hr lastB hlastB).2
  · intro hr
    subst hr
    rfl

/-- C16 at the loop of Scenario A: the function body `[0]` becomes `[0, 1, 3, 2]` and
the body region is empty. -/
theorem C16_loop_block_sequence_witness :
    scenarioA.WellFormed ∧
    ForSite ⟨scenarioA, 0, 3⟩ 3 1 1 [] [0, 1, 2] [4] ⟨0, [0, 1, 2, 3, 4]⟩ ⟨1, [5, 6]⟩ ∧
    ∃ (rw' : PatternRewriter) (parent : Nat) (pre post : List Nat)
      (initBlock conditionBlock firstBodyBlock lastBodyBlock endBlock : Nat),
      scenarioA.regions[parent]? = some (pre ++ 0 :: post) ∧
      ForLowering.matchAndRewrite 3 [some (Value.opResult 0), some (Value.opResult 1),
          some (Value.opResult 2)] ⟨scenarioA, 0, 3⟩ =
        some (PatternMatchResult.matchSuccess, rw') ∧
      initBlock = 0 ∧ conditionBlock = 1 ∧ firstBodyBlock = 2 + 1 ∧ endBlock = 2 ∧
      lastBodyBlock = (firstBodyBlock :: []).getLast (List.cons_ne_nil _ _) ∧
      rw'.func.regions[1]? = some [] ∧
      rw'.func.regions[parent]? =
        some (pre ++ initBlock :: conditionBlock :: firstBodyBlock :: [] ++ endBlock :: post) ∧
      (pre ++ initBlock :: conditionBlock :: firstBodyBlock :: [] ++ endBlock :: post).length =
        (pre ++ 0 :: post).length + (([1] : List Nat).length + 2) ∧
      (∀ r, r ≠ parent → r ≠ 1 → rw'.func.regions[r]? = scenarioA.regions[r]?) ∧
      rw'.func.regions.length = 2 ∧
      (∃ (blk : Block) (ops : List Nat), rw'.func.blocks[lastBodyBlock]? = some blk ∧
        blk.operations = ops ++ [7, 7 + 1]) ∧
      (([] : List Nat) = [] → lastBodyBlock = firstBodyBlock) :=
  ⟨by decide, scenarioA_site,
    C16_loop_block_sequence ⟨scenarioA, 0, 3⟩ 3 1 1 [] [0, 1, 2] [4] ⟨0, [0, 1, 2, 3, 4]⟩
      ⟨1, [5, 6]⟩ (Value.opResult 0) (Value.opResult 1) (some (Value.opResult 2)) (by decide)
      scenarioA_site⟩

/-- C17: after `IfLowering` at a well-formed conditional of a well-formed function, both
regions of the conditional are empty and the region `pre ++ condBlock :: post` that
holds the block of the conditional is `pre ++ condBlock :: thenBlocks ++ elseBlocks ++
continueBlock :: post`: the blocks of the "then" region in their order, then the blocks
of the "else" region in their order (none if it is empty), then the new continuation
block; no other region changes. -/
theorem C17_conditional_block_sequence (rewriter : PatternRewriter)
    (op thenRegion elseRegion : Nat) (t : Nat) (trest elseBlocks before after : List Nat)
    (condB : Block) (cv : Option Value) (hwf : rewriter.func.WellFormed)
    (site : IfSite rewriter op thenRegion elseRegion (t :: trest) elseBlocks before after
      condB) :
    ∃ (rw' : PatternRewriter) (parent : Nat) (pre post : List Nat) (continueBlock : Nat),
      rewriter.func.regions[parent]? = some (pre ++ rewriter.insertionBlock :: post) ∧
      IfLowering.matchAndRewrite op [cv] rewriter =
        some (PatternMatchResult.matchSuccess, rw') ∧
      continueBlock = rewriter.func.blocks.length ∧
      rw'.func.regions[parent]? =
        some (pre ++ rewriter.insertionBlock :: (t :: trest) ++ elseBlocks ++
          continueBlock :: post) ∧
      rw'.func.regions[thenRegion]? = some [] ∧
      rw'.func.regions[elseRegion]? = some [] ∧
      (∀ r, r ≠ parent → r ≠ thenRegion → r ≠ elseRegion →
        rw'.func.regions[r]? = rewriter.func.regions[r]?) ∧
      rw'.func.regions.length = rewriter.func.regions.length := by
  have hcblt := (List.getElem?_eq_some.mp site.condBlock).1
  have hthenlt := (List.getElem?_eq_some.mp site.thenBody).1
  have helselt := (List.getElem?_eq_some.mp site.elseBody).1
  obtain ⟨P, pre, post, hP, -, -⟩ := parent_exists _ hwf _ hcblt
  have hPlt := (List.getElem?_eq_some.mp hP).1
  cases elseBlocks with
  | nil =>
    obtain ⟨rw', hrun, -⟩ := IfLowering_spec_noelse rewriter op thenRegion elseRegion t trest
      before after condB cv site
    obtain ⟨hPt, hPe, hR⟩ := IfLowering_regions_eq_noelse rewriter rw' op thenRegion elseRegion
      t trest before after condB cv hwf site hrun P pre post hP
    refine ⟨rw', P, pre, post, _, hP, hrun, rfl, ?_, ?_, ?_, ?_, ?_⟩
    · rw [hR, List.getElem?_set_ne hPt.symm, List.getElem?_set_self hPlt]
      simp
    · rw [hR, List.getElem?_set_self (by simpa using hthenlt)]
    · rw [hR, List.getElem?_set_ne site.regionsDistinct, List.getElem?_set_ne hPe]
      exact site.elseBody
    · intro r h1 h2 _
      rw [hR, List.getElem?_set_ne (Ne.symm h2), List.getElem?_set_ne (Ne.symm h1)]
    · rw [hR]
      simp
  | cons e erest =>
    obtain ⟨rw', hrun, -⟩ := IfLowering_spec_else rewriter op thenRegion elseRegion t trest e
      erest before after condB cv site
    obtain ⟨hPt, hPe, hR⟩ := IfLowering_regions_eq_else rewriter rw' op thenRegion elseRegion
      t trest e erest before after condB cv hwf site hrun P pre post hP
    refine ⟨rw', P, pre, post, _, hP, hrun, rfl, ?_, ?_, ?_, ?_, ?_⟩
    · rw [hR, List.getElem?_set_ne hPe.symm, List.getElem?_set_ne hPt.symm,
        List.getElem?_set_self hPlt]
    · rw [hR, List.getElem?_set_ne (Ne.symm site.regionsDistinct),
        List.getElem?_set_self (by simpa using hthenlt)]
    · rw [hR, List.getElem?_set_self (by simpa using helselt)]
    · intro r h1 h2 h3
      rw [hR, List.getElem?_set_ne (Ne.symm h3), List.getElem?_set_ne (Ne.symm h2),
        List.getElem?_set_ne (Ne.symm h1)]
    · rw [hR]
      simp

/-- C17 at the conditional of Scenario B: the function body `[0]` becomes
`[0, 1, 2, 3]`, block 1 being the "then" block, block 2 the "else" block and block 3 the
continuation block. -/
theorem C17_conditional_block_sequence_witness :
    scenarioB.WellFormed ∧
    IfSite ⟨scenarioB, 0, 1⟩ 1 1 2 [1] [2] [0] [2] ⟨0, [0, 1, 2]⟩ ∧
    ∃ (rw' : PatternRewriter) (parent : Nat) (pre post : List Nat) (continueBlock : Nat),
      scenarioB.regions[parent]? = some (pre ++ 0 :: post) ∧
      IfLowering.matchAndRewrite 1 [some (Value.opResult 0)] ⟨scenarioB, 0, 1⟩ =
        some (PatternMatchResult.matchSuccess, rw') ∧
      continueBlock = 3 ∧
      rw'.func.regions[parent]? = some (pre ++ 0 :: [1] ++ [2] ++ continueBlock :: post) ∧
      rw'.func.regions[1]? = some [] ∧
      rw'.func.regions[2]? = some [] ∧
      (∀ r, r ≠ parent → r ≠ 1 → r ≠ 2 → rw'.func.regions[r]? = scenarioB.regions[r]?) ∧
      rw'.func.regions.length = 3 :=
  ⟨by decide, scenarioB_site,
    C17_conditional_block_sequence ⟨scenarioB, 0, 1⟩ 1 1 2 1 [] [2] [0] [2] ⟨0, [0, 1, 2]⟩
      (some (Value.opResult 0)) (by decide) scenarioB_site⟩

/-! ## The frame of one rewrite, C18 -/

/-- C18: `ForLowering` and `IfLowering` at a well-formed site keep every operation but
the construct.  The operations before the construct stay in its block, in order,
followed by the emitted branch; the operations after it are the new end or continuation
block, in order; every block of a region of the construct keeps its operations in order,
the entry block of a loop body handing them to the new first body block, and the last
block of a region getting the emitted operations at its end; every other block is
unchanged; the operations of the function are those of before followed by the created
ones (for a loop an add, two branches, a comparison and a conditional branch; for a
conditional one branch for each non-empty region and a conditional branch); and the
operations listed in the blocks are those of before without the construct and with the
created ones, each once.  For a conditional with an "else" part the two regions are
assumed to share no block. -/
theorem C18_frame_effect :
    (∀ (rewriter : PatternRewriter) (op region cond : Nat) (rest before after : List Nat)
        (initB condB : Block) (lb ub : Value) (st : Option Value),
      ForSite rewriter op region cond rest before after initB condB →
      ∃ rw' : PatternRewriter,
        ForLowering.matchAndRewrite op [some lb, some ub, st] rewriter =
          some (PatternMatchResult.matchSuccess, rw') ∧
        rw'.func.operations = rewriter.func.operations ++
          [Operation.AddIOp (some (Value.blockArgument cond 0)) st,
            Operation.BranchOp cond [some (Value.opResult rewriter.func.operations.length)],
            Operation.BranchOp cond [some lb],
            Operation.CmpIOp CmpIPredicate.SLT (some (Value.blockArgument cond 0)) (some ub),
            Operation.CondBranchOp (some (Value.opResult (rewriter.func.operations.length + 3)))
              (rewriter.func.blocks.length + 1) [] rewriter.func.blocks.length []] ∧
        rw'.func.blocks.length = rewriter.func.blocks.length + 2 ∧
        rw'.func.blocks[rewriter.insertionBlock]? =
          some ⟨initB.numArguments, before ++ [rewriter.func.operations.length + 2]⟩ ∧
        rw'.func.blocks[rewriter.func.blocks.length]? = some ⟨0, after⟩ ∧
        rw'.func.blocks[cond]? =
          some ⟨condB.numArguments,
            [rewriter.func.operations.length + 3, rewriter.func.operations.length + 4]⟩ ∧
        rw'.func.blocks[rewriter.func.blocks.length + 1]? =
          some ⟨0, condB.operations ++
            (if rest = [] then
              [rewriter.func.operations.length, rewriter.func.operations.length + 1]
            else [])⟩ ∧
        (∀ (j : Nat) (blk : Block), j ∈ rest → rewriter.func.blocks[j]? = some blk →
          rw'.func.blocks[j]? =
            some ⟨blk.numArguments, blk.operations ++
              (if rest.getLast? = some j then
                [rewriter.func.operations.length, rewriter.func.operations.length + 1]
              else [])⟩) ∧
        (∀ (j : Nat) (blk : Block), rewriter.func.blocks[j]? = some blk →
          j ∉ rewriter.insertionBlock :: cond :: rest → rw'.func.blocks[j]? = some blk) ∧
        (∀ a, rw'.func.listed.count a + [op].count a =
          rewriter.func.listed.count a +
            [rewriter.func.operations.length, rewriter.func.operations.length + 1,
              rewriter.func.operations.length + 2, rewriter.func.operations.length + 3,
              rewriter.func.operations.length + 4].count a)) ∧
    (∀ (rewriter : PatternRewriter) (op thenRegion elseRegion : Nat) (t : Nat)
        (trest before after : List Nat) (condB : Block) (cv : Option Value),
      IfSite rewriter op thenRegion elseRegion (t :: trest) [] before after condB →
      ∃ rw' : PatternRewriter,
        IfLowering.matchAndRewrite op [cv] rewriter =
          some (PatternMatchResult.matchSuccess, rw') ∧
        rw'.func.operations = rewriter.func.operations ++
          [Operation.BranchOp rewriter.func.blocks.length [],
            Operation.CondBranchOp cv t [] rewriter.func.blocks.length []] ∧
        rw'.func.blocks.length = rewriter.func.blocks.length + 1 ∧
        rw'.func.blocks[rewriter.insertionBlock]? =
          some ⟨condB.numArguments, before ++ [rewriter.func.operations.length + 1]⟩ ∧
        rw'.func.blocks[rewriter.func.blocks.length]? = some ⟨0, after⟩ ∧
        (∀ (j : Nat) (blk : Block), j ∈ t :: trest → rewriter.func.blocks[j]? = some blk →
          rw'.func.blocks[j]? =
            some ⟨blk.numArguments, blk.operations ++
              (if (t :: trest).getLast? = some j then [rewriter.func.operations.length]
              else [])⟩) ∧
        (∀ (j : Nat) (blk : Block), rewriter.func.blocks[j]? = some blk →
          j ∉ rewriter.insertionBlock :: t :: trest → rw'.func.blocks[j]? = some blk) ∧
        (∀ a, rw'.func.listed.count a + [op].count a =
          rewriter.func.listed.count a +
            [rewriter.func.operations.length, rewriter.func.operations.length + 1].count a)) ∧
    (∀ (rewriter : PatternRewriter) (op thenRegion elseRegion : Nat) (t : Nat) (trest : List Nat)
        (e : Nat) (erest before after : List Nat) (condB : Block) (cv : Option Value),
      IfSite rewriter op thenRegion elseRegion (t :: trest) (e :: erest) before after condB →
      (∀ x ∈ t :: trest, x ∉ e :: erest) →
      ∃ rw' : PatternRewriter,
        IfLowering.matchAndRewrite op [cv] rewriter =
          some (PatternMatchResult.matchSuccess, rw') ∧
        rw'.func.operations = rewriter.func.operations ++
          [Operation.BranchOp rewriter.func.blocks.length [],
            Operation.BranchOp rewriter.func.blocks.length [],
            Operation.CondBranchOp cv t [] e []] ∧
        rw'.func.blocks.length = rewriter.func.blocks.length + 1 ∧
        rw'.func.blocks[rewriter.insertionBlock]? =
          some ⟨condB.numArguments, before ++ [rewriter.func.operations.length + 2]⟩ ∧
        rw'.func.blocks[rewriter.func.blocks.length]? = some ⟨0, after⟩ ∧
        (∀ (j : Nat) (blk : Block), j ∈ t :: trest → rewriter.func.blocks[j]? = some blk →
          rw'.func.blocks[j]? =
            some ⟨blk.numArguments, blk.operations ++
              (if (t :: trest).getLast? = some j then [rewriter.func.operations.length]
              else [])⟩) ∧
        (∀ (j : Nat) (blk : Block), j ∈ e :: erest → rewriter.func.blocks[j]? = some blk →
          rw'.func.blocks[j]? =
            some ⟨blk.numArguments, blk.operations ++
              (if (e :: erest).getLast? = some j then [rewriter.func.operations.length + 1]
              else [])⟩) ∧
        (∀ (j : Nat) (blk : Block), rewriter.func.blocks[j]? = some blk →
          j ∉ rewriter.insertionBlock :: (t :: trest) ++ (e :: erest) →
          rw'.func.blocks[j]? = some blk) ∧
        (∀ a, rw'.func.listed.count a + [op].count a =
          rewriter.func.listed.count a +
            [rewriter.func.operations.length, rewriter.func.operations.length + 1,
              rewriter.func.operations.length + 2].count a)) := by
  refine ⟨?_, ?_, ?_⟩
  · intro rewriter op region cond rest before after initB condB lb ub st site
    obtain ⟨rw', hrun, hops, -, hlen, hinit, hcond, hend, hfb1, hfb2, hother⟩ :=
      ForLowering_spec rewriter op region cond rest before after initB condB lb ub st site
    have hni : rewriter.insertionBlock ∉ rest :=
      fun h => site.initOutside (List.mem_cons_of_mem _ h)
    refine ⟨rw', hrun, hops, hlen, hinit, hend, hcond, ?_, ?_, ?_, ?_⟩
    · by_cases hr : rest = []
      · rw [if_pos hr]
        exact hfb1 hr
      · rw [if_neg hr]
        obtain ⟨lastB, hlastB⟩ : ∃ blk, rewriter.func.blocks[rest.getLast hr]? = some blk :=
          ⟨_, List.getElem?_eq_getElem (site.restValid _ (List.getLast_mem hr))⟩
        simpa using (hfb2 hr lastB hlastB).1
    · intro j blk hj hblk
      have hr : rest ≠ [] := List.ne_nil_of_mem hj
      by_cases hlast : rest.getLast? = some j
      · rw [if_pos hlast]
        have hj' : j = rest.getLast hr := by
          rw [List.getLast?_eq_getLast _ hr] at hlast
          exact (Option.some.inj hlast).symm
        subst hj'
        exact (hfb2 hr blk hblk).2
      · rw [if_neg hlast]
        have hne : j ≠ ((rewriter.func.blocks.length + 1) :: rest).getLast
            (List.cons_ne_nil _ _) := by
          rw [List.getLast_cons hr]
          intro e
          apply hlast
          rw [List.getLast?_eq_getLast _ hr, e]
        have := hother j blk hblk (fun e => hni (e ▸ hj)) (fun e => site.condOnce (e ▸ hj)) hne
        simpa using this
    · intro j blk hblk hj
      simp only [List.mem_cons, not_or] at hj
      have hjlt := (List.getElem?_eq_some.mp hblk).1
      apply hother j blk hblk hj.1 hj.2.1
      intro e
      have hmem : j ∈ (rewriter.func.blocks.length + 1) :: rest := e ▸ List.getLast_mem _
      rcases List.mem_cons.mp hmem with h | h
      · omega
      · exact hj.2.2 h
    · intro a
      rw [count_listed, count_listed]
      exact ForLowering_measure (List.count a) (fun l₁ l₂ => List.count_append a l₁ l₂) rewriter
        rw' op region cond rest before after initB condB lb ub st site hrun
  · intro rewriter op thenRegion elseRegion t trest before after condB cv site
    obtain ⟨rw', hrun, hops, -, hlen, hcb, hcont, hthen, hother⟩ :=
      IfLowering_spec_noelse rewriter op thenRegion elseRegion t trest before after condB cv site
    refine ⟨rw', hrun, hops, hlen, hcb, hcont, ?_, ?_, ?_⟩
    · intro j blk hj hblk
      by_cases hlast : (t :: trest).getLast? = some j
      · rw [if_pos hlast]
        have hj' : j = (t :: trest).getLast (List.cons_ne_nil _ _) := by
          rw [List.getLast?_eq_getLast _ (List.cons_ne_nil _ _)] at hlast
          exact (Option.some.inj hlast).symm
        subst hj'
        exact hthen blk hblk
      · rw [if_neg hlast]
        have hne : j ≠ (t :: trest).getLast (List.cons_ne_nil _ _) := by
          intro e
          apply hlast
          rw [List.getLast?_eq_getLast _ (List.cons_ne_nil _ _), e]
        have := hother j blk hblk (fun e => site.condOutsideThen (e ▸ hj)) hne
        simpa using this
    · intro j blk hblk hj
      simp only [List.mem_cons, not_or] at hj
      apply hother j blk hblk hj.1
      intro e
      have hmem : j ∈ t :: trest := e ▸ List.getLast_mem _
      rcases List.mem_cons.mp hmem with h | h
      · exact hj.2.1 h
      · exact hj.2.2 h
    · intro a
      rw [count_listed, count_listed]
      exact IfLowering_measure_noelse (List.count a) (fun l₁ l₂ => List.count_append a l₁ l₂)
        rewriter rw' op thenRegion elseRegion t trest before after condB cv site hrun
  · intro rewriter op thenRegion elseRegion t trest e erest before after condB cv site hdisj
    obtain ⟨rw', hrun, hops, -, hlen, hcb, hcont, hthen, helse, hother⟩ :=
      IfLowering_spec_else rewriter op thenRegion elseRegion t trest e erest before after condB cv
        site
    have htbmem : (t :: trest).getLast (List.cons_ne_nil _ _) ∈ t :: trest := List.getLast_mem _
    have hebmem : (e :: erest).getLast (List.cons_ne_nil _ _) ∈ e :: erest := List.getLast_mem _
    refine ⟨rw', hrun, hops, hlen, hcb, hcont, ?_, ?_, ?_, ?_⟩
    · intro j blk hj hblk
      by_cases hlast : (t :: trest).getLast? = some j
      · rw [if_pos hlast]
        have hj' : j = (t :: trest).getLast (List.cons_ne_nil _ _) := by
          rw [List.getLast?_eq_getLast _ (List.cons_ne_nil _ _)] at hlast
          exact (Option.some.inj hlast).symm
        subst hj'
        exact hthen blk hblk
      · rw [if_neg hlast]
        have hne : j ≠ (t :: trest).getLast (List.cons_ne_nil _ _) := by
          intro e'
          apply hlast
          rw [List.getLast?_eq_getLast _ (List.cons_ne_nil _ _), e']
        have hne' : j ≠ (e :: erest).getLast (List.cons_ne_nil _ _) :=
          fun e' => hdisj j hj (e' ▸ hebmem)
        have := hother j blk hblk (fun e' => site.condOutsideThen (e' ▸ hj)) hne hne'
        simpa using this
    · intro j blk hj hblk
      by_cases hlast : (e :: erest).getLast? = some j
      · rw [if_pos hlast]
        have hj' : j = (e :: erest).getLast (List.cons_ne_nil _ _) := by
          rw [List.getLast?_eq_getLast _ (List.cons_ne_nil _ _)] at hlast
          exact (Option.some.inj hlast).symm
        subst hj'
        exact helse blk hblk
      · rw [if_neg hlast]
        have hne : j ≠ (e :: erest).getLast (List.cons_ne_nil _ _) := by
          intro e'
          apply hlast
          rw [List.getLast?_eq_getLast _ (List.cons_ne_nil _ _), e']
        have hne' : j ≠ (t :: trest).getLast (List.cons_ne_nil _ _) :=
          fun e' => hdisj _ htbmem (e' ▸ hj)
        have := hother j blk hblk (fun e' => site.condOutsideElse (e' ▸ hj)) hne' hne
        simpa using this
    · intro j blk hblk hj
      simp only [List.cons_append, List.mem_cons, List.mem_append, not_or] at hj
      apply hother j blk hblk hj.1
      · intro e'
        have hmem : j ∈ t :: trest := e' ▸ htbmem
        rcases List.mem_cons.mp hmem with h | h
        · exact hj.2.1 h
        · exact hj.2.2.1 h
      · intro e'
        have hmem : j ∈ e :: erest := e' ▸ hebmem
        rcases List.mem_cons.mp hmem with h | h
        · exact hj.2.2.2.1 h
        · exact hj.2.2.2.2 h
    · intro a
      rw [count_listed, count_listed]
      exact IfLowering_measure_else (List.count a) (fun l₁ l₂ => List.count_append a l₁ l₂)
        rewriter rw' op thenRegion elseRegion t trest e erest before after condB cv site hrun

/-- C18 at the loop of Scenario A and at the conditionals of Scenario B, without and
with an "else" part. -/
theorem C18_frame_effect_witness :
    (∃ rw' : PatternRewriter,
        ForLowering.matchAndRewrite 3
            [some (Value.opResult 0), some (Value.opResult 1), some (Value.opResult 2)]
            ⟨scenarioA, 0, 3⟩ =
          some (PatternMatchResult.matchSuccess, rw') ∧
        rw'.func.operations = scenarioA.operations ++
          [Operation.AddIOp (some (Value.blockArgument 1 0)) (some (Value.opResult 2)),
            Operation.BranchOp 1 [some (Value.opResult 7)],
            Operation.BranchOp 1 [some (Value.opResult 0)],
            Operation.CmpIOp CmpIPredicate.SLT (some (Value.blockArgument 1 0))
              (some (Value.opResult 1)),
            Operation.CondBranchOp (some (Value.opResult (7 + 3))) (2 + 1) [] 2 []] ∧
        rw'.func.blocks.length = 2 + 2 ∧
        rw'.func.blocks[0]? = some ⟨0, [0, 1, 2] ++ [7 + 2]⟩ ∧
        rw'.func.blocks[2]? = some ⟨0, [4]⟩ ∧
        rw'.func.blocks[1]? = some ⟨1, [7 + 3, 7 + 4]⟩ ∧
        rw'.func.blocks[2 + 1]? =
          some ⟨0, [5, 6] ++ (if ([] : List Nat) = [] then [7, 7 + 1] else [])⟩ ∧
        (∀ (j : Nat) (blk : Block), j ∈ ([] : List Nat) → scenarioA.blocks[j]? = some blk →
          rw'.func.blocks[j]? =
            some ⟨blk.numArguments, blk.operations ++
              (if ([] : List Nat).getLast? = some j then [7, 7 + 1] else [])⟩) ∧
        (∀ (j : Nat) (blk : Block), scenarioA.blocks[j]? = some blk →
          j ∉ 0 :: 1 :: ([] : List Nat) → rw'.func.blocks[j]? = some blk) ∧
        (∀ a, rw'.func.listed.count a + [3].count a =
          scenarioA.listed.count a + [7, 7 + 1, 7 + 2, 7 + 3, 7 + 4].count a)) ∧
    (∃ rw' : PatternRewriter,
        IfLowering.matchAndRewrite 1 [(some (Value.opResult 0))] ⟨scenarioBNoElse, 0, 1⟩ =
          some (PatternMatchResult.matchSuccess, rw') ∧
        rw'.func.operations = scenarioBNoElse.operations ++
          [Operation.BranchOp 2 [],
            Operation.CondBranchOp (some (Value.opResult 0)) 1 [] 2 []] ∧
        rw'.func.blocks.length = 2 + 1 ∧
        rw'.func.blocks[0]? = some ⟨0, [0] ++ [5 + 1]⟩ ∧
        rw'.func.blocks[2]? = some ⟨0, [2]⟩ ∧
        (∀ (j : Nat) (blk : Block), j ∈ 1 :: ([] : List Nat) →
          scenarioBNoElse.blocks[j]? = some blk →
          rw'.func.blocks[j]? =
            some ⟨blk.numArguments, blk.operations ++
              (if (1 :: ([] : List Nat)).getLast? = some j then [5] else [])⟩) ∧
        (∀ (j : Nat) (blk : Block), scenarioBNoElse.blocks[j]? = some blk →
          j ∉ 0 :: 1 :: ([] : List Nat) → rw'.func.blocks[j]? = some blk) ∧
        (∀ a, rw'.func.listed.count a + [1].count a =
          scenarioBNoElse.listed.count a + [5, 5 + 1].count a)) ∧
    (∃ rw' : PatternRewriter,
        IfLowering.matchAndRewrite 1 [(some (Value.opResult 0))] ⟨scenarioB, 0, 1⟩ =
          some (PatternMatchResult.matchSuccess, rw') ∧
        rw'.func.operations = scenarioB.operations ++
          [Operation.BranchOp 3 [], Operation.BranchOp 3 [],
            Operation.CondBranchOp (some (Value.opResult 0)) 1 [] 2 []] ∧
        rw'.func.blocks.length = 3 + 1 ∧
        rw'.func.blocks[0]? = some ⟨0, [0] ++ [7 + 2]⟩ ∧
        rw'.func.blocks[3]? = some ⟨0, [2]⟩ ∧
        (∀ (j : Nat) (blk : Block), j ∈ 1 :: ([] : List Nat) →
          scenarioB.blocks[j]? = some blk →
          rw'.func.blocks[j]? =
            some ⟨blk.numArguments, blk.operations ++
              (if (1 :: ([] : List Nat)).getLast? = some j then [7] else [])⟩) ∧
        (∀ (j : Nat) (blk : Block), j ∈ 2 :: ([] : List Nat) →
          scenarioB.blocks[j]? = some blk →
          rw'.func.blocks[j]? =
            some ⟨blk.numArguments, blk.operations ++
              (if (2 :: ([] : List Nat)).getLast? = some j then [7 + 1] else [])⟩) ∧
        (∀ (j : Nat) (blk : Block), scenarioB.blocks[j]? = some blk →
          j ∉ 0 :: (1 :: ([] : List Nat)) ++ (2 :: ([] : List Nat)) →
          rw'.func.blocks[j]? = some blk) ∧
        (∀ a, rw'.func.listed.count a + [1].count a =
          scenarioB.listed.count a + [7, 7 + 1, 7 + 2].count a)) :=
  ⟨C18_frame_effect.1 ⟨scenarioA, 0, 3⟩ 3 1 1 [] [0, 1, 2] [4] ⟨0, [0, 1, 2, 3, 4]⟩ ⟨1, [5, 6]⟩
      (Value.opResult 0) (Value.opResult 1) (some (Value.opResult 2)) scenarioA_site,
    C18_frame_effect.2.1 ⟨scenarioBNoElse, 0, 1⟩ 1 1 2 1 [] [0] [2] ⟨0, [0, 1, 2]⟩
      (some (Value.opResult 0)) scenarioBNoElse_site,
    C18_frame_effect.2.2 ⟨scenarioB, 0, 1⟩ 1 1 2 1 [] 2 [] [0] [2] ⟨0, [0, 1, 2]⟩
      (some (Value.opResult 0)) scenarioB_site (by decide)⟩

/-! ## One rewrite in a well-formed function, as a whole -/

theorem tailOps_pos {l : List Nat} {i : Nat} (ops : List Nat) (h : l.getLast? = some i) :
    tailOps l i ops = ops := if_pos h

theorem tailOps_neg {l : List Nat} {i : Nat} (ops : List Nat) (h : l.getLast? ≠ some i) :
    tailOps l i ops = [] := if_neg h

theorem tailOps_cons_self (c : Nat) (rest ops : List Nat) (h : c ∉ rest) :
    tailOps (c :: rest) c ops = if rest = [] then ops else [] := by
  unfold tailOps
  cases rest with
  | nil => simp
  | cons a l =>
    have hne : (c :: a :: l).getLast? ≠ some c := by
      intro e
      rw [List.getLast?_cons_cons] at e
      exact h (List.mem_of_getLast?_eq_some e)
    rw [if_neg hne, if_neg (List.cons_ne_nil _ _)]

theorem tailOps_cons_of_mem (c i : Nat) (rest ops : List Nat) (h : i ∈ rest) :
    tailOps (c :: rest) i ops = tailOps rest i ops := by
  unfold tailOps
  cases rest with
  | nil => cases h
  | cons a l => rw [List.getLast?_cons_cons]

theorem set_of_getElem? {α : Type} (l : List α) (i : Nat) (a : α) (h : l[i]? = some a) :
    l.set i a = l := by
  apply List.ext_getElem?
  intro k
  by_cases hk : i = k
  · subst hk
    rw [List.getElem?_set_self (List.getElem?_eq_some.mp h).1, h]
  · rw [List.getElem?_set_ne hk]

/-- The rewriter stands at `op` when the block `b` of a well-formed function lists
`before ++ op :: after`. -/
theorem opSite_of_split (func : FuncOp) (hwf : func.WellFormed) (b : Nat) (blk : Block)
    (op : Nat) (before after : List Nat) (hblk : func.blocks[b]? = some blk)
    (hops : blk.operations = before ++ op :: after) :
    OpSite ⟨func, b, before.length⟩ op before after blk := by
  have hop : blk.operations[before.length]? = some op := by
    rw [hops, List.getElem?_append_right (le_refl _)]
    simp
  have hs := opSite_of_wellFormed func hwf b before.length blk op hblk hop
  have h1 : blk.operations.take before.length = before := by
    rw [hops]
    simp
  have h2 : blk.operations.drop (before.length + 1) = after := by
    rw [hops]
    simp
  rw [h1, h2] at hs
  exact hs

/-- A loop listed in a block of a well-formed function, outside its own body, is a
well-formed loop. -/
theorem forSite_of_outside (func : FuncOp) (hwf : func.WellFormed) (b : Nat) (blk : Block)
    (op : Nat) (before after : List Nat) (lb ub st : Option Value) (region cond : Nat)
    (rest : List Nat) (hblk : func.blocks[b]? = some blk)
    (hops : blk.operations = before ++ op :: after)
    (ho : func.operations[op]? = some (Operation.ForOp lb ub st region))
    (hreg : func.regions[region]? = some (cond :: rest)) (hout : b ∉ cond :: rest) :
    ∃ condB, func.blocks[cond]? = some condB ∧
      ForSite ⟨func, b, before.length⟩ op region cond rest before after blk condB := by
  have hs := opSite_of_split func hwf b blk op before after hblk hops
  have hopmem : op ∈ blk.operations := by
    rw [hops]
    simp
  have hlisted : op ∈ func.listed :=
    List.mem_flatMap.mpr ⟨blk, List.getElem?_mem hblk, hopmem⟩
  have hentry := hwf.entries op hlisted
  unfold FuncOp.hasEntry at hentry
  rw [ho] at hentry
  simp only at hentry
  have hfront : func.front region = some cond := by
    unfold FuncOp.front
    rw [hreg]
    rfl
  rw [hfront] at hentry
  simp only at hentry
  unfold FuncOp.getArgument at hentry
  cases hcB : func.blocks[cond]? with
  | none => simp [hcB] at hentry
  | some condB =>
    rw [hcB] at hentry
    simp only at hentry
    have harg : 0 < condB.numArguments := by
      by_contra hc
      simp [hc] at hentry
    refine ⟨condB, rfl, ⟨lb, ub, st, ho⟩, hblk, hs.ops, hs.point, hreg, hcB, harg, ?_, hout,
      ?_, hs.notBefore, hs.notAfter, hs.notElsewhere⟩
    · intro x hx
      exact hwf.blocksValid _ (List.getElem?_mem hreg) x (List.mem_cons_of_mem _ hx)
    · exact (List.nodup_cons.mp (region_nodup func hwf region _ hreg)).1

/-- A conditional listed in a block of a well-formed function, outside its own regions,
is a well-formed conditional. -/
theorem ifSite_of_outside (func : FuncOp) (hwf : func.WellFormed) (b : Nat) (blk : Block)
    (op : Nat) (before after : List Nat) (c : Option Value) (thenRegion elseRegion : Nat)
    (thenBlocks elseBlocks : List Nat) (hblk : func.blocks[b]? = some blk)
    (hops : blk.operations = before ++ op :: after)
    (ho : func.operations[op]? = some (Operation.IfOp c thenRegion elseRegion))
    (hthen : func.regions[thenRegion]? = some thenBlocks)
    (helse : func.regions[elseRegion]? = some elseBlocks)
    (hne : thenBlocks ≠ [])
    (houtt : b ∉ thenBlocks) (houte : b ∉ elseBlocks) :
    IfSite ⟨func, b, before.length⟩ op thenRegion elseRegion thenBlocks elseBlocks before
      after blk := by
  have hs := opSite_of_split func hwf b blk op before after hblk hops
  have hte : thenRegion ≠ elseRegion := by
    have := nodup_flatMap_nodup Operation.getRegions _ hwf.regionsOnce op _ ho
    simp only [Operation.getRegions, List.nodup_cons, List.mem_singleton, List.not_mem_nil,
      not_false_eq_true, List.nodup_nil, and_true] at this
    exact this
  refine ⟨⟨c, ho⟩, hblk, hs.ops, hs.point, hthen, helse, hne, hte, ?_, ?_, houtt, houte, ?_,
    hs.notBefore, hs.notAfter, hs.notElsewhere⟩
  · intro x hx
    exact hwf.blocksValid _ (List.getElem?_mem hthen) x hx
  · intro x hx
    exact hwf.blocksValid _ (List.getElem?_mem helse) x hx
  · intro x hx y hy hxy
    have hx' : x ∈ thenBlocks := List.mem_of_getLast?_eq_some hx
    have hy' : y ∈ elseBlocks := List.mem_of_getLast?_eq_some hy
    exact regions_disjoint func hwf thenRegion elseRegion _ _ hthen helse hte x hx'
      (hxy ▸ hy')

/-- `ForLowering` at a well-formed loop of a well-formed function. -/
theorem ForLowering_at (rewriter : PatternRewriter) (op region cond : Nat)
    (rest before after : List Nat) (initB condB : Block) (lb ub : Value) (st : Option Value)
    (hwf : rewriter.func.WellFormed)
    (site : ForSite rewriter op region cond rest before after initB condB)
    (P : Nat) (pre post : List Nat)
    (hP : rewriter.func.regions[P]? = some (pre ++ rewriter.insertionBlock :: post)) :
    ∃ rw' : PatternRewriter,
      ForLowered rewriter rw' op region cond rest before after initB condB lb ub st P pre
        post := by
  obtain ⟨rw', hrun, hops, -, hlen, hinit, hcond, hend, hfb1, hfb2, hother⟩ :=
    ForLowering_spec rewriter op region cond rest before after initB condB lb ub st site
  obtain ⟨hne, hreg⟩ := ForLowering_regions_eq rewriter rw' op region cond rest before after
    initB condB lb ub st hwf site hrun P pre post hP
  have hL := ForLowering_lowered rewriter rw' op region cond rest before after initB condB lb
    ub st hwf site hrun
  have hni : rewriter.insertionBlock ∉ rest :=
    fun h => site.initOutside (List.mem_cons_of_mem _ h)
  refine ⟨rw', hrun, hops, hlen, hinit, hcond, hend, ?_, ?_, ?_, hreg, hne,
    Lowered.wellFormed hwf hL⟩
  · rw [tailOps_cons_self _ _ _ site.condOnce]
    by_cases hr : rest = []
    · rw [if_pos hr]
      exact hfb1 hr
    · rw [if_neg hr]
      obtain ⟨lastB, hlastB⟩ : ∃ blk, rewriter.func.blocks[rest.getLast hr]? = some blk :=
        ⟨_, List.getElem?_eq_getElem (site.restValid _ (List.getLast_mem hr))⟩
      simpa using (hfb2 hr lastB hlastB).1
  · intro j blk hj hblk
    rw [tailOps_cons_of_mem _ _ _ _ hj]
    have hr : rest ≠ [] := List.ne_nil_of_mem hj
    by_cases hlast : rest.getLast? = some j
    · rw [tailOps_pos _ hlast]
      have hj' : j = rest.getLast hr := by
        rw [List.getLast?_eq_getLast _ hr] at hlast
        exact (Option.some.inj hlast).symm
      subst hj'
      exact (hfb2 hr blk hblk).2
    · rw [tailOps_neg _ hlast]
      have hne : j ≠ ((rewriter.func.blocks.length + 1) :: rest).getLast
          (List.cons_ne_nil _ _) := by
        rw [List.getLast_cons hr]
        intro e
        apply hlast
        rw [List.getLast?_eq_getLast _ hr, e]
      have := hother j blk hblk (fun e => hni (e ▸ hj)) (fun e => site.condOnce (e ▸ hj)) hne
      simpa using this
  · intro j hjb hj hjlt
    simp only [List.mem_cons, not_or] at hj
    rw [List.getElem?_eq_getElem hjlt]
    apply hother j _ (List.getElem?_eq_getElem hjlt) hjb hj.1
    intro e
    have hmem : j ∈ (rewriter.func.blocks.length + 1) :: rest := e ▸ List.getLast_mem _
    rcases List.mem_cons.mp hmem with h | h
    · omega
    · exact hj.2 h

/-- `IfLowering` at a well-formed conditional of a well-formed function, with or without
an "else" part. -/
theorem IfLowering_at (rewriter : PatternRewriter) (op thenRegion elseRegion : Nat)
    (thenBlocks elseBlocks before after : List Nat) (condB : Block) (cv : Option Value)
    (hwf : rewriter.func.WellFormed)
    (site : IfSite rewriter op thenRegion elseRegion thenBlocks elseBlocks before after condB)
    (P : Nat) (pre post : List Nat)
    (hP : rewriter.func.regions[P]? = some (pre ++ rewriter.insertionBlock :: post)) :
    ∃ rw' : PatternRewriter,
      IfLowered rewriter rw' op thenRegion elseRegion thenBlocks elseBlocks before after condB
        cv P pre post := by
  cases thenBlocks with
  | nil => exact absurd rfl site.thenNonempty
  | cons t trest =>
  have hdisj : ∀ x ∈ t :: trest, x ∉ elseBlocks :=
    regions_disjoint rewriter.func hwf thenRegion elseRegion _ _ site.thenBody site.elseBody
      site.regionsDistinct
  have htbmem : (t :: trest).getLast (List.cons_ne_nil _ _) ∈ t :: trest := List.getLast_mem _
  have hthenP : ∀ (rw' : PatternRewriter),
      (∀ tbB : Block,
        rewriter.func.blocks[(t :: trest).getLast (List.cons_ne_nil _ _)]? = some tbB →
        rw'.func.blocks[(t :: trest).getLast (List.cons_ne_nil _ _)]? =
          some ⟨tbB.numArguments, tbB.operations ++ [rewriter.func.operations.length]⟩) →
      (∀ j blk, rewriter.func.blocks[j]? = some blk → j ∈ t :: trest →
        j ≠ (t :: trest).getLast (List.cons_ne_nil _ _) → rw'.func.blocks[j]? = some blk) →
      ∀ (i : Nat) (blk : Block), i ∈ t :: trest → rewriter.func.blocks[i]? = some blk →
        rw'.func.blocks[i]? =
          some ⟨blk.numArguments, blk.operations ++ tailOps (t :: trest) i
            [rewriter.func.operations.length]⟩ := by
    intro rw' hthen hother j blk hj hblk
    by_cases hlast : (t :: trest).getLast? = some j
    · rw [tailOps_pos _ hlast]
      have hj' : j = (t :: trest).getLast (List.cons_ne_nil _ _) := by
        rw [List.getLast?_eq_getLast _ (List.cons_ne_nil _ _)] at hlast
        exact (Option.some.inj hlast).symm
      subst hj'
      exact hthen blk hblk
    · rw [tailOps_neg _ hlast]
      have hne : j ≠ (t :: trest).getLast (List.cons_ne_nil _ _) := by
        intro e
        apply hlast
        rw [List.getLast?_eq_getLast _ (List.cons_ne_nil _ _), e]
      have := hother j blk hblk hj hne
      simpa using this
  cases elseBlocks with
  | nil =>
    obtain ⟨rw', hrun, hops, -, hlen, hcb, hcont, hthen, hother⟩ :=
      IfLowering_spec_noelse rewriter op thenRegion elseRegion t trest before after condB cv
        site
    obtain ⟨hne1, hne2, hreg⟩ := IfLowering_regions_eq_noelse rewriter rw' op thenRegion
      elseRegion t trest before after condB cv hwf site hrun P pre post hP
    have hL := IfLowering_lowered_noelse rewriter rw' op thenRegion elseRegion t trest before
      after condB cv hwf site hrun
    refine ⟨rw', hrun, hops, hlen, hcb, hcont, ?_, ?_, ?_, ?_, hne1, hne2,
      Lowered.wellFormed hwf hL⟩
    · exact hthenP rw' hthen
        (fun j blk hblk hj hne => hother j blk hblk (fun e => site.condOutsideThen (e ▸ hj)) hne)
    · intro i blk hi
      cases hi
    · intro j hjb hjt _ hjlt
      rw [List.getElem?_eq_getElem hjlt]
      apply hother j _ (List.getElem?_eq_getElem hjlt) hjb
      intro e
      exact hjt (e ▸ htbmem)
    · rw [hreg, List.append_nil]
      symm
      apply set_of_getElem?
      rw [List.getElem?_set_ne site.regionsDistinct, List.getElem?_set_ne hne2]
      exact site.elseBody
  | cons e erest =>
    obtain ⟨rw', hrun, hops, -, hlen, hcb, hcont, hthen, helse, hother⟩ :=
      IfLowering_spec_else rewriter op thenRegion elseRegion t trest e erest before after condB
        cv site
    obtain ⟨hne1, hne2, hreg⟩ := IfLowering_regions_eq_else rewriter rw' op thenRegion
      elseRegion t trest e erest before after condB cv hwf site hrun P pre post hP
    have hL := IfLowering_lowered_else rewriter rw' op thenRegion elseRegion t trest e erest
      before after condB cv hwf site hrun
    have hebmem : (e :: erest).getLast (List.cons_ne_nil _ _) ∈ e :: erest :=
      List.getLast_mem _
    refine ⟨rw', hrun, hops, hlen, hcb, hcont, ?_, ?_, ?_, hreg, hne1, hne2,
      Lowered.wellFormed hwf hL⟩
    · exact hthenP rw' hthen
        (fun j blk hblk hj hne => hother j blk hblk (fun e' => site.condOutsideThen (e' ▸ hj))
          hne (fun e' => hdisj j hj (e' ▸ hebmem)))
    · intro j blk hj hblk
      by_cases hlast : (e :: erest).getLast? = some j
      · rw [tailOps_pos _ hlast]
        have hj' : j = (e :: erest).getLast (List.cons_ne_nil _ _) := by
          rw [List.getLast?_eq_getLast _ (List.cons_ne_nil _ _)] at hlast
          exact (Option.some.inj hlast).symm
        subst hj'
        exact helse blk hblk
      · rw [tailOps_neg _ hlast]
        have hne : j ≠ (e :: erest).getLast (List.cons_ne_nil _ _) := by
          intro e'
          apply hlast
          rw [List.getLast?_eq_getLast _ (List.cons_ne_nil _ _), e']
        have hne' : j ≠ (t :: trest).getLast (List.cons_ne_nil _ _) :=
          fun e' => hdisj _ htbmem (e' ▸ hj)
        have := hother j blk hblk (fun e' => site.condOutsideElse (e' ▸ hj)) hne' hne
        simpa using this
    · intro j hjb hjt hje hjlt
      rw [List.getElem?_eq_getElem hjlt]
      apply hother j _ (List.getElem?_eq_getElem hjlt) hjb
      · intro e'
        exact hjt (e' ▸ htbmem)
      · intro e'
        exact hje (e' ▸ hebmem)

/-! ## A loop whose body holds a conditional -/

theorem tailOps_congr {l l' : List Nat} (i : Nat) (ops : List Nat)
    (h : l.getLast? = l'.getLast?) : tailOps l i ops = tailOps l' i ops := by
  unfold tailOps
  rw [h]

theorem tailOps_cons_ne (a i : Nat) (l ops : List Nat) (h : i ≠ a) :
    tailOps (a :: l) i ops = tailOps l i ops := by
  unfold tailOps
  cases l with
  | nil =>
    have : ([a] : List Nat).getLast? ≠ some i := by
      simp only [List.getLast?_singleton, ne_eq, Option.some.injEq]
      exact fun e => h e.symm
    rw [if_neg this]
    simp
  | cons x l => rw [List.getLast?_cons_cons]

theorem tailOps_of_not_mem (i : Nat) (l ops : List Nat) (h : i ∉ l) : tailOps l i ops = [] := by
  unfold tailOps
  rw [if_neg]
  intro e
  exact h (List.mem_of_getLast?_eq_some e)

/-- The basic facts about a loop whose body holds a conditional. -/
theorem loopNest_facts {f : FuncOp} {b F rF c : Nat} {rest bf af : List Nat}
    {initB condB : Block} {j I rT rE : Nat} {T E bi ai : List Nat} {blkJ : Block} {P : Nat}
    {pre post : List Nat} (hwf : f.WellFormed)
    (siteF : ForSite ⟨f, b, bf.length⟩ F rF c rest bf af initB condB)
    (siteI : IfSite ⟨f, j, bi.length⟩ I rT rE T E bi ai blkJ)
    (hj : j ∈ c :: rest) (hbT : b ∉ T) (hbE : b ∉ E)
    (hP : f.regions[P]? = some (pre ++ b :: post)) :
    (b < f.blocks.length ∧ j < f.blocks.length ∧ c < f.blocks.length) ∧
    (∀ x ∈ c :: rest, x < f.blocks.length) ∧ (∀ x ∈ T, x < f.blocks.length) ∧
    (∀ x ∈ E, x < f.blocks.length) ∧
    j ≠ b ∧ (c :: rest).Nodup ∧
    (∀ x ∈ T, x ∉ c :: rest) ∧ (∀ x ∈ E, x ∉ c :: rest) ∧ (∀ x ∈ T, x ∉ E) ∧
    rF ≠ rT ∧ rF ≠ rE ∧ P ≠ rF ∧ P ≠ rT ∧ P ≠ rE ∧ rT ≠ rE := by
  have hBb : f.blocks[b]? = some initB := siteF.initBlock
  have hBc : f.blocks[c]? = some condB := siteF.condBlock
  have hBj : f.blocks[j]? = some blkJ := siteI.condBlock
  have hRF : f.regions[rF]? = some (c :: rest) := siteF.body
  have hRT : f.regions[rT]? = some T := siteI.thenBody
  have hRE : f.regions[rE]? = some E := siteI.elseBody
  have hjT : j ∉ T := siteI.condOutsideThen
  have hjE : j ∉ E := siteI.condOutsideElse
  have hbout : b ∉ c :: rest := siteF.initOutside
  have hrFT : rF ≠ rT := by
    intro e
    rw [← e, hRF] at hRT
    exact hjT (Option.some.inj hRT ▸ hj)
  have hrFE : rF ≠ rE := by
    intro e
    rw [← e, hRF] at hRE
    exact hjE (Option.some.inj hRE ▸ hj)
  have hbP : b ∈ pre ++ b :: post := by simp
  have hPF : P ≠ rF := by
    intro e
    rw [e, hRF] at hP
    exact hbout (Option.some.inj hP ▸ hbP)
  have hPT : P ≠ rT := by
    intro e
    rw [e, hRT] at hP
    exact hbT (Option.some.inj hP ▸ hbP)
  have hPE : P ≠ rE := by
    intro e
    rw [e, hRE] at hP
    exact hbE (Option.some.inj hP ▸ hbP)
  have hcn := (List.getElem?_eq_some.mp hBc).1
  refine ⟨⟨(List.getElem?_eq_some.mp hBb).1, (List.getElem?_eq_some.mp hBj).1, hcn⟩, ?_,
    siteI.thenValid, siteI.elseValid, fun e => hbout (e ▸ hj), region_nodup f hwf rF _ hRF,
    regions_disjoint f hwf rT rF _ _ hRT hRF (Ne.symm hrFT),
    regions_disjoint f hwf rE rF _ _ hRE hRF (Ne.symm hrFE),
    regions_disjoint f hwf rT rE _ _ hRT hRE siteI.regionsDistinct,
    hrFT, hrFE, hPF, hPT, hPE, siteI.regionsDistinct⟩
  intro x hx
  rcases List.mem_cons.mp hx with h | h
  · rw [h]
    exact hcn
  · exact siteF.restValid x h

/-- Inner first: `IfLowering` at the conditional of the body, then `ForLowering` at the
loop.  The continuation block of the conditional is allocated before the two blocks of
the loop, and the operations of the conditional before those of the loop. -/
theorem loopConditional_inner_first {f : FuncOp} {b F rF c : Nat} {rest bf af : List Nat}
    {initB condB : Block} {j I rT rE : Nat} {T E bi ai : List Nat} {blkJ : Block} {P : Nat}
    {pre post pre2 post2 : List Nat} (hwf : f.WellFormed)
    (siteF : ForSite ⟨f, b, bf.length⟩ F rF c rest bf af initB condB)
    (siteI : IfSite ⟨f, j, bi.length⟩ I rT rE T E bi ai blkJ)
    (hbT : b ∉ T) (hbE : b ∉ E)
    (hP : f.regions[P]? = some (pre ++ b :: post))
    (hsplit : c :: rest = pre2 ++ j :: post2)
    (lb ub : Value) (st cv : Option Value) :
    ∃ f1 fA : PatternRewriter,
      IfLowering.matchAndRewrite I [cv] ⟨f, j, bi.length⟩ =
        some (PatternMatchResult.matchSuccess, f1) ∧
      (∃ blk : Block, f1.func.blocks[b]? = some blk ∧
        blk.operations[bf.length]? = some F) ∧
      ForLowering.matchAndRewrite F [some lb, some ub, st] ⟨f1.func, b, bf.length⟩ =
        some (PatternMatchResult.matchSuccess, fA) ∧
      LoopConditionalLowered f fA.func b rF c rest bf af initB condB lb ub st j rT rE T E bi
        ai blkJ cv P pre post pre2 post2 (f.blocks.length + 1) (f.blocks.length + 2)
        f.blocks.length (f.operations.length + (IfLowering.numBranches E + 1))
        f.operations.length := by
  have hj : j ∈ c :: rest := by
    rw [hsplit]
    simp
  obtain ⟨⟨hbn, hjn, hcn⟩, hbody_lt, hTlt, hElt, hjb, hnd, hTd, hEd, hTE, hrFT, hrFE, hPF, hPT,
    hPE, hTEr⟩ := loopNest_facts hwf siteF siteI hj hbT hbE hP
  have hBb : f.blocks[b]? = some initB := siteF.initBlock
  have hBc : f.blocks[c]? = some condB := siteF.condBlock
  have hBj : f.blocks[j]? = some blkJ := siteI.condBlock
  have hRF : f.regions[rF]? = some (pre2 ++ j :: post2) := by
    rw [← hsplit]
    exact siteF.body
  have hjT : j ∉ T := siteI.condOutsideThen
  have hjE : j ∉ E := siteI.condOutsideElse
  have hbout : b ∉ c :: rest := siteF.initOutside
  have hnd2 : (pre2 ++ j :: post2).Nodup := hsplit ▸ hnd
  have hjpost : j ∉ post2 := by
    have := (List.nodup_append.mp hnd2).2.1
    exact (List.nodup_cons.mp this).1
  have hpost_sub : ∀ x ∈ post2, x ∈ c :: rest := by
    intro x hx
    rw [hsplit]
    simp [hx]
  -- the conditional first
  obtain ⟨f1, h1⟩ := IfLowering_at ⟨f, j, bi.length⟩ I rT rE T E bi ai blkJ cv hwf siteI rF
    pre2 post2 hRF
  have h1ops : f1.func.operations =
      f.operations ++ IfLowering.created cv (T.headD 0) E f.blocks.length := h1.operations
  have h1opslen : f1.func.operations.length =
      f.operations.length + (IfLowering.numBranches E + 1) := by
    rw [h1ops, List.length_append]
    cases E <;> rfl
  have h1len : f1.func.blocks.length = f.blocks.length + 1 := h1.blocksLength
  have h1j : f1.func.blocks[j]? =
      some ⟨blkJ.numArguments, bi ++ [f.operations.length + IfLowering.numBranches E]⟩ :=
    h1.condBlock
  have h1cont : f1.func.blocks[f.blocks.length]? = some ⟨0, ai⟩ := h1.contBlock
  have h1then : ∀ (i : Nat) (blk : Block), i ∈ T → f.blocks[i]? = some blk →
      f1.func.blocks[i]? = some ⟨blk.numArguments, blk.operations ++
        tailOps T i [f.operations.length]⟩ := h1.thenPart
  have h1else : ∀ (i : Nat) (blk : Block), i ∈ E → f.blocks[i]? = some blk →
      f1.func.blocks[i]? = some ⟨blk.numArguments, blk.operations ++
        tailOps E i [f.operations.length + 1]⟩ := h1.elsePart
  have h1other : ∀ i : Nat, i ≠ j → i ∉ T → i ∉ E → i < f.blocks.length →
      f1.func.blocks[i]? = f.blocks[i]? := h1.otherBlocks
  have h1reg : f1.func.regions =
      ((f.regions.set rF (pre2 ++ j :: T ++ E ++ f.blocks.length :: post2)).set rT []).set rE
        [] := h1.regions
  have hrFlt : rF < f.regions.length := (List.getElem?_eq_some.mp hRF).1
  have h1RF : f1.func.regions[rF]? =
      some (pre2 ++ j :: T ++ E ++ f.blocks.length :: post2) := by
    rw [h1reg, List.getElem?_set_ne (Ne.symm hrFE), List.getElem?_set_ne (Ne.symm hrFT),
      List.getElem?_set_self hrFlt]
  have h1P : f1.func.regions[P]? = some (pre ++ b :: post) := by
    rw [h1reg, List.getElem?_set_ne (Ne.symm hPE), List.getElem?_set_ne (Ne.symm hPT),
      List.getElem?_set_ne (Ne.symm hPF), hP]
  obtain ⟨rest', hrest'⟩ :
      ∃ rest', pre2 ++ j :: T ++ E ++ f.blocks.length :: post2 = c :: rest' := by
    cases pre2 with
    | nil =>
      simp only [List.nil_append, List.cons.injEq] at hsplit
      exact ⟨T ++ E ++ f.blocks.length :: post2, by simp [hsplit.1]⟩
    | cons a l =>
      simp only [List.cons_append, List.cons.injEq] at hsplit
      exact ⟨l ++ j :: T ++ E ++ f.blocks.length :: post2, by simp [hsplit.1]⟩
  have hmem' : ∀ x, x ∈ c :: rest' ↔
      x ∈ c :: rest ∨ x ∈ T ∨ x ∈ E ∨ x = f.blocks.length := by
    intro x
    rw [← hrest', hsplit]
    simp only [List.mem_append, List.mem_cons]
    tauto
  have hnd' : (c :: rest').Nodup :=
    region_nodup f1.func h1.wellFormed rF _ (h1RF.trans (congrArg some hrest'))
  have hcrest' : c ∉ rest' := (List.nodup_cons.mp hnd').1
  have hrest'_mem : ∀ x, x ≠ c → (x ∈ c :: rest' ↔ x ∈ rest') := by
    intro x hx
    simp [hx]
  have hlast' : ∀ (x : Nat) (ops : List Nat), x ≠ f.blocks.length →
      tailOps (c :: rest') x ops = tailOps post2 x ops := by
    intro x ops hx
    have : (c :: rest').getLast? = (f.blocks.length :: post2).getLast? := by
      rw [← hrest', List.getLast?_append_of_ne_nil _ (List.cons_ne_nil _ _)]
    rw [tailOps_congr x ops this, tailOps_cons_ne _ _ _ _ hx]
  have hlast : ∀ (x : Nat) (ops : List Nat), x ≠ j →
      tailOps (c :: rest) x ops = tailOps post2 x ops := by
    intro x ops hx
    have : (c :: rest).getLast? = (j :: post2).getLast? := by
      rw [hsplit, List.getLast?_append_of_ne_nil _ (List.cons_ne_nil _ _)]
    rw [tailOps_congr x ops this, tailOps_cons_ne _ _ _ _ hx]
  have hlastn : ∀ ops : List Nat,
      tailOps (c :: rest') f.blocks.length ops = tailOps (c :: rest) j ops := by
    intro ops
    have h1 : (c :: rest').getLast? = (f.blocks.length :: post2).getLast? := by
      rw [← hrest', List.getLast?_append_of_ne_nil _ (List.cons_ne_nil _ _)]
    have h2 : (c :: rest).getLast? = (j :: post2).getLast? := by
      rw [hsplit, List.getLast?_append_of_ne_nil _ (List.cons_ne_nil _ _)]
    have hnpost : f.blocks.length ∉ post2 := by
      intro h
      exact absurd (hbody_lt _ (hpost_sub _ h)) (lt_irrefl _)
    rw [tailOps_congr _ ops h1, tailOps_congr _ ops h2, tailOps_cons_self _ _ _ hnpost,
      tailOps_cons_self _ _ _ hjpost]
  -- the loop after it
  have hout' : b ∉ c :: rest' := by
    rw [hmem']
    intro h
    rcases h with h | h | h | h
    · exact hbout h
    · exact hbT h
    · exact hbE h
    · omega
  have h1b : f1.func.blocks[b]? = some initB := by
    rw [h1other b (Ne.symm hjb) hbT hbE hbn]
    exact hBb
  obtain ⟨lb0, ub0, st0, hF⟩ := siteF.isFor
  have hF' : f.operations[F]? = some (Operation.ForOp lb0 ub0 st0 rF) := hF
  have hF1 : f1.func.operations[F]? = some (Operation.ForOp lb0 ub0 st0 rF) := by
    rw [h1ops, List.getElem?_append_left (List.getElem?_eq_some.mp hF').1]
    exact hF'
  obtain ⟨condB', hcB', siteF'⟩ := forSite_of_outside f1.func h1.wellFormed b initB F bf af
    lb0 ub0 st0 rF c rest' h1b siteF.initOps hF1 (h1RF.trans (congrArg some hrest')) hout'
  have hcB'eq : condB' = if j = c then
      ⟨condB.numArguments, bi ++ [f.operations.length + IfLowering.numBranches E]⟩
      else condB := by
    by_cases hjc : j = c
    · rw [if_pos hjc]
      subst hjc
      have hbc : blkJ = condB := Option.some.inj (hBj.symm.trans hBc)
      rw [h1j, hbc] at hcB'
      exact (Option.some.inj hcB').symm
    · rw [if_neg hjc]
      have hcT : c ∉ T := fun h => hTd c h (List.mem_cons_self _ _)
      have hcE : c ∉ E := fun h => hEd c h (List.mem_cons_self _ _)
      rw [h1other c (Ne.symm hjc) hcT hcE hcn, hBc] at hcB'
      exact (Option.some.inj hcB').symm
  obtain ⟨fA, hA⟩ := ForLowering_at ⟨f1.func, b, bf.length⟩ F rF c rest' bf af initB condB' lb
    ub st h1.wellFormed siteF' P pre post h1P
  have hAops : fA.func.operations = f1.func.operations ++
      ForLowering.created lb ub st c f1.func.operations.length (f1.func.blocks.length + 1)
        f1.func.blocks.length := hA.operations
  have hAlen : fA.func.blocks.length = f1.func.blocks.length + 2 := hA.blocksLength
  have hAinit : fA.func.blocks[b]? =
      some ⟨initB.numArguments, bf ++ [f1.func.operations.length + 2]⟩ := hA.initBlock
  have hAcond : fA.func.blocks[c]? = some ⟨condB'.numArguments,
      [f1.func.operations.length + 3, f1.func.operations.length + 4]⟩ := hA.condBlock
  have hAend : fA.func.blocks[f1.func.blocks.length]? = some ⟨0, af⟩ := hA.endBlock
  have hAfb : fA.func.blocks[f1.func.blocks.length + 1]? =
      some ⟨0, condB'.operations ++ tailOps (c :: rest') c
        [f1.func.operations.length, f1.func.operations.length + 1]⟩ := hA.firstBody
  have hArest : ∀ (i : Nat) (blk : Block), i ∈ rest' → f1.func.blocks[i]? = some blk →
      fA.func.blocks[i]? = some ⟨blk.numArguments, blk.operations ++ tailOps (c :: rest') i
        [f1.func.operations.length, f1.func.operations.length + 1]⟩ := hA.restBlocks
  have hAother : ∀ i : Nat, i ≠ b → i ∉ c :: rest' → i < f1.func.blocks.length →
      fA.func.blocks[i]? = f1.func.blocks[i]? := hA.otherBlocks
  have hAreg : fA.func.regions =
      (f1.func.regions.set P
          (pre ++ b :: c :: (f1.func.blocks.length + 1) :: rest' ++
            f1.func.blocks.length :: post)).set rF [] := hA.regions
  rw [h1opslen] at hAinit hAcond hAfb hArest
  rw [h1len] at hAend hAfb hAother hAlen
  refine ⟨f1, fA, h1.run, ⟨initB, h1b, ?_⟩, hA.run, ?_⟩
  · rw [siteF.initOps, List.getElem?_append_right (le_refl _)]
    simp
  have hrest'_ne : rest' ≠ [] := by
    have : f.blocks.length ∈ rest' := by
      rw [← hrest'_mem _ (by omega), hmem']
      exact Or.inr (Or.inr (Or.inr rfl))
    exact List.ne_nil_of_mem this
  have hPlt : P < f.regions.length := (List.getElem?_eq_some.mp hP).1
  have hRT : f.regions[rT]? = some T := siteI.thenBody
  have hRE : f.regions[rE]? = some E := siteI.elseBody
  have hrTlt : rT < f.regions.length := (List.getElem?_eq_some.mp hRT).1
  have hrElt : rE < f.regions.length := (List.getElem?_eq_some.mp hRE).1
  have h1reglen : f1.func.regions.length = f.regions.length := by
    rw [h1reg]
    simp
  constructor
  · -- operationsLength
    rw [hAops, List.length_append, h1opslen]
    simp [ForLowering.created]
    omega
  · -- opsOld
    intro i hi
    rw [hAops, List.getElem?_append_left (by omega), h1ops, List.getElem?_append_left hi]
  · -- opsFor
    intro i hi
    rw [hAops, ← h1opslen, List.getElem?_append_right (by omega), h1len]
    congr 1
    omega
  · -- opsIf
    intro i hi
    have hlen : (IfLowering.created cv (T.headD 0) E f.blocks.length).length =
        IfLowering.numBranches E + 1 := by
      cases E <;> rfl
    rw [hAops, List.getElem?_append_left (by omega), h1ops,
      List.getElem?_append_right (by omega)]
    congr 1
    omega
  · -- blocksLength
    omega
  · exact hAinit
  · -- atCond
    rw [hAcond, hcB'eq]
    by_cases hjc : j = c
    · rw [if_pos hjc]
    · rw [if_neg hjc]
  · exact hAend
  · -- atFirstBody
    rw [hAfb, tailOps_cons_self _ _ _ hcrest', if_neg hrest'_ne, List.append_nil, hcB'eq]
    by_cases hjc : j = c
    · rw [if_pos hjc, if_pos hjc]
    · rw [if_neg hjc, if_neg hjc]
  · -- atIf
    intro hjc
    have hjr : j ∈ rest' := by
      rw [← hrest'_mem _ hjc, hmem']
      exact Or.inl hj
    rw [hArest j _ hjr h1j, hlast' _ _ (by omega), tailOps_of_not_mem _ _ _ hjpost,
      List.append_nil]
  · -- atCont
    have hnr : f.blocks.length ∈ rest' := by
      rw [← hrest'_mem _ (by omega), hmem']
      exact Or.inr (Or.inr (Or.inr rfl))
    rw [hArest _ _ hnr h1cont, hlastn]
  · -- atThen
    intro i blk hi hblk
    have hic : i ≠ c := fun e => hTd i hi (e ▸ List.mem_cons_self _ _)
    have hir : i ∈ rest' := by
      rw [← hrest'_mem _ hic, hmem']
      exact Or.inr (Or.inl hi)
    have hipost : i ∉ post2 := fun h => hTd i hi (hpost_sub _ h)
    rw [hArest i _ hir (h1then i blk hi hblk), hlast' _ _ (by have := hTlt i hi; omega),
      tailOps_of_not_mem _ _ _ hipost, List.append_nil]
  · -- atElse
    intro i blk hi hblk
    have hic : i ≠ c := fun e => hEd i hi (e ▸ List.mem_cons_self _ _)
    have hir : i ∈ rest' := by
      rw [← hrest'_mem _ hic, hmem']
      exact Or.inr (Or.inr (Or.inl hi))
    have hipost : i ∉ post2 := fun h => hEd i hi (hpost_sub _ h)
    rw [hArest i _ hir (h1else i blk hi hblk), hlast' _ _ (by have := hElt i hi; omega),
      tailOps_of_not_mem _ _ _ hipost, List.append_nil]
  · -- atRest
    intro i blk hi hij hblk
    have hic : i ≠ c := fun e => (List.nodup_cons.mp hnd).1 (e ▸ hi)
    have hir : i ∈ rest' := by
      rw [← hrest'_mem _ hic, hmem']
      exact Or.inl (List.mem_cons_of_mem _ hi)
    have hilt := hbody_lt i (List.mem_cons_of_mem _ hi)
    have hiT : i ∉ T := fun h => hTd i h (List.mem_cons_of_mem _ hi)
    have hiE : i ∉ E := fun h => hEd i h (List.mem_cons_of_mem _ hi)
    have h1i : f1.func.blocks[i]? = some blk := by
      rw [h1other i hij hiT hiE hilt, hblk]
    rw [hArest i _ hir h1i, hlast' _ _ (by omega), hlast _ _ hij]
  · -- atOther
    intro i hi hib hibody hiT hiE
    have hij : i ≠ j := fun e => hibody (e ▸ hj)
    rw [hAother i hib (by
      rw [hmem']
      intro h
      rcases h with h | h | h | h
      · exact hibody h
      · exact hiT h
      · exact hiE h
      · omega) (by omega), h1other i hij hiT hiE hi]
  · -- regionsLength
    rw [hAreg]
    simp [h1reglen]
  · -- parentRegion
    rw [hAreg, List.getElem?_set_ne (Ne.symm hPF), List.getElem?_set_self (by omega), h1len,
      hrest', List.tail_cons]
  · -- loopRegion
    rw [hAreg, List.getElem?_set_self (by simp; omega)]
  · -- thenRegion
    rw [hAreg, List.getElem?_set_ne hrFT, List.getElem?_set_ne hPT, h1reg,
      List.getElem?_set_ne (Ne.symm hTEr), List.getElem?_set_self (by simp; omega)]
  · -- elseRegion
    rw [hAreg, List.getElem?_set_ne hrFE, List.getElem?_set_ne hPE, h1reg,
      List.getElem?_set_self (by simp; omega)]
  · -- otherRegions
    intro r hrP hrF hrT hrE
    rw [hAreg, List.getElem?_set_ne (Ne.symm hrF), List.getElem?_set_ne (Ne.symm hrP), h1reg,
      List.getElem?_set_ne (Ne.symm hrE), List.getElem?_set_ne (Ne.symm hrT),
      List.getElem?_set_ne (Ne.symm hrF)]

/-- Outer first: `ForLowering` at the loop, then `IfLowering` at the conditional, which
by then stands in the new first body block if it stood in the entry block of the body.
The two blocks of the loop are allocated before the continuation block of the
conditional, and the operations of the loop before those of the conditional. -/
theorem loopConditional_outer_first {f : FuncOp} {b F rF c : Nat} {rest bf af : List Nat}
    {initB condB : Block} {j I rT rE : Nat} {T E bi ai : List Nat} {blkJ : Block} {P : Nat}
    {pre post pre2 post2 : List Nat} (hwf : f.WellFormed)
    (siteF : ForSite ⟨f, b, bf.length⟩ F rF c rest bf af initB condB)
    (siteI : IfSite ⟨f, j, bi.length⟩ I rT rE T E bi ai blkJ)
    (hbT : b ∉ T) (hbE : b ∉ E)
    (hP : f.regions[P]? = some (pre ++ b :: post))
    (hsplit : c :: rest = pre2 ++ j :: post2)
    (lb ub : Value) (st cv : Option Value) :
    ∃ g1 fB : PatternRewriter,
      ForLowering.matchAndRewrite F [some lb, some ub, st] ⟨f, b, bf.length⟩ =
        some (PatternMatchResult.matchSuccess, g1) ∧
      (∃ blk : Block, g1.func.blocks[if j = c then f.blocks.length + 1 else j]? = some blk ∧
        blk.operations[bi.length]? = some I) ∧
      IfLowering.matchAndRewrite I [cv]
          ⟨g1.func, if j = c then f.blocks.length + 1 else j, bi.length⟩ =
        some (PatternMatchResult.matchSuccess, fB) ∧
      LoopConditionalLowered f fB.func b rF c rest bf af initB condB lb ub st j rT rE T E bi
        ai blkJ cv P pre post pre2 post2 f.blocks.length (f.blocks.length + 1)
        (f.blocks.length + 2) f.operations.length (f.operations.length + 5) := by
  have hj : j ∈ c :: rest := by
    rw [hsplit]
    simp
  obtain ⟨⟨hbn, hjn, hcn⟩, hbody_lt, hTlt, hElt, hjb, hnd, hTd, hEd, hTE, hrFT, hrFE, hPF, hPT,
    hPE, hTEr⟩ := loopNest_facts hwf siteF siteI hj hbT hbE hP
  have hBb : f.blocks[b]? = some initB := siteF.initBlock
  have hBc : f.blocks[c]? = some condB := siteF.condBlock
  have hBj : f.blocks[j]? = some blkJ := siteI.condBlock
  have hRT : f.regions[rT]? = some T := siteI.thenBody
  have hRE : f.regions[rE]? = some E := siteI.elseBody
  have hjT : j ∉ T := siteI.condOutsideThen
  have hjE : j ∉ E := siteI.condOutsideElse
  have hbout : b ∉ c :: rest := siteF.initOutside
  have hcrest : c ∉ rest := (List.nodup_cons.mp hnd).1
  have hnd2 : (pre2 ++ j :: post2).Nodup := hsplit ▸ hnd
  have hcT : c ∉ T := fun h => hTd c h (List.mem_cons_self _ _)
  have hcE : c ∉ E := fun h => hEd c h (List.mem_cons_self _ _)
  -- the loop first
  obtain ⟨g1, h1⟩ := ForLowering_at ⟨f, b, bf.length⟩ F rF c rest bf af initB condB lb ub st
    hwf siteF P pre post hP
  have h1ops : g1.func.operations = f.operations ++
      ForLowering.created lb ub st c f.operations.length (f.blocks.length + 1)
        f.blocks.length := h1.operations
  have h1opslen : g1.func.operations.length = f.operations.length + 5 := by
    rw [h1ops, List.length_append]
    rfl
  have h1len : g1.func.blocks.length = f.blocks.length + 2 := h1.blocksLength
  have h1init : g1.func.blocks[b]? =
      some ⟨initB.numArguments, bf ++ [f.operations.length + 2]⟩ := h1.initBlock
  have h1cond : g1.func.blocks[c]? = some ⟨condB.numArguments,
      [f.operations.length + 3, f.operations.length + 4]⟩ := h1.condBlock
  have h1end : g1.func.blocks[f.blocks.length]? = some ⟨0, af⟩ := h1.endBlock
  have h1fb : g1.func.blocks[f.blocks.length + 1]? =
      some ⟨0, condB.operations ++ tailOps (c :: rest) c
        [f.operations.length, f.operations.length + 1]⟩ := h1.firstBody
  have h1rest : ∀ (i : Nat) (blk : Block), i ∈ rest → f.blocks[i]? = some blk →
      g1.func.blocks[i]? = some ⟨blk.numArguments, blk.operations ++ tailOps (c :: rest) i
        [f.operations.length, f.operations.length + 1]⟩ := h1.restBlocks
  have h1other : ∀ i : Nat, i ≠ b → i ∉ c :: rest → i < f.blocks.length →
      g1.func.blocks[i]? = f.blocks[i]? := h1.otherBlocks
  have h1reg : g1.func.regions =
      (f.regions.set P
          (pre ++ b :: c :: (f.blocks.length + 1) :: rest ++ f.blocks.length :: post)).set rF
        [] := h1.regions
  have hPlt : P < f.regions.length := (List.getElem?_eq_some.mp hP).1
  have hrFlt : rF < f.regions.length :=
    (List.getElem?_eq_some.mp (show f.regions[rF]? = some (c :: rest) from siteF.body)).1
  have hrTlt : rT < f.regions.length := (List.getElem?_eq_some.mp hRT).1
  have hrElt : rE < f.regions.length := (List.getElem?_eq_some.mp hRE).1
  -- the conditional after it
  obtain ⟨J, hJ⟩ : ∃ J, J = if j = c then f.blocks.length + 1 else j := ⟨_, rfl⟩
  rw [← hJ]
  have hJb : J ≠ b := by
    rw [hJ]
    split <;> omega
  have hJc : J ≠ c := by
    rw [hJ]
    split
    · omega
    · assumption
  have hJn : J ≠ f.blocks.length := by
    rw [hJ]
    split <;> omega
  have hJlt : J < f.blocks.length + 2 := by
    rw [hJ]
    split <;> omega
  have hJT : J ∉ T := by
    rw [hJ]
    split
    · intro h
      exact absurd (hTlt _ h) (by omega)
    · exact hjT
  have hJE : J ∉ E := by
    rw [hJ]
    split
    · intro h
      exact absurd (hElt _ h) (by omega)
    · exact hjE
  have hJblk : g1.func.blocks[J]? =
      some ⟨if j = c then 0 else blkJ.numArguments,
        bi ++ I :: (ai ++ tailOps (c :: rest) j
          [f.operations.length, f.operations.length + 1])⟩ := by
    rw [hJ]
    by_cases hjc : j = c
    · rw [if_pos hjc, if_pos hjc, h1fb]
      have hbc : blkJ = condB := Option.some.inj (hBj.symm.trans (hjc ▸ hBc))
      rw [← hbc, siteI.condOps, hjc]
      simp
    · rw [if_neg hjc, if_neg hjc]
      have hjr : j ∈ rest := by
        rcases List.mem_cons.mp hj with h | h
        · exact absurd h hjc
        · exact h
      rw [h1rest j blkJ hjr hBj, siteI.condOps]
      simp
  obtain ⟨cv0, hI⟩ := siteI.isIf
  have hI' : f.operations[I]? = some (Operation.IfOp cv0 rT rE) := hI
  have hI1 : g1.func.operations[I]? = some (Operation.IfOp cv0 rT rE) := by
    rw [h1ops, List.getElem?_append_left (List.getElem?_eq_some.mp hI').1]
    exact hI'
  have h1RT : g1.func.regions[rT]? = some T := by
    rw [h1reg, List.getElem?_set_ne hrFT, List.getElem?_set_ne hPT, hRT]
  have h1RE : g1.func.regions[rE]? = some E := by
    rw [h1reg, List.getElem?_set_ne hrFE, List.getElem?_set_ne hPE, hRE]
  have siteI' := ifSite_of_outside g1.func h1.wellFormed J _ I bi
    (ai ++ tailOps (c :: rest) j [f.operations.length, f.operations.length + 1]) cv0 rT rE T E
    hJblk rfl hI1 h1RT h1RE siteI.thenNonempty hJT hJE
  obtain ⟨preJ, postJ, hPJ, hPJ'⟩ : ∃ preJ postJ,
      pre ++ b :: c :: (f.blocks.length + 1) :: rest ++ f.blocks.length :: post =
        preJ ++ J :: postJ ∧
      preJ ++ J :: T ++ E ++ (f.blocks.length + 2) :: postJ =
        pre ++ b :: c :: (f.blocks.length + 1) ::
            (pre2 ++ j :: T ++ E ++ (f.blocks.length + 2) :: post2).tail ++
          f.blocks.length :: post := by
    cases pre2 with
    | nil =>
      simp only [List.nil_append, List.cons.injEq] at hsplit
      have hjc : j = c := hsplit.1.symm
      rw [if_pos hjc] at hJ
      refine ⟨pre ++ [b, c], rest ++ f.blocks.length :: post, ?_, ?_⟩
      · rw [hJ]
        simp
      · rw [hJ, hsplit.2]
        simp
    | cons a l =>
      simp only [List.cons_append, List.cons.injEq] at hsplit
      have hjc : j ≠ c := by
        intro e
        have := (List.nodup_append.mp hnd2).2.2
        exact this (show j ∈ a :: l by simp [← hsplit.1, e]) (by simp)
      rw [if_neg hjc] at hJ
      refine ⟨pre ++ b :: c :: (f.blocks.length + 1) :: l, post2 ++ f.blocks.length :: post,
        ?_, ?_⟩
      · rw [hJ, hsplit.2]
        simp
      · rw [hJ]
        simp
  have h1P : g1.func.regions[P]? = some (preJ ++ J :: postJ) := by
    rw [h1reg, List.getElem?_set_ne (Ne.symm hPF), List.getElem?_set_self hPlt, hPJ]
  obtain ⟨fB, hB⟩ := IfLowering_at ⟨g1.func, J, bi.length⟩ I rT rE T E bi
    (ai ++ tailOps (c :: rest) j [f.operations.length, f.operations.length + 1]) _ cv
    h1.wellFormed siteI' P preJ postJ h1P
  have hBops : fB.func.operations = g1.func.operations ++
      IfLowering.created cv (T.headD 0) E g1.func.blocks.length := hB.operations
  have hBlen : fB.func.blocks.length = g1.func.blocks.length + 1 := hB.blocksLength
  have hBJ : fB.func.blocks[J]? =
      some ⟨if j = c then 0 else blkJ.numArguments,
        bi ++ [g1.func.operations.length + IfLowering.numBranches E]⟩ := hB.condBlock
  have hBcont : fB.func.blocks[g1.func.blocks.length]? =
      some ⟨0, ai ++ tailOps (c :: rest) j [f.operations.length, f.operations.length + 1]⟩ :=
    hB.contBlock
  have hBthen : ∀ (i : Nat) (blk : Block), i ∈ T → g1.func.blocks[i]? = some blk →
      fB.func.blocks[i]? = some ⟨blk.numArguments, blk.operations ++
        tailOps T i [g1.func.operations.length]⟩ := hB.thenPart
  have hBelse : ∀ (i : Nat) (blk : Block), i ∈ E → g1.func.blocks[i]? = some blk →
      fB.func.blocks[i]? = some ⟨blk.numArguments, blk.operations ++
        tailOps E i [g1.func.operations.length + 1]⟩ := hB.elsePart
  have hBother : ∀ i : Nat, i ≠ J → i ∉ T → i ∉ E → i < g1.func.blocks.length →
      fB.func.blocks[i]? = g1.func.blocks[i]? := hB.otherBlocks
  have hBreg : fB.func.regions =
      ((g1.func.regions.set P
            (preJ ++ J :: T ++ E ++ g1.func.blocks.length :: postJ)).set rT []).set rE [] :=
    hB.regions
  rw [h1opslen] at hBJ hBthen hBelse
  rw [h1len] at hBlen hBcont hBother
  have h1reglen : g1.func.regions.length = f.regions.length := by
    rw [h1reg]
    simp
  have hlenI : (IfLowering.created cv (T.headD 0) E g1.func.blocks.length).length =
      IfLowering.numBranches E + 1 := by
    cases E <;> rfl
  refine ⟨g1, fB, h1.run, ⟨_, hJblk, ?_⟩, hB.run, ?_⟩
  · rw [List.getElem?_append_right (le_refl _)]
    simp
  constructor
  · -- operationsLength
    rw [hBops, List.length_append, h1opslen, hlenI]
  · -- opsOld
    intro i hi
    rw [hBops, List.getElem?_append_left (by omega), h1ops, List.getElem?_append_left hi]
  · -- opsFor
    intro i hi
    rw [hBops, List.getElem?_append_left (by omega), h1ops,
      List.getElem?_append_right (by omega)]
    congr 1
    omega
  · -- opsIf
    intro i hi
    rw [hBops, ← h1opslen, List.getElem?_append_right (by omega), h1len]
    congr 1
    omega
  · -- blocksLength
    omega
  · -- atInit
    rw [hBother b (Ne.symm hJb) hbT hbE (by omega), h1init]
  · -- atCond
    rw [hBother c (Ne.symm hJc) hcT hcE (by omega), h1cond]
  · -- atEnd
    rw [hBother _ (Ne.symm hJn) (fun h => absurd (hTlt _ h) (lt_irrefl _))
      (fun h => absurd (hElt _ h) (lt_irrefl _)) (by omega), h1end]
  · -- atFirstBody
    by_cases hjc : j = c
    · rw [if_pos hjc] at hJ hBJ
      rw [if_pos hjc, ← hJ, hBJ]
    · rw [if_neg hjc] at hJ
      have hjr : j ∈ rest := by
        rcases List.mem_cons.mp hj with h | h
        · exact absurd h hjc
        · exact h
      rw [if_neg hjc, hBother _ (by omega) (fun h => absurd (hTlt _ h) (by omega))
        (fun h => absurd (hElt _ h) (by omega)) (by omega), h1fb,
        tailOps_cons_self _ _ _ hcrest, if_neg (List.ne_nil_of_mem hjr), List.append_nil]
  · -- atIf
    intro hjc
    rw [if_neg hjc] at hJ hBJ
    rw [← hJ, hBJ]
  · -- atCont
    exact hBcont
  · -- atThen
    intro i blk hi hblk
    have h1i : g1.func.blocks[i]? = some blk := by
      rw [h1other i (fun e => hbT (e ▸ hi)) (hTd i hi) (hTlt i hi), hblk]
    exact hBthen i blk hi h1i
  · -- atElse
    intro i blk hi hblk
    have h1i : g1.func.blocks[i]? = some blk := by
      rw [h1other i (fun e => hbE (e ▸ hi)) (hEd i hi) (hElt i hi), hblk]
    exact hBelse i blk hi h1i
  · -- atRest
    intro i blk hi hij hblk
    have hilt := hbody_lt i (List.mem_cons_of_mem _ hi)
    have hiT : i ∉ T := fun h => hTd i h (List.mem_cons_of_mem _ hi)
    have hiE : i ∉ E := fun h => hEd i h (List.mem_cons_of_mem _ hi)
    have hiJ : i ≠ J := by
      rw [hJ]
      split
      · omega
      · exact hij
    rw [hBother i hiJ hiT hiE (by omega), h1rest i blk hi hblk]
  · -- atOther
    intro i hi hib hibody hiT hiE
    have hiJ : i ≠ J := by
      rw [hJ]
      split
      · omega
      · exact fun e => hibody (e ▸ hj)
    rw [hBother i hiJ hiT hiE (by omega), h1other i hib hibody hi]
  · -- regionsLength
    rw [hBreg]
    simp [h1reglen]
  · -- parentRegion
    rw [hBreg, List.getElem?_set_ne (Ne.symm hPE), List.getElem?_set_ne (Ne.symm hPT),
      List.getElem?_set_self (by omega), h1len, hPJ']
  · -- loopRegion
    rw [hBreg, List.getElem?_set_ne (Ne.symm hrFE), List.getElem?_set_ne (Ne.symm hrFT),
      List.getElem?_set_ne hPF, h1reg, List.getElem?_set_self (by simp; omega)]
  · -- thenRegion
    rw [hBreg, List.getElem?_set_ne (Ne.symm hTEr), List.getElem?_set_self (by simp; omega)]
  · -- elseRegion
    rw [hBreg, List.getElem?_set_self (by simp; omega)]
  · -- otherRegions
    intro r hrP hrF hrT hrE
    rw [hBreg, List.getElem?_set_ne (Ne.symm hrE), List.getElem?_set_ne (Ne.symm hrT),
      List.getElem?_set_ne (Ne.symm hrP), h1reg, List.getElem?_set_ne (Ne.symm hrF),
      List.getElem?_set_ne (Ne.symm hrP)]

/-! ## Renaming of fresh handles -/

theorem swapFresh_lt {base x : Nat} (first second : Nat) (h : x < base) :
    swapFresh base first second x = x := by
  unfold swapFresh
  rw [if_pos h]

theorem swapFresh_swapFresh (base first second x : Nat) :
    swapFresh base second first (swapFresh base first second x) = x := by
  unfold swapFresh
  split_ifs <;> omega

theorem swapFresh_injective (base first second : Nat) :
    Function.Injective (swapFresh base first second) :=
  Function.LeftInverse.injective (swapFresh_swapFresh base first second)

theorem map_swapFresh_of_lt {base : Nat} (first second : Nat) (l : List Nat)
    (h : ∀ x ∈ l, x < base) : l.map (swapFresh base first second) = l := by
  induction l with
  | nil => rfl
  | cons a l ih =>
    rw [List.map_cons, swapFresh_lt _ _ (h a (List.mem_cons_self _ _)),
      ih (fun x hx => h x (List.mem_cons_of_mem _ hx))]

theorem map_tailOps (σ : Nat → Nat) (l : List Nat) (i : Nat) (ops : List Nat) :
    (tailOps l i ops).map σ = tailOps l i (ops.map σ) := by
  unfold tailOps
  split <;> rfl

theorem value_rename_of_below {σ τ : Nat → Nat} {m n : Nat} (hσ : ∀ x, x < m → σ x = x)
    (hτ : ∀ x, x < n → τ x = x) (v : Value) (h : v.below m n = true) : v.rename σ τ = v := by
  cases v with
  | opResult op =>
    simp only [Value.below, decide_eq_true_eq] at h
    simp only [Value.rename, hσ op h]
  | blockArgument block index =>
    simp only [Value.below, decide_eq_true_eq] at h
    simp only [Value.rename, hτ block h]

theorem rename_of_belowOpt {σ τ : Nat → Nat} {m n : Nat} (hσ : ∀ x, x < m → σ x = x)
    (hτ : ∀ x, x < n → τ x = x) (v : Option Value) (h : belowOpt m n v = true) :
    v.map (Value.rename σ τ) = v := by
  cases v with
  | none => rfl
  | some v =>
    simp only [belowOpt] at h
    simp only [Option.map_some', value_rename_of_below hσ hτ v h]

theorem rename_of_all_belowOpt {σ τ : Nat → Nat} {m n : Nat} (hσ : ∀ x, x < m → σ x = x)
    (hτ : ∀ x, x < n → τ x = x) (l : List (Option Value)) (h : l.all (belowOpt m n) = true) :
    l.map (Option.map (Value.rename σ τ)) = l := by
  induction l with
  | nil => rfl
  | cons a l ih =>
    simp only [List.all_cons, Bool.and_eq_true] at h
    rw [List.map_cons, rename_of_belowOpt hσ hτ a h.1, ih h.2]

/-- An operation that refers to old handles only is left as it is by a renaming of the
fresh handles. -/
theorem operation_rename_of_below {σ τ : Nat → Nat} {m n : Nat} (hσ : ∀ x, x < m → σ x = x)
    (hτ : ∀ x, x < n → τ x = x) (o : Operation) (h : o.below m n = true) :
    o.rename σ τ = o := by
  cases o with
  | ForOp lb ub st region =>
    simp only [Operation.below, Bool.and_eq_true] at h
    simp only [Operation.rename, rename_of_belowOpt hσ hτ _ h.1.1,
      rename_of_belowOpt hσ hτ _ h.1.2, rename_of_belowOpt hσ hτ _ h.2]
  | IfOp c thenRegion elseRegion =>
    simp only [Operation.below] at h
    simp only [Operation.rename, rename_of_belowOpt hσ hτ _ h]
  | TerminatorOp => rfl
  | BranchOp dest args =>
    simp only [Operation.below, Bool.and_eq_true, decide_eq_true_eq] at h
    simp only [Operation.rename, hτ dest h.1, rename_of_all_belowOpt hσ hτ _ h.2]
  | CondBranchOp c t targs f fargs =>
    simp only [Operation.below, Bool.and_eq_true, decide_eq_true_eq] at h
    simp only [Operation.rename, rename_of_belowOpt hσ hτ _ h.1.1.1.1, hτ t h.1.1.1.2,
      rename_of_all_belowOpt hσ hτ _ h.1.1.2, hτ f h.1.2, rename_of_all_belowOpt hσ hτ _ h.2]
  | CmpIOp p lhs rhs =>
    simp only [Operation.below, Bool.and_eq_true] at h
    simp only [Operation.rename, rename_of_belowOpt hσ hτ _ h.1, rename_of_belowOpt hσ hτ _ h.2]
  | AddIOp lhs rhs =>
    simp only [Operation.below, Bool.and_eq_true] at h
    simp only [Operation.rename, rename_of_belowOpt hσ hτ _ h.1, rename_of_belowOpt hσ hτ _ h.2]
  | ConstantOp v => rfl
  | ReturnOp => rfl
  | Other name => rfl

/-- The operations created for a loop, renamed. -/
theorem forCreated_rename (σ τ : Nat → Nat) (lb ub : Value) (st : Option Value)
    (c first fb e first' fb' e' : Nat) (hc : τ c = c) (hlb : lb.rename σ τ = lb)
    (hub : ub.rename σ τ = ub) (hst : st.map (Value.rename σ τ) = st)
    (h1 : σ first = first') (h2 : σ (first + 3) = first' + 3) (h3 : τ fb = fb')
    (h4 : τ e = e') :
    (ForLowering.created lb ub st c first fb e).map (Operation.rename σ τ) =
      ForLowering.created lb ub st c first' fb' e' := by
  have hr1 : ∀ x, Value.rename σ τ (Value.opResult x) = Value.opResult (σ x) := fun _ => rfl
  have hr2 : ∀ x i, Value.rename σ τ (Value.blockArgument x i) =
      Value.blockArgument (τ x) i := fun _ _ => rfl
  simp only [ForLowering.created, List.map_cons, List.map_nil, Operation.rename,
    Option.map_some', hr1, hr2, hc, hlb, hub, hst, h1, h2, h3, h4]

/-- The operations created for a conditional, renamed. -/
theorem ifCreated_rename (σ τ : Nat → Nat) (cv : Option Value) (t : Nat)
    (E : List Nat) (cont cont' : Nat) (hcv : cv.map (Value.rename σ τ) = cv) (ht : τ t = t)
    (hE : ∀ e ∈ E, τ e = e) (hcont : τ cont = cont') :
    (IfLowering.created cv t E cont).map (Operation.rename σ τ) =
      IfLowering.created cv t E cont' := by
  cases E with
  | nil => simp [IfLowering.created, Operation.rename, hcv, ht, hcont]
  | cons e l =>
    simp [IfLowering.created, Operation.rename, hcv, ht, hcont, hE e (List.mem_cons_self _ _)]

/-- The two orders of lowering a loop and a conditional of its body give the same
function up to the choice of the fresh handles. -/
theorem loopConditional_sameUpTo {f fA fB : FuncOp} {b F rF c : Nat} {rest bf af : List Nat}
    {initB condB : Block} {lb ub : Value} {st : Option Value} {j I rT rE : Nat}
    {T E bi ai : List Nat} {blkJ : Block} {cv : Option Value} {P : Nat}
    {pre post pre2 post2 : List Nat} (hwf : f.WellFormed)
    (siteF : ForSite ⟨f, b, bf.length⟩ F rF c rest bf af initB condB)
    (siteI : IfSite ⟨f, j, bi.length⟩ I rT rE T E bi ai blkJ)
    (hP : f.regions[P]? = some (pre ++ b :: post))
    (hsplit : c :: rest = pre2 ++ j :: post2)
    (hvalid : f.handlesValid = true)
    (hlb : lb.below f.operations.length f.blocks.length = true)
    (hub : ub.below f.operations.length f.blocks.length = true)
    (hst : belowOpt f.operations.length f.blocks.length st = true)
    (hcv : belowOpt f.operations.length f.blocks.length cv = true)
    (hA : LoopConditionalLowered f fA b rF c rest bf af initB condB lb ub st j rT rE T E bi
      ai blkJ cv P pre post pre2 post2 (f.blocks.length + 1) (f.blocks.length + 2)
      f.blocks.length (f.operations.length + (IfLowering.numBranches E + 1))
      f.operations.length)
    (hB : LoopConditionalLowered f fB b rF c rest bf af initB condB lb ub st j rT rE T E bi
      ai blkJ cv P pre post pre2 post2 f.blocks.length (f.blocks.length + 1)
      (f.blocks.length + 2) f.operations.length (f.operations.length + 5)) :
    fA.SameUpTo (swapFresh f.operations.length (IfLowering.numBranches E + 1) 5)
      (swapFresh f.blocks.length 1 2) fB := by
  have hK : 1 ≤ IfLowering.numBranches E ∧ IfLowering.numBranches E ≤ 2 := by
    cases E <;> simp [IfLowering.numBranches]
  have hBb : f.blocks[b]? = some initB := siteF.initBlock
  have hBc : f.blocks[c]? = some condB := siteF.condBlock
  have hBj : f.blocks[j]? = some blkJ := siteI.condBlock
  have hRF : f.regions[rF]? = some (pre2 ++ j :: post2) := by
    rw [← hsplit]
    exact siteF.body
  have hRT : f.regions[rT]? = some T := siteI.thenBody
  have hRE : f.regions[rE]? = some E := siteI.elseBody
  -- the renamings at the handles in use
  have hσlt : ∀ x, x < f.operations.length →
      swapFresh f.operations.length (IfLowering.numBranches E + 1) 5 x = x :=
    fun x hx => swapFresh_lt _ _ hx
  have hτlt : ∀ x, x < f.blocks.length → swapFresh f.blocks.length 1 2 x = x :=
    fun x hx => swapFresh_lt _ _ hx
  have hσI : ∀ i, i < IfLowering.numBranches E + 1 →
      swapFresh f.operations.length (IfLowering.numBranches E + 1) 5
        (f.operations.length + i) = f.operations.length + 5 + i := by
    intro i hi
    unfold swapFresh
    split_ifs <;> omega
  have hσF : ∀ i, i < 5 →
      swapFresh f.operations.length (IfLowering.numBranches E + 1) 5
        (f.operations.length + (IfLowering.numBranches E + 1) + i) =
        f.operations.length + i := by
    intro i hi
    unfold swapFresh
    split_ifs <;> omega
  have hσI0 := hσI 0 (by omega)
  have hσI1 := hσI 1 (by omega)
  have hσIk := hσI (IfLowering.numBranches E) (by omega)
  have hσF0 := hσF 0 (by omega)
  have hσF1 := hσF 1 (by omega)
  have hσF2 := hσF 2 (by omega)
  have hσF3 := hσF 3 (by omega)
  have hσF4 := hσF 4 (by omega)
  simp only [Nat.add_zero] at hσI0 hσF0
  have hτ0 : swapFresh f.blocks.length 1 2 f.blocks.length = f.blocks.length + 2 := by
    unfold swapFresh
    split_ifs <;> omega
  have hτ1 : swapFresh f.blocks.length 1 2 (f.blocks.length + 1) = f.blocks.length := by
    unfold swapFresh
    split_ifs <;> omega
  have hτ2 : swapFresh f.blocks.length 1 2 (f.blocks.length + 2) = f.blocks.length + 1 := by
    unfold swapFresh
    split_ifs <;> omega
  -- old handles are below the bounds
  have hops_lt : ∀ (i : Nat) (blk : Block), f.blocks[i]? = some blk →
      ∀ x ∈ blk.operations, x < f.operations.length := by
    intro i blk hblk x hx
    exact hwf.opsValid x (List.mem_flatMap.mpr ⟨blk, List.getElem?_mem hblk, hx⟩)
  have hreg_lt : ∀ (r : Nat) (l : List Nat), f.regions[r]? = some l →
      ∀ x ∈ l, x < f.blocks.length :=
    fun r l hr x hx => hwf.blocksValid l (List.getElem?_mem hr) x hx
  have hmapB : ∀ (i : Nat) (blk : Block), f.blocks[i]? = some blk →
      blk.operations.map (swapFresh f.operations.length (IfLowering.numBranches E + 1) 5) =
        blk.operations :=
    fun i blk hblk => map_swapFresh_of_lt _ _ _ (hops_lt i blk hblk)
  have hmapR : ∀ (r : Nat) (l : List Nat), f.regions[r]? = some l →
      l.map (swapFresh f.blocks.length 1 2) = l :=
    fun r l hr => map_swapFresh_of_lt _ _ _ (hreg_lt r l hr)
  have hbf : bf.map (swapFresh f.operations.length (IfLowering.numBranches E + 1) 5) = bf :=
    map_swapFresh_of_lt _ _ _ fun x hx => hops_lt b initB hBb x (by
      rw [siteF.initOps]
      simp [hx])
  have haf : af.map (swapFresh f.operations.length (IfLowering.numBranches E + 1) 5) = af :=
    map_swapFresh_of_lt _ _ _ fun x hx => hops_lt b initB hBb x (by
      rw [siteF.initOps]
      simp [hx])
  have hbi : bi.map (swapFresh f.operations.length (IfLowering.numBranches E + 1) 5) = bi :=
    map_swapFresh_of_lt _ _ _ fun x hx => hops_lt j blkJ hBj x (by
      rw [siteI.condOps]
      simp [hx])
  have hai : ai.map (swapFresh f.operations.length (IfLowering.numBranches E + 1) 5) = ai :=
    map_swapFresh_of_lt _ _ _ fun x hx => hops_lt j blkJ hBj x (by
      rw [siteI.condOps]
      simp [hx])
  have hcn : c < f.blocks.length := (List.getElem?_eq_some.mp hBc).1
  have hbn : b < f.blocks.length := (List.getElem?_eq_some.mp hBb).1
  have hjn : j < f.blocks.length := (List.getElem?_eq_some.mp hBj).1
  have ht : T.headD 0 < f.blocks.length := by
    cases hT : T with
    | nil => exact absurd hT siteI.thenNonempty
    | cons t tr => exact siteI.thenValid t (hT ▸ List.mem_cons_self _ _)
  have hrename : ∀ o ∈ f.operations,
      o.rename (swapFresh f.operations.length (IfLowering.numBranches E + 1) 5)
        (swapFresh f.blocks.length 1 2) = o := by
    intro o ho
    apply operation_rename_of_below hσlt hτlt
    unfold FuncOp.handlesValid at hvalid
    exact List.all_eq_true.mp hvalid o ho
  have hcreatedI :
      (IfLowering.created cv (T.headD 0) E f.blocks.length).map
          (Operation.rename (swapFresh f.operations.length (IfLowering.numBranches E + 1) 5)
            (swapFresh f.blocks.length 1 2)) =
        IfLowering.created cv (T.headD 0) E (f.blocks.length + 2) :=
    ifCreated_rename _ _ cv _ E _ _ (rename_of_belowOpt hσlt hτlt cv hcv)
      (hτlt _ ht) (fun e he => hτlt e (siteI.elseValid e he)) hτ0
  have hcreatedF :
      (ForLowering.created lb ub st c
            (f.operations.length + (IfLowering.numBranches E + 1)) (f.blocks.length + 2)
            (f.blocks.length + 1)).map
          (Operation.rename (swapFresh f.operations.length (IfLowering.numBranches E + 1) 5)
            (swapFresh f.blocks.length 1 2)) =
        ForLowering.created lb ub st c f.operations.length (f.blocks.length + 1)
          f.blocks.length :=
    forCreated_rename _ _ lb ub st c _ _ _ _ _ _ (hτlt c hcn)
      (value_rename_of_below hσlt hτlt lb hlb) (value_rename_of_below hσlt hτlt ub hub)
      (rename_of_belowOpt hσlt hτlt st hst) hσF0 hσF3 hτ2 hτ1
  refine ⟨swapFresh_injective _ _ _, swapFresh_injective _ _ _, ?_, ?_, ?_, ?_, ?_⟩
  · rw [hB.operationsLength, hA.operationsLength]
  · -- operations
    intro x o hx
    have hxlt : x < f.operations.length + 5 + (IfLowering.numBranches E + 1) := by
      rw [← hA.operationsLength]
      exact (List.getElem?_eq_some.mp hx).1
    by_cases h1 : x < f.operations.length
    · rw [hA.opsOld x h1] at hx
      rw [hσlt x h1, hB.opsOld x h1, hx, hrename o (List.getElem?_mem hx)]
    · by_cases h2 : x < f.operations.length + (IfLowering.numBranches E + 1)
      · obtain ⟨i, rfl⟩ : ∃ i, x = f.operations.length + i := ⟨x - f.operations.length, by omega⟩
        have hi : i < IfLowering.numBranches E + 1 := by omega
        rw [hA.opsIf i hi] at hx
        rw [hσI i hi, hB.opsIf i hi, ← hcreatedI, List.getElem?_map, hx]
        rfl
      · obtain ⟨i, rfl⟩ :
            ∃ i, x = f.operations.length + (IfLowering.numBranches E + 1) + i :=
          ⟨x - (f.operations.length + (IfLowering.numBranches E + 1)), by omega⟩
        have hi : i < 5 := by omega
        rw [hA.opsFor i hi] at hx
        rw [hσF i hi, hB.opsFor i hi, ← hcreatedF, List.getElem?_map, hx]
        rfl
  · rw [hB.blocksLength, hA.blocksLength]
  · -- blocks
    intro i blk hi
    have hilt : i < f.blocks.length + 3 := by
      rw [← hA.blocksLength]
      exact (List.getElem?_eq_some.mp hi).1
    by_cases h0 : i = f.blocks.length
    · subst h0
      rw [hA.atCont] at hi
      obtain rfl := Option.some.inj hi
      rw [hτ0, hB.atCont]
      simp only [List.map_append, map_tailOps, List.map_cons, List.map_nil, hai, hσF0, hσF1]
    by_cases h1 : i = f.blocks.length + 1
    · subst h1
      rw [hA.atEnd] at hi
      obtain rfl := Option.some.inj hi
      rw [hτ1, hB.atEnd, haf]
    by_cases h2 : i = f.blocks.length + 2
    · subst h2
      rw [hA.atFirstBody] at hi
      obtain rfl := Option.some.inj hi
      rw [hτ2, hB.atFirstBody]
      by_cases hjc : j = c
      · simp only [if_pos hjc, List.map_append, List.map_cons, List.map_nil, hbi, hσIk]
      · simp only [if_neg hjc, hmapB c condB hBc]
    have hin : i < f.blocks.length := by omega
    rw [hτlt i hin]
    by_cases hib : i = b
    · subst hib
      rw [hA.atInit] at hi
      obtain rfl := Option.some.inj hi
      rw [hB.atInit]
      simp only [List.map_append, List.map_cons, List.map_nil, hbf, hσF2]
    by_cases hic : i = c
    · subst hic
      rw [hA.atCond] at hi
      obtain rfl := Option.some.inj hi
      rw [hB.atCond]
      simp only [List.map_cons, List.map_nil, hσF3, hσF4]
    by_cases hij : i = j
    · subst hij
      rw [hA.atIf hic] at hi
      obtain rfl := Option.some.inj hi
      rw [hB.atIf hic]
      simp only [List.map_append, List.map_cons, List.map_nil, hbi, hσIk]
    obtain ⟨blk0, hblk0⟩ : ∃ blk0, f.blocks[i]? = some blk0 :=
      ⟨_, List.getElem?_eq_getElem hin⟩
    by_cases hiT : i ∈ T
    · rw [hA.atThen i blk0 hiT hblk0] at hi
      obtain rfl := Option.some.inj hi
      rw [hB.atThen i blk0 hiT hblk0]
      simp only [List.map_append, map_tailOps, List.map_cons, List.map_nil, hmapB i blk0 hblk0,
        hσI0]
    by_cases hiE : i ∈ E
    · rw [hA.atElse i blk0 hiE hblk0] at hi
      obtain rfl := Option.some.inj hi
      rw [hB.atElse i blk0 hiE hblk0]
      simp only [List.map_append, map_tailOps, List.map_cons, List.map_nil, hmapB i blk0 hblk0,
        hσI1]
    by_cases hir : i ∈ rest
    · rw [hA.atRest i blk0 hir hij hblk0] at hi
      obtain rfl := Option.some.inj hi
      rw [hB.atRest i blk0 hir hij hblk0]
      simp only [List.map_append, map_tailOps, List.map_cons, List.map_nil, hmapB i blk0 hblk0,
        hσF0, hσF1]
    · have hibody : i ∉ c :: rest := by
        simp only [List.mem_cons, not_or]
        exact ⟨hic, hir⟩
      rw [hA.atOther i hin hib hibody hiT hiE, hblk0] at hi
      obtain rfl := Option.some.inj hi
      rw [hB.atOther i hin hib hibody hiT hiE, hblk0, hmapB i _ hblk0]
  · -- regions
    apply List.ext_getElem?
    intro r
    rw [List.getElem?_map]
    by_cases hrP : r = P
    · subst hrP
      rw [hA.parentRegion, hB.parentRegion]
      have hpre : pre.map (swapFresh f.blocks.length 1 2) = pre :=
        map_swapFresh_of_lt _ _ _ fun x hx => hreg_lt r _ hP x (by simp [hx])
      have hpost : post.map (swapFresh f.blocks.length 1 2) = post :=
        map_swapFresh_of_lt _ _ _ fun x hx => hreg_lt r _ hP x (by simp [hx])
      have hpre2 : pre2.map (swapFresh f.blocks.length 1 2) = pre2 :=
        map_swapFresh_of_lt _ _ _ fun x hx => hreg_lt rF _ hRF x (by simp [hx])
      have hpost2 : post2.map (swapFresh f.blocks.length 1 2) = post2 :=
        map_swapFresh_of_lt _ _ _ fun x hx => hreg_lt rF _ hRF x (by simp [hx])
      have hT := hmapR rT T hRT
      have hE := hmapR rE E hRE
      cases pre2 with
      | nil =>
        simp only [List.nil_append, List.cons_append, List.tail_cons, Option.map_some',
          List.map_append, List.map_cons, hpre, hpost, hpost2, hT, hE, hτ0, hτ1, hτ2,
          hτlt b hbn, hτlt c hcn]
      | cons a l =>
        simp only [List.map_cons, List.cons.injEq] at hpre2
        simp only [List.cons_append, List.tail_cons, Option.map_some',
          List.map_append, List.map_cons, hpre, hpost, hpre2.2, hpost2, hT, hE, hτ0, hτ1, hτ2,
          hτlt b hbn, hτlt c hcn, hτlt j hjn]
    by_cases hrF : r = rF
    · subst hrF
      rw [hA.loopRegion, hB.loopRegion]
      rfl
    by_cases hrT : r = rT
    · subst hrT
      rw [hA.thenRegion, hB.thenRegion]
      rfl
    by_cases hrE : r = rE
    · subst hrE
      rw [hA.elseRegion, hB.elseRegion]
      rfl
    rw [hA.otherRegions r hrP hrF hrT hrE, hB.otherRegions r hrP hrF hrT hrE]
    cases hr : f.regions[r]? with
    | none => rfl
    | some l => rw [Option.map_some', hmapR r l hr]

/-! ## A conditional whose "then" region holds a loop -/

/-- The basic facts about a conditional whose "then" region holds a loop. -/
theorem conditionalNest_facts {f : FuncOp} {b I rT rE : Nat} {T E bi ai : List Nat}
    {blkB : Block} {j F rF c : Nat} {rest bf af : List Nat} {blkJ condB : Block} {P : Nat}
    {pre post : List Nat} (hwf : f.WellFormed)
    (siteI : IfSite ⟨f, b, bi.length⟩ I rT rE T E bi ai blkB)
    (siteF : ForSite ⟨f, j, bf.length⟩ F rF c rest bf af blkJ condB)
    (hj : j ∈ T) (hbF : b ∉ c :: rest)
    (hP : f.regions[P]? = some (pre ++ b :: post)) :
    (b < f.blocks.length ∧ j < f.blocks.length ∧ c < f.blocks.length) ∧
    (∀ x ∈ c :: rest, x < f.blocks.length) ∧ (∀ x ∈ T, x < f.blocks.length) ∧
    (∀ x ∈ E, x < f.blocks.length) ∧
    j ≠ b ∧ (c :: rest).Nodup ∧ T.Nodup ∧
    (∀ x ∈ T, x ∉ c :: rest) ∧ (∀ x ∈ E, x ∉ c :: rest) ∧ (∀ x ∈ T, x ∉ E) ∧
    rF ≠ rT ∧ rF ≠ rE ∧ P ≠ rF ∧ P ≠ rT ∧ P ≠ rE ∧ rT ≠ rE := by
  have hBb : f.blocks[b]? = some blkB := siteI.condBlock
  have hBc : f.blocks[c]? = some condB := siteF.condBlock
  have hBj : f.blocks[j]? = some blkJ := siteF.initBlock
  have hRF : f.regions[rF]? = some (c :: rest) := siteF.body
  have hRT : f.regions[rT]? = some T := siteI.thenBody
  have hRE : f.regions[rE]? = some E := siteI.elseBody
  have hbT : b ∉ T := siteI.condOutsideThen
  have hbE : b ∉ E := siteI.condOutsideElse
  have hjout : j ∉ c :: rest := siteF.initOutside
  obtain ⟨lb0, ub0, st0, hF⟩ := siteF.isFor
  have hF' : f.operations[F]? = some (Operation.ForOp lb0 ub0 st0 rF) := hF
  obtain ⟨cv0, hI⟩ := siteI.isIf
  have hI' : f.operations[I]? = some (Operation.IfOp cv0 rT rE) := hI
  have hFI : F ≠ I := by
    intro e
    rw [e, hI'] at hF'
    cases hF'
  have hown := nodup_flatMap_disjoint Operation.getRegions f.operations hwf.regionsOnce F I _ _
    hF' hI' hFI rF (by simp [Operation.getRegions])
  simp only [Operation.getRegions, List.mem_cons, List.mem_singleton, List.not_mem_nil,
    or_false, not_or] at hown
  have hbP : b ∈ pre ++ b :: post := by simp
  have hPF : P ≠ rF := by
    intro e
    rw [e, hRF] at hP
    exact hbF (Option.some.inj hP ▸ hbP)
  have hPT : P ≠ rT := by
    intro e
    rw [e, hRT] at hP
    exact hbT (Option.some.inj hP ▸ hbP)
  have hPE : P ≠ rE := by
    intro e
    rw [e, hRE] at hP
    exact hbE (Option.some.inj hP ▸ hbP)
  have hcn := (List.getElem?_eq_some.mp hBc).1
  refine ⟨⟨(List.getElem?_eq_some.mp hBb).1, (List.getElem?_eq_some.mp hBj).1, hcn⟩, ?_,
    siteI.thenValid, siteI.elseValid, fun e => hbT (e ▸ hj), region_nodup f hwf rF _ hRF,
    region_nodup f hwf rT _ hRT,
    regions_disjoint f hwf rT rF _ _ hRT hRF (Ne.symm hown.1),
    regions_disjoint f hwf rE rF _ _ hRE hRF (Ne.symm hown.2),
    regions_disjoint f hwf rT rE _ _ hRT hRE siteI.regionsDistinct,
    hown.1, hown.2, hPF, hPT, hPE, siteI.regionsDistinct⟩
  intro x hx
  rcases List.mem_cons.mp hx with h | h
  · rw [h]
    exact hcn
  · exact siteF.restValid x h

/-- Inner first: `ForLowering` at the loop of the "then" region, then `IfLowering` at the
conditional.  The two blocks of the loop are allocated before the continuation block of
the conditional, and the operations of the loop before those of the conditional. -/
theorem conditionalLoop_inner_first {f : FuncOp} {b I rT rE : Nat} {E bi ai : List Nat}
    {blkB : Block} {j F rF c : Nat} {rest bf af : List Nat} {blkJ condB : Block} {P : Nat}
    {pre post pre2 post2 : List Nat} (hwf : f.WellFormed)
    (siteI : IfSite ⟨f, b, bi.length⟩ I rT rE (pre2 ++ j :: post2) E bi ai blkB)
    (siteF : ForSite ⟨f, j, bf.length⟩ F rF c rest bf af blkJ condB)
    (hbF : b ∉ c :: rest)
    (hP : f.regions[P]? = some (pre ++ b :: post))
    (lb ub : Value) (st cv : Option Value) :
    ∃ f1 fA : PatternRewriter,
      ForLowering.matchAndRewrite F [some lb, some ub, st] ⟨f, j, bf.length⟩ =
        some (PatternMatchResult.matchSuccess, f1) ∧
      (∃ blk : Block, f1.func.blocks[b]? = some blk ∧
        blk.operations[bi.length]? = some I) ∧
      IfLowering.matchAndRewrite I [cv] ⟨f1.func, b, bi.length⟩ =
        some (PatternMatchResult.matchSuccess, fA) ∧
      ConditionalLoopLowered f fA.func b rT rE (pre2 ++ j :: post2) E bi ai blkB cv j rF c
        rest bf af blkJ condB lb ub st P pre post pre2 post2 f.blocks.length
        (f.blocks.length + 1) (f.blocks.length + 2) f.operations.length
        (f.operations.length + 5) := by
  have hj : j ∈ pre2 ++ j :: post2 := by simp
  obtain ⟨⟨hbn, hjn, hcn⟩, hbody_lt, hTlt, hElt, hjb, hnd, hndT, hTd, hEd, hTE, hrFT, hrFE,
    hPF, hPT, hPE, hTEr⟩ := conditionalNest_facts hwf siteI siteF hj hbF hP
  have hBb : f.blocks[b]? = some blkB := siteI.condBlock
  have hBc : f.blocks[c]? = some condB := siteF.condBlock
  have hBj : f.blocks[j]? = some blkJ := siteF.initBlock
  have hRF : f.regions[rF]? = some (c :: rest) := siteF.body
  have hRT : f.regions[rT]? = some (pre2 ++ j :: post2) := siteI.thenBody
  have hRE : f.regions[rE]? = some E := siteI.elseBody
  have hbT : b ∉ pre2 ++ j :: post2 := siteI.condOutsideThen
  have hbE : b ∉ E := siteI.condOutsideElse
  have hjout : j ∉ c :: rest := siteF.initOutside
  have hjE : j ∉ E := hTE j hj
  have hcrest : c ∉ rest := (List.nodup_cons.mp hnd).1
  have hjpost : j ∉ post2 := by
    have := (List.nodup_append.mp hndT).2.1
    exact (List.nodup_cons.mp this).1
  have hpost_sub : ∀ x ∈ post2, x ∈ pre2 ++ j :: post2 := by
    intro x hx
    simp [hx]
  have hPlt : P < f.regions.length := (List.getElem?_eq_some.mp hP).1
  have hrFlt : rF < f.regions.length := (List.getElem?_eq_some.mp hRF).1
  have hrTlt : rT < f.regions.length := (List.getElem?_eq_some.mp hRT).1
  have hrElt : rE < f.regions.length := (List.getElem?_eq_some.mp hRE).1
  -- the loop first
  obtain ⟨f1, h1⟩ := ForLowering_at ⟨f, j, bf.length⟩ F rF c rest bf af blkJ condB lb ub st
    hwf siteF rT pre2 post2 hRT
  have h1ops : f1.func.operations = f.operations ++
      ForLowering.created lb ub st c f.operations.length (f.blocks.length + 1)
        f.blocks.length := h1.operations
  have h1opslen : f1.func.operations.length = f.operations.length + 5 := by
    rw [h1ops, List.length_append]
    rfl
  have h1len : f1.func.blocks.length = f.blocks.length + 2 := h1.blocksLength
  have h1init : f1.func.blocks[j]? =
      some ⟨blkJ.numArguments, bf ++ [f.operations.length + 2]⟩ := h1.initBlock
  have h1cond : f1.func.blocks[c]? = some ⟨condB.numArguments,
      [f.operations.length + 3, f.operations.length + 4]⟩ := h1.condBlock
  have h1end : f1.func.blocks[f.blocks.length]? = some ⟨0, af⟩ := h1.endBlock
  have h1fb : f1.func.blocks[f.blocks.length + 1]? =
      some ⟨0, condB.operations ++ tailOps (c :: rest) c
        [f.operations.length, f.operations.length + 1]⟩ := h1.firstBody
  have h1rest : ∀ (i : Nat) (blk : Block), i ∈ rest → f.blocks[i]? = some blk →
      f1.func.blocks[i]? = some ⟨blk.numArguments, blk.operations ++ tailOps (c :: rest) i
        [f.operations.length, f.operations.length + 1]⟩ := h1.restBlocks
  have h1other : ∀ i : Nat, i ≠ j → i ∉ c :: rest → i < f.blocks.length →
      f1.func.blocks[i]? = f.blocks[i]? := h1.otherBlocks
  have h1reg : f1.func.regions =
      (f.regions.set rT
          (pre2 ++ j :: c :: (f.blocks.length + 1) :: rest ++ f.blocks.length :: post2)).set rF
        [] := h1.regions
  have h1RT : f1.func.regions[rT]? =
      some (pre2 ++ j :: c :: (f.blocks.length + 1) :: rest ++ f.blocks.length :: post2) := by
    rw [h1reg, List.getElem?_set_ne hrFT, List.getElem?_set_self hrTlt]
  have h1RE : f1.func.regions[rE]? = some E := by
    rw [h1reg, List.getElem?_set_ne hrFE, List.getElem?_set_ne hTEr, hRE]
  have h1P : f1.func.regions[P]? = some (pre ++ b :: post) := by
    rw [h1reg, List.getElem?_set_ne (Ne.symm hPF), List.getElem?_set_ne (Ne.symm hPT), hP]
  have hmem' : ∀ x,
      x ∈ pre2 ++ j :: c :: (f.blocks.length + 1) :: rest ++ f.blocks.length :: post2 ↔
        x ∈ pre2 ++ j :: post2 ∨ x ∈ c :: rest ∨ x = f.blocks.length ∨
          x = f.blocks.length + 1 := by
    intro x
    simp only [List.mem_append, List.mem_cons]
    constructor
    · rintro ((h | h | h | h | h) | h | h) <;> simp [h]
    · rintro ((h | h | h) | (h | h) | h | h) <;> simp [h]
  have hhead :
      (pre2 ++ j :: c :: (f.blocks.length + 1) :: rest ++ f.blocks.length :: post2).headD 0 =
        (pre2 ++ j :: post2).headD 0 := by
    cases pre2 <;> rfl
  have hnpost : f.blocks.length ∉ post2 := by
    intro h
    exact absurd (hTlt _ (hpost_sub _ h)) (lt_irrefl _)
  have hlast' : ∀ (x : Nat) (ops : List Nat), x ≠ f.blocks.length →
      tailOps (pre2 ++ j :: c :: (f.blocks.length + 1) :: rest ++ f.blocks.length :: post2) x
        ops = tailOps post2 x ops := by
    intro x ops hx
    have : (pre2 ++ j :: c :: (f.blocks.length + 1) :: rest ++
        f.blocks.length :: post2).getLast? = (f.blocks.length :: post2).getLast? := by
      rw [List.getLast?_append_of_ne_nil _ (List.cons_ne_nil _ _)]
    rw [tailOps_congr x ops this, tailOps_cons_ne _ _ _ _ hx]
  have hlast : ∀ (x : Nat) (ops : List Nat), x ≠ j →
      tailOps (pre2 ++ j :: post2) x ops = tailOps post2 x ops := by
    intro x ops hx
    have : (pre2 ++ j :: post2).getLast? = (j :: post2).getLast? := by
      rw [List.getLast?_append_of_ne_nil _ (List.cons_ne_nil _ _)]
    rw [tailOps_congr x ops this, tailOps_cons_ne _ _ _ _ hx]
  have hlastn : ∀ ops : List Nat,
      tailOps (pre2 ++ j :: c :: (f.blocks.length + 1) :: rest ++ f.blocks.length :: post2)
        f.blocks.length ops = tailOps (pre2 ++ j :: post2) j ops := by
    intro ops
    have h1 : (pre2 ++ j :: c :: (f.blocks.length + 1) :: rest ++
        f.blocks.length :: post2).getLast? = (f.blocks.length :: post2).getLast? := by
      rw [List.getLast?_append_of_ne_nil _ (List.cons_ne_nil _ _)]
    have h2 : (pre2 ++ j :: post2).getLast? = (j :: post2).getLast? := by
      rw [List.getLast?_append_of_ne_nil _ (List.cons_ne_nil _ _)]
    rw [tailOps_congr _ ops h1, tailOps_congr _ ops h2, tailOps_cons_self _ _ _ hnpost,
      tailOps_cons_self _ _ _ hjpost]
  -- the conditional after it
  have h1b : f1.func.blocks[b]? = some blkB := by
    rw [h1other b (Ne.symm hjb) hbF hbn]
    exact hBb
  obtain ⟨cv0, hI⟩ := siteI.isIf
  have hI' : f.operations[I]? = some (Operation.IfOp cv0 rT rE) := hI
  have hI1 : f1.func.operations[I]? = some (Operation.IfOp cv0 rT rE) := by
    rw [h1ops, List.getElem?_append_left (List.getElem?_eq_some.mp hI').1]
    exact hI'
  have hbT' : b ∉ pre2 ++ j :: c :: (f.blocks.length + 1) :: rest ++
      f.blocks.length :: post2 := by
    rw [hmem']
    intro h
    rcases h with h | h | h | h
    · exact hbT h
    · exact hbF h
    · omega
    · omega
  have siteI' := ifSite_of_outside f1.func h1.wellFormed b blkB I bi ai cv0 rT rE _ E h1b
    siteI.condOps hI1 h1RT h1RE (by simp) hbT' hbE
  obtain ⟨fA, hA⟩ := IfLowering_at ⟨f1.func, b, bi.length⟩ I rT rE _ E bi ai blkB cv
    h1.wellFormed siteI' P pre post h1P
  have hAops : fA.func.operations = f1.func.operations ++
      IfLowering.created cv
        ((pre2 ++ j :: c :: (f.blocks.length + 1) :: rest ++ f.blocks.length :: post2).headD 0)
        E f1.func.blocks.length := hA.operations
  have hAlen : fA.func.blocks.length = f1.func.blocks.length + 1 := hA.blocksLength
  have hAb : fA.func.blocks[b]? =
      some ⟨blkB.numArguments, bi ++ [f1.func.operations.length + IfLowering.numBranches E]⟩ :=
    hA.condBlock
  have hAcont : fA.func.blocks[f1.func.blocks.length]? = some ⟨0, ai⟩ := hA.contBlock
  have hAthen : ∀ (i : Nat) (blk : Block),
      i ∈ pre2 ++ j :: c :: (f.blocks.length + 1) :: rest ++ f.blocks.length :: post2 →
      f1.func.blocks[i]? = some blk →
      fA.func.blocks[i]? = some ⟨blk.numArguments, blk.operations ++
        tailOps (pre2 ++ j :: c :: (f.blocks.length + 1) :: rest ++ f.blocks.length :: post2)
          i [f1.func.operations.length]⟩ := hA.thenPart
  have hAelse : ∀ (i : Nat) (blk : Block), i ∈ E → f1.func.blocks[i]? = some blk →
      fA.func.blocks[i]? = some ⟨blk.numArguments, blk.operations ++
        tailOps E i [f1.func.operations.length + 1]⟩ := hA.elsePart
  have hAother : ∀ i : Nat, i ≠ b →
      i ∉ pre2 ++ j :: c :: (f.blocks.length + 1) :: rest ++ f.blocks.length :: post2 →
      i ∉ E → i < f1.func.blocks.length → fA.func.blocks[i]? = f1.func.blocks[i]? :=
    hA.otherBlocks
  have hAreg : fA.func.regions =
      ((f1.func.regions.set P
            (pre ++ b ::
                (pre2 ++ j :: c :: (f.blocks.length + 1) :: rest ++ f.blocks.length :: post2) ++
              E ++ f1.func.blocks.length :: post)).set rT []).set rE [] := hA.regions
  rw [h1opslen] at hAb hAthen hAelse
  rw [h1len] at hAlen hAcont hAother
  rw [hhead] at hAops
  have h1reglen : f1.func.regions.length = f.regions.length := by
    rw [h1reg]
    simp
  have hlenI : (IfLowering.created cv ((pre2 ++ j :: post2).headD 0) E
      f1.func.blocks.length).length = IfLowering.numBranches E + 1 := by
    cases E <;> rfl
  refine ⟨f1, fA, h1.run, ⟨blkB, h1b, ?_⟩, hA.run, ?_⟩
  · rw [siteI.condOps, List.getElem?_append_right (le_refl _)]
    simp
  constructor
  · -- operationsLength
    rw [hAops, List.length_append, h1opslen, hlenI]
  · -- opsOld
    intro i hi
    rw [hAops, List.getElem?_append_left (by omega), h1ops, List.getElem?_append_left hi]
  · -- opsFor
    intro i hi
    rw [hAops, List.getElem?_append_left (by omega), h1ops,
      List.getElem?_append_right (by omega)]
    congr 1
    omega
  · -- opsIf
    intro i hi
    rw [hAops, ← h1opslen, List.getElem?_append_right (by omega), h1len]
    congr 1
    omega
  · -- blocksLength
    omega
  · exact hAb
  · exact hAcont
  · -- atInit
    rw [hAthen j _ ((hmem' j).mpr (Or.inl hj)) h1init, hlast' _ _ (by omega),
      tailOps_of_not_mem _ _ _ hjpost, List.append_nil]
  · -- atCond
    have hcpost : c ∉ post2 := fun h => hTd c (hpost_sub _ h) (List.mem_cons_self _ _)
    rw [hAthen c _ ((hmem' c).mpr (Or.inr (Or.inl (List.mem_cons_self _ _)))) h1cond,
      hlast' _ _ (by omega), tailOps_of_not_mem _ _ _ hcpost, List.append_nil]
  · -- atEnd
    rw [hAthen _ _ ((hmem' _).mpr (Or.inr (Or.inr (Or.inl rfl)))) h1end, hlastn]
  · -- atFirstBody
    have hpost : f.blocks.length + 1 ∉ post2 := by
      intro h
      exact absurd (hTlt _ (hpost_sub _ h)) (by omega)
    rw [hAthen _ _ ((hmem' _).mpr (Or.inr (Or.inr (Or.inr rfl)))) h1fb, hlast' _ _ (by omega),
      tailOps_of_not_mem _ _ _ hpost, List.append_nil]
  · -- atRest
    intro i blk hi hblk
    have hilt := hbody_lt i (List.mem_cons_of_mem _ hi)
    have hipost : i ∉ post2 := fun h => hTd i (hpost_sub _ h) (List.mem_cons_of_mem _ hi)
    rw [hAthen i _ ((hmem' i).mpr (Or.inr (Or.inl (List.mem_cons_of_mem _ hi))))
      (h1rest i blk hi hblk), hlast' _ _ (by omega), tailOps_of_not_mem _ _ _ hipost,
      List.append_nil]
  · -- atThen
    intro i blk hi hij hblk
    have hilt := hTlt i hi
    have h1i : f1.func.blocks[i]? = some blk := by
      rw [h1other i hij (hTd i hi) hilt, hblk]
    rw [hAthen i _ ((hmem' i).mpr (Or.inl hi)) h1i, hlast' _ _ (by omega), hlast _ _ hij]
  · -- atElse
    intro i blk hi hblk
    have h1i : f1.func.blocks[i]? = some blk := by
      rw [h1other i (fun e => hjE (e ▸ hi)) (hEd i hi) (hElt i hi), hblk]
    exact hAelse i blk hi h1i
  · -- atOther
    intro i hi hib hiT hiE hibody
    rw [hAother i hib (by
      rw [hmem']
      intro h
      rcases h with h | h | h | h
      · exact hiT h
      · exact hibody h
      · omega
      · omega) hiE (by omega), h1other i (fun e => hiT (e ▸ hj)) hibody hi]
  · -- regionsLength
    rw [hAreg]
    simp [h1reglen]
  · -- parentRegion
    rw [hAreg, List.getElem?_set_ne (Ne.symm hPE), List.getElem?_set_ne (Ne.symm hPT),
      List.getElem?_set_self (by omega), h1len]
  · -- loopRegion
    rw [hAreg, List.getElem?_set_ne (Ne.symm hrFE), List.getElem?_set_ne (Ne.symm hrFT),
      List.getElem?_set_ne hPF, h1reg, List.getElem?_set_self (by simp; omega)]
  · -- thenRegion
    rw [hAreg, List.getElem?_set_ne (Ne.symm hTEr), List.getElem?_set_self (by simp; omega)]
  · -- elseRegion
    rw [hAreg, List.getElem?_set_self (by simp; omega)]
  · -- otherRegions
    intro r hrP hrF hrT hrE
    rw [hAreg, List.getElem?_set_ne (Ne.symm hrE), List.getElem?_set_ne (Ne.symm hrT),
      List.getElem?_set_ne (Ne.symm hrP), h1reg, List.getElem?_set_ne (Ne.symm hrF),
      List.getElem?_set_ne (Ne.symm hrT)]

/-- Outer first: `IfLowering` at the conditional, then `ForLowering` at the loop, which
by then stands in the region of the conditional.  The continuation block of the
conditional is allocated before the two blocks of the loop, and the operations of the
conditional before those of the loop. -/
theorem conditionalLoop_outer_first {f : FuncOp} {b I rT rE : Nat} {E bi ai : List Nat}
    {blkB : Block} {j F rF c : Nat} {rest bf af : List Nat} {blkJ condB : Block} {P : Nat}
    {pre post pre2 post2 : List Nat} (hwf : f.WellFormed)
    (siteI : IfSite ⟨f, b, bi.length⟩ I rT rE (pre2 ++ j :: post2) E bi ai blkB)
    (siteF : ForSite ⟨f, j, bf.length⟩ F rF c rest bf af blkJ condB)
    (hbF : b ∉ c :: rest)
    (hP : f.regions[P]? = some (pre ++ b :: post))
    (lb ub : Value) (st cv : Option Value) :
    ∃ g1 fB : PatternRewriter,
      IfLowering.matchAndRewrite I [cv] ⟨f, b, bi.length⟩ =
        some (PatternMatchResult.matchSuccess, g1) ∧
      (∃ blk : Block, g1.func.blocks[j]? = some blk ∧
        blk.operations[bf.length]? = some F) ∧
      ForLowering.matchAndRewrite F [some lb, some ub, st] ⟨g1.func, j, bf.length⟩ =
        some (PatternMatchResult.matchSuccess, fB) ∧
      ConditionalLoopLowered f fB.func b rT rE (pre2 ++ j :: post2) E bi ai blkB cv j rF c
        rest bf af blkJ condB lb ub st P pre post pre2 post2 (f.blocks.length + 1)
        (f.blocks.length + 2) f.blocks.length
        (f.operations.length + (IfLowering.numBranches E + 1)) f.operations.length := by
  have hj : j ∈ pre2 ++ j :: post2 := by simp
  obtain ⟨⟨hbn, hjn, hcn⟩, hbody_lt, hTlt, hElt, hjb, hnd, hndT, hTd, hEd, hTE, hrFT, hrFE,
    hPF, hPT, hPE, hTEr⟩ := conditionalNest_facts hwf siteI siteF hj hbF hP
  have hBb : f.blocks[b]? = some blkB := siteI.condBlock
  have hBc : f.blocks[c]? = some condB := siteF.condBlock
  have hBj : f.blocks[j]? = some blkJ := siteF.initBlock
  have hRF : f.regions[rF]? = some (c :: rest) := siteF.body
  have hRT : f.regions[rT]? = some (pre2 ++ j :: post2) := siteI.thenBody
  have hRE : f.regions[rE]? = some E := siteI.elseBody
  have hbT : b ∉ pre2 ++ j :: post2 := siteI.condOutsideThen
  have hbE : b ∉ E := siteI.condOutsideElse
  have hjout : j ∉ c :: rest := siteF.initOutside
  have hjE : j ∉ E := hTE j hj
  have hcT : c ∉ pre2 ++ j :: post2 := fun h => hTd c h (List.mem_cons_self _ _)
  have hcE : c ∉ E := fun h => hEd c h (List.mem_cons_self _ _)
  have hPlt : P < f.regions.length := (List.getElem?_eq_some.mp hP).1
  have hrFlt : rF < f.regions.length := (List.getElem?_eq_some.mp hRF).1
  have hrTlt : rT < f.regions.length := (List.getElem?_eq_some.mp hRT).1
  have hrElt : rE < f.regions.length := (List.getElem?_eq_some.mp hRE).1
  -- the conditional first
  obtain ⟨g1, h1⟩ := IfLowering_at ⟨f, b, bi.length⟩ I rT rE _ E bi ai blkB cv hwf siteI P
    pre post hP
  have h1ops : g1.func.operations = f.operations ++
      IfLowering.created cv ((pre2 ++ j :: post2).headD 0) E f.blocks.length := h1.operations
  have h1opslen : g1.func.operations.length =
      f.operations.length + (IfLowering.numBranches E + 1) := by
    rw [h1ops, List.length_append]
    cases E <;> rfl
  have h1len : g1.func.blocks.length = f.blocks.length + 1 := h1.blocksLength
  have h1b : g1.func.blocks[b]? =
      some ⟨blkB.numArguments, bi ++ [f.operations.length + IfLowering.numBranches E]⟩ :=
    h1.condBlock
  have h1cont : g1.func.blocks[f.blocks.length]? = some ⟨0, ai⟩ := h1.contBlock
  have h1then : ∀ (i : Nat) (blk : Block), i ∈ pre2 ++ j :: post2 →
      f.blocks[i]? = some blk →
      g1.func.blocks[i]? = some ⟨blk.numArguments, blk.operations ++
        tailOps (pre2 ++ j :: post2) i [f.operations.length]⟩ := h1.thenPart
  have h1else : ∀ (i : Nat) (blk : Block), i ∈ E → f.blocks[i]? = some blk →
      g1.func.blocks[i]? = some ⟨blk.numArguments, blk.operations ++
        tailOps E i [f.operations.length + 1]⟩ := h1.elsePart
  have h1other : ∀ i : Nat, i ≠ b → i ∉ pre2 ++ j :: post2 → i ∉ E → i < f.blocks.length →
      g1.func.blocks[i]? = f.blocks[i]? := h1.otherBlocks
  have h1reg : g1.func.regions =
      ((f.regions.set P
            (pre ++ b :: (pre2 ++ j :: post2) ++ E ++ f.blocks.length :: post)).set rT []).set
        rE [] := h1.regions
  -- the loop after it
  have h1j : g1.func.blocks[j]? =
      some ⟨blkJ.numArguments,
        bf ++ F :: (af ++ tailOps (pre2 ++ j :: post2) j [f.operations.length])⟩ := by
    rw [h1then j blkJ hj hBj, siteF.initOps]
    simp
  obtain ⟨lb0, ub0, st0, hF⟩ := siteF.isFor
  have hF' : f.operations[F]? = some (Operation.ForOp lb0 ub0 st0 rF) := hF
  have hF1 : g1.func.operations[F]? = some (Operation.ForOp lb0 ub0 st0 rF) := by
    rw [h1ops, List.getElem?_append_left (List.getElem?_eq_some.mp hF').1]
    exact hF'
  have h1RF : g1.func.regions[rF]? = some (c :: rest) := by
    rw [h1reg, List.getElem?_set_ne (Ne.symm hrFE), List.getElem?_set_ne (Ne.symm hrFT),
      List.getElem?_set_ne hPF, hRF]
  obtain ⟨condB', hcB', siteF'⟩ := forSite_of_outside g1.func h1.wellFormed j _ F bf
    (af ++ tailOps (pre2 ++ j :: post2) j [f.operations.length]) lb0 ub0 st0 rF c rest h1j rfl
    hF1 h1RF hjout
  have hcB'eq : condB' = condB := by
    rw [h1other c (fun e => hbF (e ▸ List.mem_cons_self _ _)) hcT hcE hcn, hBc] at hcB'
    exact (Option.some.inj hcB').symm
  subst hcB'eq
  have h1P : g1.func.regions[P]? =
      some ((pre ++ b :: pre2) ++ j :: (post2 ++ E ++ f.blocks.length :: post)) := by
    rw [h1reg, List.getElem?_set_ne (Ne.symm hPE), List.getElem?_set_ne (Ne.symm hPT),
      List.getElem?_set_self hPlt]
    simp
  obtain ⟨fB, hB⟩ := ForLowering_at ⟨g1.func, j, bf.length⟩ F rF c rest bf
    (af ++ tailOps (pre2 ++ j :: post2) j [f.operations.length]) _ condB' lb ub st
    h1.wellFormed siteF' P (pre ++ b :: pre2) (post2 ++ E ++ f.blocks.length :: post) h1P
  have hBops : fB.func.operations = g1.func.operations ++
      ForLowering.created lb ub st c g1.func.operations.length (g1.func.blocks.length + 1)
        g1.func.blocks.length := hB.operations
  have hBlen : fB.func.blocks.length = g1.func.blocks.length + 2 := hB.blocksLength
  have hBinit : fB.func.blocks[j]? =
      some ⟨blkJ.numArguments, bf ++ [g1.func.operations.length + 2]⟩ := hB.initBlock
  have hBcond : fB.func.blocks[c]? = some ⟨condB'.numArguments,
      [g1.func.operations.length + 3, g1.func.operations.length + 4]⟩ := hB.condBlock
  have hBend : fB.func.blocks[g1.func.blocks.length]? =
      some ⟨0, af ++ tailOps (pre2 ++ j :: post2) j [f.operations.length]⟩ := hB.endBlock
  have hBfb : fB.func.blocks[g1.func.blocks.length + 1]? =
      some ⟨0, condB'.operations ++ tailOps (c :: rest) c
        [g1.func.operations.length, g1.func.operations.length + 1]⟩ := hB.firstBody
  have hBrest : ∀ (i : Nat) (blk : Block), i ∈ rest → g1.func.blocks[i]? = some blk →
      fB.func.blocks[i]? = some ⟨blk.numArguments, blk.operations ++ tailOps (c :: rest) i
        [g1.func.operations.length, g1.func.operations.length + 1]⟩ := hB.restBlocks
  have hBother : ∀ i : Nat, i ≠ j → i ∉ c :: rest → i < g1.func.blocks.length →
      fB.func.blocks[i]? = g1.func.blocks[i]? := hB.otherBlocks
  have hBreg : fB.func.regions =
      (g1.func.regions.set P
          ((pre ++ b :: pre2) ++ j :: c :: (g1.func.blocks.length + 1) :: rest ++
            g1.func.blocks.length :: (post2 ++ E ++ f.blocks.length :: post))).set rF [] :=
    hB.regions
  rw [h1opslen] at hBinit hBcond hBfb hBrest
  rw [h1len] at hBlen hBend hBfb hBother
  have h1reglen : g1.func.regions.length = f.regions.length := by
    rw [h1reg]
    simp
  refine ⟨g1, fB, h1.run, ⟨_, h1j, ?_⟩, hB.run, ?_⟩
  · rw [List.getElem?_append_right (le_refl _)]
    simp
  constructor
  · -- operationsLength
    rw [hBops, List.length_append, h1opslen]
    simp [ForLowering.created]
    omega
  · -- opsOld
    intro i hi
    rw [hBops, List.getElem?_append_left (by omega), h1ops, List.getElem?_append_left hi]
  · -- opsFor
    intro i hi
    rw [hBops, ← h1opslen, List.getElem?_append_right (by omega), h1len]
    congr 1
    omega
  · -- opsIf
    intro i hi
    have hlen : (IfLowering.created cv ((pre2 ++ j :: post2).headD 0) E
        f.blocks.length).length = IfLowering.numBranches E + 1 := by
      cases E <;> rfl
    rw [hBops, List.getElem?_append_left (by omega), h1ops,
      List.getElem?_append_right (by omega)]
    congr 1
    omega
  · -- blocksLength
    omega
  · -- atIf
    rw [hBother b (Ne.symm hjb) hbF (by omega), h1b]
  · -- atCont
    rw [hBother _ (by omega) (fun h => absurd (hbody_lt _ h) (lt_irrefl _)) (by omega), h1cont]
  · exact hBinit
  · exact hBcond
  · exact hBend
  · exact hBfb
  · -- atRest
    intro i blk hi hblk
    have hilt := hbody_lt i (List.mem_cons_of_mem _ hi)
    have hiT : i ∉ pre2 ++ j :: post2 := fun h => hTd i h (List.mem_cons_of_mem _ hi)
    have hiE : i ∉ E := fun h => hEd i h (List.mem_cons_of_mem _ hi)
    have h1i : g1.func.blocks[i]? = some blk := by
      rw [h1other i (fun e => hbF (e ▸ List.mem_cons_of_mem _ hi)) hiT hiE hilt, hblk]
    exact hBrest i blk hi h1i
  · -- atThen
    intro i blk hi hij hblk
    rw [hBother i hij (hTd i hi) (by have := hTlt i hi; omega), h1then i blk hi hblk]
  · -- atElse
    intro i blk hi hblk
    rw [hBother i (fun e => hjE (e ▸ hi)) (hEd i hi) (by have := hElt i hi; omega),
      h1else i blk hi hblk]
  · -- atOther
    intro i hi hib hiT hiE hibody
    rw [hBother i (fun e => hiT (e ▸ hj)) hibody (by omega), h1other i hib hiT hiE hi]
  · -- regionsLength
    rw [hBreg]
    simp [h1reglen]
  · -- parentRegion
    rw [hBreg, List.getElem?_set_ne (Ne.symm hPF), List.getElem?_set_self (by omega), h1len]
    simp
  · -- loopRegion
    rw [hBreg, List.getElem?_set_self (by simp; omega)]
  · -- thenRegion
    rw [hBreg, List.getElem?_set_ne hrFT, List.getElem?_set_ne hPT, h1reg,
      List.getElem?_set_ne (Ne.symm hTEr), List.getElem?_set_self (by simp; omega)]
  · -- elseRegion
    rw [hBreg, List.getElem?_set_ne hrFE, List.getElem?_set_ne hPE, h1reg,
      List.getElem?_set_self (by simp; omega)]
  · -- otherRegions
    intro r hrP hrF hrT hrE
    rw [hBreg, List.getElem?_set_ne (Ne.symm hrF), List.getElem?_set_ne (Ne.symm hrP), h1reg,
      List.getElem?_set_ne (Ne.symm hrE), List.getElem?_set_ne (Ne.symm hrT),
      List.getElem?_set_ne (Ne.symm hrP)]

/-- The two orders of lowering a conditional and a loop of its "then" region give the
same function up to the choice of the fresh handles. -/
theorem conditionalLoop_sameUpTo {f fA fB : FuncOp} {b I rT rE : Nat} {E bi ai : List Nat}
    {blkB : Block} {cv : Option Value} {j F rF c : Nat} {rest bf af : List Nat}
    {blkJ condB : Block} {lb ub : Value} {st : Option Value} {P : Nat}
    {pre post pre2 post2 : List Nat} (hwf : f.WellFormed)
    (siteI : IfSite ⟨f, b, bi.length⟩ I rT rE (pre2 ++ j :: post2) E bi ai blkB)
    (siteF : ForSite ⟨f, j, bf.length⟩ F rF c rest bf af blkJ condB)
    (hP : f.regions[P]? = some (pre ++ b :: post))
    (hvalid : f.handlesValid = true)
    (hlb : lb.below f.operations.length f.blocks.length = true)
    (hub : ub.below f.operations.length f.blocks.length = true)
    (hst : belowOpt f.operations.length f.blocks.length st = true)
    (hcv : belowOpt f.operations.length f.blocks.length cv = true)
    (hA : ConditionalLoopLowered f fA b rT rE (pre2 ++ j :: post2) E bi ai blkB cv j rF c
      rest bf af blkJ condB lb ub st P pre post pre2 post2 f.blocks.length
      (f.blocks.length + 1) (f.blocks.length + 2) f.operations.length
      (f.operations.length + 5))
    (hB : ConditionalLoopLowered f fB b rT rE (pre2 ++ j :: post2) E bi ai blkB cv j rF c
      rest bf af blkJ condB lb ub st P pre post pre2 post2 (f.blocks.length + 1)
      (f.blocks.length + 2) f.blocks.length
      (f.operations.length + (IfLowering.numBranches E + 1)) f.operations.length) :
    fA.SameUpTo (swapFresh f.operations.length 5 (IfLowering.numBranches E + 1))
      (swapFresh f.blocks.length 2 1) fB := by
  have hK : 1 ≤ IfLowering.numBranches E ∧ IfLowering.numBranches E ≤ 2 := by
    cases E <;> simp [IfLowering.numBranches]
  have hBb : f.blocks[b]? = some blkB := siteI.condBlock
  have hBc : f.blocks[c]? = some condB := siteF.condBlock
  have hBj : f.blocks[j]? = some blkJ := siteF.initBlock
  have hRF : f.regions[rF]? = some (c :: rest) := siteF.body
  have hRT : f.regions[rT]? = some (pre2 ++ j :: post2) := siteI.thenBody
  have hRE : f.regions[rE]? = some E := siteI.elseBody
  -- the renamings at the handles in use
  have hσlt : ∀ x, x < f.operations.length →
      swapFresh f.operations.length 5 (IfLowering.numBranches E + 1) x = x :=
    fun x hx => swapFresh_lt _ _ hx
  have hτlt : ∀ x, x < f.blocks.length → swapFresh f.blocks.length 2 1 x = x :=
    fun x hx => swapFresh_lt _ _ hx
  have hσF : ∀ i, i < 5 →
      swapFresh f.operations.length 5 (IfLowering.numBranches E + 1)
        (f.operations.length + i) =
        f.operations.length + (IfLowering.numBranches E + 1) + i := by
    intro i hi
    unfold swapFresh
    split_ifs <;> omega
  have hσI : ∀ i, i < IfLowering.numBranches E + 1 →
      swapFresh f.operations.length 5 (IfLowering.numBranches E + 1)
        (f.operations.length + 5 + i) = f.operations.length + i := by
    intro i hi
    unfold swapFresh
    split_ifs <;> omega
  have hσI0 := hσI 0 (by omega)
  have hσI1 := hσI 1 (by omega)
  have hσIk := hσI (IfLowering.numBranches E) (by omega)
  have hσF0 := hσF 0 (by omega)
  have hσF1 := hσF 1 (by omega)
  have hσF2 := hσF 2 (by omega)
  have hσF3 := hσF 3 (by omega)
  have hσF4 := hσF 4 (by omega)
  simp only [Nat.add_zero] at hσI0 hσF0
  have hτ0 : swapFresh f.blocks.length 2 1 f.blocks.length = f.blocks.length + 1 := by
    unfold swapFresh
    split_ifs <;> omega
  have hτ1 : swapFresh f.blocks.length 2 1 (f.blocks.length + 1) = f.blocks.length + 2 := by
    unfold swapFresh
    split_ifs <;> omega
  have hτ2 : swapFresh f.blocks.length 2 1 (f.blocks.length + 2) = f.blocks.length := by
    unfold swapFresh
    split_ifs <;> omega
  -- old handles are below the bounds
  have hops_lt : ∀ (i : Nat) (blk : Block), f.blocks[i]? = some blk →
      ∀ x ∈ blk.operations, x < f.operations.length := by
    intro i blk hblk x hx
    exact hwf.opsValid x (List.mem_flatMap.mpr ⟨blk, List.getElem?_mem hblk, hx⟩)
  have hreg_lt : ∀ (r : Nat) (l : List Nat), f.regions[r]? = some l →
      ∀ x ∈ l, x < f.blocks.length :=
    fun r l hr x hx => hwf.blocksValid l (List.getElem?_mem hr) x hx
  have hmapB : ∀ (i : Nat) (blk : Block), f.blocks[i]? = some blk →
      blk.operations.map (swapFresh f.operations.length 5 (IfLowering.numBranches E + 1)) =
        blk.operations :=
    fun i blk hblk => map_swapFresh_of_lt _ _ _ (hops_lt i blk hblk)
  have hmapR : ∀ (r : Nat) (l : List Nat), f.regions[r]? = some l →
      l.map (swapFresh f.blocks.length 2 1) = l :=
    fun r l hr => map_swapFresh_of_lt _ _ _ (hreg_lt r l hr)
  have hbf : bf.map (swapFresh f.operations.length 5 (IfLowering.numBranches E + 1)) = bf :=
    map_swapFresh_of_lt _ _ _ fun x hx => hops_lt j blkJ hBj x (by
      rw [siteF.initOps]
      simp [hx])
  have haf : af.map (swapFresh f.operations.length 5 (IfLowering.numBranches E + 1)) = af :=
    map_swapFresh_of_lt _ _ _ fun x hx => hops_lt j blkJ hBj x (by
      rw [siteF.initOps]
      simp [hx])
  have hbi : bi.map (swapFresh f.operations.length 5 (IfLowering.numBranches E + 1)) = bi :=
    map_swapFresh_of_lt _ _ _ fun x hx => hops_lt b blkB hBb x (by
      rw [siteI.condOps]
      simp [hx])
  have hai : ai.map (swapFresh f.operations.length 5 (IfLowering.numBranches E + 1)) = ai :=
    map_swapFresh_of_lt _ _ _ fun x hx => hops_lt b blkB hBb x (by
      rw [siteI.condOps]
      simp [hx])
  have hcn : c < f.blocks.length := (List.getElem?_eq_some.mp hBc).1
  have hbn : b < f.blocks.length := (List.getElem?_eq_some.mp hBb).1
  have hjn : j < f.blocks.length := (List.getElem?_eq_some.mp hBj).1
  have ht : (pre2 ++ j :: post2).headD 0 < f.blocks.length := by
    cases pre2 with
    | nil => exact hjn
    | cons a l => exact siteI.thenValid a (by simp)
  have hrename : ∀ o ∈ f.operations,
      o.rename (swapFresh f.operations.length 5 (IfLowering.numBranches E + 1))
        (swapFresh f.blocks.length 2 1) = o := by
    intro o ho
    apply operation_rename_of_below hσlt hτlt
    unfold FuncOp.handlesValid at hvalid
    exact List.all_eq_true.mp hvalid o ho
  have hcreatedI :
      (IfLowering.created cv ((pre2 ++ j :: post2).headD 0) E (f.blocks.length + 2)).map
          (Operation.rename (swapFresh f.operations.length 5 (IfLowering.numBranches E + 1))
            (swapFresh f.blocks.length 2 1)) =
        IfLowering.created cv ((pre2 ++ j :: post2).headD 0) E f.blocks.length :=
    ifCreated_rename _ _ cv _ E _ _ (rename_of_belowOpt hσlt hτlt cv hcv)
      (hτlt _ ht) (fun e he => hτlt e (siteI.elseValid e he)) hτ2
  have hcreatedF :
      (ForLowering.created lb ub st c f.operations.length (f.blocks.length + 1)
            f.blocks.length).map
          (Operation.rename (swapFresh f.operations.length 5 (IfLowering.numBranches E + 1))
            (swapFresh f.blocks.length 2 1)) =
        ForLowering.created lb ub st c (f.operations.length + (IfLowering.numBranches E + 1))
          (f.blocks.length + 2) (f.blocks.length + 1) :=
    forCreated_rename _ _ lb ub st c _ _ _ _ _ _ (hτlt c hcn)
      (value_rename_of_below hσlt hτlt lb hlb) (value_rename_of_below hσlt hτlt ub hub)
      (rename_of_belowOpt hσlt hτlt st hst) hσF0 hσF3 hτ1 hτ0
  refine ⟨swapFresh_injective _ _ _, swapFresh_injective _ _ _, ?_, ?_, ?_, ?_, ?_⟩
  · rw [hB.operationsLength, hA.operationsLength]
  · -- operations
    intro x o hx
    have hxlt : x < f.operations.length + 5 + (IfLowering.numBranches E + 1) := by
      rw [← hA.operationsLength]
      exact (List.getElem?_eq_some.mp hx).1
    by_cases h1 : x < f.operations.length
    · rw [hA.opsOld x h1] at hx
      rw [hσlt x h1, hB.opsOld x h1, hx, hrename o (List.getElem?_mem hx)]
    · by_cases h2 : x < f.operations.length + 5
      · obtain ⟨i, rfl⟩ : ∃ i, x = f.operations.length + i := ⟨x - f.operations.length, by omega⟩
        have hi : i < 5 := by omega
        rw [hA.opsFor i hi] at hx
        rw [hσF i hi, hB.opsFor i hi, ← hcreatedF, List.getElem?_map, hx]
        rfl
      · obtain ⟨i, rfl⟩ : ∃ i, x = f.operations.length + 5 + i :=
          ⟨x - (f.operations.length + 5), by omega⟩
        have hi : i < IfLowering.numBranches E + 1 := by omega
        rw [hA.opsIf i hi] at hx
        rw [hσI i hi, hB.opsIf i hi, ← hcreatedI, List.getElem?_map, hx]
        rfl
  · rw [hB.blocksLength, hA.blocksLength]
  · -- blocks
    intro i blk hi
    have hilt : i < f.blocks.length + 3 := by
      rw [← hA.blocksLength]
      exact (List.getElem?_eq_some.mp hi).1
    by_cases h0 : i = f.blocks.length
    · subst h0
      rw [hA.atEnd] at hi
      obtain rfl := Option.some.inj hi
      rw [hτ0, hB.atEnd]
      simp only [List.map_append, map_tailOps, List.map_cons, List.map_nil, haf, hσI0]
    by_cases h1 : i = f.blocks.length + 1
    · subst h1
      rw [hA.atFirstBody] at hi
      obtain rfl := Option.some.inj hi
      rw [hτ1, hB.atFirstBody]
      simp only [List.map_append, map_tailOps, List.map_cons, List.map_nil, hmapB c condB hBc,
        hσF0, hσF1]
    by_cases h2 : i = f.blocks.length + 2
    · subst h2
      rw [hA.atCont] at hi
      obtain rfl := Option.some.inj hi
      rw [hτ2, hB.atCont, hai]
    have hin : i < f.blocks.length := by omega
    rw [hτlt i hin]
    by_cases hib : i = b
    · subst hib
      rw [hA.atIf] at hi
      obtain rfl := Option.some.inj hi
      rw [hB.atIf]
      simp only [List.map_append, List.map_cons, List.map_nil, hbi, hσIk]
    by_cases hij : i = j
    · subst hij
      rw [hA.atInit] at hi
      obtain rfl := Option.some.inj hi
      rw [hB.atInit]
      simp only [List.map_append, List.map_cons, List.map_nil, hbf, hσF2]
    by_cases hic : i = c
    · subst hic
      rw [hA.atCond] at hi
      obtain rfl := Option.some.inj hi
      rw [hB.atCond]
      simp only [List.map_cons, List.map_nil, hσF3, hσF4]
    obtain ⟨blk0, hblk0⟩ : ∃ blk0, f.blocks[i]? = some blk0 :=
      ⟨_, List.getElem?_eq_getElem hin⟩
    by_cases hir : i ∈ rest
    · rw [hA.atRest i blk0 hir hblk0] at hi
      obtain rfl := Option.some.inj hi
      rw [hB.atRest i blk0 hir hblk0]
      simp only [List.map_append, map_tailOps, List.map_cons, List.map_nil, hmapB i blk0 hblk0,
        hσF0, hσF1]
    by_cases hiT : i ∈ pre2 ++ j :: post2
    · rw [hA.atThen i blk0 hiT hij hblk0] at hi
      obtain rfl := Option.some.inj hi
      rw [hB.atThen i blk0 hiT hij hblk0]
      simp only [List.map_append, map_tailOps, List.map_cons, List.map_nil, hmapB i blk0 hblk0,
        hσI0]
    by_cases hiE : i ∈ E
    · rw [hA.atElse i blk0 hiE hblk0] at hi
      obtain rfl := Option.some.inj hi
      rw [hB.atElse i blk0 hiE hblk0]
      simp only [List.map_append, map_tailOps, List.map_cons, List.map_nil, hmapB i blk0 hblk0,
        hσI1]
    · have hibody : i ∉ c :: rest := by
        simp only [List.mem_cons, not_or]
        exact ⟨hic, hir⟩
      rw [hA.atOther i hin hib hiT hiE hibody, hblk0] at hi
      obtain rfl := Option.some.inj hi
      rw [hB.atOther i hin hib hiT hiE hibody, hblk0, hmapB i _ hblk0]
  · -- regions
    apply List.ext_getElem?
    intro r
    rw [List.getElem?_map]
    by_cases hrP : r = P
    · subst hrP
      rw [hA.parentRegion, hB.parentRegion]
      have hpre : pre.map (swapFresh f.blocks.length 2 1) = pre :=
        map_swapFresh_of_lt _ _ _ fun x hx => hreg_lt r _ hP x (by simp [hx])
      have hpost : post.map (swapFresh f.blocks.length 2 1) = post :=
        map_swapFresh_of_lt _ _ _ fun x hx => hreg_lt r _ hP x (by simp [hx])
      have hpre2 : pre2.map (swapFresh f.blocks.length 2 1) = pre2 :=
        map_swapFresh_of_lt _ _ _ fun x hx => hreg_lt rT _ hRT x (by simp [hx])
      have hpost2 : post2.map (swapFresh f.blocks.length 2 1) = post2 :=
        map_swapFresh_of_lt _ _ _ fun x hx => hreg_lt rT _ hRT x (by simp [hx])
      have hrest : rest.map (swapFresh f.blocks.length 2 1) = rest :=
        map_swapFresh_of_lt _ _ _ fun x hx => hreg_lt rF _ hRF x (by simp [hx])
      have hE := hmapR rE E hRE
      simp only [Option.map_some', List.map_append, List.map_cons, hpre, hpost, hpre2, hpost2,
        hrest, hE, hτ0, hτ1, hτ2, hτlt b hbn, hτlt c hcn, hτlt j hjn]
    by_cases hrF : r = rF
    · subst hrF
      rw [hA.loopRegion, hB.loopRegion]
      rfl
    by_cases hrT : r = rT
    · subst hrT
      rw [hA.thenRegion, hB.thenRegion]
      rfl
    by_cases hrE : r = rE
    · subst hrE
      rw [hA.elseRegion, hB.elseRegion]
      rfl
    rw [hA.otherRegions r hrP hrF hrT hrE, hB.otherRegions r hrP hrF hrT hrE]
    cases hr : f.regions[r]? with
    | none => rfl
    | some l => rw [Option.map_some', hmapR r l hr]

/-! ## The order of the rewrites of nested constructs, C19 -/

theorem scenarioLoopIf_forSite :
    ForSite ⟨scenarioLoopIf, 0, 3⟩ 3 1 1 [] [0, 1, 2] [4] ⟨0, [0, 1, 2, 3, 4]⟩
      ⟨1, [5, 6, 7]⟩ := by
  obtain ⟨condB, hc, site⟩ := forSite_of_outside scenarioLoopIf (by decide) 0
    ⟨0, [0, 1, 2, 3, 4]⟩ 3 [0, 1, 2] [4] _ _ _ 1 1 [] rfl rfl rfl rfl (by decide)
  cases hc
  exact site

theorem scenarioLoopIf_ifSite :
    IfSite ⟨scenarioLoopIf, 1, 1⟩ 6 2 3 [2] [3] [5] [7] ⟨1, [5, 6, 7]⟩ :=
  ifSite_of_outside scenarioLoopIf (by decide) 1 ⟨1, [5, 6, 7]⟩ 6 [5] [7] _ 2 3 [2] [3] rfl rfl
    rfl rfl rfl (by simp) (by decide) (by decide)

theorem scenarioIfLoop_ifSite :
    IfSite ⟨scenarioIfLoop, 0, 1⟩ 1 1 2 [1] [2] [0] [2] ⟨0, [0, 1, 2]⟩ :=
  ifSite_of_outside scenarioIfLoop (by decide) 0 ⟨0, [0, 1, 2]⟩ 1 [0] [2] _ 1 2 [1] [2] rfl rfl
    rfl rfl rfl (by simp) (by decide) (by decide)

theorem scenarioIfLoop_forSite :
    ForSite ⟨scenarioIfLoop, 1, 3⟩ 6 3 3 [] [3, 4, 5] [7] ⟨0, [3, 4, 5, 6, 7]⟩
      ⟨1, [10, 11]⟩ := by
  obtain ⟨condB, hc, site⟩ := forSite_of_outside scenarioIfLoop (by decide) 1
    ⟨0, [3, 4, 5, 6, 7]⟩ 6 [3, 4, 5] [7] _ _ _ 3 3 [] rfl rfl rfl rfl (by decide)
  cases hc
  exact site

/-- C19: the two orders of rewriting two nested constructs give the same function.
For a well-formed loop whose body lists a well-formed conditional in one of its blocks,
`IfLowering` followed by `ForLowering` and `ForLowering` followed by `IfLowering` both
succeed, and so they do for a well-formed conditional whose "then" region lists a
well-formed loop in one of its blocks.  The second rewrite is applied where the first
one has left the construct: a conditional of the entry block of the loop body stands in
the new first body block after `ForLowering`, every other construct in the block where
it stood.  The two results have the same regions, so the same flat block sequence, the
same operations in each block, and the same operands and branch destinations in each
operation, up to the numbering of the fresh handles: the handles that one order
allocates first are allocated last by the other order, and `swapFresh` renames the ones
into the others.  The function is well-formed, its operations refer to operations and
blocks that it has, the operands are those of the two constructs, and the block of the
outer construct is not a block of the inner one. -/
theorem C19_order_independent :
    (∀ (f : FuncOp) (b F rF c : Nat) (rest bf af : List Nat) (initB condB : Block)
        (lb ub : Value) (st : Option Value) (j I rT rE : Nat) (T E bi ai : List Nat)
        (blkJ : Block) (cv : Option Value),
      f.WellFormed → f.handlesValid = true →
      ForSite ⟨f, b, bf.length⟩ F rF c rest bf af initB condB →
      f.operations[F]? = some (Operation.ForOp (some lb) (some ub) st rF) →
      IfSite ⟨f, j, bi.length⟩ I rT rE T E bi ai blkJ →
      f.operations[I]? = some (Operation.IfOp cv rT rE) →
      j ∈ c :: rest → b ∉ T → b ∉ E →
      ∃ f1 fA g1 fB : PatternRewriter,
        IfLowering.matchAndRewrite I [cv] ⟨f, j, bi.length⟩ =
          some (PatternMatchResult.matchSuccess, f1) ∧
        (∃ blk : Block, f1.func.blocks[b]? = some blk ∧
          blk.operations[bf.length]? = some F) ∧
        ForLowering.matchAndRewrite F [some lb, some ub, st] ⟨f1.func, b, bf.length⟩ =
          some (PatternMatchResult.matchSuccess, fA) ∧
        ForLowering.matchAndRewrite F [some lb, some ub, st] ⟨f, b, bf.length⟩ =
          some (PatternMatchResult.matchSuccess, g1) ∧
        (∃ blk : Block,
          g1.func.blocks[if j = c then f.blocks.length + 1 else j]? = some blk ∧
          blk.operations[bi.length]? = some I) ∧
        IfLowering.matchAndRewrite I [cv]
            ⟨g1.func, if j = c then f.blocks.length + 1 else j, bi.length⟩ =
          some (PatternMatchResult.matchSuccess, fB) ∧
        fA.func.SameUpTo (swapFresh f.operations.length (IfLowering.numBranches E + 1) 5)
          (swapFresh f.blocks.length 1 2) fB.func) ∧
    (∀ (f : FuncOp) (b I rT rE : Nat) (T E bi ai : List Nat) (blkB : Block)
        (cv : Option Value) (j F rF c : Nat) (rest bf af : List Nat) (blkJ condB : Block)
        (lb ub : Value) (st : Option Value),
      f.WellFormed → f.handlesValid = true →
      IfSite ⟨f, b, bi.length⟩ I rT rE T E bi ai blkB →
      f.operations[I]? = some (Operation.IfOp cv rT rE) →
      ForSite ⟨f, j, bf.length⟩ F rF c rest bf af blkJ condB →
      f.operations[F]? = some (Operation.ForOp (some lb) (some ub) st rF) →
      j ∈ T → b ∉ c :: rest →
      ∃ f1 fA g1 fB : PatternRewriter,
        ForLowering.matchAndRewrite F [some lb, some ub, st] ⟨f, j, bf.length⟩ =
          some (PatternMatchResult.matchSuccess, f1) ∧
        (∃ blk : Block, f1.func.blocks[b]? = some blk ∧
          blk.operations[bi.length]? = some I) ∧
        IfLowering.matchAndRewrite I [cv] ⟨f1.func, b, bi.length⟩ =
          some (PatternMatchResult.matchSuccess, fA) ∧
        IfLowering.matchAndRewrite I [cv] ⟨f, b, bi.length⟩ =
          some (PatternMatchResult.matchSuccess, g1) ∧
        (∃ blk : Block, g1.func.blocks[j]? = some blk ∧
          blk.operations[bf.length]? = some F) ∧
        ForLowering.matchAndRewrite F [some lb, some ub, st] ⟨g1.func, j, bf.length⟩ =
          some (PatternMatchResult.matchSuccess, fB) ∧
        fA.func.SameUpTo (swapFresh f.operations.length 5 (IfLowering.numBranches E + 1))
          (swapFresh f.blocks.length 2 1) fB.func) := by
  constructor
  · intro f b F rF c rest bf af initB condB lb ub st j I rT rE T E bi ai blkJ cv hwf hvalid
      siteF hF siteI hI hj hbT hbE
    have hBb : f.blocks[b]? = some initB := siteF.initBlock
    obtain ⟨P, pre, post, hP, -, -⟩ := parent_exists f hwf b (List.getElem?_eq_some.mp hBb).1
    obtain ⟨pre2, post2, hsplit⟩ := List.append_of_mem hj
    obtain ⟨f1, fA, hr1, hat1, hr2, hA⟩ :=
      loopConditional_inner_first hwf siteF siteI hbT hbE hP hsplit lb ub st cv
    obtain ⟨g1, fB, hr3, hat2, hr4, hB⟩ :=
      loopConditional_outer_first hwf siteF siteI hbT hbE hP hsplit lb ub st cv
    have hall := List.all_eq_true.mp hvalid
    have hvF := hall _ (List.getElem?_mem hF)
    have hvI := hall _ (List.getElem?_mem hI)
    simp only [Operation.below, belowOpt, Bool.and_eq_true] at hvF hvI
    exact ⟨f1, fA, g1, fB, hr1, hat1, hr2, hr3, hat2, hr4,
      loopConditional_sameUpTo hwf siteF siteI hP hsplit hvalid hvF.1.1 hvF.1.2 hvF.2 hvI hA
        hB⟩
  · intro f b I rT rE T E bi ai blkB cv j F rF c rest bf af blkJ condB lb ub st hwf hvalid
      siteI hI siteF hF hj hbF
    have hBb : f.blocks[b]? = some blkB := siteI.condBlock
    obtain ⟨P, pre, post, hP, -, -⟩ := parent_exists f hwf b (List.getElem?_eq_some.mp hBb).1
    obtain ⟨pre2, post2, rfl⟩ := List.append_of_mem hj
    obtain ⟨f1, fA, hr1, hat1, hr2, hA⟩ :=
      conditionalLoop_inner_first hwf siteI siteF hbF hP lb ub st cv
    obtain ⟨g1, fB, hr3, hat2, hr4, hB⟩ :=
      conditionalLoop_outer_first hwf siteI siteF hbF hP lb ub st cv
    have hall := List.all_eq_true.mp hvalid
    have hvF := hall _ (List.getElem?_mem hF)
    have hvI := hall _ (List.getElem?_mem hI)
    simp only [Operation.below, belowOpt, Bool.and_eq_true] at hvF hvI
    exact ⟨f1, fA, g1, fB, hr1, hat1, hr2, hr3, hat2, hr4,
      conditionalLoop_sameUpTo hwf siteI siteF hP hvalid hvF.1.1 hvF.1.2 hvF.2 hvI hA hB⟩

/-- Witness for C19: a conditional in the body of the loop of `scenarioLoopIf`, and a
loop in the "then" region of the conditional of `scenarioIfLoop`. -/
theorem C19_order_independent_witness :
    (∃ f1 fA g1 fB : PatternRewriter,
      IfLowering.matchAndRewrite 6 [some (Value.opResult 5)] ⟨scenarioLoopIf, 1, 1⟩ =
        some (PatternMatchResult.matchSuccess, f1) ∧
      (∃ blk : Block, f1.func.blocks[0]? = some blk ∧ blk.operations[3]? = some 3) ∧
      ForLowering.matchAndRewrite 3
          [some (Value.opResult 0), some (Value.opResult 1), some (Value.opResult 2)]
          ⟨f1.func, 0, 3⟩ =
        some (PatternMatchResult.matchSuccess, fA) ∧
      ForLowering.matchAndRewrite 3
          [some (Value.opResult 0), some (Value.opResult 1), some (Value.opResult 2)]
          ⟨scenarioLoopIf, 0, 3⟩ =
        some (PatternMatchResult.matchSuccess, g1) ∧
      (∃ blk : Block, g1.func.blocks[5]? = some blk ∧ blk.operations[1]? = some 6) ∧
      IfLowering.matchAndRewrite 6 [some (Value.opResult 5)] ⟨g1.func, 5, 1⟩ =
        some (PatternMatchResult.matchSuccess, fB) ∧
      fA.func.SameUpTo (swapFresh 12 3 5) (swapFresh 4 1 2) fB.func) ∧
    (∃ f1 fA g1 fB : PatternRewriter,
      ForLowering.matchAndRewrite 6
          [some (Value.opResult 3), some (Value.opResult 4), some (Value.opResult 5)]
          ⟨scenarioIfLoop, 1, 3⟩ =
        some (PatternMatchResult.matchSuccess, f1) ∧
      (∃ blk : Block, f1.func.blocks[0]? = some blk ∧ blk.operations[1]? = some 1) ∧
      IfLowering.matchAndRewrite 1 [some (Value.opResult 0)] ⟨f1.func, 0, 1⟩ =
        some (PatternMatchResult.matchSuccess, fA) ∧
      IfLowering.matchAndRewrite 1 [some (Value.opResult 0)] ⟨scenarioIfLoop, 0, 1⟩ =
        some (PatternMatchResult.matchSuccess, g1) ∧
      (∃ blk : Block, g1.func.blocks[1]? = some blk ∧ blk.operations[3]? = some 6) ∧
      ForLowering.matchAndRewrite 6
          [some (Value.opResult 3), some (Value.opResult 4), some (Value.opResult 5)]
          ⟨g1.func, 1, 3⟩ =
        some (PatternMatchResult.matchSuccess, fB) ∧
      fA.func.SameUpTo (swapFresh 12 5 3) (swapFresh 4 2 1) fB.func) :=
  ⟨C19_order_independent.1 scenarioLoopIf 0 3 1 1 [] [0, 1, 2] [4] ⟨0, [0, 1, 2, 3, 4]⟩
      ⟨1, [5, 6, 7]⟩ (Value.opResult 0) (Value.opResult 1) (some (Value.opResult 2)) 1 6 2 3
      [2] [3] [5] [7] ⟨1, [5, 6, 7]⟩ (some (Value.opResult 5)) (by decide) (by decide)
      scenarioLoopIf_forSite rfl scenarioLoopIf_ifSite rfl (by decide) (by decide)
      (by decide),
    C19_order_independent.2 scenarioIfLoop 0 1 1 2 [1] [2] [0] [2] ⟨0, [0, 1, 2]⟩
      (some (Value.opResult 0)) 1 6 3 3 [] [3, 4, 5] [7] ⟨0, [3, 4, 5, 6, 7]⟩ ⟨1, [10, 11]⟩
      (Value.opResult 3) (Value.opResult 4) (some (Value.opResult 5)) (by decide) (by decide)
      scenarioIfLoop_ifSite rfl scenarioIfLoop_forSite rfl (by decide) (by decide)⟩

/-! ## Execution: what an operation, a block and a region change -/

theorem exec_next_frame (op : Operation) (self : Nat) (env env' : Env) (w : Value)
    (h : op.exec self env = Outcome.next env') (hw : w ≠ Value.opResult self) :
    env' w = env w := by
  cases op with
  | ConstantOp v =>
    simp only [Operation.exec, Outcome.next.injEq] at h
    rw [← h, Env.set_ne _ _ _ _ hw]
  | AddIOp lhs rhs =>
    simp only [Operation.exec] at h
    split at h
    · simp only [Outcome.next.injEq] at h
      rw [← h, Env.set_ne _ _ _ _ hw]
    · cases h
  | CmpIOp p lhs rhs =>
    simp only [Operation.exec] at h
    split at h
    · split at h
      · simp only [Outcome.next.injEq] at h
        rw [← h, Env.set_ne _ _ _ _ hw]
      · cases h
    · cases h
  | BranchOp dest args =>
    simp only [Operation.exec] at h
    split at h <;> cases h
  | CondBranchOp c t targs f fargs =>
    simp only [Operation.exec] at h
    split at h
    · cases h
    · split at h <;> split at h <;> cases h
  | Other name =>
    simp only [Operation.exec, Outcome.next.injEq] at h
    rw [h]
  | TerminatorOp =>
    simp only [Operation.exec, Outcome.next.injEq] at h
    rw [h]
  | ForOp lb ub st r => simp [Operation.exec] at h
  | IfOp c t e => simp [Operation.exec] at h
  | ReturnOp => simp [Operation.exec] at h

theorem exec_jump_env (op : Operation) (self : Nat) (env env' : Env) (dest : Nat)
    (args : List Int) (h : op.exec self env = Outcome.jump dest args env') : env' = env := by
  cases op with
  | ConstantOp v => simp [Operation.exec] at h
  | AddIOp lhs rhs =>
    simp only [Operation.exec] at h
    split at h <;> cases h
  | CmpIOp p lhs rhs =>
    simp only [Operation.exec] at h
    split at h
    · split at h <;> cases h
    · cases h
  | BranchOp d a =>
    simp only [Operation.exec] at h
    split at h
    · simp only [Outcome.jump.injEq] at h
      exact h.2.2.symm
    · cases h
  | CondBranchOp c t targs f fargs =>
    simp only [Operation.exec] at h
    split at h
    · cases h
    · split at h <;> split at h
      · simp only [Outcome.jump.injEq] at h
        exact h.2.2.symm
      · cases h
      · simp only [Outcome.jump.injEq] at h
        exact h.2.2.symm
      · cases h
  | Other name => simp [Operation.exec] at h
  | TerminatorOp => simp [Operation.exec] at h
  | ForOp lb ub st r => simp [Operation.exec] at h
  | IfOp c t e => simp [Operation.exec] at h
  | ReturnOp => simp [Operation.exec] at h

theorem execOps_cons_next (func : FuncOp) (o : Nat) (os : List Nat) (env env' : Env)
    (op : Operation) (ho : func.operations[o]? = some op)
    (h : op.exec o env = Outcome.next env') :
    func.execOps (o :: os) env = func.execOps os env' := by
  simp only [FuncOp.execOps, ho, h]

theorem execOps_cons_jump (func : FuncOp) (o : Nat) (os : List Nat) (env env' : Env)
    (op : Operation) (dest : Nat) (args : List Int) (ho : func.operations[o]? = some op)
    (h : op.exec o env = Outcome.jump dest args env') :
    func.execOps (o :: os) env = Outcome.jump dest args env' := by
  simp only [FuncOp.execOps, ho, h]

/-- The first operation of a run of `execOps` that does not stop: it is an operation of
the function, and either it goes on to the next operation or it leaves the block. -/
theorem execOps_cons_inv (func : FuncOp) (o : Nat) (os : List Nat) (env : Env)
    (out : Outcome) (h : func.execOps (o :: os) env = out) (hout : out ≠ Outcome.stop) :
    ∃ op, func.operations[o]? = some op ∧
      ((∃ env', op.exec o env = Outcome.next env' ∧ func.execOps os env' = out) ∨
        ∃ dest args env', op.exec o env = Outcome.jump dest args env' ∧
          out = Outcome.jump dest args env') := by
  cases ho : func.operations[o]? with
  | none =>
    simp only [FuncOp.execOps, ho] at h
    exact absurd h.symm hout
  | some op =>
    refine ⟨op, rfl, ?_⟩
    cases hex : op.exec o env with
    | next env' =>
      rw [execOps_cons_next func o os env env' op ho hex] at h
      exact Or.inl ⟨env', rfl, h⟩
    | jump dest args env' =>
      rw [execOps_cons_jump func o os env env' op dest args ho hex] at h
      exact Or.inr ⟨dest, args, env', rfl, h.symm⟩
    | stop =>
      simp only [FuncOp.execOps, ho, hex] at h
      exact absurd h.symm hout

theorem execOps_append_next (func : FuncOp) (ops tl : List Nat) (env env' : Env)
    (h : func.execOps ops env = Outcome.next env') :
    func.execOps (ops ++ tl) env = func.execOps tl env' := by
  induction ops generalizing env with
  | nil =>
    simp only [FuncOp.execOps, Outcome.next.injEq] at h
    rw [List.nil_append, h]
  | cons o os ih =>
    obtain ⟨op, ho, h1 | h1⟩ := execOps_cons_inv func o os env _ h (by simp)
    · obtain ⟨e1, hex, hrest⟩ := h1
      rw [List.cons_append, execOps_cons_next func o _ env e1 op ho hex]
      exact ih e1 hrest
    · obtain ⟨dest, args, e1, -, hx⟩ := h1
      cases hx

theorem execOps_append_jump (func : FuncOp) (ops tl : List Nat) (env env' : Env) (dest : Nat)
    (args : List Int) (h : func.execOps ops env = Outcome.jump dest args env') :
    func.execOps (ops ++ tl) env = Outcome.jump dest args env' := by
  induction ops generalizing env with
  | nil => simp [FuncOp.execOps] at h
  | cons o os ih =>
    obtain ⟨op, ho, h1 | h1⟩ := execOps_cons_inv func o os env _ h (by simp)
    · obtain ⟨e1, hex, hrest⟩ := h1
      rw [List.cons_append, execOps_cons_next func o _ env e1 op ho hex]
      exact ih e1 hrest
    · obtain ⟨d, a, e1, hex, hx⟩ := h1
      rw [List.cons_append, execOps_cons_jump func o _ env e1 op d a ho hex, hx]

/-- A run of `execOps` that does not stop is the same in a function with more
operations. -/
theorem execOps_extend (g f : FuncOp) (created : List Operation)
    (hops : f.operations = g.operations ++ created) (ops : List Nat) (env : Env)
    (out : Outcome) (h : g.execOps ops env = out) (hout : out ≠ Outcome.stop) :
    f.execOps ops env = out := by
  induction ops generalizing env with
  | nil => exact h
  | cons o os ih =>
    obtain ⟨op, ho, h1 | h1⟩ := execOps_cons_inv g o os env _ h hout
    · obtain ⟨e1, hex, hrest⟩ := h1
      have ho' : f.operations[o]? = some op := by
        rw [hops, List.getElem?_append_left (List.getElem?_eq_some.mp ho).1, ho]
      rw [execOps_cons_next f o os env e1 op ho' hex]
      exact ih e1 hrest
    · obtain ⟨d, a, e1, hex, hx⟩ := h1
      have ho' : f.operations[o]? = some op := by
        rw [hops, List.getElem?_append_left (List.getElem?_eq_some.mp ho).1, ho]
      rw [execOps_cons_jump f o os env e1 op d a ho' hex, hx]

/-- The operations of a block change only their own results. -/
theorem execOps_frame (func : FuncOp) (ops : List Nat) (env env' : Env) (w : Value)
    (hw : ∀ k ∈ ops, w ≠ Value.opResult k)
    (h : func.execOps ops env = Outcome.next env' ∨
      ∃ dest args, func.execOps ops env = Outcome.jump dest args env') :
    env' w = env w := by
  induction ops generalizing env with
  | nil =>
    rcases h with h | ⟨dest, args, h⟩
    · simp only [FuncOp.execOps, Outcome.next.injEq] at h
      rw [h]
    · simp [FuncOp.execOps] at h
  | cons o os ih =>
    have hw' : ∀ k ∈ os, w ≠ Value.opResult k := fun k hk => hw k (List.mem_cons_of_mem _ hk)
    have hwo := hw o (List.mem_cons_self _ _)
    rcases h with h | ⟨dest, args, h⟩
    · obtain ⟨op, ho, h1 | h1⟩ := execOps_cons_inv func o os env _ h (by simp)
      · obtain ⟨e1, hex, hrest⟩ := h1
        rw [ih e1 hw' (Or.inl hrest), exec_next_frame op o env e1 w hex hwo]
      · obtain ⟨d, a, e1, -, hx⟩ := h1
        cases hx
    · obtain ⟨op, ho, h1 | h1⟩ := execOps_cons_inv func o os env _ h (by simp)
      · obtain ⟨e1, hex, hrest⟩ := h1
        rw [ih e1 hw' (Or.inr ⟨dest, args, hrest⟩), exec_next_frame op o env e1 w hex hwo]
      · obtain ⟨d, a, e1, hex, hx⟩ := h1
        simp only [Outcome.jump.injEq] at hx
        rw [hx.2.2, exec_jump_env op o env e1 d a hex]

theorem Env.bindArguments_other (env : Env) (block : Nat) (args : List Int) (w : Value)
    (h : ∀ i, w ≠ Value.blockArgument block i) : (env.bindArguments block args) w = env w := by
  cases w with
  | opResult o => rfl
  | blockArgument b i =>
    have hb : b ≠ block := fun e => h i (e ▸ rfl)
    simp only [Env.bindArguments, if_neg hb]

/-- A value that is not defined in `blocks` is no argument of a block of `blocks` and no
result of an operation listed there. -/
theorem definedIn_eq_false (func : FuncOp) (blocks : List Nat) (w : Value)
    (h : func.definedIn blocks w = false) (b : Nat) (hb : b ∈ blocks) :
    (∀ i, w ≠ Value.blockArgument b i) ∧
      ∀ blk, func.blocks[b]? = some blk → ∀ k ∈ blk.operations, w ≠ Value.opResult k := by
  cases w with
  | opResult o =>
    refine ⟨fun i => by simp, ?_⟩
    intro blk hblk k hk e
    simp only [Value.opResult.injEq] at e
    subst e
    simp only [FuncOp.definedIn, List.any_eq_false] at h
    have := h b hb
    rw [hblk] at this
    simp at this
    exact this hk
  | blockArgument c i =>
    refine ⟨?_, fun blk _ k _ => by simp⟩
    intro i' e
    simp only [Value.blockArgument.injEq] at e
    simp only [FuncOp.definedIn] at h
    have hc : c ∈ blocks := e.1 ▸ hb
    simp [hc] at h

/-- One step of `runRegion`. -/
theorem runRegion_inv (func : FuncOp) (fuel block : Nat) (args : List Int) (env env' : Env)
    (t : List (Nat × List Int)) (left : Nat)
    (h : func.runRegion (fuel + 1) block args env = some (t, left, env')) :
    ∃ blk, func.blocks[block]? = some blk ∧
      ((func.execOps blk.operations (env.bindArguments block args) = Outcome.next env' ∧
          t = [(block, args)] ∧ left = block) ∨
        ∃ dest args' env1 t',
          func.execOps blk.operations (env.bindArguments block args) =
            Outcome.jump dest args' env1 ∧
          func.runRegion fuel dest args' env1 = some (t', left, env') ∧
          t = (block, args) :: t') := by
  simp only [FuncOp.runRegion] at h
  cases hblk : func.blocks[block]? with
  | none => simp [hblk] at h
  | some blk =>
    rw [hblk] at h
    simp only at h
    refine ⟨blk, rfl, ?_⟩
    cases hex : func.execOps blk.operations (env.bindArguments block args) with
    | next e1 =>
      rw [hex] at h
      simp only [Option.some.injEq, Prod.mk.injEq] at h
      exact Or.inl ⟨h.2.2 ▸ rfl, h.1.symm, h.2.1.symm⟩
    | jump dest args' e1 =>
      rw [hex] at h
      simp only at h
      cases hr : func.runRegion fuel dest args' e1 with
      | none => simp [hr] at h
      | some r =>
        obtain ⟨t', left', e2⟩ := r
        rw [hr] at h
        simp only [Option.some.injEq, Prod.mk.injEq] at h
        obtain ⟨h1, h2, h3⟩ := h
        subst h2 h3
        exact Or.inr ⟨dest, args', e1, t', rfl, hr, h1.symm⟩
    | stop =>
      rw [hex] at h
      simp at h

/-- A run of a region changes only the values defined in the blocks it enters. -/
theorem runRegion_frame (func : FuncOp) (blocks : List Nat) (w : Value)
    (hw : func.definedIn blocks w = false) :
    ∀ (fuel block : Nat) (args : List Int) (env env' : Env) (t : List (Nat × List Int))
      (left : Nat), func.runRegion fuel block args env = some (t, left, env') →
      (∀ p ∈ t, p.1 ∈ blocks) → env' w = env w := by
  intro fuel
  induction fuel with
  | zero =>
    intro block args env env' t left h
    simp [FuncOp.runRegion] at h
  | succ fuel ih =>
    intro block args env env' t left h ht
    obtain ⟨blk, hblk, h1 | h1⟩ := runRegion_inv func fuel block args env env' t left h
    · obtain ⟨hex, rfl, rfl⟩ := h1
      have hb : left ∈ blocks := ht (left, args) (List.mem_singleton.mpr rfl)
      obtain ⟨hw1, hw2⟩ := definedIn_eq_false func blocks w hw left hb
      rw [execOps_frame func blk.operations _ env' w (hw2 blk hblk) (Or.inl hex),
        Env.bindArguments_other _ _ _ _ hw1]
    · obtain ⟨dest, args', e1, t', hex, hrest, rfl⟩ := h1
      have hb : block ∈ blocks := ht (block, args) (List.mem_cons_self _ _)
      obtain ⟨hw1, hw2⟩ := definedIn_eq_false func blocks w hw block hb
      rw [ih dest args' e1 env' t' left hrest (fun p hp => ht p (List.mem_cons_of_mem _ hp)),
        execOps_frame func blk.operations _ e1 w (hw2 blk hblk) (Or.inr ⟨dest, args', hex⟩),
        Env.bindArguments_other _ _ _ _ hw1]

/-! ## Execution of a lowered loop follows the execution of its body -/

/-- The blocks of the body after `ForLowering`, at a well-formed loop with resolved
bounds: the new first body block has the operations of the entry block of the body, every
other body block has its own, and the last of them has the add and the back-edge branch
at its end. -/
theorem ForLowering_body_blocks (rewriter : PatternRewriter) (op region cond : Nat)
    (rest before after : List Nat) (initB condB : Block) (lb ub : Value) (st : Option Value)
    (site : ForSite rewriter op region cond rest before after initB condB) :
    ∃ rw' : PatternRewriter,
      ForLowering.matchAndRewrite op [some lb, some ub, st] rewriter =
        some (PatternMatchResult.matchSuccess, rw') ∧
      rw'.func.operations = rewriter.func.operations ++
        ForLowering.created lb ub st cond rewriter.func.operations.length
          (rewriter.func.blocks.length + 1) rewriter.func.blocks.length ∧
      rw'.func.blocks[rewriter.insertionBlock]? =
        some ⟨initB.numArguments, before ++ [rewriter.func.operations.length + 2]⟩ ∧
      rw'.func.blocks[cond]? =
        some ⟨condB.numArguments,
          [rewriter.func.operations.length + 3, rewriter.func.operations.length + 4]⟩ ∧
      rw'.func.blocks[rewriter.func.blocks.length]? = some ⟨0, after⟩ ∧
      rw'.func.blocks[rewriter.func.blocks.length + 1]? =
        some ⟨0, condB.operations ++ tailOps (cond :: rest) cond
          [rewriter.func.operations.length, rewriter.func.operations.length + 1]⟩ ∧
      ∀ (i : Nat) (blk : Block), i ∈ rest → rewriter.func.blocks[i]? = some blk →
        rw'.func.blocks[i]? =
          some ⟨blk.numArguments, blk.operations ++ tailOps (cond :: rest) i
            [rewriter.func.operations.length, rewriter.func.operations.length + 1]⟩ := by
  obtain ⟨rw', hrun, hops, -, -, hinit, hcond, hend, hfb1, hfb2, hother⟩ :=
    ForLowering_spec rewriter op region cond rest before after initB condB lb ub st site
  have hni : rewriter.insertionBlock ∉ rest :=
    fun h => site.initOutside (List.mem_cons_of_mem _ h)
  refine ⟨rw', hrun, hops, hinit, hcond, hend, ?_, ?_⟩
  · rw [tailOps_cons_self _ _ _ site.condOnce]
    by_cases hr : rest = []
    · rw [if_pos hr]
      exact hfb1 hr
    · rw [if_neg hr]
      obtain ⟨lastB, hlastB⟩ : ∃ blk, rewriter.func.blocks[rest.getLast hr]? = some blk :=
        ⟨_, List.getElem?_eq_getElem (site.restValid _ (List.getLast_mem hr))⟩
      simpa using (hfb2 hr lastB hlastB).1
  · intro j blk hj hblk
    rw [tailOps_cons_of_mem _ _ _ _ hj]
    have hr : rest ≠ [] := List.ne_nil_of_mem hj
    by_cases hlast : rest.getLast? = some j
    · rw [tailOps_pos _ hlast]
      have hj' : j = rest.getLast hr := by
        rw [List.getLast?_eq_getLast _ hr] at hlast
        exact (Option.some.inj hlast).symm
      subst hj'
      exact (hfb2 hr blk hblk).2
    · rw [tailOps_neg _ hlast]
      have hne : j ≠ ((rewriter.func.blocks.length + 1) :: rest).getLast
          (List.cons_ne_nil _ _) := by
        rw [List.getLast_cons hr]
        intro e
        apply hlast
        rw [List.getLast?_eq_getLast _ hr, e]
      have := hother j blk hblk (fun e => hni (e ▸ hj)) (fun e => site.condOnce (e ▸ hj)) hne
      simpa using this

/-- The add and the back-edge branch at the end of the last body block: the condition
block is entered again, with the induction value plus the step. -/
theorem execOps_back_edge (f : FuncOp) (cond m : Nat) (st : Value) (env : Env) (v s : Int)
    (hadd : f.operations[m]? =
      some (Operation.AddIOp (some (Value.blockArgument cond 0)) (some st)))
    (hback : f.operations[m + 1]? = some (Operation.BranchOp cond [some (Value.opResult m)]))
    (hv : env (Value.blockArgument cond 0) = some v) (hs : env st = some s) :
    f.execOps [m, m + 1] env =
      Outcome.jump cond [v + s] (env.set (Value.opResult m) (v + s)) := by
  simp only [FuncOp.execOps, hadd, hback, Operation.exec, Env.get, Env.getAll, hv, hs,
    Env.set_self]

/-- The lowered function `f` follows a run of the body in the input function `g` from a
block of `rest`, enters the condition block after it, and goes on from there. -/
theorem run_follows_body (g f : FuncOp) (created : List Operation)
    (hops : f.operations = g.operations ++ created) (cond : Nat) (rest : List Nat)
    (st : Value) (m n : Nat)
    (hadd : f.operations[m]? =
      some (Operation.AddIOp (some (Value.blockArgument cond 0)) (some st)))
    (hback : f.operations[m + 1]? = some (Operation.BranchOp cond [some (Value.opResult m)]))
    (hrest : ∀ (i : Nat) (blk : Block), i ∈ rest → g.blocks[i]? = some blk →
      f.blocks[i]? =
        some ⟨blk.numArguments, blk.operations ++ tailOps (cond :: rest) i [m, m + 1]⟩)
    (hlt : ∀ i ∈ rest, i ≠ n) :
    ∀ (fuel block : Nat) (args : List Int) (env env' : Env) (t : List (Nat × List Int))
      (left : Nat), g.runRegion fuel block args env = some (t, left, env') →
      (∀ p ∈ t, p.1 ∈ rest) → (cond :: rest).getLast? = some left →
      ∀ v s : Int, env' (Value.blockArgument cond 0) = some v → env' st = some s →
      ∀ k, f.run n (t.length + k) block args env =
        t ++ f.run n k cond [v + s] (env'.set (Value.opResult m) (v + s)) := by
  intro fuel
  induction fuel with
  | zero =>
    intro block args env env' t left h
    simp [FuncOp.runRegion] at h
  | succ fuel ih =>
    intro block args env env' t left h ht hleft v s hv hs k
    obtain ⟨blk, hblk, h1 | h1⟩ := runRegion_inv g fuel block args env env' t left h
    · obtain ⟨hex, rfl, rfl⟩ := h1
      have hb : left ∈ rest := ht (left, args) (List.mem_singleton.mpr rfl)
      have hfblk := hrest left blk hb hblk
      rw [tailOps_pos _ hleft] at hfblk
      have hex' := execOps_extend g f created hops _ _ _ hex (by simp)
      have hfex : f.execOps (blk.operations ++ [m, m + 1]) (env.bindArguments left args) =
          Outcome.jump cond [v + s] (env'.set (Value.opResult m) (v + s)) := by
        rw [execOps_append_next f _ _ _ env' hex']
        exact execOps_back_edge f cond m st env' v s hadd hback hv hs
      have hlen : ([(left, args)] : List (Nat × List Int)).length + k = k + 1 := by
        simp
        omega
      rw [hlen, FuncOp.run, if_neg (hlt left hb), hfblk]
      simp only [hfex, List.singleton_append]
    · obtain ⟨dest, args', e1, t', hex, hrun, rfl⟩ := h1
      have hb : block ∈ rest := ht (block, args) (List.mem_cons_self _ _)
      have hfblk := hrest block blk hb hblk
      have hex' := execOps_extend g f created hops _ _ _ hex (by simp)
      have hfex := execOps_append_jump f _ (tailOps (cond :: rest) block [m, m + 1]) _ e1 dest
        args' hex'
      have hlen : ((block, args) :: t').length + k = (t'.length + k) + 1 := by
        simp
        omega
      rw [hlen, FuncOp.run, if_neg (hlt block hb), hfblk]
      simp only [hfex, List.cons_append]
      rw [ih dest args' e1 env' t' left hrun (fun p hp => ht p (List.mem_cons_of_mem _ hp))
        hleft v s hv hs k]

/-- The lowered function `f` follows a run of the body in the input function `g` from
its entry block: the new first body block stands for the entry block, whose argument the
condition block has bound before. -/
theorem run_follows_entry (g f : FuncOp) (created : List Operation)
    (hops : f.operations = g.operations ++ created) (cond : Nat) (rest : List Nat)
    (st : Value) (m n : Nat) (condB : Block)
    (hadd : f.operations[m]? =
      some (Operation.AddIOp (some (Value.blockArgument cond 0)) (some st)))
    (hback : f.operations[m + 1]? = some (Operation.BranchOp cond [some (Value.opResult m)]))
    (hrest : ∀ (i : Nat) (blk : Block), i ∈ rest → g.blocks[i]? = some blk →
      f.blocks[i]? =
        some ⟨blk.numArguments, blk.operations ++ tailOps (cond :: rest) i [m, m + 1]⟩)
    (hlt : ∀ i ∈ rest, i ≠ n) (hcondB : g.blocks[cond]? = some condB)
    (hfb : f.blocks[n + 1]? =
      some ⟨0, condB.operations ++ tailOps (cond :: rest) cond [m, m + 1]⟩)
    (hcr : cond ∉ rest) (fuel : Nat) (v s : Int) (env env' : Env)
    (t : List (Nat × List Int)) (left : Nat)
    (hrun : g.runRegion fuel cond [v] env = some ((cond, [v]) :: t, left, env'))
    (ht : ∀ p ∈ t, p.1 ∈ rest) (hleft : (cond :: rest).getLast? = some left)
    (hiv : env (Value.blockArgument cond 0) = some v) (hs : env' st = some s) :
    env' (Value.blockArgument cond 0) = some v ∧
      ∀ k, f.run n (t.length + 1 + k) (n + 1) [] env =
        (n + 1, []) :: (t ++ f.run n k cond [v + s] (env'.set (Value.opResult m) (v + s))) := by
  cases fuel with
  | zero => simp [FuncOp.runRegion] at hrun
  | succ fuel =>
    have henv : env.bindArguments cond [v] = env := by
      funext w
      by_cases hw : w = Value.blockArgument cond 0
      · rw [hw, Env.bindArguments_single_self, hiv]
      · exact Env.bindArguments_single_ne _ _ _ _ hw
    have henv' : env.bindArguments (n + 1) [] = env := by
      funext w
      exact Env.bindArguments_nil _ _ _
    have hne : n + 1 ≠ n := by omega
    have hivw : ∀ k ∈ condB.operations, Value.blockArgument cond 0 ≠ Value.opResult k :=
      fun k _ => by simp
    obtain ⟨blk, hblk, h1 | h1⟩ := runRegion_inv g fuel cond [v] env env' _ left hrun
    · obtain ⟨hex, hteq, hl⟩ := h1
      rw [hcondB] at hblk
      have hbc : blk = condB := (Option.some.inj hblk).symm
      rw [hbc] at hex
      simp only [List.cons.injEq, true_and] at hteq
      subst hteq
      rw [hl] at hleft
      rw [henv] at hex
      have hiv' : env' (Value.blockArgument cond 0) = some v := by
        rw [execOps_frame g _ env env' _ hivw (Or.inl hex), hiv]
      refine ⟨hiv', fun k => ?_⟩
      rw [tailOps_pos _ hleft] at hfb
      have hex' := execOps_extend g f created hops _ _ _ hex (by simp)
      have hfex : f.execOps (condB.operations ++ [m, m + 1]) env =
          Outcome.jump cond [v + s] (env'.set (Value.opResult m) (v + s)) := by
        rw [execOps_append_next f _ _ _ env' hex']
        exact execOps_back_edge f cond m st env' v s hadd hback hiv' hs
      have hlen : ([] : List (Nat × List Int)).length + 1 + k = k + 1 := by
        simp
        omega
      rw [hlen, FuncOp.run, if_neg hne, hfb]
      simp only [henv', hfex, List.nil_append]
    · obtain ⟨dest, args', e1, t', hex, hrun', hteq⟩ := h1
      rw [hcondB] at hblk
      have hbc : blk = condB := (Option.some.inj hblk).symm
      rw [hbc] at hex
      simp only [List.cons.injEq, true_and] at hteq
      subst hteq
      rw [henv] at hex
      have hiv1 : e1 (Value.blockArgument cond 0) = some v := by
        rw [execOps_frame g _ env e1 _ hivw (Or.inr ⟨dest, args', hex⟩), hiv]
      have hdef : g.definedIn rest (Value.blockArgument cond 0) = false := by
        simp [FuncOp.definedIn, hcr]
      have hiv' : env' (Value.blockArgument cond 0) = some v := by
        rw [runRegion_frame g rest _ hdef fuel dest args' e1 env' t left hrun' ht, hiv1]
      refine ⟨hiv', fun k => ?_⟩
      have hex' := execOps_extend g f created hops _ _ _ hex (by simp)
      have hfex := execOps_append_jump f _ (tailOps (cond :: rest) cond [m, m + 1]) _ e1 dest
        args' hex'
      have hlen : t.length + 1 + k = (t.length + k) + 1 := by omega
      rw [hlen, FuncOp.run, if_neg hne, hfb]
      simp only [henv', hfex]
      rw [run_follows_body g f created hops cond rest st m n hadd hback hrest hlt fuel dest
        args' e1 env' t left hrun' ht hleft v s hiv' hs k]

/-! ## Execution of the lowered loop -/

theorem scenarioTwoBlocks_site :
    ForSite ⟨scenarioTwoBlocks, 0, 3⟩ 3 1 1 [2] [0, 1, 2] [4] ⟨0, [0, 1, 2, 3, 4]⟩
      ⟨1, [5, 6]⟩ where
  isFor := ⟨_, _, _, rfl⟩
  initBlock := rfl
  initOps := rfl
  point := rfl
  body := rfl
  condBlock := rfl
  hasIV := by decide
  restValid := by decide
  initOutside := by decide
  condOnce := by decide
  notBefore := by decide
  notAfter := by decide
  notElsewhere := by
    intro b blk h hb
    match b, h, hb with
    | 0, _, hb => exact absurd rfl hb
    | 1, h, _ => cases h; decide
    | 2, h, _ => cases h; decide
    | b + 3, h, _ => simp [scenarioTwoBlocks] at h

/-- C3: executing the graph produced by `ForLowering` for a loop whose body is the blocks
`cond :: rest`, with integer values `L`, `U`, `S` of lowerBound, upperBound and step,
`S` positive, no overflow.  The upper bound and the step are defined outside the body, by
operations of the input function, and every run of the body in the input function, with
the induction variable bound to a value less than `U` and any values that agree with
`env` outside the body, stays in the body and leaves it at the end of its last block.
Then the init block branches to the condition block with `L`; from there the first body
block is entered exactly for the induction values `L, L + S, ...` that are less than `U`,
in that order, once for each element of `bodies`, each time followed by the other blocks
that this run of the body enters, and then the end block is entered once, after the
condition block received the first value that is not less than `U`.  The first body
block and the end block are not blocks of the body.  When `U ≤ L` the body runs zero
times. -/
theorem C3_loop_execution (rewriter : PatternRewriter) (op region cond : Nat)
    (rest before after : List Nat) (initB condB : Block) (lb ub st : Value) (env : Env)
    (L U S : Int)
    (site : ForSite rewriter op region cond rest before after initB condB)
    (hubout : rewriter.func.definedIn (cond :: rest) ub = false)
    (hstout : rewriter.func.definedIn (cond :: rest) st = false)
    (hubold : ∀ k, ub = Value.opResult k → k < rewriter.func.operations.length)
    (hstold : ∀ k, st = Value.opResult k → k < rewriter.func.operations.length)
    (hL : env lb = some L) (hU : env ub = some U) (hS : env st = some S) (hpos : 0 < S)
    (hbody : ∀ (e : Env) (i : Nat),
      (∀ w, rewriter.func.definedIn (cond :: rest) w = false →
        (∀ k, w = Value.opResult k → k < rewriter.func.operations.length) → e w = env w) →
      L + i * S < U →
      ∃ (fuel : Nat) (t : List (Nat × List Int)) (e' : Env),
        rewriter.func.runRegion fuel cond [L + i * S] e =
          some ((cond, [L + i * S]) :: t, (cond :: rest).getLast (List.cons_ne_nil _ _), e') ∧
        ∀ p ∈ t, p.1 ∈ rest) :
    ∃ (rw' : PatternRewriter) (initBr firstBodyBlock endBlock : Nat)
      (bodies : List (List (Nat × List Int))) (tail : List Nat),
      ForLowering.matchAndRewrite op [some lb, some ub, some st] rewriter =
        some (PatternMatchResult.matchSuccess, rw') ∧
      rw'.func.blocks[rewriter.insertionBlock]? =
        some ⟨initB.numArguments, before ++ [initBr]⟩ ∧
      rw'.func.blocks[firstBodyBlock]? = some ⟨0, condB.operations ++ tail⟩ ∧
      rw'.func.blocks[endBlock]? = some ⟨0, after⟩ ∧
      rw'.func.execOps [initBr] env = Outcome.jump cond [L] env ∧
      (∀ i : Nat, i < bodies.length → L + i * S < U) ∧
      U ≤ L + bodies.length * S ∧
      (U ≤ L → bodies = []) ∧
      (∀ body ∈ bodies, ∀ p ∈ body, p.1 ∈ rest) ∧
      firstBodyBlock ∉ cond :: rest ∧ endBlock ∉ cond :: rest ∧ firstBodyBlock ≠ endBlock ∧
      ∀ fuel, (loopTrace cond firstBodyBlock endBlock S bodies L).length ≤ fuel →
        rw'.func.run endBlock fuel cond [L] env =
          loopTrace cond firstBodyBlock endBlock S bodies L := by
  obtain ⟨rw', hrun, hops, hinit, hcondblk, hend, hfb, hrest⟩ :=
    ForLowering_body_blocks rewriter op region cond rest before after initB condB lb ub
      (some st) site
  have hcondlt : cond < rewriter.func.blocks.length :=
    (List.getElem?_eq_some.mp site.condBlock).1
  have hrestlt : ∀ x ∈ rest, x < rewriter.func.blocks.length := site.restValid
  have hcondB : rewriter.func.blocks[cond]? = some condB := site.condBlock
  have hcr : cond ∉ rest := site.condOnce
  generalize hm : rewriter.func.operations.length = m at *
  generalize hn : rewriter.func.blocks.length = n at *
  generalize hf : rw'.func = f at *
  have hoadd : f.operations[m]? =
      some (Operation.AddIOp (some (Value.blockArgument cond 0)) (some st)) := by
    rw [hops, List.getElem?_append_right (by omega)]; simp [hm, ForLowering.created]
  have hoback : f.operations[m + 1]? =
      some (Operation.BranchOp cond [some (Value.opResult m)]) := by
    rw [hops, List.getElem?_append_right (by omega)]; simp [hm, ForLowering.created]
  have hoinit : f.operations[m + 2]? = some (Operation.BranchOp cond [some lb]) := by
    rw [hops, List.getElem?_append_right (by omega)]; simp [hm, ForLowering.created]
  have hocmp : f.operations[m + 3]? =
      some (Operation.CmpIOp CmpIPredicate.SLT (some (Value.blockArgument cond 0))
        (some ub)) := by
    rw [hops, List.getElem?_append_right (by omega)]; simp [hm, ForLowering.created]
  have hocbr : f.operations[m + 4]? =
      some (Operation.CondBranchOp (some (Value.opResult (m + 3))) (n + 1) [] n []) := by
    rw [hops, List.getElem?_append_right (by omega)]; simp [hm, ForLowering.created]
  have hlt : ∀ i ∈ rest, i ≠ n := fun i hi e => by have := hrestlt i hi; omega
  have hc1 : cond ≠ n := by omega
  have houtarg : ∀ w, rewriter.func.definedIn (cond :: rest) w = false →
      ∀ i, w ≠ Value.blockArgument cond i := fun w hw =>
    (definedIn_eq_false rewriter.func (cond :: rest) w hw cond (List.mem_cons_self _ _)).1
  have hubiv : ub ≠ Value.blockArgument cond 0 := houtarg ub hubout 0
  have hleft : (cond :: rest).getLast? =
      some ((cond :: rest).getLast (List.cons_ne_nil _ _)) := List.getLast?_eq_getLast _ _
  have hvs : ∀ i : Nat, L + (i : Int) * S + S = L + ((i + 1 : Nat) : Int) * S := by
    intro i
    push_cast
    ring
  have hiter : ∀ (e : Env) (i : Nat),
      (∀ w, rewriter.func.definedIn (cond :: rest) w = false →
        (∀ k, w = Value.opResult k → k < m) → e w = env w) →
      L + i * S < U →
      ∃ (t : List (Nat × List Int)) (e' : Env),
        (∀ w, rewriter.func.definedIn (cond :: rest) w = false →
          (∀ k, w = Value.opResult k → k < m) → e' w = env w) ∧
        (∀ p ∈ t, p.1 ∈ rest) ∧
        ∀ k, f.run n (t.length + 2 + k) cond [L + i * S] e =
          (cond, [L + i * S]) :: (n + 1, []) ::
            (t ++ f.run n k cond [L + ((i + 1 : Nat) : Int) * S] e') := by
    intro e i hA hv
    have heU : e ub = some U := by rw [hA ub hubout hubold, hU]
    have h1 : f.execOps [m + 3, m + 4] (e.bindArguments cond [L + i * S]) =
        Outcome.jump (n + 1) []
          ((e.bindArguments cond [L + i * S]).set (Value.opResult (m + 3)) 1) := by
      simp only [FuncOp.execOps, hocmp, hocbr, Operation.exec, Env.get,
        Env.bindArguments_single_self, Env.bindArguments_single_ne _ _ _ _ hubiv, heU,
        CmpIPredicate.eval, hv, decide_True, if_true, Env.set_self, Env.getAll]
      simp
    have hA1 : ∀ w, rewriter.func.definedIn (cond :: rest) w = false →
        (∀ k, w = Value.opResult k → k < m) →
        ((e.bindArguments cond [L + i * S]).set (Value.opResult (m + 3)) 1) w = env w := by
      intro w hw hold
      have hne : w ≠ Value.opResult (m + 3) := fun e => by have := hold _ e; omega
      rw [Env.set_ne _ _ _ _ hne, Env.bindArguments_other _ _ _ _ (houtarg w hw), hA w hw hold]
    obtain ⟨fuel, t, e', hrunb, ht⟩ := hbody _ i hA1 hv
    have htall : ∀ p ∈ (cond, [L + (i : Int) * S]) :: t, p.1 ∈ cond :: rest := by
      intro p hp
      rcases List.mem_cons.mp hp with rfl | h
      · exact List.mem_cons_self _ _
      · exact List.mem_cons_of_mem _ (ht p h)
    have hfr : ∀ w, rewriter.func.definedIn (cond :: rest) w = false →
        e' w = ((e.bindArguments cond [L + i * S]).set (Value.opResult (m + 3)) 1) w :=
      fun w hw => runRegion_frame rewriter.func (cond :: rest) w hw fuel cond _ _ e' _ _
        hrunb htall
    have hs' : e' st = some S := by rw [hfr st hstout, hA1 st hstout hstold, hS]
    have hiv1 : ((e.bindArguments cond [L + i * S]).set (Value.opResult (m + 3)) 1)
        (Value.blockArgument cond 0) = some (L + i * S) := by
      rw [Env.set_ne _ _ _ _ (by simp), Env.bindArguments_single_self]
    obtain ⟨-, hsim⟩ := run_follows_entry rewriter.func f _ hops cond rest st m n condB hoadd
      hoback hrest hlt hcondB hfb hcr fuel (L + i * S) S _ e' t _ hrunb ht hleft hiv1 hs'
    refine ⟨t, e'.set (Value.opResult m) (L + i * S + S), ?_, ht, ?_⟩
    · intro w hw hold
      have hne : w ≠ Value.opResult m := fun e => by have := hold _ e; omega
      rw [Env.set_ne _ _ _ _ hne, hfr w hw, hA1 w hw hold]
    · intro k
      have hlen : t.length + 2 + k = (t.length + 1 + k) + 1 := by omega
      rw [hlen, FuncOp.run, if_neg hc1, hcondblk]
      simp only [h1]
      rw [hsim k, hvs i]
  have hexit : ∀ (e : Env) (v : Int) (fuel : Nat), e ub = some U → ¬ v < U →
      f.run n (fuel + 2) cond [v] e = [(cond, [v]), (n, [])] := by
    intro e v fuel heU hv
    have h1 : f.execOps [m + 3, m + 4] (e.bindArguments cond [v]) =
        Outcome.jump n [] ((e.bindArguments cond [v]).set (Value.opResult (m + 3)) 0) := by
      simp only [FuncOp.execOps, hocmp, hocbr, Operation.exec, Env.get,
        Env.bindArguments_single_self, Env.bindArguments_single_ne _ _ _ _ hubiv, heU,
        CmpIPredicate.eval, hv, decide_False, Env.set_self, Env.getAll]
      simp
    simp only [FuncOp.run, hc1, if_false, hcondblk, h1, if_true]
  have hstop : ∀ (e : Env) (i : Nat),
      (∀ w, rewriter.func.definedIn (cond :: rest) w = false →
        (∀ k, w = Value.opResult k → k < m) → e w = env w) →
      ¬ L + i * S < U →
      ∃ bodies : List (List (Nat × List Int)),
        (∀ body ∈ bodies, ∀ p ∈ body, p.1 ∈ rest) ∧
        (∀ j : Nat, j < bodies.length → L + ((i + j : Nat) : Int) * S < U) ∧
        U ≤ L + ((i + bodies.length : Nat) : Int) * S ∧
        ∀ fuel, (loopTrace cond (n + 1) n S bodies (L + i * S)).length ≤ fuel →
          f.run n fuel cond [L + i * S] e = loopTrace cond (n + 1) n S bodies (L + i * S) := by
    intro e i hA hv
    refine ⟨[], fun _ h => absurd h (List.not_mem_nil _),
      fun j hj => absurd hj (Nat.not_lt_zero _), by simpa using not_lt.mp hv, ?_⟩
    intro fuel hfuel
    simp only [loopTrace, List.length_cons, List.length_nil] at hfuel
    obtain ⟨k, rfl⟩ : ∃ k, fuel = k + 2 := ⟨fuel - 2, by omega⟩
    rw [hexit e _ k (by rw [hA ub hubout hubold, hU]) hv]
    rfl
  have hmain : ∀ (d i : Nat) (e : Env),
      (∀ w, rewriter.func.definedIn (cond :: rest) w = false →
        (∀ k, w = Value.opResult k → k < m) → e w = env w) →
      (U - (L + i * S)).toNat ≤ d →
      ∃ bodies : List (List (Nat × List Int)),
        (∀ body ∈ bodies, ∀ p ∈ body, p.1 ∈ rest) ∧
        (∀ j : Nat, j < bodies.length → L + ((i + j : Nat) : Int) * S < U) ∧
        U ≤ L + ((i + bodies.length : Nat) : Int) * S ∧
        ∀ fuel, (loopTrace cond (n + 1) n S bodies (L + i * S)).length ≤ fuel →
          f.run n fuel cond [L + i * S] e = loopTrace cond (n + 1) n S bodies (L + i * S) := by
    intro d
    induction d with
    | zero =>
      intro i e hA hd
      have key : ∀ v : Int, (U - v).toNat ≤ 0 → ¬ v < U := by
        intro v h
        omega
      exact hstop e i hA (key _ hd)
    | succ d ih =>
      intro i e hA hd
      by_cases hv : L + i * S < U
      · obtain ⟨t, e', hA', ht, hstep⟩ := hiter e i hA hv
        have key : ∀ v : Int, v < U → (U - v).toNat ≤ d + 1 → (U - (v + S)).toNat ≤ d := by
          intro v h1 h2
          omega
        have hd' : (U - (L + ((i + 1 : Nat) : Int) * S)).toNat ≤ d := by
          rw [← hvs i]
          exact key _ hv hd
        obtain ⟨bodies, hb, hltj, hge, htrace⟩ := ih (i + 1) e' hA' hd'
        refine ⟨t :: bodies, ?_, ?_, ?_, ?_⟩
        · intro body hbd p hp
          rcases List.mem_cons.mp hbd with rfl | h
          · exact ht p hp
          · exact hb body h p hp
        · intro j hj
          cases j with
          | zero => simpa using hv
          | succ j =>
            have := hltj j (by simpa using hj)
            have e : i + (j + 1) = i + 1 + j := by omega
            rw [e]
            exact this
        · have e : i + (t :: bodies).length = i + 1 + bodies.length := by
            simp only [List.length_cons]
            omega
          rw [e]
          exact hge
        · intro fuel hfuel
          simp only [loopTrace, List.length_cons, List.length_append, hvs i] at hfuel ⊢
          obtain ⟨k, rfl⟩ : ∃ k, fuel = t.length + 2 + k :=
            ⟨fuel - (t.length + 2), by omega⟩
          rw [hstep k, htrace k (by omega)]
      · exact hstop e i hA hv
  obtain ⟨bodies, hb, hltj, hge, htrace⟩ :=
    hmain (U - L).toNat 0 env (fun _ _ _ => rfl) (by simp)
  simp only [Nat.zero_add, Nat.cast_zero, zero_mul, add_zero] at hltj hge htrace
  refine ⟨rw', m + 2, n + 1, n, bodies, tailOps (cond :: rest) cond [m, m + 1], hrun, ?_, ?_,
    ?_, ?_, hltj, hge, ?_, hb, ?_, ?_, by omega, ?_⟩
  · rw [hf]; exact hinit
  · rw [hf]; exact hfb
  · rw [hf]; exact hend
  · rw [hf]
    simp only [FuncOp.execOps, hoinit, Operation.exec, Env.getAll, Env.get, hL]
  · intro hUL
    cases hbd : bodies with
    | nil => rfl
    | cons b bs =>
      have := hltj 0 (by rw [hbd]; simp)
      simp at this
      omega
  · intro h
    rcases List.mem_cons.mp h with e | h
    · omega
    · have := hrestlt _ h
      omega
  · intro h
    rcases List.mem_cons.mp h with e | h
    · omega
    · have := hrestlt _ h
      omega
  · rw [hf]; exact htrace

/-- C3 holds at the loop of the scenario with a body of two blocks that computes, and
driving the lowered function from its entry block enters the body (block 4, then
block 2) for the induction values 0 to 9, ten times, and the end block (block 3) after
the condition block received 10; the lowered Scenario A enters its one-block body
(block 3) for the same values, and with a lower bound equal to the upper bound the body
is not entered. -/
theorem C3_loop_execution_witness :
    ForSite ⟨scenarioTwoBlocks, 0, 3⟩ 3 1 1 [2] [0, 1, 2] [4] ⟨0, [0, 1, 2, 3, 4]⟩
      ⟨1, [5, 6]⟩ ∧
    (∃ (rw' : PatternRewriter) (initBr firstBodyBlock endBlock : Nat)
      (bodies : List (List (Nat × List Int))) (tail : List Nat),
      ForLowering.matchAndRewrite 3
          [some (Value.opResult 0), some (Value.opResult 1), some (Value.opResult 2)]
          ⟨scenarioTwoBlocks, 0, 3⟩ =
        some (PatternMatchResult.matchSuccess, rw') ∧
      rw'.func.blocks[0]? = some ⟨0, [0, 1, 2] ++ [initBr]⟩ ∧
      rw'.func.blocks[firstBodyBlock]? = some ⟨0, [5, 6] ++ tail⟩ ∧
      rw'.func.blocks[endBlock]? = some ⟨0, [4]⟩ ∧
      rw'.func.execOps [initBr] scenarioAEnv = Outcome.jump 1 [0] scenarioAEnv ∧
      (∀ i : Nat, i < bodies.length → (0 : Int) + i * 1 < 10) ∧
      (10 : Int) ≤ 0 + bodies.length * 1 ∧
      ((10 : Int) ≤ 0 → bodies = []) ∧
      (∀ body ∈ bodies, ∀ p ∈ body, p.1 ∈ [2]) ∧
      firstBodyBlock ∉ [1, 2] ∧ endBlock ∉ [1, 2] ∧ firstBodyBlock ≠ endBlock ∧
      ∀ fuel, (loopTrace 1 firstBodyBlock endBlock 1 bodies 0).length ≤ fuel →
        rw'.func.run endBlock fuel 1 [0] scenarioAEnv =
          loopTrace 1 firstBodyBlock endBlock 1 bodies 0) ∧
    (ForLowering.matchAndRewrite 3
          [some (Value.opResult 0), some (Value.opResult 1), some (Value.opResult 2)]
          ⟨scenarioTwoBlocks, 0, 3⟩).map (fun r => r.2.func.run 3 33 0 [] (fun _ => none)) =
      some [(0, []), (1, [0]), (4, []), (2, []), (1, [1]), (4, []), (2, []), (1, [2]), (4, []),
        (2, []), (1, [3]), (4, []), (2, []), (1, [4]), (4, []), (2, []), (1, [5]), (4, []),
        (2, []), (1, [6]), (4, []), (2, []), (1, [7]), (4, []), (2, []), (1, [8]), (4, []),
        (2, []), (1, [9]), (4, []), (2, []), (1, [10]), (3, [])] ∧
    (ForLowering.matchAndRewrite 3
          [some (Value.opResult 0), some (Value.opResult 1), some (Value.opResult 2)]
          ⟨scenarioA, 0, 3⟩).map (fun r => r.2.func.run 2 23 0 [] (fun _ => none)) =
      some [(0, []), (1, [0]), (3, []), (1, [1]), (3, []), (1, [2]), (3, []), (1, [3]), (3, []),
        (1, [4]), (3, []), (1, [5]), (3, []), (1, [6]), (3, []), (1, [7]), (3, []), (1, [8]),
        (3, []), (1, [9]), (3, []), (1, [10]), (2, [])] ∧
    (ForLowering.matchAndRewrite 3
          [some (Value.opResult 1), some (Value.opResult 1), some (Value.opResult 2)]
          ⟨scenarioTwoBlocks, 0, 3⟩).map (fun r => r.2.func.run 3 33 0 [] (fun _ => none)) =
      some [(0, []), (1, [10]), (3, [])] :=
  ⟨scenarioTwoBlocks_site,
    C3_loop_execution ⟨scenarioTwoBlocks, 0, 3⟩ 3 1 1 [2] [0, 1, 2] [4] ⟨0, [0, 1, 2, 3, 4]⟩
      ⟨1, [5, 6]⟩ (Value.opResult 0) (Value.opResult 1) (Value.opResult 2) scenarioAEnv 0 10 1
      scenarioTwoBlocks_site (by decide) (by decide)
      (by intro k hk; cases hk; decide)
      (by intro k hk; cases hk; decide)
      rfl rfl rfl (by decide)
      (fun e i _ _ =>
        ⟨2, [(2, [])],
          ((((e.bindArguments 1 [0 + i * 1]).set (Value.opResult 5) 3).bindArguments 2 []).set
            (Value.opResult 7) (0 + i * 1 + 3)),
          rfl, by simp⟩),
    by decide, by decide, by decide⟩

end mlir
